import Mathlib

/-!
# Bufferization: `BufferizableOpInterface.cpp`

A shallow embedding of `mlir/lib/Dialect/Bufferization/IR/BufferizableOpInterface.cpp`.

The IR is an arena: operations carry a numeric id, values and operand slots are
handles (`OpResult`, `BlockArgument`, `OpOperand`) that name an operation or
block by id.  A `Value` handle carries its static type, as `Value::getType()`
needs no graph lookup in MLIR either.

External collaborators are parameters of the model:
* the per-operation-kind `BufferizableOpInterface` implementations are a table
  in the `IR` (the registered interfaces of the MLIR context);
* `isRegionReturnLike` and `reifyResultShapes` are read from fields of the
  operation record.

Work-list loops of the source have no visited set; they are embedded with an
explicit fuel argument and return `none` when the fuel runs out.
-/

namespace Bufferization

/-! ## Types and values -/

/-- `ShapedType::kDynamic`. -/
def kDynamic : Int := -9223372036854775808

/-- A `MemRefLayoutAttrInterface` attribute. -/
inductive Layout where
  | strided (offset : Int) (strides : List Int)
  | custom (n : Nat)
  deriving DecidableEq, Repr

/-- An `Attribute` used as a memory space; `none` is the null attribute. -/
abbrev MemorySpace := Option Nat

/-- The `Type`s the file distinguishes.  `elem` is the element type. -/
inductive Ty where
  | rankedTensor (shape : List Int) (elem : Nat)
  | unrankedTensor (elem : Nat)
  | memref (shape : List Int) (elem : Nat) (layout : Option Layout) (memorySpace : MemorySpace)
  | unrankedMemref (elem : Nat) (memorySpace : MemorySpace)
  | other (n : Nat)
  deriving DecidableEq, Repr

/-- `isa<RankedTensorType>`. -/
def Ty.isRankedTensor : Ty → Bool
  | .rankedTensor _ _ => true
  | _ => false

/-- `isa<UnrankedTensorType>`. -/
def Ty.isUnrankedTensor : Ty → Bool
  | .unrankedTensor _ => true
  | _ => false

/-- `isa<TensorType>`. -/
def Ty.isTensor (t : Ty) : Bool := t.isRankedTensor || t.isUnrankedTensor

/-- `isa<MemRefType>`. -/
def Ty.isMemRef : Ty → Bool
  | .memref _ _ _ _ => true
  | _ => false

/-- `isa<UnrankedMemRefType>`. -/
def Ty.isUnrankedMemRef : Ty → Bool
  | .unrankedMemref _ _ => true
  | _ => false

/-- An `OpResult`: result number `idx` of the operation with id `op`. -/
structure OpResult where
  op : Nat
  idx : Nat
  type : Ty
  deriving DecidableEq, Repr

/-- A `BlockArgument`: argument number `idx` of the block with id `block`. -/
structure BlockArgument where
  block : Nat
  idx : Nat
  type : Ty
  deriving DecidableEq, Repr

/-- A `Value` is an `OpResult` or a `BlockArgument`. -/
inductive Value where
  | result (r : OpResult)
  | arg (a : BlockArgument)
  deriving DecidableEq, Repr

instance : Inhabited Value := ⟨.arg ⟨0, 0, .other 0⟩⟩

/-- `Value::getType`. -/
def Value.getType : Value → Ty
  | .result r => r.type
  | .arg a => a.type

/-- `llvm::dyn_cast<OpResult>(value)`. -/
def Value.asOpResult : Value → Option OpResult
  | .result r => some r
  | .arg _ => none

/-- `llvm::isa<BlockArgument>(value)`. -/
def Value.isBlockArgument : Value → Bool
  | .result _ => false
  | .arg _ => true

/-- An `OpOperand`: operand slot number `idx` of the operation with id `owner`. -/
structure OpOperand where
  owner : Nat
  idx : Nat
  deriving DecidableEq, Repr

/-! ## Operations -/

/-- The operation kinds the file tests for, and all others. `funcDialect n` is
any operation of the `func` dialect. -/
inductive OpKind where
  | AllocTensorOp
  | ToMemrefOp
  | ToTensorOp
  | DimOp
  | funcDialect (n : Nat)
  | other (n : Nat)
  deriving DecidableEq, Repr

/-- `func::FuncOp` is operation 0 of the `func` dialect. -/
def OpKind.FuncOp : OpKind := .funcDialect 0

/-- An `Operation`.  `escapeAttr` is the `BufferizationDialect::kEscapeAttrName`
array attribute; `copy` is the index of the `copy` operand of an
`AllocTensorOp` in `operands`, when it has one; `dimIndex` is the dimension a
`tensor.dim` asks for; `returnLike` is the answer of `isRegionReturnLike`;
`reifiedResultShapes` is the answer of `reifyResultShapes` (per result, per
dimension) or `none` when reification fails; `block` is the block the
operation sits in. -/
structure Operation where
  id : Nat
  kind : OpKind
  operands : List Value := []
  resultTypes : List Ty := []
  escapeAttr : Option (List Bool) := none
  memorySpaceAttr : MemorySpace := none
  copy : Option Nat := none
  dimIndex : Option Nat := none
  returnLike : Bool := false
  reifiedResultShapes : Option (List (List Value)) := none
  block : Option Nat := none
  deriving DecidableEq, Repr

instance : Inhabited Operation := ⟨{ id := 0, kind := .other 0 }⟩

/-- The results `idx, idx+1, ...` of operation `id` with the given types. -/
def opResultsFrom (id : Nat) : Nat → List Ty → List OpResult
  | _, [] => []
  | i, t :: ts => ⟨id, i, t⟩ :: opResultsFrom id (i + 1) ts

/-- `Operation::getOpResults`. -/
def Operation.getOpResults (op : Operation) : List OpResult :=
  opResultsFrom op.id 0 op.resultTypes

/-- The operand slots `idx, idx+1, ...` of operation `id`, one per operand. -/
def opOperandsFrom (id : Nat) : Nat → List Value → List OpOperand
  | _, [] => []
  | i, _ :: vs => ⟨id, i⟩ :: opOperandsFrom id (i + 1) vs

/-- `Operation::getOpOperands`. -/
def Operation.getOpOperands (op : Operation) : List OpOperand :=
  opOperandsFrom op.id 0 op.operands

/-- `op->getOperand(i)`, the value held by slot `i`. -/
def Operation.getOperand (op : Operation) (i : Nat) : Value :=
  op.operands.getD i default

/-- `op->getResult(i)`. -/
def Operation.getResult (op : Operation) (i : Nat) : OpResult :=
  ⟨op.id, i, op.resultTypes.getD i (.other 0)⟩

/-- `isa_and_nonnull<func::FuncDialect>(op->getDialect())`. -/
def Operation.isFuncDialect (op : Operation) : Bool :=
  match op.kind with
  | .funcDialect _ => true
  | _ => false

/-! ## Alias lists and the capability interface -/

/-- `BufferRelation`. -/
inductive BufferRelation where
  | Unknown
  | Equivalent
  deriving DecidableEq, Repr

/-- `AliasingOpResult`. -/
structure AliasingOpResult where
  opResult : OpResult
  relation : BufferRelation
  isDefinite : Bool
  deriving DecidableEq, Repr

/-- `AliasingOpOperand`. -/
structure AliasingOpOperand where
  opOperand : OpOperand
  relation : BufferRelation
  isDefinite : Bool
  deriving DecidableEq, Repr

abbrev AliasingOpResultList := List AliasingOpResult
abbrev AliasingOpOperandList := List AliasingOpOperand

/-- The `fixedTypes` map of `getBufferType`. -/
abbrev FixedTypes := List (Value × Ty)

/-- Diagnostics emitted with `emitError`. -/
inductive Diag where
  | unrankedCopy
  | noMemorySpace
  | unreachableType
  deriving DecidableEq, Repr

/-- `FailureOr<T>`. -/
abbrev FailureOr (α : Type) := Except Diag α

/-- An implementation of `BufferizableOpInterface` registered for an operation
kind.  Each method receives the operation and the operand or result number. -/
structure BufferizableOpInterface where
  getAliasingOpResults : Operation → Nat → AliasingOpResultList
  getAliasingOpOperands : Operation → Nat → AliasingOpOperandList
  bufferizesToMemoryRead : Operation → Nat → Bool
  bufferizesToMemoryWrite : Operation → Nat → Bool
  bufferizesToAliasOnly : Operation → Nat → Bool
  resultBufferizesToMemoryWrite : Operation → Nat → Bool
  bufferizesToAllocation : Operation → Nat → Bool
  isRepetitiveRegion : Operation → Nat → Bool
  getBufferType : Operation → Value → FixedTypes → FailureOr Ty

/-- A region: region number `number` of the operation `parentOp`. -/
structure Region where
  id : Nat
  parentOp : Nat
  number : Nat
  deriving DecidableEq, Repr

/-- A block and the region it is attached to. -/
structure Block where
  id : Nat
  parent : Option Nat := none
  deriving DecidableEq, Repr

/-- The graph: the operations in program order, the blocks and regions, and
the interface implementations registered per operation kind. -/
structure IR where
  ops : List Operation
  blocks : List Block := []
  regions : List Region := []
  interfaces : OpKind → Option BufferizableOpInterface := fun _ => none

/-- The operation with the given id. -/
def IR.findOp (ir : IR) (id : Nat) : Option Operation :=
  ir.ops.find? (fun o => o.id == id)

/-- The operation with the given id; an unregistered operation without
operands and results when there is none. -/
def IR.getOp (ir : IR) (id : Nat) : Operation :=
  (ir.findOp id).getD { id := id, kind := .other 0 }

/-- `opOperand.getOwner()`. -/
def OpOperand.getOwner (ir : IR) (o : OpOperand) : Operation := ir.getOp o.owner

/-- `opOperand.get()`. -/
def OpOperand.get (ir : IR) (o : OpOperand) : Value := (ir.getOp o.owner).getOperand o.idx

/-- `opResult.getDefiningOp()` (and `getOwner()`). -/
def OpResult.getDefiningOp (ir : IR) (r : OpResult) : Operation := ir.getOp r.op

/-- The operand slots of `op` holding `v`, from slot `i` on. -/
def usesIn (v : Value) (id : Nat) : Nat → List Value → List OpOperand
  | _, [] => []
  | i, w :: ws => if w = v then ⟨id, i⟩ :: usesIn v id (i + 1) ws else usesIn v id (i + 1) ws

/-- `value.getUses()`: every operand slot of the graph that holds `v`.  The use
list of a value has the use created last at its front; the operations of the
graph, and the operands of each, count as created in program order, so the
list is the program order of the slots reversed. -/
def Value.getUses (ir : IR) (v : Value) : List OpOperand :=
  (ir.ops.flatMap (fun op => usesIn v op.id 0 op.operands)).reverse

/-! ## Tensor to buffer types -/

/-- The `index` type. -/
def Ty.index : Ty := .other 0

/-- `ShapedType::isDynamic`. -/
def isDynamic (d : Int) : Bool := d == kDynamic

/-- `BaseMemRefType::getMemorySpace`. -/
def Ty.getMemorySpace : Ty → MemorySpace
  | .memref _ _ _ ms => ms
  | .unrankedMemref _ ms => ms
  | _ => none

/-- `getMemRefTypeWithFullyDynamicLayout`.  The casts of the source assert a
tensor type; any other type is returned as it is. -/
def getMemRefTypeWithFullyDynamicLayout (tensorType : Ty) (memorySpace : MemorySpace) : Ty :=
  match tensorType with
  | .unrankedTensor elem => .unrankedMemref elem memorySpace
  | .rankedTensor shape elem =>
    let dynamicOffset := kDynamic
    let dynamicStrides := List.replicate shape.length kDynamic
    let stridedLayout := Layout.strided dynamicOffset dynamicStrides
    .memref shape elem (some stridedLayout) memorySpace
  | t => t

/-- `getMemRefTypeWithStaticIdentityLayout`. -/
def getMemRefTypeWithStaticIdentityLayout (tensorType : Ty) (memorySpace : MemorySpace) : Ty :=
  match tensorType with
  | .unrankedTensor elem => .unrankedMemref elem memorySpace
  | .rankedTensor shape elem => .memref shape elem none memorySpace
  | t => t

/-- `defaultUnknownTypeConverter`. -/
def defaultUnknownTypeConverter (value : Value) (memorySpace : MemorySpace) : Ty :=
  getMemRefTypeWithFullyDynamicLayout value.getType memorySpace

/-! ## OpFilter and BufferizationOptions -/

/-- `OpFilter::Entry::FilterType`. -/
inductive FilterType where
  | ALLOW
  | DENY
  deriving DecidableEq, Repr

/-- `OpFilter::Entry`. -/
structure OpFilter.Entry where
  fn : Operation → Bool
  type : FilterType

/-- `OpFilter`. -/
structure OpFilter where
  entries : List OpFilter.Entry := []

/-- Modelled from the spec: `OpFilter::hasAllowRule` is declared in the header,
which is not part of the sources; the filter has an ALLOW rule when some entry
is of type ALLOW. -/
def OpFilter.hasAllowRule (f : OpFilter) : Bool :=
  f.entries.any (fun e => e.type == .ALLOW)

/-- The loop of `OpFilter::isOpAllowed` over the remaining entries, `isAllowed`
being the local variable of that name. -/
def OpFilter.isOpAllowedLoop (op : Operation) : List OpFilter.Entry → Bool → Bool
  | [], isAllowed => isAllowed
  | entry :: rest, isAllowed =>
    let filterResult := entry.fn op
    match entry.type with
    | .ALLOW => OpFilter.isOpAllowedLoop op rest (isAllowed || filterResult)
    | .DENY => if filterResult then false else OpFilter.isOpAllowedLoop op rest isAllowed

/-- `OpFilter::isOpAllowed`. -/
def OpFilter.isOpAllowed (f : OpFilter) (op : Operation) : Bool :=
  OpFilter.isOpAllowedLoop op f.entries (!f.hasAllowRule)

/-- `BufferizationOptions`, the fields the file reads.  `defaultMemorySpace` is
a `std::optional<Attribute>`: unset, or set to a possibly null attribute. -/
structure BufferizationOptions where
  opFilter : OpFilter := {}
  bufferizeFunctionBoundaries : Bool := false
  createDeallocs : Bool := true
  defaultMemorySpace : Option MemorySpace := some none
  unknownTypeConverterFn : Value → MemorySpace → Ty := defaultUnknownTypeConverter

/-- `BufferizationOptions::isOpAllowed`. -/
def BufferizationOptions.isOpAllowed (options : BufferizationOptions) (op : Operation) : Bool :=
  let isFuncBoundaryOp := op.isFuncDialect
  if !options.bufferizeFunctionBoundaries && isFuncBoundaryOp then false
  else options.opFilter.isOpAllowed op

/-- `BufferizationOptions::dynCastBufferizableOp(Operation *)`: the interface
registered for the kind of `op`, unless the operation is not allowed. -/
def BufferizationOptions.dynCastBufferizableOp (options : BufferizationOptions) (ir : IR)
    (op : Operation) : Option BufferizableOpInterface :=
  match ir.interfaces op.kind with
  | none => none
  | some bufferizableOp =>
    if !options.isOpAllowed op then none else some bufferizableOp

/-- `getOwnerOfValue`: the defining operation of a result, the parent operation
of the block of a block argument. -/
def getOwnerOfValue (ir : IR) : Value → Operation
  | .result opResult => opResult.getDefiningOp ir
  | .arg bbArg =>
    match ir.blocks.find? (fun b => b.id == bbArg.block) with
    | none => default
    | some block =>
      match block.parent with
      | none => default
      | some rid =>
        match ir.regions.find? (fun r => r.id == rid) with
        | none => default
        | some region => ir.getOp region.parentOp

/-- `BufferizationOptions::dynCastBufferizableOp(Value)`. -/
def BufferizationOptions.dynCastBufferizableOpValue (options : BufferizationOptions) (ir : IR)
    (value : Value) : Option BufferizableOpInterface :=
  options.dynCastBufferizableOp ir (getOwnerOfValue ir value)

/-! ## Conservative defaults for unknown operations -/

/-- `AliasingOpOperandList::addAlias` / `AliasingOpResultList::addAlias`. -/
def addAlias {α : Type} (r : List α) (a : α) : List α := r ++ [a]

/-- `detail::unknownGetAliasingOpOperands`. -/
def detail.unknownGetAliasingOpOperands (ir : IR) (opResult : OpResult) :
    AliasingOpOperandList :=
  (opResult.getDefiningOp ir).getOpOperands.foldl
    (fun r operand =>
      if (operand.get ir).getType.isTensor then
        addAlias r { opOperand := operand, relation := .Unknown, isDefinite := false }
      else r)
    []

/-- `detail::unknownGetAliasingOpResults`. -/
def detail.unknownGetAliasingOpResults (ir : IR) (opOperand : OpOperand) :
    AliasingOpResultList :=
  (opOperand.getOwner ir).getOpResults.foldl
    (fun r result =>
      if result.type.isTensor then
        addAlias r { opResult := result, relation := .Unknown, isDefinite := false }
      else r)
    []

/-! ## AnalysisState -/

/-- The queries of `AnalysisState` that an analysis may override; the file
gives the answers "in the absence of analysis information" (`AnalysisState.base`).
`isTensorYielded` takes the fuel of its work-list loop. -/
structure AnalysisState.Methods where
  isInPlace : IR → OpOperand → Bool
  areEquivalentBufferizedValues : IR → Value → Value → Bool
  areAliasingBufferizedValues : IR → Value → Value → Bool
  hasUndefinedContents : IR → OpOperand → Bool
  isTensorYielded : IR → Nat → Value → Option Bool

/-- `AnalysisState`: the options and the overridable queries. -/
structure AnalysisState where
  options : BufferizationOptions
  methods : AnalysisState.Methods

namespace AnalysisState

/-- `AnalysisState::getAliasingOpOperands`. -/
def getAliasingOpOperands (options : BufferizationOptions) (ir : IR) (opResult : OpResult) :
    AliasingOpOperandList :=
  let op := opResult.getDefiningOp ir
  match options.dynCastBufferizableOp ir op with
  | some bufferizableOp => bufferizableOp.getAliasingOpOperands op opResult.idx
  | none => detail.unknownGetAliasingOpOperands ir opResult

/-- `AnalysisState::getAliasingOpResults`. -/
def getAliasingOpResults (options : BufferizationOptions) (ir : IR) (opOperand : OpOperand) :
    AliasingOpResultList :=
  match options.dynCastBufferizableOp ir (opOperand.getOwner ir) with
  | some bufferizableOp => bufferizableOp.getAliasingOpResults (opOperand.getOwner ir) opOperand.idx
  | none => detail.unknownGetAliasingOpResults ir opOperand

/-- `AnalysisState::bufferizesToMemoryRead`. -/
def bufferizesToMemoryRead (options : BufferizationOptions) (ir : IR) (opOperand : OpOperand) :
    Bool :=
  match options.dynCastBufferizableOp ir (opOperand.getOwner ir) with
  | some bufferizableOp =>
    bufferizableOp.bufferizesToMemoryRead (opOperand.getOwner ir) opOperand.idx
  | none => true

/-- `AnalysisState::bufferizesToMemoryWrite(OpOperand &)`. -/
def bufferizesToMemoryWrite (options : BufferizationOptions) (ir : IR) (opOperand : OpOperand) :
    Bool :=
  match options.dynCastBufferizableOp ir (opOperand.getOwner ir) with
  | some bufferizableOp =>
    bufferizableOp.bufferizesToMemoryWrite (opOperand.getOwner ir) opOperand.idx
  | none => true

/-- `AnalysisState::bufferizesToAliasOnly`. -/
def bufferizesToAliasOnly (options : BufferizationOptions) (ir : IR) (opOperand : OpOperand) :
    Bool :=
  match options.dynCastBufferizableOp ir (opOperand.getOwner ir) with
  | some bufferizableOp =>
    bufferizableOp.bufferizesToAliasOnly (opOperand.getOwner ir) opOperand.idx
  | none => false

/-- `AnalysisState::bufferizesToMemoryWrite(Value)`. -/
def bufferizesToMemoryWriteValue (options : BufferizationOptions) (ir : IR) (value : Value) :
    Bool :=
  match value.asOpResult with
  | none => true
  | some opResult =>
    match options.dynCastBufferizableOpValue ir value with
    | none => true
    | some bufferizableOp =>
      bufferizableOp.resultBufferizesToMemoryWrite (getOwnerOfValue ir value) opResult.idx

/-- `push_back` of every use of `value` on a work list.  A work list is a
list whose head is the back of the `SmallVector`, the element `pop_back_val`
takes next. -/
def pushUses (ir : IR) (workingSet : List OpOperand) (value : Value) : List OpOperand :=
  (value.getUses ir).foldl (fun ws use => use :: ws) workingSet

/-- The uses of every aliasing result pushed on a work list, in order. -/
def pushAliasUses (ir : IR) (workingSet : List OpOperand) (aliases : AliasingOpResultList) :
    List OpOperand :=
  aliases.foldl (fun ws a => pushUses ir ws (.result a.opResult)) workingSet

/-- The `while (!workingSet.empty())` loop of `AnalysisState::isValueRead`; one
unit of fuel per iteration. -/
def isValueReadLoop (options : BufferizationOptions) (ir : IR) :
    Nat → List OpOperand → Option Bool
  | _, [] => some false
  | 0, _ :: _ => none
  | fuel + 1, uMaybeReading :: workingSet =>
    let workingSet :=
      if bufferizesToAliasOnly options ir uMaybeReading then
        pushAliasUses ir workingSet (getAliasingOpResults options ir uMaybeReading)
      else workingSet
    if bufferizesToMemoryRead options ir uMaybeReading then some true
    else isValueReadLoop options ir fuel workingSet

/-- `AnalysisState::isValueRead`. -/
def isValueRead (options : BufferizationOptions) (ir : IR) (fuel : Nat) (value : Value) :
    Option Bool :=
  isValueReadLoop options ir fuel (pushUses ir [] value)

/-- `AnalysisState::isInPlace`, the answer without analysis information. -/
def isInPlace (options : BufferizationOptions) (ir : IR) (opOperand : OpOperand) : Bool :=
  if (opOperand.getOwner ir).kind = .ToMemrefOp then true
  else !bufferizesToMemoryWrite options ir opOperand

/-- `AnalysisState::areEquivalentBufferizedValues`. -/
def areEquivalentBufferizedValues (_ir : IR) (_v1 _v2 : Value) : Bool := false

/-- `AnalysisState::areAliasingBufferizedValues`. -/
def areAliasingBufferizedValues (_ir : IR) (_v1 _v2 : Value) : Bool := true

/-- `AnalysisState::hasUndefinedContents`. -/
def hasUndefinedContents (_ir : IR) (_opOperand : OpOperand) : Bool := false

/-- `tensor.getDefiningOp<AllocTensorOp>()` is non-null. -/
def definedByAllocTensorOp (ir : IR) : Value → Bool
  | .result r => (r.getDefiningOp ir).kind = .AllocTensorOp
  | .arg _ => false

/-- The `while (!worklist.empty())` loop of `AnalysisState::isTensorYielded`. -/
def isTensorYieldedLoop (options : BufferizationOptions) (ir : IR) :
    Nat → List OpOperand → Option Bool
  | _, [] => some false
  | 0, _ :: _ => none
  | fuel + 1, operand :: worklist =>
    let op := operand.getOwner ir
    if (options.dynCastBufferizableOp ir op).isNone then
      isTensorYieldedLoop options ir fuel worklist
    else if op.kind = .ToMemrefOp then some true
    else if op.returnLike then some true
    else
      isTensorYieldedLoop options ir fuel
        (pushAliasUses ir worklist (getAliasingOpResults options ir operand))

/-- `AnalysisState::isTensorYielded`, the answer without analysis information. -/
def isTensorYielded (options : BufferizationOptions) (ir : IR) (fuel : Nat) (tensor : Value) :
    Option Bool :=
  if !definedByAllocTensorOp ir tensor then some true
  else isTensorYieldedLoop options ir fuel (pushUses ir [] tensor)

/-- `AnalysisState(options)`: the state without analysis information. -/
def base (options : BufferizationOptions) : AnalysisState :=
  { options := options
    methods :=
      { isInPlace := isInPlace options
        areEquivalentBufferizedValues := areEquivalentBufferizedValues
        areAliasingBufferizedValues := areAliasingBufferizedValues
        hasUndefinedContents := hasUndefinedContents
        isTensorYielded := isTensorYielded options } }

/-- `llvm::any_of` over answers that may run out of fuel: stops at the first
`true`. -/
def anyOf {α : Type} (f : α → Option Bool) : List α → Option Bool
  | [] => some false
  | a :: rest =>
    match f a with
    | none => none
    | some true => some true
    | some false => anyOf f rest

/-- `AnalysisState::canOmitTensorCopy`. -/
def canOmitTensorCopy (state : AnalysisState) (ir : IR) (fuel : Nat) (opOperand : OpOperand) :
    Option Bool :=
  if state.methods.hasUndefinedContents ir opOperand then some true
  else if bufferizesToMemoryWrite state.options ir opOperand
      && !bufferizesToMemoryRead state.options ir opOperand then some true
  else
    let aliases := getAliasingOpResults state.options ir opOperand
    if !bufferizesToMemoryRead state.options ir opOperand then
      match anyOf (fun a => isValueRead state.options ir fuel (.result a.opResult)) aliases with
      | none => none
      | some anyRead => if !anyRead then some true else some false
    else some false

end AnalysisState

/-! ## Buffer types of values -/

/-- `bufferization::getMemRefType`. -/
def getMemRefType (value : Value) (options : BufferizationOptions) (layout : Option Layout)
    (memorySpace : MemorySpace) : Ty :=
  match value.getType with
  | .unrankedTensor elem => .unrankedMemref elem memorySpace
  | .rankedTensor shape elem =>
    match layout with
    | some l => .memref shape elem (some l) memorySpace
    | none => options.unknownTypeConverterFn value memorySpace
  | t => t

/-- `bufferization::getBufferType(value, options, fixedTypes)`. -/
def getBufferType (ir : IR) (value : Value) (options : BufferizationOptions)
    (fixedTypes : FixedTypes) : FailureOr Ty :=
  match fixedTypes.lookup value with
  | some t => .ok t
  | none =>
    let op := getOwnerOfValue ir value
    match options.dynCastBufferizableOp ir op with
    | some bufferizableOp => bufferizableOp.getBufferType op value fixedTypes
    | none =>
      match options.defaultMemorySpace with
      | none => .error .noMemorySpace
      | some memorySpace => .ok (getMemRefType value options none memorySpace)

/-! ## The builder -/

/-- Where the builder puts the next operation: right before the operation
`id`, or after the operation `id` and everything created there since. -/
inductive InsertionPoint where
  | before (id : Nat)
  | after (id : Nat)
  deriving DecidableEq, Repr

/-- An id no operation of the graph has. -/
def IR.freshId (ir : IR) : Nat := ir.ops.foldr (fun o m => max (o.id + 1) m) 0

/-- The list with `new` right before the operation `id`. -/
def insertBefore (id : Nat) (new : Operation) : List Operation → List Operation
  | [] => [new]
  | o :: os => if o.id = id then new :: o :: os else o :: insertBefore id new os

/-- The list with `new` right after the operation `id`. -/
def insertAfter (id : Nat) (new : Operation) : List Operation → List Operation
  | [] => [new]
  | o :: os => if o.id = id then o :: new :: os else o :: insertAfter id new os

/-- The record of operation `id` replaced by `f` of it. -/
def IR.modifyOp (ir : IR) (id : Nat) (f : Operation → Operation) : IR :=
  { ir with ops := ir.ops.map (fun o => if o.id = id then f o else o) }

/-- `opOperand->set(v)`. -/
def IR.setOperand (ir : IR) (opOperand : OpOperand) (v : Value) : IR :=
  ir.modifyOp opOperand.owner (fun o => { o with operands := o.operands.set opOperand.idx v })

/-- `OpBuilder` / `RewriterBase`: the graph and the insertion point. -/
structure OpBuilder where
  ir : IR
  ip : InsertionPoint

/-- `b.create<...>(...)`: a new operation, with a fresh id, in the block of the
insertion point; `op` gives its other fields. -/
def OpBuilder.create (b : OpBuilder) (op : Operation) : Operation × OpBuilder :=
  match b.ip with
  | .before id =>
    let new := { op with id := b.ir.freshId, block := (b.ir.getOp id).block }
    (new, { b with ir := { b.ir with ops := insertBefore id new b.ir.ops } })
  | .after id =>
    let new := { op with id := b.ir.freshId, block := (b.ir.getOp id).block }
    (new, { ir := { b.ir with ops := insertAfter id new b.ir.ops }, ip := .after new.id })

/-- The insertion point of the builder lies between the operations `pre` and
the operations `post` of the graph: a new operation goes to the end of `pre`. -/
def OpBuilder.InsertsBetween (b : OpBuilder) (pre post : List Operation) : Prop :=
  b.ir.ops = pre ++ post ∧
  match b.ip with
  | .before a => (∀ o ∈ pre, o.id ≠ a) ∧ ∃ x l2, post = x :: l2 ∧ x.id = a
  | .after a => ∃ l1 x, pre = l1 ++ [x] ∧ x.id = a ∧ ∀ o ∈ l1, o.id ≠ a

/-- The tensor type a `ToTensorOp` gives a memref of the given type. -/
def Ty.tensorOfMemRef : Ty → Ty
  | .memref shape elem _ _ => .rankedTensor shape elem
  | .unrankedMemref elem _ => .unrankedTensor elem
  | t => t

/-- `RankedTensorType::getShape`. -/
def Ty.getShape : Ty → List Int
  | .rankedTensor shape _ => shape
  | .memref shape _ _ _ => shape
  | _ => []

/-- Modelled from the spec: `populateDynamicDimSizes` is defined outside the
sources; it creates one shape-query operation (`tensor.dim`) on `tensor` per
dynamic dimension and appends its result to `dynamicSizes`.  `i` is the number
of the first dimension of `shape`. -/
def populateDynamicDimSizes (tensor : Value) :
    Nat → List Int → OpBuilder → List Value → List Value × OpBuilder
  | _, [], b, dynamicSizes => (dynamicSizes, b)
  | i, d :: ds, b, dynamicSizes =>
    if isDynamic d then
      let created := b.create
        { id := 0, kind := .DimOp, operands := [tensor], resultTypes := [Ty.index],
          dimIndex := some i }
      populateDynamicDimSizes tensor (i + 1) ds created.2
        (dynamicSizes ++ [.result (created.1.getResult 0)])
    else populateDynamicDimSizes tensor (i + 1) ds b dynamicSizes

/-- The reified extents of the dynamic dimensions of `shape`, `i` being the
number of its first dimension. -/
def reifiedDynamicSizes (reified : List Value) : Nat → List Int → List Value
  | _, [] => []
  | i, d :: ds =>
    if isDynamic d then reified.getD i default :: reifiedDynamicSizes reified (i + 1) ds
    else reifiedDynamicSizes reified (i + 1) ds

/-- The first step of `allocateTensorForShapedValue`: the tensor to allocate
for, which is `shapedValue` or a `ToTensorOp` of it. -/
def shapedValueAsTensor (b : OpBuilder) (shapedValue : Value) : FailureOr (Value × OpBuilder) :=
  if shapedValue.getType.isRankedTensor then .ok (shapedValue, b)
  else if shapedValue.getType.isMemRef then
    let created := b.create
      { id := 0, kind := .ToTensorOp, operands := [shapedValue],
        resultTypes := [shapedValue.getType.tensorOfMemRef] }
    .ok (.result (created.1.getResult 0), created.2)
  else if shapedValue.getType.isUnrankedTensor || shapedValue.getType.isUnrankedMemRef then
    .error .unrankedCopy
  else .error .unreachableType

/-- The step "Compute the dynamic part of the shape" of
`allocateTensorForShapedValue`: reified extents when the shape of the result
`shapedValue` can be reified, else new shape queries. -/
def computeDynamicSizes (b : OpBuilder) (shapedValue tensor : Value) (copy : Bool) :
    List Value × OpBuilder :=
  if !copy then
    let reified : Option (List Value) :=
      if shapedValue.getType.isRankedTensor then
        match shapedValue.asOpResult with
        | some r =>
          match (r.getDefiningOp b.ir).reifiedResultShapes with
          | some resultDims => some (resultDims.getD r.idx [])
          | none => none
        | none => none
      else none
    match reified with
    | some shape => (reifiedDynamicSizes shape 0 tensor.getType.getShape, b)
    | none => populateDynamicDimSizes tensor 0 tensor.getType.getShape b []
  else ([], b)

/-- The step "Create AllocTensorOp" of `allocateTensorForShapedValue`: the new
operation, with its escape attribute set. -/
def createAllocTensorOp (b : OpBuilder) (tensor : Value) (dynamicSizes : List Value)
    (escape copy : Bool) : Operation × OpBuilder :=
  let created := b.create
    { id := 0, kind := .AllocTensorOp,
      operands := dynamicSizes ++ (if copy then [tensor] else []),
      copy := if copy then some dynamicSizes.length else none,
      resultTypes := [tensor.getType] }
  (created.1, { created.2 with
    ir := (created.2.ir.modifyOp created.1.id
      (fun o => { o with escapeAttr := some [escape] })) })

/-- The step "Add 'memory_space' attribute" of `allocateTensorForShapedValue`. -/
def addMemorySpaceAttr (b : OpBuilder) (allocTensorOp : Operation) (tensor : Value)
    (options : BufferizationOptions) (copy : Bool) : FailureOr Value × OpBuilder :=
  if copy then (.ok (.result (allocTensorOp.getResult 0)), b)
  else
    match getBufferType b.ir tensor options [] with
    | .error e => (.error e, b)
    | .ok copyBufferType =>
      let memorySpace : MemorySpace :=
        match copyBufferType.getMemorySpace with
        | none => some 0
        | some m => some m
      (.ok (.result (allocTensorOp.getResult 0)),
        { b with ir := (b.ir.modifyOp allocTensorOp.id
            (fun o => { o with memorySpaceAttr := memorySpace })) })

/-- `bufferization::allocateTensorForShapedValue`.  The result is the value
returned and the builder, whose graph holds every operation created, also when
the call fails. -/
def allocateTensorForShapedValue (b : OpBuilder) (shapedValue : Value) (escape : Bool)
    (options : BufferizationOptions) (copy : Bool) : FailureOr Value × OpBuilder :=
  match shapedValueAsTensor b shapedValue with
  | .error e => (.error e, b)
  | .ok (tensor, b) =>
    let sized := computeDynamicSizes b shapedValue tensor copy
    let created := createAllocTensorOp sized.2 tensor sized.1 escape copy
    addMemorySpaceAttr created.2 created.1 tensor options copy

/-- The record `alloc` is the `AllocTensorOp` that `allocateTensorForShapedValue`
creates under the id `id` for `tensor`: its operands are the dynamic sizes and,
when `copy` is set, `tensor` as the `copy` operand; it carries the escape
attribute `[escape]`. -/
def IsAllocTensorFor (alloc : Operation) (id : Nat) (tensor : Value) (dynamicSizes : List Value)
    (escape copy : Bool) : Prop :=
  alloc.id = id ∧ alloc.kind = .AllocTensorOp ∧ alloc.escapeAttr = some [escape]
    ∧ alloc.operands = dynamicSizes ++ (if copy then [tensor] else [])
    ∧ alloc.copy = (if copy then some dynamicSizes.length else none)
    ∧ alloc.resultTypes = [tensor.getType]

/-! ## The conflict resolver -/

/-- `LogicalResult`. -/
abbrev LogicalResult := Except Diag Unit

/-- The local sets of `resolveTensorOpOperandConflicts`. -/
structure ConflictSets where
  outOfPlaceOpOperands : List OpOperand := []
  copiedOpOperands : List OpOperand := []
  escapingOpOperandCopies : List OpOperand := []
  outOfPlaceOpResults : List OpResult := []
  copiedOpResults : List OpResult := []
  escapingOpResultCopies : List OpResult := []
  deriving DecidableEq, Repr

/-- The body of the loop "Find all out-of-place OpOperands" for one operand.
`none`: a query ran out of fuel. -/
def classifyOpOperand (state : AnalysisState) (ir : IR) (fuel : Nat) (opOperand : OpOperand)
    (s : ConflictSets) : Option (Except Diag ConflictSets) :=
  let operandType := (opOperand.get ir).getType
  if !operandType.isTensor then some (.ok s)
  else if state.methods.isInPlace ir opOperand then some (.ok s)
  else if operandType.isUnrankedTensor then some (.error .unrankedCopy)
  else
    let aliasingOpResults := AnalysisState.getAliasingOpResults state.options ir opOperand
    let escape? : Option Bool :=
      if !state.options.createDeallocs then some true
      else AnalysisState.anyOf
        (fun a => state.methods.isTensorYielded ir fuel (.result a.opResult)) aliasingOpResults
    match escape? with
    | none => none
    | some escape =>
      let copyResult : Option OpResult :=
        match aliasingOpResults with
        | [a] =>
          if !AnalysisState.bufferizesToMemoryWrite state.options ir opOperand
              && (AnalysisState.getAliasingOpOperands state.options ir a.opResult).length == 1
              && !a.opResult.type.isUnrankedTensor then some a.opResult
          else none
        | _ => none
      match AnalysisState.canOmitTensorCopy state ir fuel opOperand with
      | none => none
      | some canOmit =>
        match copyResult with
        | some opResult =>
          some (.ok { s with
            outOfPlaceOpResults := s.outOfPlaceOpResults ++ [opResult],
            copiedOpResults :=
              (if !canOmit then s.copiedOpResults ++ [opResult] else s.copiedOpResults),
            escapingOpResultCopies :=
              (if escape then s.escapingOpResultCopies ++ [opResult]
               else s.escapingOpResultCopies) })
        | none =>
          some (.ok { s with
            outOfPlaceOpOperands := s.outOfPlaceOpOperands ++ [opOperand],
            copiedOpOperands :=
              (if !canOmit then s.copiedOpOperands ++ [opOperand] else s.copiedOpOperands),
            escapingOpOperandCopies :=
              (if escape then s.escapingOpOperandCopies ++ [opOperand]
               else s.escapingOpOperandCopies) })

/-- The loop "Find all out-of-place OpOperands". -/
def classifyOpOperands (state : AnalysisState) (ir : IR) (fuel : Nat) :
    List OpOperand → ConflictSets → Option (Except Diag ConflictSets)
  | [], s => some (.ok s)
  | opOperand :: rest, s =>
    match classifyOpOperand state ir fuel opOperand s with
    | none => none
    | some (.error e) => some (.error e)
    | some (.ok s) => classifyOpOperands state ir fuel rest s

/-- The loop "Insert copies of OpOperands". -/
def insertOpOperandCopies (options : BufferizationOptions) (s : ConflictSets) :
    List OpOperand → OpBuilder → LogicalResult × OpBuilder
  | [], b => (.ok (), b)
  | opOperand :: rest, b =>
    match allocateTensorForShapedValue b (opOperand.get b.ir)
        (s.escapingOpOperandCopies.contains opOperand) options
        (s.copiedOpOperands.contains opOperand) with
    | (.error e, b) => (.error e, b)
    | (.ok copy, b) =>
      insertOpOperandCopies options s rest { b with ir := b.ir.setOperand opOperand copy }

/-- The inner loop of "Insert copies of OpResults": the uses of the result are
set to the copy, but for those of the new allocation and of `tensor.dim`. -/
def replaceUses (copy : Value) : List OpOperand → IR → IR
  | [], ir => ir
  | use :: uses, ir =>
    if some (use.getOwner ir).id = copy.asOpResult.map (fun r => r.op) then
      replaceUses copy uses ir
    else if (use.getOwner ir).kind = .DimOp then replaceUses copy uses ir
    else replaceUses copy uses (ir.setOperand use copy)

/-- The loop "Insert copies of OpResults". -/
def insertOpResultCopies (options : BufferizationOptions) (s : ConflictSets) :
    List OpResult → OpBuilder → LogicalResult × OpBuilder
  | [], b => (.ok (), b)
  | opResult :: rest, b =>
    match allocateTensorForShapedValue b (.result opResult)
        (s.escapingOpResultCopies.contains opResult) options
        (s.copiedOpResults.contains opResult) with
    | (.error e, b) => (.error e, b)
    | (.ok copy, b) =>
      let uses := (Value.result opResult).getUses b.ir
      insertOpResultCopies options s rest { b with ir := replaceUses copy uses b.ir }

/-- `BufferizableOpInterface::resolveTensorOpOperandConflicts` for the
operation `opId`.  The result is `none` when a query ran out of fuel, else the
`LogicalResult` and the graph the rewriter leaves. -/
def resolveTensorOpOperandConflicts (state : AnalysisState) (fuel : Nat) (ir : IR)
    (opId : Nat) : Option (LogicalResult × IR) :=
  let op := ir.getOp opId
  match classifyOpOperands state ir fuel op.getOpOperands {} with
  | none => none
  | some (.error e) => some (.error e, ir)
  | some (.ok s) =>
    match insertOpOperandCopies state.options s s.outOfPlaceOpOperands
        { ir := ir, ip := .before opId } with
    | (.error e, b) => some (.error e, b.ir)
    | (.ok _, b) =>
      match insertOpResultCopies state.options s s.outOfPlaceOpResults
          { ir := b.ir, ip := .after opId } with
      | (.error e, b) => some (.error e, b.ir)
      | (.ok _, b) => some (.ok (), b.ir)

/-- The local `escape` of the loop "Find all out-of-place OpOperands" for
`opOperand`; `none` when a query ran out of fuel. -/
def escapeOf (state : AnalysisState) (ir : IR) (fuel : Nat) (opOperand : OpOperand) :
    Option Bool :=
  if !state.options.createDeallocs then some true
  else AnalysisState.anyOf
    (fun a => state.methods.isTensorYielded ir fuel (.result a.opResult))
    (AnalysisState.getAliasingOpResults state.options ir opOperand)

/-- The test of the loop "Find all out-of-place OpOperands" that chooses
between copying the one aliasing result and copying the operand: the result to
copy, if it is the result that is copied. -/
def resultToCopy (state : AnalysisState) (ir : IR) (opOperand : OpOperand) : Option OpResult :=
  match AnalysisState.getAliasingOpResults state.options ir opOperand with
  | [a] =>
    if !AnalysisState.bufferizesToMemoryWrite state.options ir opOperand
        && (AnalysisState.getAliasingOpOperands state.options ir a.opResult).length == 1
        && !a.opResult.type.isUnrankedTensor then some a.opResult
    else none
  | _ => none

/-- The operand is one the loop "Find all out-of-place OpOperands" does not
skip: a tensor that is not in place. -/
def isOutOfPlace (state : AnalysisState) (ir : IR) (opOperand : OpOperand) : Bool :=
  (opOperand.get ir).getType.isTensor && !state.methods.isInPlace ir opOperand

/-- The ids of the operations of the graph, in program order. -/
def IR.ids (ir : IR) : List Nat := ir.ops.map (fun o => o.id)

/-- The insertion point of the builder, on the ids of the operations: a new
operation goes between the ids `pre` and the ids `post`. -/
def OpBuilder.InsertsBetweenIds (b : OpBuilder) (pre post : List Nat) : Prop :=
  b.ir.ids = pre ++ post ∧
  match b.ip with
  | .before a => a ∉ pre ∧ ∃ l2, post = a :: l2
  | .after a => ∃ l1, pre = l1 ++ [a] ∧ a ∉ l1

/-- The two tests of the inner loop of "Insert copies of OpResults" on the
owner `x` of a use: the use is left alone when `x` is the operation defining
`copy` or a `tensor.dim`. -/
def replaceUsesSkips (copy : Value) (x : Operation) : Bool :=
  decide (some x.id = copy.asOpResult.map (fun r => r.op)) || decide (x.kind = .DimOp)

/-! ## Deallocation advice -/

/-- `bufferization::allocationDoesNotEscape`.  The array attribute has one
entry per result. -/
def allocationDoesNotEscape (ir : IR) (opResult : OpResult) : Bool :=
  let op := opResult.getDefiningOp ir
  match op.escapeAttr with
  | none => false
  | some attr => !(attr.getD opResult.idx false)

/-- The assertion of `shouldDeallocateOpResult`:
`options.dynCastBufferizableOp(op).bufferizesToAllocation(opResult)`. -/
def bufferizesToAllocation (ir : IR) (opResult : OpResult) (options : BufferizationOptions) :
    Bool :=
  match options.dynCastBufferizableOp ir (opResult.getDefiningOp ir) with
  | none => false
  | some bufferizableOp =>
    bufferizableOp.bufferizesToAllocation (opResult.getDefiningOp ir) opResult.idx

/-- `bufferization::shouldDeallocateOpResult`. -/
def shouldDeallocateOpResult (ir : IR) (fuel : Nat) (opResult : OpResult)
    (options : BufferizationOptions) : Option Bool :=
  let op := opResult.getDefiningOp ir
  let analysisState := AnalysisState.base options
  match op.escapeAttr with
  | some escapeAttr => some (!(escapeAttr.getD 0 false))
  | none =>
    if options.createDeallocs then
      (analysisState.methods.isTensorYielded ir fuel (.result opResult)).map (fun y => !y)
    else some false

/-! ## The reverse use-def walk -/

/-- `TraversalConfig`, the flags of `findValueInReverseUseDefChain`. -/
structure TraversalConfig where
  alwaysIncludeLeaves : Bool
  followInPlaceOnly : Bool
  followEquivalentOnly : Bool
  followUnknownOps : Bool
  deriving DecidableEq, Repr

/-- `llvm::SetVector::insert` on `result`, a list in insertion order: at the
back, unless the value is in the set. -/
def SetVector.insert (s : List Value) (v : Value) : List Value :=
  if v ∈ s then s else s ++ [v]

/-- `llvm::SetVector::insert` on `workingSet`, a list whose head is the back of
the vector (the value `pop_back_val` takes next): at the back, unless the value
is in the set. -/
def SetVector.push (workingSet : List Value) (v : Value) : List Value :=
  if v ∈ workingSet then workingSet else v :: workingSet

/-- The body of the loop `for (AliasingOpOperand a : aliases)` of
`findValueInReverseUseDefChain`, on the pair of `workingSet` and `result`;
`value` is the value being expanded. -/
def visitAlias (state : AnalysisState) (ir : IR) (config : TraversalConfig) (value : Value)
    (sets : List Value × List Value) (a : AliasingOpOperand) : List Value × List Value :=
  let sets1 : List Value × List Value :=
    if config.followEquivalentOnly && a.relation != .Equivalent then
      (sets.1, if config.alwaysIncludeLeaves then SetVector.insert sets.2 value else sets.2)
    else (SetVector.push sets.1 (a.opOperand.get ir), sets.2)
  if config.followInPlaceOnly && !state.methods.isInPlace ir a.opOperand then
    (sets1.1, if config.alwaysIncludeLeaves then SetVector.insert sets1.2 value else sets1.2)
  else (SetVector.push sets1.1 (a.opOperand.get ir), sets1.2)

/-- The body of the loop `while (!workingSet.empty())` of
`findValueInReverseUseDefChain` after `pop_back_val` gave `value`, on the pair
of `workingSet` and `result`. -/
def findValueStep (state : AnalysisState) (ir : IR) (condition : Value → Bool)
    (config : TraversalConfig) (value : Value) (sets : List Value × List Value) :
    List Value × List Value :=
  if condition value then (sets.1, SetVector.insert sets.2 value)
  else
    let leaf : List Value × List Value :=
      (sets.1, if config.alwaysIncludeLeaves then SetVector.insert sets.2 value else sets.2)
    match value with
    | .arg _ => leaf
    | .result opResult =>
      let bufferizableOp := state.options.dynCastBufferizableOp ir (opResult.getDefiningOp ir)
      if !config.followUnknownOps && bufferizableOp.isNone then leaf
      else
        let aliases := AnalysisState.getAliasingOpOperands state.options ir opResult
        if aliases.length == 0 then leaf
        else aliases.foldl (visitAlias state ir config value) sets

/-- The loop `while (!workingSet.empty())` of `findValueInReverseUseDefChain`;
one unit of fuel per iteration. -/
def findValueLoop (state : AnalysisState) (ir : IR) (condition : Value → Bool)
    (config : TraversalConfig) : Nat → List Value → List Value → Option (List Value)
  | _, [], result => some result
  | 0, _ :: _, _ => none
  | fuel + 1, value :: workingSet, result =>
    let sets := findValueStep state ir condition config value (workingSet, result)
    findValueLoop state ir condition config fuel sets.1 sets.2

/-- `AnalysisState::findValueInReverseUseDefChain`; the result in insertion
order, `none` when the fuel runs out. -/
def AnalysisState.findValueInReverseUseDefChain (state : AnalysisState) (ir : IR) (fuel : Nat)
    (value : Value) (condition : Value → Bool) (config : TraversalConfig) :
    Option (List Value) :=
  findValueLoop state ir condition config fuel (SetVector.push [] value) []

/-- `AnalysisState::findDefinitions`.  `config0` is the default-constructed
`TraversalConfig`; its constructor is in the header. -/
def AnalysisState.findDefinitions (state : AnalysisState) (ir : IR) (fuel : Nat)
    (config0 : TraversalConfig) (value : Value) : Option (List Value) :=
  let config := { config0 with alwaysIncludeLeaves := false }
  AnalysisState.findValueInReverseUseDefChain state ir fuel value
    (fun v => AnalysisState.bufferizesToMemoryWriteValue state.options ir v) config

/-- The walk that the specification calls `findDefiningWrites`: the reverse
walk with the stop condition "bufferizes to a memory write" and the flag
`alwaysIncludeLeaves` unset, the other flags as in `config0`. -/
def findDefiningWritesSpec (state : AnalysisState) (ir : IR) (fuel : Nat)
    (config0 : TraversalConfig) (value : Value) : Option (List Value) :=
  AnalysisState.findValueInReverseUseDefChain state ir fuel value
    (AnalysisState.bufferizesToMemoryWriteValue state.options ir)
    { alwaysIncludeLeaves := false
      followInPlaceOnly := config0.followInPlaceOnly
      followEquivalentOnly := config0.followEquivalentOnly
      followUnknownOps := config0.followUnknownOps }

/-! ## Default implementations of interface methods -/

/-- `MemRefType::getRank` / `RankedTensorType::getRank`. -/
def Ty.getRank (t : Ty) : Nat := t.getShape.length

/-- The condition that `ensureToMemrefOpIsValid` asserts: for a ranked tensor
the buffer type is a `MemRefType` (the `cast`) of the same rank. -/
def ensureToMemrefOpIsValid (tensor : Value) (memrefType : Ty) : Bool :=
  if !tensor.getType.isRankedTensor then true
  else memrefType.isMemRef && memrefType.getRank == tensor.getType.getRank

/-- The inner loop of `detail::defaultGetAliasingOpOperands`, over the aliasing
results of `opOperand`. -/
def detail.collectAliasingOpOperand (opResult : OpResult) (opOperand : OpOperand)
    (result : List AliasingOpOperand) (aliasingOpResults : AliasingOpResultList) :
    List AliasingOpOperand :=
  aliasingOpResults.foldl
    (fun result it =>
      if it.opResult = opResult then
        result ++ [{ opOperand := opOperand, relation := it.relation, isDefinite := it.isDefinite }]
      else result)
    result

/-- `detail::defaultGetAliasingOpOperands`. -/
def detail.defaultGetAliasingOpOperands (options : BufferizationOptions) (ir : IR)
    (opResult : OpResult) : AliasingOpOperandList :=
  let op := opResult.getDefiningOp ir
  op.getOpOperands.foldl
    (fun result opOperand =>
      if !(opOperand.get ir).getType.isTensor then result
      else
        let aliasingOpResults := AnalysisState.getAliasingOpResults options ir opOperand
        detail.collectAliasingOpOperand opResult opOperand result aliasingOpResults)
    []

/-- `detail::defaultGetBufferType`.  `defaultArgs` are the default arguments
`layout` and `memorySpace` of `getMemRefType`, which its declaration in the
header gives; the call for a block argument takes them. -/
def detail.defaultGetBufferType (ir : IR) (value : Value) (options : BufferizationOptions)
    (fixedTypes : FixedTypes) (defaultArgs : Option Layout × MemorySpace) : FailureOr Ty :=
  match value with
  | .arg _ => .ok (getMemRefType value options defaultArgs.1 defaultArgs.2)
  | .result opResult =>
    let aliases := AnalysisState.getAliasingOpOperands options ir opResult
    let fallback : FailureOr Ty :=
      match options.defaultMemorySpace with
      | none => .error .noMemorySpace
      | some memorySpace => .ok (getMemRefType value options none memorySpace)
    match aliases with
    | a :: _ =>
      if a.relation = .Equivalent then
        let equivalentOperand := a.opOperand.get ir
        getBufferType ir equivalentOperand options fixedTypes
      else fallback
    | [] => fallback

/-! ## Enclosing repetitive regions

The accessors of blocks and regions (`getParent`, `getBlock`, `getParentOp`,
`getParentRegion`) belong to the graph model, which is defined outside
`BufferizableOpInterface.cpp`; here they read the tables `blocks` and `regions`
of the graph. -/

/-- The block with the given id. -/
def IR.findBlock (ir : IR) (id : Nat) : Option Block :=
  ir.blocks.find? (fun b => b.id == id)

/-- The region with the given id. -/
def IR.findRegion (ir : IR) (id : Nat) : Option Region :=
  ir.regions.find? (fun r => r.id == id)

/-- `block->getParent()`: the region the block is attached to, if any. -/
def Block.getParent (ir : IR) (block : Block) : Option Region :=
  match block.parent with
  | none => none
  | some rid => ir.findRegion rid

/-- `op->getBlock()`. -/
def Operation.getBlock (ir : IR) (op : Operation) : Option Block :=
  match op.block with
  | none => none
  | some bid => ir.findBlock bid

/-- `op->getParentRegion()`: the region of the block of the operation, if it
is in a block. -/
def Operation.getParentRegion (ir : IR) (op : Operation) : Option Region :=
  match op.getBlock ir with
  | none => none
  | some block => block.getParent ir

/-- `region->getParentOp()`. -/
def Region.getParentOp (ir : IR) (region : Region) : Operation := ir.getOp region.parentOp

/-- `region->getParentRegion()`: the region that holds the parent operation. -/
def Region.getParentRegion (ir : IR) (region : Region) : Option Region :=
  (region.getParentOp ir).getParentRegion ir

/-- `value.getParentRegion()`: the region of the defining operation of a
result, the region of the owner block of a block argument. -/
def Value.getParentRegion (ir : IR) : Value → Option Region
  | .result r => (r.getDefiningOp ir).getParentRegion ir
  | .arg a =>
    match ir.findBlock a.block with
    | none => none
    | some block => block.getParent ir

/-- The static `isRepetitiveRegion(Region *, options)`. -/
def isRepetitiveRegion (ir : IR) (region : Region) (options : BufferizationOptions) : Bool :=
  let op := region.getParentOp ir
  match options.dynCastBufferizableOp ir op with
  | some bufferizableOp =>
    if bufferizableOp.isRepetitiveRegion op region.number then true else false
  | none => false

/-- The loop `while (region)` of `getEnclosingRepetitiveRegion(Value, ...)`;
one unit of fuel per region visited, `none` when the fuel runs out, `some none`
for the null region. -/
def getEnclosingRepetitiveRegionLoop (ir : IR) (options : BufferizationOptions) :
    Nat → Option Region → Option (Option Region)
  | _, none => some none
  | 0, some _ => none
  | fuel + 1, some region =>
    if isRepetitiveRegion ir region options then some (some region)
    else getEnclosingRepetitiveRegionLoop ir options fuel (region.getParentRegion ir)

/-- `bufferization::getEnclosingRepetitiveRegion(Value, options)`. -/
def getEnclosingRepetitiveRegionOfValue (ir : IR) (fuel : Nat) (value : Value)
    (options : BufferizationOptions) : Option (Option Region) :=
  getEnclosingRepetitiveRegionLoop ir options fuel (value.getParentRegion ir)

/-- The loop `do { ... } while ((region = op->getParentRegion()))` of
`getEnclosingRepetitiveRegion(Block *, ...)`; one unit of fuel per region
visited. -/
def getEnclosingRepetitiveRegionDoWhile (ir : IR) (options : BufferizationOptions) :
    Nat → Region → Option (Option Region)
  | 0, _ => none
  | fuel + 1, region =>
    let op := region.getParentOp ir
    if isRepetitiveRegion ir region options then some (some region)
    else
      match op.getParentRegion ir with
      | none => some none
      | some region => getEnclosingRepetitiveRegionDoWhile ir options fuel region

/-- `bufferization::getEnclosingRepetitiveRegion(Block *, options)`.  The
source dereferences `block->getParent()` at once: for a block that is attached
to no region there is no result. -/
def getEnclosingRepetitiveRegionOfBlock (ir : IR) (fuel : Nat) (block : Block)
    (options : BufferizationOptions) : Option (Option Region) :=
  match block.getParent ir with
  | none => none
  | some region => getEnclosingRepetitiveRegionDoWhile ir options fuel region

/-- `bufferization::getEnclosingRepetitiveRegion(Operation *, options)`. -/
def getEnclosingRepetitiveRegionOfOp (ir : IR) (fuel : Nat) (op : Operation)
    (options : BufferizationOptions) : Option (Option Region) :=
  match op.getBlock ir with
  | none => some none
  | some block => getEnclosingRepetitiveRegionOfBlock ir fuel block options

/-- `bufferization::getNextEnclosingRepetitiveRegion`; one unit of fuel per
evaluation of the loop condition. -/
def getNextEnclosingRepetitiveRegion (ir : IR) (options : BufferizationOptions) :
    Nat → Region → Option (Option Region)
  | 0, _ => none
  | fuel + 1, region =>
    match region.getParentRegion ir with
    | none => some none
    | some parent =>
      if isRepetitiveRegion ir parent options then some (some parent)
      else getNextEnclosingRepetitiveRegion ir options fuel parent

/-- The parent-region chain that starts at `start`: the region, the region of
its parent operation, and so on; at most `n` regions of it. -/
def parentRegionChain (ir : IR) : Nat → Option Region → List Region
  | _, none => []
  | 0, some _ => []
  | n + 1, some region => region :: parentRegionChain ir n (region.getParentRegion ir)

/-- The parent-region chain that starts at `start` has at most `n` regions. -/
def parentRegionChainEnds (ir : IR) : Nat → Option Region → Bool
  | _, none => true
  | 0, some _ => false
  | n + 1, some region => parentRegionChainEnds ir n (region.getParentRegion ir)

/-- A region is repetitive under the policy: its parent operation implements
the interface, is allowed, and reports the region, by its number, as
repetitive. -/
def isRepetitiveUnderPolicy (ir : IR) (options : BufferizationOptions) (region : Region) :
    Bool :=
  match ir.interfaces (region.getParentOp ir).kind with
  | some bufferizableOp =>
    options.isOpAllowed (region.getParentOp ir)
      && bufferizableOp.isRepetitiveRegion (region.getParentOp ir) region.number
  | none => false

/-! ## Work lists -/

/-- A work-list loop in general: `pop_back_val` an element, answer true when
it is a hit, else push its successors and go on; false when the list is empty.
`isValueReadLoop` and `isTensorYieldedLoop` are instances. -/
def worklistLoop {α : Type} (hit : α → Bool) (succ : α → List α) :
    Nat → List α → Option Bool
  | _, [] => some false
  | 0, _ :: _ => none
  | fuel + 1, x :: ws => if hit x then some true else worklistLoop hit succ fuel (succ x ++ ws)

/-- The uses `isValueRead` pushes when it takes `u` from the work list. -/
def isValueReadSucc (options : BufferizationOptions) (ir : IR) (u : OpOperand) :
    List OpOperand :=
  if AnalysisState.bufferizesToAliasOnly options ir u then
    AnalysisState.pushAliasUses ir [] (AnalysisState.getAliasingOpResults options ir u)
  else []

/-- Every operand slot of the graph. -/
def IR.allOpOperands (ir : IR) : List OpOperand :=
  ir.ops.flatMap (fun op => op.getOpOperands)

/-- The alias expansion of `isValueRead` is acyclic on the graph: `rank`
decreases from every operand slot to the uses pushed for it. -/
def IsValueReadAcyclic (options : BufferizationOptions) (ir : IR) (rank : OpOperand → Nat) :
    Prop :=
  ∀ u ∈ ir.allOpOperands, ∀ u' ∈ isValueReadSucc options ir u, rank u' < rank u

/-- The values that the reverse walk may put on its working set when it
expands `v`: the values of the aliasing operands of a result, none for a block
argument. -/
def aliasedValues (options : BufferizationOptions) (ir : IR) : Value → List Value
  | .result r =>
    (AnalysisState.getAliasingOpOperands options ir r).map (fun a => a.opOperand.get ir)
  | .arg _ => []

/-- The definition order is acyclic on the values `vals`: the value of every
aliasing operand of a result in `vals` is in `vals` and is defined, by `rank`,
strictly before the result. -/
def IsDefinedBefore (options : BufferizationOptions) (ir : IR) (rank : Value → Nat)
    (vals : List Value) : Prop :=
  ∀ v ∈ vals, ∀ w ∈ aliasedValues options ir v, w ∈ vals ∧ rank w < rank v

instance (options : BufferizationOptions) (ir : IR) (rank : Value → Nat) (vals : List Value) :
    Decidable (IsDefinedBefore options ir rank vals) := by
  unfold IsDefinedBefore
  infer_instance

/-- The test of `isTensorYielded` on the use it took from the work list: the
owner is bufferizable and is a `ToMemrefOp` or return-like. -/
def isTensorYieldedHit (options : BufferizationOptions) (ir : IR) (u : OpOperand) : Bool :=
  (options.dynCastBufferizableOp ir (u.getOwner ir)).isSome
    && (decide ((u.getOwner ir).kind = .ToMemrefOp) || (u.getOwner ir).returnLike)

/-- The uses `isTensorYielded` pushes when it takes `u` from the work list. -/
def isTensorYieldedSucc (options : BufferizationOptions) (ir : IR) (u : OpOperand) :
    List OpOperand :=
  if (options.dynCastBufferizableOp ir (u.getOwner ir)).isNone then []
  else AnalysisState.pushAliasUses ir [] (AnalysisState.getAliasingOpResults options ir u)

/-- The alias expansion of `isTensorYielded` is acyclic on the graph: `rank`
decreases from every operand slot to the uses pushed for it. -/
def IsTensorYieldedAcyclic (options : BufferizationOptions) (ir : IR)
    (rank : OpOperand → Nat) : Prop :=
  ∀ u ∈ ir.allOpOperands, ∀ u' ∈ isTensorYieldedSucc options ir u, rank u' < rank u

/-- From `x` a hit is reached through successors of elements that are not
hits. -/
inductive WorklistReaches {α : Type} (hit : α → Bool) (succ : α → List α) : α → Prop where
  | here (x : α) : hit x = true → WorklistReaches hit succ x
  | step (x y : α) : hit x = false → y ∈ succ x → WorklistReaches hit succ y →
      WorklistReaches hit succ x

/-- A chain of uses `u0 .. un` starting at `u`: each next use is a use of an
aliasing result of the one before, every owner is an allowed operation that
implements the interface, no owner but the last is a `ToMemrefOp` or
return-like, and the last owner is a `ToMemrefOp` or return-like. -/
inductive YieldChain (options : BufferizationOptions) (ir : IR) : OpOperand → Prop where
  | last (u : OpOperand) :
      (options.dynCastBufferizableOp ir (u.getOwner ir)).isSome = true →
      ((u.getOwner ir).kind = .ToMemrefOp ∨ (u.getOwner ir).returnLike = true) →
      YieldChain options ir u
  | next (u u' : OpOperand) (a : AliasingOpResult) :
      (options.dynCastBufferizableOp ir (u.getOwner ir)).isSome = true →
      (u.getOwner ir).kind ≠ .ToMemrefOp → (u.getOwner ir).returnLike = false →
      a ∈ AnalysisState.getAliasingOpResults options ir u →
      u' ∈ (Value.result a.opResult).getUses ir →
      YieldChain options ir u' → YieldChain options ir u

/-- A chain of uses `u0 .. un` starting at `u`: every use but the last is
alias-only, each next use is a use of an aliasing result of the one before,
and the last use bufferizes to a memory read. -/
inductive ReadChain (options : BufferizationOptions) (ir : IR) : OpOperand → Prop where
  | last (u : OpOperand) :
      AnalysisState.bufferizesToMemoryRead options ir u = true → ReadChain options ir u
  | next (u u' : OpOperand) (a : AliasingOpResult) :
      AnalysisState.bufferizesToAliasOnly options ir u = true →
      a ∈ AnalysisState.getAliasingOpResults options ir u →
      u' ∈ (Value.result a.opResult).getUses ir →
      ReadChain options ir u' → ReadChain options ir u

/-! ## Example graphs -/

namespace Example

/-- A ranked tensor type `tensor<4xf32>`. -/
def tensorTy : Ty := .rankedTensor [4] 0

/-- The result of the producer `src`. -/
def srcResult : OpResult := ⟨0, 0, tensorTy⟩

/-- The result of `W`. -/
def wResult : OpResult := ⟨1, 0, tensorTy⟩

/-- An unregistered producer of a tensor. -/
def src : Operation := { id := 0, kind := .other 0, resultTypes := [tensorTy] }

/-- The operation `W`: one tensor operand, one tensor result. -/
def W : Operation :=
  { id := 1, kind := .other 1, operands := [.result srcResult], resultTypes := [tensorTy] }

/-- The operation `R`, which uses the result of `W`. -/
def R : Operation := { id := 2, kind := .other 2, operands := [.result wResult] }

/-- An interface of an operation whose operand 0 and result 0 alias 1:1;
`reads` and `writes` are its answers for the operand. -/
def oneToOne (reads writes : Bool) : BufferizableOpInterface :=
  { getAliasingOpResults := fun op i =>
      if i = 0 then [{ opResult := op.getResult 0, relation := .Equivalent, isDefinite := true }]
      else []
    getAliasingOpOperands := fun op i =>
      if i = 0 then [{ opOperand := ⟨op.id, 0⟩, relation := .Equivalent, isDefinite := true }]
      else []
    bufferizesToMemoryRead := fun _ _ => reads
    bufferizesToMemoryWrite := fun _ _ => writes
    bufferizesToAliasOnly := fun _ _ => !reads && !writes
    resultBufferizesToMemoryWrite := fun _ _ => writes
    bufferizesToAllocation := fun _ _ => false
    isRepetitiveRegion := fun _ _ => false
    getBufferType := fun _ v _ => .ok (getMemRefTypeWithStaticIdentityLayout v.getType none) }

/-- An interface of an operation that only reads its operands and has no
aliasing results. -/
def reader : BufferizableOpInterface :=
  { getAliasingOpResults := fun _ _ => []
    getAliasingOpOperands := fun _ _ => []
    bufferizesToMemoryRead := fun _ _ => true
    bufferizesToMemoryWrite := fun _ _ => false
    bufferizesToAliasOnly := fun _ _ => false
    resultBufferizesToMemoryWrite := fun _ _ => false
    bufferizesToAllocation := fun _ _ => false
    isRepetitiveRegion := fun _ _ => false
    getBufferType := fun _ v _ => .ok (getMemRefTypeWithStaticIdentityLayout v.getType none) }

/-- The graph `src ; W ; R` in which no interface is registered. -/
def unknownIR : IR := { ops := [src, W, R] }

/-- The graph `src ; W ; R` in which `W` has the 1:1 interface with the given
answers and `R` is a reader. -/
def wrIR (reads writes : Bool) : IR :=
  { ops := [src, W, R]
    interfaces := fun k =>
      if k = .other 1 then some (oneToOne reads writes)
      else if k = .other 2 then some reader
      else none }

/-- The graph `src ; W` in which `W` has the 1:1 interface and its result is
not used. -/
def wIR (reads writes : Bool) : IR :=
  { ops := [src, W]
    interfaces := fun k => if k = .other 1 then some (oneToOne reads writes) else none }

/-- An interface of an operation every result of which is a new allocation. -/
def allocator : BufferizableOpInterface :=
  { getAliasingOpResults := fun _ _ => []
    getAliasingOpOperands := fun _ _ => []
    bufferizesToMemoryRead := fun _ _ => false
    bufferizesToMemoryWrite := fun _ _ => false
    bufferizesToAliasOnly := fun _ _ => false
    resultBufferizesToMemoryWrite := fun _ _ => true
    bufferizesToAllocation := fun _ _ => true
    isRepetitiveRegion := fun _ _ => false
    getBufferType := fun _ v _ => .ok (getMemRefTypeWithStaticIdentityLayout v.getType none) }

/-- An operation with two results, both allocations; its escape attribute says
that result 0 does not escape and result 1 escapes. -/
def twoAllocs : Operation :=
  { id := 0, kind := .other 3, resultTypes := [tensorTy, tensorTy],
    escapeAttr := some [false, true] }

/-- The graph of `twoAllocs` alone. -/
def twoAllocsIR : IR :=
  { ops := [twoAllocs]
    interfaces := fun k => if k = .other 3 then some allocator else none }

/-- The 1:1 interface of an operation that reads and writes its operand and
whose result does not bufferize to a memory write. -/
def quietResult : BufferizableOpInterface :=
  { oneToOne true true with resultBufferizesToMemoryWrite := fun _ _ => false }

/-- The graph `src ; W ; R` in which `W` has the interface `quietResult` and
`R` is a reader. -/
def quietIR : IR :=
  { ops := [src, W, R]
    interfaces := fun k =>
      if k = .other 1 then some quietResult
      else if k = .other 2 then some reader
      else none }

/-- The operand of `W`. -/
def wOperand : OpOperand := ⟨1, 0⟩

/-- Options with an empty filter, function boundaries not bufferized,
`createDeallocs` set and the null attribute as default memory space. -/
def defaultOptions : BufferizationOptions :=
  { opFilter := {}, bufferizeFunctionBoundaries := false, createDeallocs := true,
    defaultMemorySpace := some none }

/-- The state of an analysis that found every operand out-of-place; its other
answers are those without analysis information. -/
def outOfPlaceState : AnalysisState :=
  { options := defaultOptions
    methods := { (AnalysisState.base defaultOptions).methods with isInPlace := fun _ _ => false } }

/-- The 1:1 interface of an operation whose result aliases its operand with
the relation `Unknown`; the operation neither reads nor writes the operand. -/
def mayAlias : BufferizableOpInterface :=
  { oneToOne false false with
    getAliasingOpOperands := fun op i =>
      if i = 0 then [{ opOperand := ⟨op.id, 0⟩, relation := .Unknown, isDefinite := false }]
      else []
    getAliasingOpResults := fun op i =>
      if i = 0 then [{ opResult := op.getResult 0, relation := .Unknown, isDefinite := false }]
      else [] }

/-- The graph `src ; W` in which the result of `W` may alias its operand,
with the relation `Unknown`. -/
def mayAliasIR : IR :=
  { ops := [src, W]
    interfaces := fun k => if k = .other 1 then some mayAlias else none }

/-- The stop condition "is the result of `src`". -/
def isSrc (v : Value) : Bool := v == .result srcResult

/-- A configuration with no flag set. -/
def noFlags : TraversalConfig :=
  { alwaysIncludeLeaves := false, followInPlaceOnly := false, followEquivalentOnly := false,
    followUnknownOps := false }

/-- The second user of `src` in the diamond. -/
def W2 : Operation :=
  { id := 2, kind := .other 1, operands := [.result srcResult], resultTypes := [tensorTy] }

/-- The result of `W2`. -/
def w2Result : OpResult := ⟨2, 0, tensorTy⟩

/-- The operation at the bottom of the diamond: its result aliases both of its
operands, the results of `W` and `W2`. -/
def join : Operation :=
  { id := 3, kind := .other 4, operands := [.result wResult, .result w2Result],
    resultTypes := [tensorTy] }

/-- The result of `join`. -/
def joinResult : OpResult := ⟨3, 0, tensorTy⟩

/-- The interface of `join`: result 0 aliases operand 0 and operand 1. -/
def twoToOne : BufferizableOpInterface :=
  { oneToOne false false with
    getAliasingOpOperands := fun op i =>
      if i = 0 then
        [{ opOperand := ⟨op.id, 0⟩, relation := .Equivalent, isDefinite := false },
         { opOperand := ⟨op.id, 1⟩, relation := .Equivalent, isDefinite := false }]
      else []
    getAliasingOpResults := fun op i =>
      if i = 0 ∨ i = 1 then
        [{ opResult := op.getResult 0, relation := .Equivalent, isDefinite := false }]
      else [] }

/-- The diamond `src ; W ; W2 ; join`: the result of `join` aliases the results
of `W` and `W2`, which both alias the result of `src`. -/
def diamondIR : IR :=
  { ops := [src, W, W2, join]
    interfaces := fun k =>
      if k = .other 1 then some (oneToOne false false)
      else if k = .other 4 then some twoToOne
      else none }

/-- The values of the diamond. -/
def diamondValues : List Value :=
  [.result srcResult, .result wResult, .result w2Result, .result joinResult]

/-- The definition order of the example graphs: the id of the defining
operation. -/
def definitionOrder : Value → Nat
  | .result r => r.op
  | .arg _ => 0

/-- An `AllocTensorOp` with one ranked result. -/
def alloc : Operation := { id := 0, kind := .AllocTensorOp, resultTypes := [tensorTy] }

/-- A return-like operation that uses the result of `W`. -/
def ret : Operation :=
  { id := 2, kind := .other 2, operands := [.result wResult], returnLike := true }

/-- The graph `alloc ; W ; ret`: the allocation is passed through `W`, whose
result is returned. -/
def yieldIR : IR :=
  { ops := [alloc, W, ret]
    interfaces := fun k =>
      if k = .other 1 then some (oneToOne false false)
      else if k = .other 2 then some reader
      else none }

/-- The graph `alloc ; W ; R`: the allocation is passed through `W`, whose
result is only read. -/
def allocIR : IR :=
  { ops := [alloc, W, R]
    interfaces := fun k =>
      if k = .other 1 then some (oneToOne false false)
      else if k = .other 2 then some reader
      else none }

/-- The interface of an operation whose result 0 aliases operand 0 with the
relation `Unknown` and operand 1 with the relation `Equivalent`. -/
def mixedAliases : BufferizableOpInterface :=
  { oneToOne false false with
    getAliasingOpOperands := fun op i =>
      if i = 0 then
        [{ opOperand := ⟨op.id, 0⟩, relation := .Unknown, isDefinite := false },
         { opOperand := ⟨op.id, 1⟩, relation := .Equivalent, isDefinite := true }]
      else []
    getAliasingOpResults := fun op i =>
      if i = 0 then [{ opResult := op.getResult 0, relation := .Unknown, isDefinite := false }]
      else if i = 1 then
        [{ opResult := op.getResult 0, relation := .Equivalent, isDefinite := true }]
      else [] }

/-- The graph `src ; W ; W2 ; join` in which the result of `join` aliases its
first operand with the relation `Unknown` and its second with `Equivalent`. -/
def mixedIR : IR :=
  { ops := [src, W, W2, join]
    interfaces := fun k =>
      if k = .other 1 then some (oneToOne false false)
      else if k = .other 4 then some mixedAliases
      else none }

/-- Options without a default memory space. -/
def noSpaceOptions : BufferizationOptions :=
  { opFilter := {}, bufferizeFunctionBoundaries := false, createDeallocs := true,
    defaultMemorySpace := none }

/-- The interface of an operation that writes both of its operands, reads
operand 0 only, and has no aliasing results. -/
def readsFirst : BufferizableOpInterface :=
  { reader with
    bufferizesToMemoryRead := fun _ i => i == 0
    bufferizesToMemoryWrite := fun _ _ => true }

/-- The operation `P`: its operands are the result of `W` and the result of
the unregistered `src`. -/
def P : Operation :=
  { id := 3, kind := .other 6, operands := [.result wResult, .result srcResult],
    resultTypes := [tensorTy] }

/-- The graph `src ; W ; P` in which `P` writes both operands and reads the
first. -/
def pairIR : IR :=
  { ops := [src, W, P]
    interfaces := fun k =>
      if k = .other 1 then some (oneToOne false false)
      else if k = .other 6 then some readsFirst
      else none }

/-- The operation `sel`: both operands are the result of `src`, and its
result aliases both. -/
def sel : Operation :=
  { id := 1, kind := .other 4, operands := [.result srcResult, .result srcResult],
    resultTypes := [tensorTy] }

/-- The graph `src ; sel ; R`: `sel` passes the result of `src` on along both
operands, and `R` overwrites the result of `sel` without reading it. -/
def selectIR : IR :=
  { ops := [src, sel, R]
    interfaces := fun k =>
      if k = .other 4 then some twoToOne
      else if k = .other 2 then some (oneToOne false true)
      else none }

/-- An operation that uses its own result, as a graph region allows. -/
def selfUser : Operation :=
  { id := 0, kind := .other 1, operands := [.result srcResult], resultTypes := [tensorTy] }

/-- The graph of the one operation `selfUser`, whose result aliases its
operand; the operation neither reads nor writes. -/
def cycleIR : IR :=
  { ops := [selfUser]
    interfaces := fun k => if k = .other 1 then some (oneToOne false false) else none }

/-- An interface of an operation all of whose regions are repetitive. -/
def loopLike : BufferizableOpInterface :=
  { reader with isRepetitiveRegion := fun _ _ => true }

/-- The region of the unregistered operation `outer`. -/
def outerRegion : Region := { id := 10, parentOp := 0, number := 0 }

/-- The region of the loop `inner`. -/
def innerRegion : Region := { id := 11, parentOp := 1, number := 0 }

/-- The block of `outerRegion`. -/
def outerBlock : Block := { id := 20, parent := some 10 }

/-- The block of `innerRegion`. -/
def innerBlock : Block := { id := 21, parent := some 11 }

/-- The nest `outer { inner { body } }`: `outer` is unregistered and at the
top, `inner` is a loop in the block of `outer`, and `body`, which has a tensor
result, is in the block of `inner`. -/
def nestIR : IR :=
  { ops := [{ id := 0, kind := .other 7 },
            { id := 1, kind := .other 8, resultTypes := [tensorTy], block := some 20 },
            { id := 2, kind := .other 0, resultTypes := [tensorTy], block := some 21 }]
    blocks := [outerBlock, innerBlock]
    regions := [outerRegion, innerRegion]
    interfaces := fun k => if k = .other 8 then some loopLike else none }

/-- A reader of the result of `src`. -/
def srcReader : Operation := { id := 1, kind := .other 2, operands := [.result srcResult] }

/-- An operation that uses the result of `src` and its own result, as a graph
region allows, and whose result aliases both operands. -/
def spin : Operation :=
  { id := 2, kind := .other 4, operands := [.result srcResult, .result w2Result],
    resultTypes := [tensorTy] }

/-- The graph `src ; srcReader ; spin`: the result of `src` is read by
`srcReader` and passed on by `spin`, whose alias expansion is cyclic. -/
def readThenSpinIR : IR :=
  { ops := [src, srcReader, spin]
    interfaces := fun k =>
      if k = .other 4 then some twoToOne
      else if k = .other 2 then some reader
      else none }

/-- An interface of an operation that reads its operands and writes operand 1
only; result 0 aliases operand 0 and nothing else. -/
def firstAliases : BufferizableOpInterface :=
  { oneToOne true false with
    bufferizesToMemoryWrite := fun _ i => i == 1
    bufferizesToAliasOnly := fun _ _ => false }

/-- The operation `T`: operand 0 is the result of `src`, operand 1 the result
of `W`. -/
def T : Operation :=
  { id := 2, kind := .other 9, operands := [.result srcResult, .result wResult],
    resultTypes := [tensorTy] }

/-- The graph `src ; W ; T`, in which `T` has the interface `firstAliases`. -/
def twoCopiesIR : IR :=
  { ops := [src, W, T]
    interfaces := fun k =>
      if k = .other 1 then some (oneToOne false false)
      else if k = .other 9 then some firstAliases
      else none }

/-- The operation `Q`: operand 0 is the result of `src`, operand 1 is the
result of `Q` itself, as a graph region allows. -/
def Q : Operation :=
  { id := 1, kind := .other 9, operands := [.result srcResult, .result wResult],
    resultTypes := [tensorTy] }

/-- The graph `src ; Q`, in which `Q` has the interface `firstAliases`. -/
def selfUseIR : IR :=
  { ops := [src, Q]
    interfaces := fun k => if k = .other 9 then some firstAliases else none }

/-- The state of an analysis that found operand 0 of every operation
out-of-place and every other operand in place; its other answers are those
without analysis information. -/
def firstOutOfPlaceState : AnalysisState :=
  { options := defaultOptions
    methods :=
      { (AnalysisState.base defaultOptions).methods with
        isInPlace := fun _ o => decide (o.idx ≠ 0) } }

end Example

/-! ## Lemmas on the graph model -/

theorem getOp_id (ir : IR) (id : Nat) : (ir.getOp id).id = id := by
  unfold IR.getOp IR.findOp
  cases h : ir.ops.find? (fun o => o.id == id) with
  | none => rfl
  | some o =>
    have := List.find?_some h
    simpa using this

theorem foldl_addAlias {α β : Type} (p : α → Bool) (g : α → β) (xs : List α) (acc : List β) :
    xs.foldl (fun r x => if p x then addAlias r (g x) else r) acc
      = acc ++ (xs.filter p).map g := by
  induction xs generalizing acc with
  | nil => simp
  | cons x xs ih =>
    simp only [List.foldl_cons, ih, List.filter_cons]
    cases p x <;> simp [addAlias]

theorem opResultsFrom_idx (id : Nat) (i : Nat) (ts : List Ty) :
    ∀ r ∈ opResultsFrom id i ts, i ≤ r.idx := by
  induction ts generalizing i with
  | nil => simp [opResultsFrom]
  | cons t ts ih =>
    intro r hr
    simp only [opResultsFrom, List.mem_cons] at hr
    rcases hr with rfl | hr
    · exact Nat.le_refl _
    · exact Nat.le_of_succ_le (ih (i + 1) r hr)

theorem opResultsFrom_nodup (id : Nat) (i : Nat) (ts : List Ty) :
    (opResultsFrom id i ts).Nodup := by
  induction ts generalizing i with
  | nil => simp [opResultsFrom]
  | cons t ts ih =>
    simp only [opResultsFrom, List.nodup_cons]
    refine ⟨?_, ih (i + 1)⟩
    intro hmem
    have := opResultsFrom_idx id (i + 1) ts _ hmem
    simp at this

theorem opOperandsFrom_idx (id : Nat) (i : Nat) (vs : List Value) :
    ∀ o ∈ opOperandsFrom id i vs, i ≤ o.idx := by
  induction vs generalizing i with
  | nil => simp [opOperandsFrom]
  | cons v vs ih =>
    intro o ho
    simp only [opOperandsFrom, List.mem_cons] at ho
    rcases ho with rfl | ho
    · exact Nat.le_refl _
    · exact Nat.le_of_succ_le (ih (i + 1) o ho)

theorem opOperandsFrom_nodup (id : Nat) (i : Nat) (vs : List Value) :
    (opOperandsFrom id i vs).Nodup := by
  induction vs generalizing i with
  | nil => simp [opOperandsFrom]
  | cons v vs ih =>
    simp only [opOperandsFrom, List.nodup_cons]
    refine ⟨?_, ih (i + 1)⟩
    intro hmem
    have := opOperandsFrom_idx id (i + 1) vs _ hmem
    simp at this

theorem dynCast_eq_none_iff (options : BufferizationOptions) (ir : IR) (op : Operation) :
    options.dynCastBufferizableOp ir op = none
      ↔ (ir.interfaces op.kind = none ∨ options.isOpAllowed op = false) := by
  unfold BufferizationOptions.dynCastBufferizableOp
  cases h : ir.interfaces op.kind with
  | none => simp
  | some b => cases h2 : options.isOpAllowed op <;> simp

theorem dynCast_eq_some_iff (options : BufferizationOptions) (ir : IR) (op : Operation)
    (b : BufferizableOpInterface) :
    options.dynCastBufferizableOp ir op = some b
      ↔ (ir.interfaces op.kind = some b ∧ options.isOpAllowed op = true) := by
  unfold BufferizationOptions.dynCastBufferizableOp
  cases h : ir.interfaces op.kind with
  | none => simp
  | some b2 => cases h2 : options.isOpAllowed op <;> simp

/-! ## Conservative defaults -/

/-- C1: for every operand whose owner is an unknown operation under the options
(no interface registered for it, or not allowed), `bufferizesToMemoryRead` and
`bufferizesToMemoryWrite` are true and `bufferizesToAliasOnly` is false; the
interface is consulted exactly when `dynCastBufferizableOp` is non-null, which
is exactly when the operation implements the interface and is allowed, and then
the three queries give the interface's answers. -/
theorem unknown_op_reads_writes_not_alias_only (options : BufferizationOptions) (ir : IR)
    (opOperand : OpOperand)
    (h : ir.interfaces (opOperand.getOwner ir).kind = none
      ∨ options.isOpAllowed (opOperand.getOwner ir) = false) :
    AnalysisState.bufferizesToMemoryRead options ir opOperand = true
    ∧ AnalysisState.bufferizesToMemoryWrite options ir opOperand = true
    ∧ AnalysisState.bufferizesToAliasOnly options ir opOperand = false
    ∧ (∀ (op : Operation) (b : BufferizableOpInterface),
        options.dynCastBufferizableOp ir op = some b
          ↔ (ir.interfaces op.kind = some b ∧ options.isOpAllowed op = true))
    ∧ (∀ (o : OpOperand) (b : BufferizableOpInterface),
        options.dynCastBufferizableOp ir (o.getOwner ir) = some b →
          AnalysisState.bufferizesToMemoryRead options ir o
              = b.bufferizesToMemoryRead (o.getOwner ir) o.idx
          ∧ AnalysisState.bufferizesToMemoryWrite options ir o
              = b.bufferizesToMemoryWrite (o.getOwner ir) o.idx
          ∧ AnalysisState.bufferizesToAliasOnly options ir o
              = b.bufferizesToAliasOnly (o.getOwner ir) o.idx) := by
  have hn := (dynCast_eq_none_iff options ir (opOperand.getOwner ir)).2 h
  refine ⟨?_, ?_, ?_, ?_, ?_⟩
  · simp [AnalysisState.bufferizesToMemoryRead, hn]
  · simp [AnalysisState.bufferizesToMemoryWrite, hn]
  · simp [AnalysisState.bufferizesToAliasOnly, hn]
  · intro op b
    exact dynCast_eq_some_iff options ir op b
  · intro o b hb
    simp [AnalysisState.bufferizesToMemoryRead, AnalysisState.bufferizesToMemoryWrite,
      AnalysisState.bufferizesToAliasOnly, hb]

/-- C1 at the operand of `W` in the graph without registered interfaces. -/
theorem unknown_op_reads_writes_not_alias_only_witness :
    AnalysisState.bufferizesToMemoryRead Example.defaultOptions Example.unknownIR
        Example.wOperand = true
    ∧ AnalysisState.bufferizesToMemoryWrite Example.defaultOptions Example.unknownIR
        Example.wOperand = true
    ∧ AnalysisState.bufferizesToAliasOnly Example.defaultOptions Example.unknownIR
        Example.wOperand = false :=
  have h := unknown_op_reads_writes_not_alias_only Example.defaultOptions Example.unknownIR
    Example.wOperand (Or.inl rfl)
  ⟨h.1, h.2.1, h.2.2.1⟩

theorem unknownGetAliasingOpResults_eq (ir : IR) (opOperand : OpOperand) :
    detail.unknownGetAliasingOpResults ir opOperand
      = ((opOperand.getOwner ir).getOpResults.filter (fun r => r.type.isTensor)).map
          (fun r => { opResult := r, relation := .Unknown, isDefinite := false }) := by
  unfold detail.unknownGetAliasingOpResults
  rw [foldl_addAlias (fun r : OpResult => r.type.isTensor)
    (fun r => ({ opResult := r, relation := .Unknown, isDefinite := false } : AliasingOpResult))]
  simp

theorem unknownGetAliasingOpOperands_eq (ir : IR) (opResult : OpResult) :
    detail.unknownGetAliasingOpOperands ir opResult
      = ((opResult.getDefiningOp ir).getOpOperands.filter
          (fun o => (o.get ir).getType.isTensor)).map
          (fun o => { opOperand := o, relation := .Unknown, isDefinite := false }) := by
  unfold detail.unknownGetAliasingOpOperands
  rw [foldl_addAlias (fun o : OpOperand => (o.get ir).getType.isTensor)
    (fun o => ({ opOperand := o, relation := .Unknown, isDefinite := false } : AliasingOpOperand))]
  simp

/-- C2: for an operand of an unknown operation `getAliasingOpResults` is the
list of the tensor-typed results of the operation, in result order and without
repetition, each tagged `Unknown` and not definite; for a result of an unknown
operation `getAliasingOpOperands` is the list of the tensor-typed operands of
the defining operation, each tagged `Unknown` and not definite. -/
theorem unknown_op_aliases_all_tensors (options : BufferizationOptions) (ir : IR) :
    (∀ opOperand : OpOperand,
      options.dynCastBufferizableOp ir (opOperand.getOwner ir) = none →
        AnalysisState.getAliasingOpResults options ir opOperand
            = ((opOperand.getOwner ir).getOpResults.filter (fun r => r.type.isTensor)).map
                (fun r => { opResult := r, relation := .Unknown, isDefinite := false })
          ∧ (AnalysisState.getAliasingOpResults options ir opOperand).Nodup)
    ∧ (∀ opResult : OpResult,
      options.dynCastBufferizableOp ir (opResult.getDefiningOp ir) = none →
        AnalysisState.getAliasingOpOperands options ir opResult
            = ((opResult.getDefiningOp ir).getOpOperands.filter
                (fun o => (o.get ir).getType.isTensor)).map
                (fun o => { opOperand := o, relation := .Unknown, isDefinite := false })
          ∧ (AnalysisState.getAliasingOpOperands options ir opResult).Nodup) := by
  constructor
  · intro opOperand h
    have e : AnalysisState.getAliasingOpResults options ir opOperand
        = ((opOperand.getOwner ir).getOpResults.filter (fun r => r.type.isTensor)).map
            (fun r => { opResult := r, relation := .Unknown, isDefinite := false }) := by
      simp only [AnalysisState.getAliasingOpResults, h]
      exact unknownGetAliasingOpResults_eq ir opOperand
    refine ⟨e, ?_⟩
    rw [e]
    refine List.Nodup.map ?_ ((opResultsFrom_nodup _ 0 _).filter _)
    intro a b hab
    simpa using hab
  · intro opResult h
    have e : AnalysisState.getAliasingOpOperands options ir opResult
        = ((opResult.getDefiningOp ir).getOpOperands.filter
            (fun o => (o.get ir).getType.isTensor)).map
            (fun o => { opOperand := o, relation := .Unknown, isDefinite := false }) := by
      simp only [AnalysisState.getAliasingOpOperands, h]
      exact unknownGetAliasingOpOperands_eq ir opResult
    refine ⟨e, ?_⟩
    rw [e]
    refine List.Nodup.map ?_ ((opOperandsFrom_nodup _ 0 _).filter _)
    intro a b hab
    simpa using hab

/-- C2 at `W` in the graph without registered interfaces: its operand aliases
its one tensor result, its result aliases its one tensor operand. -/
theorem unknown_op_aliases_all_tensors_witness :
    AnalysisState.getAliasingOpResults Example.defaultOptions Example.unknownIR Example.wOperand
      = [{ opResult := Example.wResult, relation := .Unknown, isDefinite := false }]
    ∧ AnalysisState.getAliasingOpOperands Example.defaultOptions Example.unknownIR
        Example.wResult
      = [{ opOperand := Example.wOperand, relation := .Unknown, isDefinite := false }] :=
  have h := unknown_op_aliases_all_tensors Example.defaultOptions Example.unknownIR
  ⟨(h.1 Example.wOperand rfl).1.trans (by decide),
   (h.2 Example.wResult rfl).1.trans (by decide)⟩

/-! ## The filter -/

theorem isOpAllowedLoop_iff (op : Operation) (entries : List OpFilter.Entry) (acc : Bool) :
    OpFilter.isOpAllowedLoop op entries acc = true
      ↔ (∀ e ∈ entries, e.type = .DENY → e.fn op = false)
        ∧ (acc = true ∨ ∃ e ∈ entries, e.type = .ALLOW ∧ e.fn op = true) := by
  induction entries generalizing acc with
  | nil => simp [OpFilter.isOpAllowedLoop]
  | cons e es ih =>
    unfold OpFilter.isOpAllowedLoop
    cases ht : e.type with
    | ALLOW =>
      simp only [ih, List.mem_cons, forall_eq_or_imp, ht, exists_eq_or_imp, Bool.or_eq_true]
      constructor
      · rintro ⟨h1, h2⟩
        refine ⟨⟨by simp, h1⟩, ?_⟩
        rcases h2 with (h2 | h2) | h2
        · exact Or.inl h2
        · exact Or.inr (Or.inl ⟨trivial, h2⟩)
        · exact Or.inr (Or.inr h2)
      · rintro ⟨⟨-, h1⟩, h2⟩
        refine ⟨h1, ?_⟩
        rcases h2 with h2 | ⟨-, h2⟩ | h2
        · exact Or.inl (Or.inl h2)
        · exact Or.inl (Or.inr h2)
        · exact Or.inr h2
    | DENY =>
      cases hf : e.fn op with
      | true => simp [ht, hf]
      | false => simp [ih, ht, hf]

theorem hasAllowRule_eq_false_iff (f : OpFilter) :
    f.hasAllowRule = false ↔ ∀ e ∈ f.entries, e.type ≠ .ALLOW := by
  simp [OpFilter.hasAllowRule]

/-- C3: `OpFilter::isOpAllowed` is true exactly when no DENY entry matches the
operation and the filter has no ALLOW entry or some ALLOW entry matches; the
empty filter allows every operation and a matching DENY entry overrides every
ALLOW entry. -/
theorem opFilter_isOpAllowed_iff (f : OpFilter) (op : Operation) :
    (f.isOpAllowed op = true
      ↔ (∀ e ∈ f.entries, e.type = .DENY → e.fn op = false)
        ∧ ((∀ e ∈ f.entries, e.type ≠ .ALLOW)
            ∨ ∃ e ∈ f.entries, e.type = .ALLOW ∧ e.fn op = true))
    ∧ OpFilter.isOpAllowed { entries := [] } op = true
    ∧ ((∃ e ∈ f.entries, e.type = .DENY ∧ e.fn op = true) → f.isOpAllowed op = false) := by
  have main : f.isOpAllowed op = true
      ↔ (∀ e ∈ f.entries, e.type = .DENY → e.fn op = false)
        ∧ ((∀ e ∈ f.entries, e.type ≠ .ALLOW)
            ∨ ∃ e ∈ f.entries, e.type = .ALLOW ∧ e.fn op = true) := by
    unfold OpFilter.isOpAllowed
    rw [isOpAllowedLoop_iff, ← hasAllowRule_eq_false_iff]
    simp
  refine ⟨main, by simp [OpFilter.isOpAllowed, OpFilter.isOpAllowedLoop, OpFilter.hasAllowRule],
    ?_⟩
  rintro ⟨e, he, ht, hf⟩
  cases hres : f.isOpAllowed op with
  | false => rfl
  | true =>
    have := (main.1 hres).1 e he ht
    rw [hf] at this
    exact absurd this (by simp)

/-- C3 with an ALLOW entry and a DENY entry that both match: the operation is
not allowed. -/
theorem opFilter_isOpAllowed_iff_witness :
    OpFilter.isOpAllowed
      { entries := [{ fn := fun _ => true, type := .ALLOW }, { fn := fun _ => true, type := .DENY }] }
      Example.W = false :=
  (opFilter_isOpAllowed_iff _ Example.W).2.2
    ⟨{ fn := fun _ => true, type := .DENY }, by simp, rfl, rfl⟩

/-- C4: `BufferizationOptions::isOpAllowed` is false when
`bufferizeFunctionBoundaries` is unset and the operation is of the `func`
dialect, whatever the filter holds, and is `OpFilter::isOpAllowed` in every
other case. -/
theorem options_isOpAllowed_func_boundary (options : BufferizationOptions) (op : Operation) :
    (options.bufferizeFunctionBoundaries = false → op.isFuncDialect = true →
      options.isOpAllowed op = false)
    ∧ (¬ (options.bufferizeFunctionBoundaries = false ∧ op.isFuncDialect = true) →
      options.isOpAllowed op = options.opFilter.isOpAllowed op) := by
  unfold BufferizationOptions.isOpAllowed
  constructor
  · intro h1 h2
    simp [h1, h2]
  · intro h
    cases h1 : options.bufferizeFunctionBoundaries <;> cases h2 : op.isFuncDialect <;>
      simp_all

/-- C4 at a `func` operation that an ALLOW entry matches: not allowed while
function boundaries are not bufferized, allowed by the filter otherwise. -/
theorem options_isOpAllowed_func_boundary_witness :
    BufferizationOptions.isOpAllowed
        { opFilter := { entries := [{ fn := fun _ => true, type := .ALLOW }] } }
        { id := 0, kind := OpKind.FuncOp } = false
    ∧ BufferizationOptions.isOpAllowed
        { opFilter := { entries := [{ fn := fun _ => true, type := .ALLOW }] },
          bufferizeFunctionBoundaries := true }
        { id := 0, kind := OpKind.FuncOp } = true :=
  ⟨(options_isOpAllowed_func_boundary _ _).1 rfl rfl,
   ((options_isOpAllowed_func_boundary _ _).2 (by decide)).trans rfl⟩

/-! ## In-place decisions and copy elision -/

/-- C5: `AnalysisState::isInPlace` is true for an operand of a `ToMemrefOp`;
for any other operand it is true exactly when the operand does not bufferize
to a memory write; so every operand of an unknown operation other than a
`ToMemrefOp` is out-of-place. -/
theorem isInPlace_iff_not_write (options : BufferizationOptions) (ir : IR)
    (opOperand : OpOperand) :
    ((opOperand.getOwner ir).kind = .ToMemrefOp →
      AnalysisState.isInPlace options ir opOperand = true)
    ∧ ((opOperand.getOwner ir).kind ≠ .ToMemrefOp →
      (AnalysisState.isInPlace options ir opOperand = true
        ↔ AnalysisState.bufferizesToMemoryWrite options ir opOperand = false))
    ∧ ((opOperand.getOwner ir).kind ≠ .ToMemrefOp →
      options.dynCastBufferizableOp ir (opOperand.getOwner ir) = none →
      AnalysisState.isInPlace options ir opOperand = false) := by
  unfold AnalysisState.isInPlace
  refine ⟨?_, ?_, ?_⟩
  · intro h
    simp [h]
  · intro h
    simp [h]
  · intro h hn
    simp [h, AnalysisState.bufferizesToMemoryWrite, hn]

/-- C5 at the operand of the unknown operation `W`: out-of-place. -/
theorem isInPlace_iff_not_write_witness :
    AnalysisState.isInPlace Example.defaultOptions Example.unknownIR Example.wOperand = false :=
  (isInPlace_iff_not_write Example.defaultOptions Example.unknownIR Example.wOperand).2.2
    (by decide) rfl

theorem anyOf_eq_some_false_iff {α : Type} (f : α → Option Bool) (l : List α) :
    AnalysisState.anyOf f l = some false ↔ ∀ a ∈ l, f a = some false := by
  induction l with
  | nil => simp [AnalysisState.anyOf]
  | cons a l ih =>
    unfold AnalysisState.anyOf
    cases h : f a with
    | none => simp [h]
    | some b => cases b <;> simp [h, ih]

theorem mem_lt_freshId (ir : IR) : ∀ o ∈ ir.ops, o.id < ir.freshId := by
  unfold IR.freshId
  induction ir.ops with
  | nil => simp
  | cons a l ih =>
    intro o ho
    simp only [List.mem_cons] at ho
    simp only [List.foldr_cons]
    rcases ho with rfl | ho
    · omega
    · have := ih o ho
      omega

theorem find?_cons_id (o : Operation) (os : List Operation) (id : Nat) :
    (o :: os).find? (fun x => x.id == id)
      = if o.id = id then some o else os.find? (fun x => x.id == id) := by
  by_cases h : o.id = id
  · simp [List.find?_cons, h]
  · have hb : (o.id == id) = false := by simpa using h
    simp [List.find?_cons, h, hb]

theorem find?_insertBefore (a : Nat) (new : Operation) (id : Nat) (l : List Operation)
    (hfresh : ∀ o ∈ l, o.id ≠ new.id) :
    (insertBefore a new l).find? (fun o => o.id == id)
      = if new.id = id then some new else l.find? (fun o => o.id == id) := by
  induction l with
  | nil => simp [insertBefore, find?_cons_id]
  | cons o os ih =>
    have ho : o.id ≠ new.id := hfresh o (by simp)
    have ih := ih (fun x hx => hfresh x (by simp [hx]))
    unfold insertBefore
    by_cases hoa : o.id = a
    · simp only [hoa, if_true, find?_cons_id]
    · simp only [hoa, if_false, find?_cons_id, ih]
      by_cases hn : new.id = id
      · have : o.id ≠ id := by rw [← hn]; exact ho
        simp [hn, this]
      · simp [hn]

theorem find?_insertAfter (a : Nat) (new : Operation) (id : Nat) (l : List Operation)
    (hfresh : ∀ o ∈ l, o.id ≠ new.id) :
    (insertAfter a new l).find? (fun o => o.id == id)
      = if new.id = id then some new else l.find? (fun o => o.id == id) := by
  induction l with
  | nil => simp [insertAfter, find?_cons_id]
  | cons o os ih =>
    have ho : o.id ≠ new.id := hfresh o (by simp)
    have ih := ih (fun x hx => hfresh x (by simp [hx]))
    unfold insertAfter
    by_cases hoa : o.id = a
    · simp only [hoa, if_true, find?_cons_id]
      by_cases hn : new.id = id
      · have : a ≠ id := by rw [← hn, ← hoa]; exact ho
        simp [hn, this]
      · simp [hn]
    · simp only [hoa, if_false, find?_cons_id, ih]
      by_cases hn : new.id = id
      · have : o.id ≠ id := by rw [← hn]; exact ho
        simp [hn, this]
      · simp [hn]

theorem findOp_modifyOp (ir : IR) (id id' : Nat) (f : Operation → Operation)
    (hf : ∀ o, (f o).id = o.id) :
    (ir.modifyOp id f).findOp id'
      = (ir.findOp id').map (fun o => if o.id = id then f o else o) := by
  unfold IR.modifyOp IR.findOp
  simp only
  induction ir.ops with
  | nil => simp
  | cons o os ih =>
    simp only [List.map_cons, find?_cons_id, ih]
    by_cases h2 : o.id = id'
    · subst h2
      by_cases h : o.id = id <;> simp [h, hf]
    · by_cases h : o.id = id
      · have h3 : ¬ id = id' := by rw [← h]; exact h2
        simp [h, h3, hf]
      · simp [h, h2]

theorem findOp_create (b : OpBuilder) (op : Operation) (id : Nat) :
    (b.create op).2.ir.findOp id
      = if b.ir.freshId = id then some (b.create op).1 else b.ir.findOp id := by
  have hfresh : ∀ (blk : Option Nat), ∀ o ∈ b.ir.ops,
      o.id ≠ ({ op with id := b.ir.freshId, block := blk } : Operation).id := by
    intro blk o ho
    have := mem_lt_freshId b.ir o ho
    simp only
    omega
  unfold OpBuilder.create IR.findOp
  cases hip : b.ip with
  | before a =>
    simp only
    rw [find?_insertBefore _ _ _ _ (hfresh _)]
  | after a =>
    simp only
    rw [find?_insertAfter _ _ _ _ (hfresh _)]

theorem create_fst_id (b : OpBuilder) (op : Operation) : (b.create op).1.id = b.ir.freshId := by
  unfold OpBuilder.create
  cases b.ip <;> rfl

theorem getOp_of_findOp (ir : IR) (id : Nat) (op : Operation) (h : ir.findOp id = some op) :
    ir.getOp id = op := by
  simp [IR.getOp, h]

theorem create_fst_kind (b : OpBuilder) (op : Operation) : (b.create op).1.kind = op.kind := by
  unfold OpBuilder.create
  cases b.ip <;> rfl

theorem mem_insertBefore (a : Nat) (new o : Operation) (l : List Operation) :
    o ∈ insertBefore a new l ↔ o = new ∨ o ∈ l := by
  induction l with
  | nil => simp [insertBefore]
  | cons x xs ih =>
    unfold insertBefore
    by_cases h : x.id = a
    · simp [h]
    · simp only [h, if_false, List.mem_cons, ih]
      tauto

theorem mem_insertAfter (a : Nat) (new o : Operation) (l : List Operation) :
    o ∈ insertAfter a new l ↔ o = new ∨ o ∈ l := by
  induction l with
  | nil => simp [insertAfter]
  | cons x xs ih =>
    unfold insertAfter
    by_cases h : x.id = a
    · simp only [h, if_true, List.mem_cons]
      tauto
    · simp only [h, if_false, List.mem_cons, ih]
      tauto

theorem mem_create (b : OpBuilder) (op o : Operation) :
    o ∈ (b.create op).2.ir.ops ↔ o = (b.create op).1 ∨ o ∈ b.ir.ops := by
  unfold OpBuilder.create
  cases b.ip with
  | before a => simp only [mem_insertBefore]
  | after a => simp only [mem_insertAfter]

theorem findOp_eq_none_of_fresh (ir : IR) (id : Nat) (h : ∀ o ∈ ir.ops, o.id < id) :
    ir.findOp id = none := by
  unfold IR.findOp
  rw [List.find?_eq_none]
  intro o ho
  have := h o ho
  simp
  omega

theorem freshId_le_create (b : OpBuilder) (op : Operation) :
    b.ir.freshId < (b.create op).2.ir.freshId := by
  have h := mem_lt_freshId (b.create op).2.ir (b.create op).1 ((mem_create b op _).2 (Or.inl rfl))
  rwa [create_fst_id] at h

theorem freshId_le_populate (tensor : Value) (i : Nat) (shape : List Int) (b : OpBuilder)
    (acc : List Value) :
    b.ir.freshId ≤ (populateDynamicDimSizes tensor i shape b acc).2.ir.freshId := by
  induction shape generalizing i b acc with
  | nil => simp [populateDynamicDimSizes]
  | cons d ds ih =>
    unfold populateDynamicDimSizes
    by_cases hd : isDynamic d = true
    · simp only [hd, if_true]
      exact Nat.le_trans (Nat.le_of_lt (freshId_le_create b _)) (ih _ _ _)
    · simp only [hd]
      exact ih _ _ _

theorem freshId_le_computeDynamicSizes (b : OpBuilder) (shapedValue tensor : Value)
    (copy : Bool) :
    b.ir.freshId ≤ (computeDynamicSizes b shapedValue tensor copy).2.ir.freshId := by
  unfold computeDynamicSizes
  split
  · dsimp only
    split
    · exact Nat.le_refl _
    · exact freshId_le_populate _ _ _ _ _
  · exact Nat.le_refl _

theorem shapedValueAsTensor_fresh (b : OpBuilder) (shapedValue tensor : Value) (b1 : OpBuilder)
    (h : shapedValueAsTensor b shapedValue = .ok (tensor, b1)) :
    b.ir.freshId ≤ b1.ir.freshId := by
  unfold shapedValueAsTensor at h
  split at h
  · cases h
    exact Nat.le_refl _
  · split at h
    · cases h
      exact Nat.le_of_lt (freshId_le_create b _)
    · split at h <;> cases h

/-- The operation created by `createAllocTensorOp` is found under the fresh
id; it is an `AllocTensorOp` with the escape attribute `[escape]`. -/
theorem createAllocTensorOp_spec (b : OpBuilder) (tensor : Value) (dynamicSizes : List Value)
    (escape copy : Bool) :
    (createAllocTensorOp b tensor dynamicSizes escape copy).1.id = b.ir.freshId
    ∧ ∃ op, (createAllocTensorOp b tensor dynamicSizes escape copy).2.ir.findOp b.ir.freshId
          = some op
        ∧ op.kind = .AllocTensorOp ∧ op.escapeAttr = some [escape] := by
  unfold createAllocTensorOp
  simp only
  refine ⟨create_fst_id _ _, ?_⟩
  have hid := create_fst_id b
    { id := 0, kind := .AllocTensorOp,
      operands := dynamicSizes ++ (if copy then [tensor] else []),
      copy := if copy then some dynamicSizes.length else none,
      resultTypes := [tensor.getType] }
  have hkind := create_fst_kind b
    { id := 0, kind := .AllocTensorOp,
      operands := dynamicSizes ++ (if copy then [tensor] else []),
      copy := if copy then some dynamicSizes.length else none,
      resultTypes := [tensor.getType] }
  refine ⟨{ (b.create _).1 with escapeAttr := some [escape] }, ?_, hkind, rfl⟩
  rw [findOp_modifyOp _ _ b.ir.freshId
    (fun o => { o with escapeAttr := some [escape] }) (fun o => rfl), findOp_create]
  simp [hid]

/-- `addMemorySpaceAttr` keeps the kind and the escape attribute of the
allocation, and a value it returns is result 0 of the allocation. -/
theorem addMemorySpaceAttr_spec (b : OpBuilder) (allocTensorOp : Operation) (tensor : Value)
    (options : BufferizationOptions) (copy : Bool) (escape : Bool) (op0 : Operation)
    (h0 : b.ir.findOp allocTensorOp.id = some op0) (hk : op0.kind = .AllocTensorOp)
    (he : op0.escapeAttr = some [escape]) :
    (∃ op, (addMemorySpaceAttr b allocTensorOp tensor options copy).2.ir.findOp allocTensorOp.id
          = some op
        ∧ op.kind = .AllocTensorOp ∧ op.escapeAttr = some [escape])
    ∧ ∀ r, (addMemorySpaceAttr b allocTensorOp tensor options copy).1 = .ok r →
        r = .result (allocTensorOp.getResult 0) := by
  have hid : op0.id = allocTensorOp.id := by
    have := List.find?_some h0
    simpa using this
  unfold addMemorySpaceAttr
  split
  · exact ⟨⟨op0, h0, hk, he⟩, fun r hr => by cases hr; rfl⟩
  · split
    · exact ⟨⟨op0, h0, hk, he⟩, fun r hr => by cases hr⟩
    · refine ⟨?_, fun r hr => by cases hr; rfl⟩
      simp only
      rw [findOp_modifyOp, h0]
      · simp [hid, hk, he]
      · intro o
        rfl

theorem allocate_ok (b : OpBuilder) (v : Value) (e : Bool) (options : BufferizationOptions)
    (copy : Bool) (r : Value)
    (h : (allocateTensorForShapedValue b v e options copy).1 = .ok r) :
    ∃ a : OpResult, r = .result a ∧ a.idx = 0 ∧ b.ir.findOp a.op = none
      ∧ ∃ op, (allocateTensorForShapedValue b v e options copy).2.ir.findOp a.op = some op
        ∧ op.kind = .AllocTensorOp ∧ op.escapeAttr = some [e] := by
  unfold allocateTensorForShapedValue at h ⊢
  split at h
  · cases h
  · rename_i tensor b1 heq
    dsimp only at h ⊢
    have hc := createAllocTensorOp_spec (computeDynamicSizes b1 v tensor copy).2 tensor
      (computeDynamicSizes b1 v tensor copy).1 e copy
    obtain ⟨hid, op0, hf0, hk0, he0⟩ := hc
    rw [← hid] at hf0
    have hm := addMemorySpaceAttr_spec _ _ tensor options copy e op0 hf0 hk0 he0
    obtain ⟨⟨op, hf, hk, he⟩, hres⟩ := hm
    refine ⟨_, hres r h, rfl, ?_, op, hf, hk, he⟩
    apply findOp_eq_none_of_fresh
    intro o ho
    show o.id < (createAllocTensorOp _ _ _ _ _).1.id
    rw [hid]
    have h1 := mem_lt_freshId b.ir o ho
    have h2 := shapedValueAsTensor_fresh b v tensor b1 heq
    have h3 := freshId_le_computeDynamicSizes b1 v tensor copy
    omega

/-! ## Escape round trip -/

theorem shapedValueAsTensor_ranked (b : OpBuilder) (v : Value)
    (h : v.getType.isRankedTensor = true ∨ v.getType.isMemRef = true) :
    ∃ t b1, shapedValueAsTensor b v = .ok (t, b1) := by
  unfold shapedValueAsTensor
  by_cases h2 : v.getType.isRankedTensor = true
  · rw [if_pos h2]
    exact ⟨_, _, rfl⟩
  · have h3 : v.getType.isMemRef = true := h.resolve_left h2
    rw [if_neg h2, if_pos h3]
    exact ⟨_, _, rfl⟩

/-- C9: for a ranked shaped value (a ranked tensor or a memref) and every
`escape`, `allocateTensorForShapedValue` with `copy` set succeeds, and whenever
the call succeeds the value returned is result 0 of a new `AllocTensorOp` that
carries the escape attribute `[escape]`, and `shouldDeallocateOpResult` on that
result is the negation of `escape`, whatever `createDeallocs` is. -/
theorem escape_round_trip (b : OpBuilder) (shapedValue : Value) (escape : Bool)
    (options : BufferizationOptions) (copy : Bool) (fuel : Nat)
    (hranked : shapedValue.getType.isRankedTensor = true ∨ shapedValue.getType.isMemRef = true) :
    (copy = true →
      ∃ r, (allocateTensorForShapedValue b shapedValue escape options copy).1 = .ok r)
    ∧ ∀ r, (allocateTensorForShapedValue b shapedValue escape options copy).1 = .ok r →
      ∃ a : OpResult, r = .result a ∧ a.idx = 0 ∧ b.ir.findOp a.op = none
        ∧ (a.getDefiningOp
            (allocateTensorForShapedValue b shapedValue escape options copy).2.ir).kind
            = .AllocTensorOp
        ∧ (a.getDefiningOp
            (allocateTensorForShapedValue b shapedValue escape options copy).2.ir).escapeAttr
            = some [escape]
        ∧ shouldDeallocateOpResult
            (allocateTensorForShapedValue b shapedValue escape options copy).2.ir fuel a options
            = some (!escape) := by
  constructor
  · intro hc
    obtain ⟨t, b1, ht⟩ := shapedValueAsTensor_ranked b shapedValue hranked
    unfold allocateTensorForShapedValue
    rw [ht]
    simp [addMemorySpaceAttr, hc]
  · intro r hr
    obtain ⟨a, ha, hidx, hnew, op, hf, hk, he⟩ := allocate_ok b shapedValue escape options copy r hr
    have hop := getOp_of_findOp _ _ _ hf
    refine ⟨a, ha, hidx, hnew, ?_, ?_, ?_⟩
    · simp [OpResult.getDefiningOp, hop, hk]
    · simp [OpResult.getDefiningOp, hop, he]
    · simp [shouldDeallocateOpResult, OpResult.getDefiningOp, hop, he]

/-- C9 at the result of `src`, copied before `W`: with `escape` set the new
allocation is not to be deallocated, without it it is. -/
theorem escape_round_trip_witness :
    (∃ a : OpResult,
      (allocateTensorForShapedValue { ir := Example.unknownIR, ip := .before 1 }
          (.result Example.srcResult) true Example.defaultOptions true).1 = .ok (.result a)
      ∧ shouldDeallocateOpResult
          (allocateTensorForShapedValue { ir := Example.unknownIR, ip := .before 1 }
            (.result Example.srcResult) true Example.defaultOptions true).2.ir 0 a
          Example.defaultOptions = some false)
    ∧ (∃ a : OpResult,
      (allocateTensorForShapedValue { ir := Example.unknownIR, ip := .before 1 }
          (.result Example.srcResult) false Example.defaultOptions true).1 = .ok (.result a)
      ∧ shouldDeallocateOpResult
          (allocateTensorForShapedValue { ir := Example.unknownIR, ip := .before 1 }
            (.result Example.srcResult) false Example.defaultOptions true).2.ir 0 a
          Example.defaultOptions = some true) := by
  constructor
  · have h := escape_round_trip { ir := Example.unknownIR, ip := .before 1 }
      (.result Example.srcResult) true Example.defaultOptions true 0 (Or.inl rfl)
    obtain ⟨r, hr⟩ := h.1 rfl
    obtain ⟨a, ha, -, -, -, -, hs⟩ := h.2 r hr
    exact ⟨a, ha ▸ hr, hs⟩
  · have h := escape_round_trip { ir := Example.unknownIR, ip := .before 1 }
      (.result Example.srcResult) false Example.defaultOptions true 0 (Or.inl rfl)
    obtain ⟨r, hr⟩ := h.1 rfl
    obtain ⟨a, ha, -, -, -, -, hs⟩ := h.2 r hr
    exact ⟨a, ha ▸ hr, hs⟩

/-! ## Deallocation advice -/

/-- C10, the code at a failing input: result 1 of an allocating operation whose
escape attribute is `[false, true]`.  The assertion of
`shouldDeallocateOpResult` holds, the bit of result 1 is set, so the result
escapes and `allocationDoesNotEscape` is false; `shouldDeallocateOpResult`
reads the bit of result 0 and returns true. -/
theorem shouldDeallocateOpResult_reads_bit_zero :
    bufferizesToAllocation Example.twoAllocsIR ⟨0, 1, Example.tensorTy⟩ Example.defaultOptions
      = true
    ∧ (OpResult.getDefiningOp Example.twoAllocsIR ⟨0, 1, Example.tensorTy⟩).escapeAttr
      = some [false, true]
    ∧ shouldDeallocateOpResult Example.twoAllocsIR 0 ⟨0, 1, Example.tensorTy⟩
        Example.defaultOptions = some true
    ∧ allocationDoesNotEscape Example.twoAllocsIR ⟨0, 1, Example.tensorTy⟩ = false := by
  decide

/-! ## The builder: where new operations go -/

theorem insertBefore_append (a : Nat) (new x : Operation) (pre l2 : List Operation)
    (hpre : ∀ o ∈ pre, o.id ≠ a) (hx : x.id = a) :
    insertBefore a new (pre ++ x :: l2) = pre ++ new :: x :: l2 := by
  induction pre with
  | nil => simp [insertBefore, hx]
  | cons p ps ih =>
    have hp : p.id ≠ a := hpre p (by simp)
    have ih := ih (fun o ho => hpre o (by simp [ho]))
    show insertBefore a new (p :: (ps ++ x :: l2)) = p :: (ps ++ new :: x :: l2)
    rw [insertBefore, if_neg hp, ih]

theorem insertAfter_append (a : Nat) (new x : Operation) (l1 l2 : List Operation)
    (hpre : ∀ o ∈ l1, o.id ≠ a) (hx : x.id = a) :
    insertAfter a new (l1 ++ x :: l2) = l1 ++ x :: new :: l2 := by
  induction l1 with
  | nil => simp [insertAfter, hx]
  | cons p ps ih =>
    have hp : p.id ≠ a := hpre p (by simp)
    have ih := ih (fun o ho => hpre o (by simp [ho]))
    show insertAfter a new (p :: (ps ++ x :: l2)) = p :: (ps ++ x :: new :: l2)
    rw [insertAfter, if_neg hp, ih]

theorem create_between (b : OpBuilder) (op : Operation) (pre post : List Operation)
    (h : b.InsertsBetween pre post) :
    (b.create op).2.InsertsBetween (pre ++ [(b.create op).1]) post := by
  obtain ⟨hops, hip⟩ := h
  have hfresh : ∀ o ∈ pre ++ post, o.id < b.ir.freshId := by
    intro o ho
    exact mem_lt_freshId b.ir o (hops ▸ ho)
  unfold OpBuilder.InsertsBetween OpBuilder.create
  cases hb : b.ip with
  | before a =>
    rw [hb] at hip
    obtain ⟨hpre, x, l2, hpost, hx⟩ := hip
    subst hpost
    simp only
    refine ⟨?_, ?_, x, l2, rfl, hx⟩
    · rw [hops, insertBefore_append a _ x pre l2 hpre hx]
      simp
    · intro o ho
      simp only [List.mem_append, List.mem_singleton] at ho
      rcases ho with ho | rfl
      · exact hpre o ho
      · have := hfresh x (by simp)
        simp only
        omega
  | after a =>
    rw [hb] at hip
    obtain ⟨l1, x, hpre, hx, hl1⟩ := hip
    subst hpre
    simp only
    refine ⟨?_, l1 ++ [x], _, rfl, rfl, ?_⟩
    · rw [hops]
      simp only [List.append_assoc, List.singleton_append]
      rw [insertAfter_append a _ x l1 post hl1 hx]
      simp
    · intro o ho
      have := hfresh o (by simp only [List.mem_append] at ho ⊢; exact Or.inl ho)
      omega

theorem map_modify_of_ne (l : List Operation) (id : Nat) (f : Operation → Operation)
    (h : ∀ o ∈ l, o.id ≠ id) :
    l.map (fun o => if o.id = id then f o else o) = l := by
  induction l with
  | nil => rfl
  | cons x xs ih =>
    have hx : x.id ≠ id := h x (by simp)
    simp only [List.map_cons, hx, if_false]
    rw [ih (fun o ho => h o (by simp [ho]))]

/-- Modifying the operation at the end of `pre`, the only one with its id. -/
theorem modify_between (b : OpBuilder) (pre post : List Operation) (new : Operation)
    (f : Operation → Operation) (hf : ∀ o, (f o).id = o.id)
    (h : b.InsertsBetween (pre ++ [new]) post)
    (hne : ∀ o ∈ pre ++ post, o.id ≠ new.id) :
    OpBuilder.InsertsBetween { b with ir := b.ir.modifyOp new.id f } (pre ++ [f new]) post := by
  obtain ⟨hops, hip⟩ := h
  have hpre : ∀ o ∈ pre, o.id ≠ new.id := fun o ho => hne o (by simp [ho])
  have hpost : ∀ o ∈ post, o.id ≠ new.id := fun o ho => hne o (by simp [ho])
  unfold OpBuilder.InsertsBetween
  refine ⟨?_, ?_⟩
  · simp only [IR.modifyOp, hops, List.map_append, List.map_cons, List.map_nil, if_true,
      map_modify_of_ne pre new.id f hpre, map_modify_of_ne post new.id f hpost]
  · simp only
    cases hb : b.ip with
    | before a =>
      rw [hb] at hip
      obtain ⟨hpre', x, l2, hpost', hx⟩ := hip
      refine ⟨?_, x, l2, hpost', hx⟩
      intro o ho
      simp only [List.mem_append, List.mem_singleton] at ho
      rcases ho with ho | rfl
      · exact hpre' o (by simp [ho])
      · rw [hf]
        exact hpre' new (by simp)
    | after a =>
      rw [hb] at hip
      obtain ⟨l1, x, hpre', hx, hl1⟩ := hip
      have hlast := List.append_inj' hpre' rfl
      obtain ⟨h1, h2⟩ := hlast
      simp only [List.cons.injEq, and_true] at h2
      subst h1 h2
      exact ⟨pre, f new, rfl, (hf new).trans hx, hl1⟩

theorem create_fst_operands (b : OpBuilder) (op : Operation) :
    (b.create op).1.operands = op.operands := by
  unfold OpBuilder.create
  cases b.ip <;> rfl

theorem populate_between (tensor : Value) (i : Nat) (shape : List Int) (b : OpBuilder)
    (acc : List Value) (pre post : List Operation) (h : b.InsertsBetween pre post) :
    ∃ dims, (populateDynamicDimSizes tensor i shape b acc).2.InsertsBetween (pre ++ dims) post
      ∧ ∀ d ∈ dims, d.kind = .DimOp ∧ d.operands = [tensor] ∧ b.ir.freshId ≤ d.id := by
  induction shape generalizing i b acc pre with
  | nil => exact ⟨[], by simpa [populateDynamicDimSizes] using h, by simp⟩
  | cons d ds ih =>
    unfold populateDynamicDimSizes
    by_cases hd : isDynamic d = true
    · simp only [hd, if_true]
      obtain ⟨dims, hb, hdims⟩ := ih (i + 1) _ (acc ++ [.result ((b.create
        { id := 0, kind := .DimOp, operands := [tensor], resultTypes := [Ty.index],
          dimIndex := some i }).1.getResult 0)]) _ (create_between b _ pre post h)
      refine ⟨(b.create _).1 :: dims, by simpa using hb, ?_⟩
      intro x hx
      simp only [List.mem_cons] at hx
      rcases hx with rfl | hx
      · exact ⟨create_fst_kind _ _, create_fst_operands _ _,
          Nat.le_of_eq (create_fst_id _ _).symm⟩
      · exact ⟨(hdims x hx).1, (hdims x hx).2.1,
          Nat.le_trans (Nat.le_of_lt (freshId_le_create b _)) (hdims x hx).2.2⟩
    · simp only [hd]
      exact ih (i + 1) b acc pre h

theorem computeDynamicSizes_between (b : OpBuilder) (shapedValue tensor : Value) (copy : Bool)
    (pre post : List Operation) (h : b.InsertsBetween pre post) :
    ∃ dims, (computeDynamicSizes b shapedValue tensor copy).2.InsertsBetween (pre ++ dims) post
      ∧ (∀ d ∈ dims, d.kind = .DimOp ∧ d.operands = [tensor] ∧ b.ir.freshId ≤ d.id)
      ∧ (copy = true → dims = [] ∧ (computeDynamicSizes b shapedValue tensor copy).1 = []) := by
  unfold computeDynamicSizes
  cases copy with
  | true => exact ⟨[], by simpa using h, by simp, by simp⟩
  | false =>
    simp only [Bool.not_false, if_true]
    split
    · exact ⟨[], by simpa using h, by simp, by simp⟩
    · obtain ⟨dims, h1, h2⟩ := populate_between tensor 0 tensor.getType.getShape b [] pre post h
      exact ⟨dims, h1, h2, by simp⟩

theorem createAllocTensorOp_between (b : OpBuilder) (tensor : Value) (dynamicSizes : List Value)
    (escape copy : Bool) (pre post : List Operation) (h : b.InsertsBetween pre post) :
    ∃ alloc, (createAllocTensorOp b tensor dynamicSizes escape copy).2.InsertsBetween
          (pre ++ [alloc]) post
      ∧ IsAllocTensorFor alloc b.ir.freshId tensor dynamicSizes escape copy
      ∧ (createAllocTensorOp b tensor dynamicSizes escape copy).1.id = b.ir.freshId
      ∧ (createAllocTensorOp b tensor dynamicSizes escape copy).1.resultTypes
          = [tensor.getType] := by
  have hc := create_between b
    { id := 0, kind := .AllocTensorOp,
      operands := dynamicSizes ++ (if copy then [tensor] else []),
      copy := if copy then some dynamicSizes.length else none,
      resultTypes := [tensor.getType] } pre post h
  have hid := create_fst_id b
    { id := 0, kind := .AllocTensorOp,
      operands := dynamicSizes ++ (if copy then [tensor] else []),
      copy := if copy then some dynamicSizes.length else none,
      resultTypes := [tensor.getType] }
  have hne : ∀ o ∈ pre ++ post, o.id ≠ (b.create
      { id := 0, kind := .AllocTensorOp,
        operands := dynamicSizes ++ (if copy then [tensor] else []),
        copy := if copy then some dynamicSizes.length else none,
        resultTypes := [tensor.getType] }).1.id := by
    intro o ho
    have := mem_lt_freshId b.ir o (h.1 ▸ ho)
    rw [hid]
    omega
  have hm := modify_between _ pre post _ (fun o => { o with escapeAttr := some [escape] })
    (fun o => rfl) hc hne
  refine ⟨_, hm, ?_, hid, ?_⟩
  · unfold IsAllocTensorFor OpBuilder.create
    cases b.ip <;> exact ⟨rfl, rfl, rfl, rfl, rfl, rfl⟩
  · unfold createAllocTensorOp OpBuilder.create
    cases b.ip <;> rfl

theorem addMemorySpaceAttr_between (b : OpBuilder) (allocTensorOp alloc : Operation)
    (tensor : Value) (options : BufferizationOptions) (copy escape : Bool)
    (dynamicSizes : List Value) (id : Nat) (pre post : List Operation)
    (h : b.InsertsBetween (pre ++ [alloc]) post)
    (hne : ∀ o ∈ pre ++ post, o.id ≠ alloc.id)
    (hid : allocTensorOp.id = alloc.id)
    (ha : IsAllocTensorFor alloc id tensor dynamicSizes escape copy) :
    ∃ alloc', (addMemorySpaceAttr b allocTensorOp tensor options copy).2.InsertsBetween
          (pre ++ [alloc']) post
      ∧ IsAllocTensorFor alloc' id tensor dynamicSizes escape copy
      ∧ (copy = true →
          (addMemorySpaceAttr b allocTensorOp tensor options copy).1
            = .ok (.result (allocTensorOp.getResult 0)))
      ∧ ∀ r, (addMemorySpaceAttr b allocTensorOp tensor options copy).1 = .ok r →
          r = .result (allocTensorOp.getResult 0) := by
  unfold addMemorySpaceAttr
  split
  · exact ⟨alloc, h, ha, fun _ => rfl, fun r hr => by cases hr; rfl⟩
  · rename_i hcopy
    split
    · exact ⟨alloc, h, ha, fun hc => absurd hc hcopy, fun r hr => by cases hr⟩
    · rw [hid]
      refine ⟨_, modify_between b pre post alloc _ (fun o => rfl) h hne, ?_,
        fun hc => absurd hc hcopy, fun r hr => by cases hr; rfl⟩
      exact ha

/-- The graph after `allocateTensorForShapedValue` for a ranked tensor: new
shape queries and then the new allocation, all at the insertion point. -/
theorem allocate_between (b : OpBuilder) (v : Value) (escape : Bool)
    (options : BufferizationOptions) (copy : Bool) (pre post : List Operation)
    (h : b.InsertsBetween pre post) (hv : v.getType.isRankedTensor = true) :
    ∃ dims alloc sizes,
      (allocateTensorForShapedValue b v escape options copy).2.InsertsBetween
          (pre ++ dims ++ [alloc]) post
      ∧ (∀ d ∈ dims, d.kind = .DimOp ∧ d.operands = [v] ∧ b.ir.freshId ≤ d.id)
      ∧ b.ir.freshId ≤ alloc.id
      ∧ (∀ o ∈ pre ++ dims ++ post, o.id ≠ alloc.id)
      ∧ IsAllocTensorFor alloc alloc.id v sizes escape copy
      ∧ (copy = true → dims = [] ∧ sizes = []
          ∧ (allocateTensorForShapedValue b v escape options copy).1
              = .ok (.result ⟨alloc.id, 0, v.getType⟩))
      ∧ ∀ r, (allocateTensorForShapedValue b v escape options copy).1 = .ok r →
          r = .result ⟨alloc.id, 0, v.getType⟩ := by
  have ht : shapedValueAsTensor b v = .ok (v, b) := by
    simp [shapedValueAsTensor, hv]
  unfold allocateTensorForShapedValue
  rw [ht]
  dsimp only
  obtain ⟨dims, hd1, hd2, hd3⟩ := computeDynamicSizes_between b v v copy pre post h
  obtain ⟨alloc, ha1, ha2, ha3, ha4⟩ := createAllocTensorOp_between
    (computeDynamicSizes b v v copy).2 v (computeDynamicSizes b v v copy).1 escape copy
    (pre ++ dims) post hd1
  have hfr := freshId_le_computeDynamicSizes b v v copy
  have hne : ∀ o ∈ (pre ++ dims) ++ post, o.id ≠ alloc.id := by
    intro o ho
    have := mem_lt_freshId (computeDynamicSizes b v v copy).2.ir o (hd1.1 ▸ ho)
    rw [ha2.1]
    omega
  obtain ⟨alloc', hm1, hm2, hm3, hm4⟩ := addMemorySpaceAttr_between _
    (createAllocTensorOp (computeDynamicSizes b v v copy).2 v
      (computeDynamicSizes b v v copy).1 escape copy).1 alloc v options copy escape
    (computeDynamicSizes b v v copy).1 _ (pre ++ dims) post ha1 hne (ha3.trans ha2.1.symm) ha2
  have hres : (createAllocTensorOp (computeDynamicSizes b v v copy).2 v
      (computeDynamicSizes b v v copy).1 escape copy).1.getResult 0
        = ⟨alloc'.id, 0, v.getType⟩ := by
    simp [Operation.getResult, ha3, ha4, hm2.1]
  refine ⟨dims, alloc', (computeDynamicSizes b v v copy).1, hm1, hd2, ?_, ?_, ?_, ?_, ?_⟩
  · rw [hm2.1]
    exact hfr
  · rw [hm2.1, ← ha2.1]
    exact hne
  · rw [hm2.1]
    exact hm2
  · intro hc
    refine ⟨(hd3 hc).1, (hd3 hc).2, ?_⟩
    rw [hm3 hc, hres]
  · intro r hr
    rw [hm4 r hr, hres]

/-! ## The classification loop on an operation with one tensor operand -/

theorem classifyOpOperand_of_not_tensor (state : AnalysisState) (ir : IR) (fuel : Nat)
    (o : OpOperand) (s : ConflictSets) (h : (o.get ir).getType.isTensor = false) :
    classifyOpOperand state ir fuel o s = some (.ok s) := by
  simp [classifyOpOperand, h]

theorem classifyOpOperands_skip (state : AnalysisState) (ir : IR) (fuel : Nat)
    (l : List OpOperand) (s : ConflictSets)
    (h : ∀ o ∈ l, (o.get ir).getType.isTensor = false) :
    classifyOpOperands state ir fuel l s = some (.ok s) := by
  induction l with
  | nil => rfl
  | cons o os ih =>
    simp only [classifyOpOperands, classifyOpOperand_of_not_tensor state ir fuel o s
      (h o (by simp))]
    exact ih (fun x hx => h x (by simp [hx]))

theorem classifyOpOperands_from (state : AnalysisState) (ir : IR) (fuel : Nat)
    (W : Operation) (k : Nat) (hW : ir.getOp W.id = W)
    (hothers : ∀ i, i ≠ k → (W.getOperand i).getType.isTensor = false)
    (l : List Value) (i : Nat) (s : ConflictSets) :
    classifyOpOperands state ir fuel (opOperandsFrom W.id i l) s
      = if i ≤ k ∧ k < i + l.length then classifyOpOperand state ir fuel ⟨W.id, k⟩ s
        else some (.ok s) := by
  have hget : ∀ j, OpOperand.get ir ⟨W.id, j⟩ = W.getOperand j := by
    intro j
    simp [OpOperand.get, hW]
  induction l generalizing i s with
  | nil =>
    have : ¬ (i ≤ k ∧ k < i + ([] : List Value).length) := by
      simp only [List.length_nil]
      omega
    rw [if_neg this]
    rfl
  | cons w ws ih =>
    simp only [opOperandsFrom, classifyOpOperands, List.length_cons]
    by_cases hik : i = k
    · subst hik
      have hc : i ≤ i ∧ i < i + (ws.length + 1) := ⟨Nat.le_refl _, by omega⟩
      rw [if_pos hc]
      cases hres : classifyOpOperand state ir fuel ⟨W.id, i⟩ s with
      | none => rfl
      | some r =>
        cases r with
        | error e => rfl
        | ok s' =>
          simp only
          rw [ih (i + 1) s']
          have : ¬ (i + 1 ≤ i ∧ i < i + 1 + ws.length) := by omega
          rw [if_neg this]
    · have hskip := classifyOpOperand_of_not_tensor state ir fuel ⟨W.id, i⟩ s
        (by rw [hget]; exact hothers i hik)
      simp only [hskip]
      rw [ih (i + 1) s]
      by_cases hc : i ≤ k ∧ k < i + (ws.length + 1)
      · have hc' : i + 1 ≤ k ∧ k < i + 1 + ws.length := by omega
        rw [if_pos hc, if_pos hc']
      · have hc' : ¬ (i + 1 ≤ k ∧ k < i + 1 + ws.length) := by omega
        rw [if_neg hc, if_neg hc']

/-- For an operation whose operand `k` is its only tensor operand, the
classification loop does what its body does for operand `k`. -/
theorem classifyOpOperands_only (state : AnalysisState) (ir : IR) (fuel : Nat)
    (W : Operation) (k : Nat) (hW : ir.getOp W.id = W) (hk : k < W.operands.length)
    (hothers : ∀ i, i ≠ k → (W.getOperand i).getType.isTensor = false) (s : ConflictSets) :
    classifyOpOperands state ir fuel W.getOpOperands s
      = classifyOpOperand state ir fuel ⟨W.id, k⟩ s := by
  unfold Operation.getOpOperands
  rw [classifyOpOperands_from state ir fuel W k hW hothers, if_pos]
  exact ⟨Nat.zero_le _, by simpa using hk⟩

/-! ## The conflict resolver on a writing operation -/

theorem findOp_append_cons (ir : IR) (pre rest : List Operation) (x : Operation)
    (hops : ir.ops = pre ++ x :: rest) (hpre : ∀ o ∈ pre, o.id ≠ x.id) :
    ir.findOp x.id = some x := by
  unfold IR.findOp
  rw [hops]
  clear hops
  induction pre with
  | nil => simp [find?_cons_id]
  | cons p ps ih =>
    have hp : p.id ≠ x.id := hpre p (by simp)
    rw [List.cons_append, find?_cons_id, if_neg hp]
    exact ih (fun o ho => hpre o (by simp [ho]))

theorem getOp_append_cons (ir : IR) (pre rest : List Operation) (x : Operation)
    (hops : ir.ops = pre ++ x :: rest) (hpre : ∀ o ∈ pre, o.id ≠ x.id) :
    ir.getOp x.id = x :=
  getOp_of_findOp ir x.id x (findOp_append_cons ir pre rest x hops hpre)

theorem modifyOp_ops_append_cons (ir : IR) (pre rest : List Operation) (x : Operation)
    (f : Operation → Operation) (hops : ir.ops = pre ++ x :: rest)
    (hpre : ∀ o ∈ pre, o.id ≠ x.id) (hrest : ∀ o ∈ rest, o.id ≠ x.id) :
    (ir.modifyOp x.id f).ops = pre ++ f x :: rest := by
  simp only [IR.modifyOp, hops, List.map_append, List.map_cons, if_true,
    map_modify_of_ne pre x.id f hpre, map_modify_of_ne rest x.id f hrest]

theorem anyOf_cons_true {α : Type} (f : α → Option Bool) (a : α) (l : List α)
    (h : f a = some true) : AnalysisState.anyOf f (a :: l) = some true := by
  simp [AnalysisState.anyOf, h]

/-- Under the state without analysis information, a result that is not defined
by an `AllocTensorOp` is yielded, whatever the fuel. -/
theorem isTensorYielded_of_not_alloc (options : BufferizationOptions) (ir : IR) (fuel : Nat)
    (r : OpResult) (h : (ir.getOp r.op).kind ≠ .AllocTensorOp) :
    AnalysisState.isTensorYielded options ir fuel (.result r) = some true := by
  simp [AnalysisState.isTensorYielded, AnalysisState.definedByAllocTensorOp,
    OpResult.getDefiningOp, h]

/-- Under the state without analysis information, an operand that bufferizes
to a memory write can have its copy omitted exactly when it does not bufferize
to a memory read; no fuel is needed. -/
theorem canOmitTensorCopy_base_of_write (options : BufferizationOptions) (ir : IR) (fuel : Nat)
    (o : OpOperand) (hw : AnalysisState.bufferizesToMemoryWrite options ir o = true) :
    AnalysisState.canOmitTensorCopy (AnalysisState.base options) ir fuel o
      = some (!AnalysisState.bufferizesToMemoryRead options ir o) := by
  unfold AnalysisState.canOmitTensorCopy
  cases hr : AnalysisState.bufferizesToMemoryRead options ir o <;>
    simp [AnalysisState.base, AnalysisState.hasUndefinedContents, hw, hr]

/-- The classification loop for an operation whose only tensor operand is `v`,
a ranked tensor that the operation writes, under the state without analysis
information: the operand is copied, the copy escapes, and it is seeded exactly
when the operand is read. -/
theorem classify_writing_op (options : BufferizationOptions) (ir : IR) (fuel : Nat)
    (W : Operation) (k : Nat) (v : Value) (a : AliasingOpResult) (rest : AliasingOpResultList)
    (hW : ir.getOp W.id = W)
    (hk : k < W.operands.length) (hoperand : W.getOperand k = v)
    (hothers : ∀ i, i ≠ k → (W.getOperand i).getType.isTensor = false)
    (hv : v.getType.isRankedTensor = true)
    (hkind : W.kind ≠ .ToMemrefOp)
    (hwrite : AnalysisState.bufferizesToMemoryWrite options ir ⟨W.id, k⟩ = true)
    (halias : AnalysisState.getAliasingOpResults options ir ⟨W.id, k⟩ = a :: rest)
    (hnotalloc : (ir.getOp a.opResult.op).kind ≠ .AllocTensorOp) :
    classifyOpOperands (AnalysisState.base options) ir fuel W.getOpOperands {}
      = some (.ok
          { outOfPlaceOpOperands := [⟨W.id, k⟩]
            copiedOpOperands :=
              if AnalysisState.bufferizesToMemoryRead options ir ⟨W.id, k⟩ then [⟨W.id, k⟩]
              else []
            escapingOpOperandCopies := [⟨W.id, k⟩] }) := by
  have hget : OpOperand.get ir ⟨W.id, k⟩ = v := by
    simp [OpOperand.get, hW, hoperand]
  have hten : v.getType.isTensor = true := by simp [Ty.isTensor, hv]
  have hunr : v.getType.isUnrankedTensor = false := by
    cases hty : v.getType <;> simp_all [Ty.isRankedTensor, Ty.isUnrankedTensor]
  have hip : (AnalysisState.base options).methods.isInPlace ir ⟨W.id, k⟩ = false := by
    simp [AnalysisState.base, AnalysisState.isInPlace, OpOperand.getOwner, hW, hkind, hwrite]
  have hesc : AnalysisState.anyOf
      (fun a => (AnalysisState.base options).methods.isTensorYielded ir fuel (.result a.opResult))
      (a :: rest) = some true :=
    anyOf_cons_true _ a rest (isTensorYielded_of_not_alloc options ir fuel a.opResult hnotalloc)
  have hom := canOmitTensorCopy_base_of_write options ir fuel ⟨W.id, k⟩ hwrite
  have hopts : (AnalysisState.base options).options = options := rfl
  rw [classifyOpOperands_only _ ir fuel W k hW hk hothers]
  simp only [classifyOpOperand, hget, hten, hunr, hip, hopts, halias, hesc, hom, hwrite]
  cases hr : AnalysisState.bufferizesToMemoryRead options ir ⟨W.id, k⟩ <;>
    cases hd : options.createDeallocs <;> cases rest <;> simp

/-- The conflict resolver on an operation `W` whose only tensor operand is
`v`, a ranked tensor that `W` writes, under the state without analysis information:
new shape queries and one new allocation are put right before `W`, the
allocation is tagged escaping, and the operand of `W` is set to it. -/
theorem resolve_writing_op (options : BufferizationOptions) (ir : IR) (fuel : Nat)
    (l1 l2 : List Operation) (W : Operation) (k : Nat) (v : Value)
    (a : AliasingOpResult) (rest : AliasingOpResultList)
    (hops : ir.ops = l1 ++ W :: l2)
    (hl1 : ∀ o ∈ l1, o.id ≠ W.id) (hl2 : ∀ o ∈ l2, o.id ≠ W.id)
    (hk : k < W.operands.length) (hoperand : W.getOperand k = v)
    (hothers : ∀ i, i ≠ k → (W.getOperand i).getType.isTensor = false)
    (hv : v.getType.isRankedTensor = true)
    (hkind : W.kind ≠ .ToMemrefOp)
    (hwrite : AnalysisState.bufferizesToMemoryWrite options ir ⟨W.id, k⟩ = true)
    (halias : AnalysisState.getAliasingOpResults options ir ⟨W.id, k⟩ = a :: rest)
    (hnotalloc : (ir.getOp a.opResult.op).kind ≠ .AllocTensorOp) :
    ∃ (dims : List Operation) (alloc W' : Operation) (res : LogicalResult) (ir' : IR),
      resolveTensorOpOperandConflicts (AnalysisState.base options) fuel ir W.id
          = some (res, ir')
      ∧ ir'.ops = l1 ++ dims ++ alloc :: W' :: l2
      ∧ (∀ d ∈ dims, d.kind = .DimOp)
      ∧ alloc.kind = .AllocTensorOp
      ∧ alloc.escapeAttr = some [true]
      ∧ ir.findOp alloc.id = none
      ∧ ir'.getOp alloc.id = alloc
      ∧ (res = .ok () →
          W' = { W with operands := W.operands.set k (.result (alloc.getResult 0)) })
      ∧ (∀ e, res = .error e → W' = W)
      ∧ (AnalysisState.bufferizesToMemoryRead options ir ⟨W.id, k⟩ = true →
          res = .ok () ∧ dims = [] ∧ alloc.operands = [v] ∧ alloc.copy = some 0)
      ∧ (AnalysisState.bufferizesToMemoryRead options ir ⟨W.id, k⟩ = false →
          alloc.copy = none) := by
  have hW : ir.getOp W.id = W := getOp_append_cons ir l1 l2 W hops hl1
  have hcl := classify_writing_op options ir fuel W k v a rest hW hk hoperand hothers hv hkind
    hwrite halias hnotalloc
  have hget : OpOperand.get ir ⟨W.id, k⟩ = v := by
    simp [OpOperand.get, hW, hoperand]
  have hb0 : OpBuilder.InsertsBetween { ir := ir, ip := .before W.id } l1 (W :: l2) :=
    ⟨hops, hl1, W, l2, rfl, rfl⟩
  obtain ⟨dims, alloc, sizes, hb1, hdims, hfr, hne, hal, hcopy, hres⟩ :=
    allocate_between { ir := ir, ip := .before W.id } v true options
      (AnalysisState.bufferizesToMemoryRead options ir ⟨W.id, k⟩) l1 (W :: l2) hb0 hv
  have hWlt : W.id < ir.freshId := mem_lt_freshId ir W (by simp [hops])
  have hnew : ir.findOp alloc.id = none :=
    findOp_eq_none_of_fresh ir alloc.id (fun o ho => by
      have := mem_lt_freshId ir o ho
      exact Nat.lt_of_lt_of_le this hfr)
  have hpreW : ∀ o ∈ l1 ++ dims ++ [alloc], o.id ≠ W.id := by
    intro o ho
    simp only [List.mem_append, List.mem_singleton] at ho
    rcases ho with (ho | ho) | rfl
    · exact hl1 o ho
    · have := (hdims o ho).2.2
      have h2 : ir.freshId ≤ o.id := this
      omega
    · have h2 : ir.freshId ≤ o.id := hfr
      omega
  have hprea : ∀ o ∈ l1 ++ dims, o.id ≠ alloc.id := fun o ho => hne o (by
    simp only [List.mem_append] at ho ⊢
    exact Or.inl ho)
  have hgr : alloc.getResult 0 = ⟨alloc.id, 0, v.getType⟩ := by
    simp [Operation.getResult, hal.2.2.2.2.2]
  have hcontains : ([({ owner := W.id, idx := k } : OpOperand)].contains ⟨W.id, k⟩) = true := by
    simp
  have hcontains2 : ((if AnalysisState.bufferizesToMemoryRead options ir ⟨W.id, k⟩ = true
      then [({ owner := W.id, idx := k } : OpOperand)] else []).contains ⟨W.id, k⟩)
      = AnalysisState.bufferizesToMemoryRead options ir ⟨W.id, k⟩ := by
    cases AnalysisState.bufferizesToMemoryRead options ir ⟨W.id, k⟩ <;> simp
  have hopts : (AnalysisState.base options).options = options := rfl
  simp only [resolveTensorOpOperandConflicts, hW, hcl, insertOpOperandCopies, hget,
    hcontains, hcontains2, hopts, insertOpResultCopies]
  generalize allocateTensorForShapedValue { ir := ir, ip := .before W.id } v true options
    (AnalysisState.bufferizesToMemoryRead options ir ⟨W.id, k⟩) = A at hb1 hcopy hres ⊢
  obtain ⟨res, b1⟩ := A
  have hops1 : b1.ir.ops = (l1 ++ dims) ++ alloc :: W :: l2 := by
    simpa using hb1.1
  have hfacts : (AnalysisState.bufferizesToMemoryRead options ir ⟨W.id, k⟩ = true →
        dims = [] ∧ alloc.operands = [v] ∧ alloc.copy = some 0)
      ∧ (AnalysisState.bufferizesToMemoryRead options ir ⟨W.id, k⟩ = false →
        alloc.copy = none) := by
    constructor
    · intro hread
      have h1 := hal.2.2.2.1
      have h2 := hal.2.2.2.2.1
      rw [hread, (hcopy hread).2.1] at h1 h2
      exact ⟨(hcopy hread).1, by simpa using h1, by simpa using h2⟩
    · intro hread
      have h2 := hal.2.2.2.2.1
      rw [hread] at h2
      simpa using h2
  cases res with
  | error e =>
    refine ⟨dims, alloc, W, .error e, b1.ir, rfl, by simpa using hops1,
      fun d hd => (hdims d hd).1, hal.2.1, hal.2.2.1, hnew,
      getOp_append_cons _ (l1 ++ dims) (W :: l2) alloc hops1 hprea,
      (fun h => by cases h), fun _ _ => rfl, ?_, hfacts.2⟩
    intro hread
    have := (hcopy hread).2.2
    cases this
  | ok r =>
    have hr' := hres r rfl
    subst hr'
    have hops2 := modifyOp_ops_append_cons b1.ir (l1 ++ dims ++ [alloc]) l2 W
      (fun o => { o with operands := o.operands.set k (.result ⟨alloc.id, 0, v.getType⟩) })
      (by simpa using hops1) hpreW hl2
    have hops3 : (b1.ir.setOperand ⟨W.id, k⟩ (.result ⟨alloc.id, 0, v.getType⟩)).ops
        = (l1 ++ dims) ++ alloc
            :: { W with operands := W.operands.set k (.result (alloc.getResult 0)) } :: l2 := by
      unfold IR.setOperand
      rw [hops2, hgr]
      simp
    refine ⟨dims, alloc,
      { W with operands := W.operands.set k (.result (alloc.getResult 0)) }, .ok (),
      b1.ir.setOperand ⟨W.id, k⟩ (.result ⟨alloc.id, 0, v.getType⟩), rfl,
      by simpa using hops3, fun d hd => (hdims d hd).1, hal.2.1, hal.2.2.1, hnew,
      getOp_append_cons _ (l1 ++ dims) _ alloc hops3 hprea,
      fun _ => rfl, (fun e h => by cases h), ?_, hfacts.2⟩
    intro hread
    exact ⟨rfl, hfacts.1 hread⟩

/-- C8, as amended: for an operation `W`, neither an `AllocTensorOp` nor a
`ToMemrefOp`, that writes its single tensor operand (operand `k`, a ranked
tensor) and has one result aliasing that operand, `resolveTensorOpOperandConflicts` under the state
without analysis information returns for every fuel; it puts exactly one new
allocation right before `W`, preceded only by the shape queries that size it,
tags it escaping (escape attribute `[true]`) whatever `createDeallocs` is,
`shouldDeallocateOpResult` on the allocation is false, and on success the
operand of `W` is the allocation. -/
theorem resolve_writing_op_allocation_escapes (options : BufferizationOptions) (ir : IR)
    (fuel : Nat) (l1 l2 : List Operation) (W : Operation) (k : Nat) (v : Value)
    (relation : BufferRelation) (isDefinite : Bool)
    (hops : ir.ops = l1 ++ W :: l2)
    (hl1 : ∀ o ∈ l1, o.id ≠ W.id) (hl2 : ∀ o ∈ l2, o.id ≠ W.id)
    (hk : k < W.operands.length) (hoperand : W.getOperand k = v)
    (hothers : ∀ i, i ≠ k → (W.getOperand i).getType.isTensor = false)
    (hv : v.getType.isRankedTensor = true)
    (hkind : W.kind ≠ .ToMemrefOp) (hkind2 : W.kind ≠ .AllocTensorOp)
    (hwrite : AnalysisState.bufferizesToMemoryWrite options ir ⟨W.id, k⟩ = true)
    (halias : AnalysisState.getAliasingOpResults options ir ⟨W.id, k⟩
      = [{ opResult := W.getResult 0, relation := relation, isDefinite := isDefinite }]) :
    ∃ (dims : List Operation) (alloc W' : Operation) (res : LogicalResult) (ir' : IR),
      resolveTensorOpOperandConflicts (AnalysisState.base options) fuel ir W.id
          = some (res, ir')
      ∧ ir'.ops = l1 ++ dims ++ alloc :: W' :: l2
      ∧ (∀ d ∈ dims, d.kind = .DimOp)
      ∧ alloc.kind = .AllocTensorOp
      ∧ ir.findOp alloc.id = none
      ∧ alloc.escapeAttr = some [true]
      ∧ shouldDeallocateOpResult ir' fuel (alloc.getResult 0) options = some false
      ∧ (res = .ok () →
          W' = { W with operands := W.operands.set k (.result (alloc.getResult 0)) })
      ∧ (AnalysisState.bufferizesToMemoryRead options ir ⟨W.id, k⟩ = true →
          res = .ok () ∧ dims = [] ∧ alloc.operands = [v] ∧ alloc.copy = some 0) := by
  have hW : ir.getOp W.id = W := getOp_append_cons ir l1 l2 W hops hl1
  have hna : (ir.getOp
      ({ opResult := W.getResult 0, relation := relation, isDefinite := isDefinite }
        : AliasingOpResult).opResult.op).kind ≠ .AllocTensorOp := by
    show (ir.getOp W.id).kind ≠ _
    rw [hW]
    exact hkind2
  obtain ⟨dims, alloc, W', res, ir', h1, h2, h3, h4, h5, h6, h7, h8, -, h10, -⟩ :=
    resolve_writing_op options ir fuel l1 l2 W k v _ [] hops hl1 hl2 hk hoperand hothers hv
      hkind hwrite halias hna
  refine ⟨dims, alloc, W', res, ir', h1, h2, h3, h4, h6, h5, ?_, h8, h10⟩
  simp [shouldDeallocateOpResult, OpResult.getDefiningOp, Operation.getResult, h7, h5]

/-- C8, as amended, at the graph `src ; W ; R` where `W` reads and writes its
operand: the allocation is a copy of the operand of `W`, tagged escaping. -/
theorem resolve_writing_op_allocation_escapes_witness :
    ∃ (alloc : Operation) (ir' : IR),
      resolveTensorOpOperandConflicts (AnalysisState.base Example.defaultOptions) 0
          (Example.wrIR true true) 1 = some (.ok (), ir')
      ∧ ir'.ops = [Example.src, alloc,
          { Example.W with operands := [.result (alloc.getResult 0)] }, Example.R]
      ∧ alloc.operands = [.result Example.srcResult]
      ∧ alloc.escapeAttr = some [true]
      ∧ shouldDeallocateOpResult ir' 0 (alloc.getResult 0) Example.defaultOptions
          = some false := by
  obtain ⟨dims, alloc, W', res, ir', h1, h2, -, -, -, h6, h7, h8, h9⟩ :=
    resolve_writing_op_allocation_escapes Example.defaultOptions (Example.wrIR true true) 0
      [Example.src] [Example.R] Example.W 0 (.result Example.srcResult) .Equivalent true
      rfl (by decide) (by decide) (by decide) rfl (fun i hi => by
        cases i with
        | zero => exact absurd rfl hi
        | succ n => rfl) rfl (by decide) (by decide) (by decide) (by decide)
  obtain ⟨hres, hdims, hop, -⟩ := h9 (by decide)
  subst hres hdims
  refine ⟨alloc, ir', h1, ?_, hop, h6, h7⟩
  rw [h2, h8 rfl]
  rfl

/-- C8 as stated fails at the graph `src ; W ; R`: `W` writes (and reads) its
single ranked tensor operand, its one result aliases the operand 1:1, the only
use of the result is by `R`, which only reads and is not return-like, and
`createDeallocs` is set; yet the one allocation inserted before `W` carries the
escape attribute `[true]` and `shouldDeallocateOpResult` on it is false. -/
theorem resolve_writing_op_not_deallocated :
    Example.defaultOptions.createDeallocs = true
    ∧ AnalysisState.bufferizesToMemoryWrite Example.defaultOptions (Example.wrIR true true)
        Example.wOperand = true
    ∧ AnalysisState.getAliasingOpResults Example.defaultOptions (Example.wrIR true true)
        Example.wOperand
        = [{ opResult := Example.wResult, relation := .Equivalent, isDefinite := true }]
    ∧ AnalysisState.getAliasingOpOperands Example.defaultOptions (Example.wrIR true true)
        Example.wResult
        = [{ opOperand := Example.wOperand, relation := .Equivalent, isDefinite := true }]
    ∧ (Value.result Example.wResult).getUses (Example.wrIR true true) = [⟨2, 0⟩]
    ∧ AnalysisState.bufferizesToMemoryRead Example.defaultOptions (Example.wrIR true true)
        ⟨2, 0⟩ = true
    ∧ AnalysisState.bufferizesToMemoryWrite Example.defaultOptions (Example.wrIR true true)
        ⟨2, 0⟩ = false
    ∧ Example.R.returnLike = false
    ∧ (resolveTensorOpOperandConflicts (AnalysisState.base Example.defaultOptions) 1
          (Example.wrIR true true) 1).map
        (fun r => (r.1.toBool, r.2.ops.map (fun o => o.id))) = some (true, [0, 3, 1, 2])
    ∧ (resolveTensorOpOperandConflicts (AnalysisState.base Example.defaultOptions) 1
          (Example.wrIR true true) 1).map
        (fun r => ((r.2.getOp 3).kind, (r.2.getOp 3).escapeAttr))
        = some (.AllocTensorOp, some [true])
    ∧ (resolveTensorOpOperandConflicts (AnalysisState.base Example.defaultOptions) 1
          (Example.wrIR true true) 1).bind
        (fun r => shouldDeallocateOpResult r.2 1 ⟨3, 0, Example.tensorTy⟩
          Example.defaultOptions)
        = some false := by
  decide

/-! ## The conflict resolver on an out-of-place operand that is not written -/

theorem mem_usesIn (v : Value) (id : Nat) (i : Nat) (ws : List Value) (u : OpOperand)
    (h : u ∈ usesIn v id i ws) : u.owner = id ∧ v ∈ ws := by
  induction ws generalizing i with
  | nil => simp [usesIn] at h
  | cons w ws ih =>
    unfold usesIn at h
    by_cases hw : w = v
    · simp only [hw, if_true, List.mem_cons] at h
      rcases h with rfl | h
      · exact ⟨rfl, by simp [hw]⟩
      · exact ⟨(ih (i + 1) h).1, by simp [(ih (i + 1) h).2]⟩
    · simp only [hw, if_false] at h
      exact ⟨(ih (i + 1) h).1, by simp [(ih (i + 1) h).2]⟩

theorem mem_getUses (ir : IR) (v : Value) (u : OpOperand) (h : u ∈ v.getUses ir) :
    ∃ op ∈ ir.ops, op.id = u.owner ∧ v ∈ op.operands := by
  unfold Value.getUses at h
  rw [List.mem_reverse, List.mem_flatMap] at h
  obtain ⟨op, hop, hu⟩ := h
  have := mem_usesIn v op.id 0 op.operands u hu
  exact ⟨op, hop, this.1.symm, this.2⟩

theorem findOp_id (ir : IR) (id : Nat) (o : Operation) (h : ir.findOp id = some o) :
    o.id = id := by
  have := List.find?_some h
  simpa using this

theorem findOp_setOperand_of_ne (ir : IR) (use : OpOperand) (copy : Value) (id : Nat)
    (h : use.owner ≠ id) : (ir.setOperand use copy).findOp id = ir.findOp id := by
  unfold IR.setOperand
  rw [findOp_modifyOp]
  · cases hf : ir.findOp id with
    | none => rfl
    | some o =>
      have := findOp_id ir id o hf
      have hne : o.id ≠ use.owner := by
        rw [this]
        exact fun h2 => h h2.symm
      simp [hne]
  · intro o
    rfl

/-- `replaceUses` leaves alone every operation that owns none of the uses it
sets: the new allocation, and every operation without a use in the list. -/
theorem replaceUses_findOp (copy : Value) (uses : List OpOperand) (ir : IR) (id : Nat)
    (h : ∀ u ∈ uses, u.owner = id → copy.asOpResult.map (fun r => r.op) = some id) :
    (replaceUses copy uses ir).findOp id = ir.findOp id := by
  induction uses generalizing ir with
  | nil => rfl
  | cons use uses ih =>
    have ih := fun ir => ih ir (fun u hu => h u (by simp [hu]))
    unfold replaceUses
    split
    · exact ih ir
    · rename_i hc1
      split
      · exact ih ir
      · rw [ih]
        apply findOp_setOperand_of_ne
        intro hown
        apply hc1
        rw [h use (by simp) hown, OpOperand.getOwner, getOp_id, hown]

theorem modifyOp_ids (ir : IR) (id : Nat) (f : Operation → Operation)
    (hf : ∀ o, (f o).id = o.id) :
    (ir.modifyOp id f).ops.map (fun o => o.id) = ir.ops.map (fun o => o.id) := by
  unfold IR.modifyOp
  simp only [List.map_map]
  apply List.map_congr_left
  intro o _
  by_cases h : o.id = id <;> simp [h, hf]

theorem replaceUses_ids (copy : Value) (uses : List OpOperand) (ir : IR) :
    (replaceUses copy uses ir).ops.map (fun o => o.id) = ir.ops.map (fun o => o.id) := by
  induction uses generalizing ir with
  | nil => rfl
  | cons use uses ih =>
    unfold replaceUses
    split
    · exact ih ir
    · split
      · exact ih ir
      · rw [ih]
        exact modifyOp_ids ir _ _ (fun o => rfl)

/-- The classification loop for an operation whose only tensor operand is `v`,
a ranked tensor, that is out-of-place although the operation does not write it,
and whose one aliasing result `r` is ranked and has one aliasing operand: the
result is marked for copy insertion, not the operand. -/
theorem classify_result_copy (state : AnalysisState) (ir : IR) (fuel : Nat)
    (W : Operation) (k : Nat) (v : Value) (r : OpResult) (relation : BufferRelation)
    (isDefinite : Bool) (back : AliasingOpOperand) (y c : Bool)
    (hW : ir.getOp W.id = W)
    (hk : k < W.operands.length) (hoperand : W.getOperand k = v)
    (hothers : ∀ i, i ≠ k → (W.getOperand i).getType.isTensor = false)
    (hv : v.getType.isRankedTensor = true)
    (hip : state.methods.isInPlace ir ⟨W.id, k⟩ = false)
    (hnw : AnalysisState.bufferizesToMemoryWrite state.options ir ⟨W.id, k⟩ = false)
    (halias : AnalysisState.getAliasingOpResults state.options ir ⟨W.id, k⟩
      = [{ opResult := r, relation := relation, isDefinite := isDefinite }])
    (hback : AnalysisState.getAliasingOpOperands state.options ir r = [back])
    (hr : r.type.isRankedTensor = true)
    (hyield : state.methods.isTensorYielded ir fuel (.result r) = some y)
    (hom : AnalysisState.canOmitTensorCopy state ir fuel ⟨W.id, k⟩ = some c) :
    classifyOpOperands state ir fuel W.getOpOperands {}
      = some (.ok
          { outOfPlaceOpResults := [r]
            copiedOpResults := if c then [] else [r]
            escapingOpResultCopies := if !state.options.createDeallocs || y then [r] else [] }) := by
  have hget : OpOperand.get ir ⟨W.id, k⟩ = v := by
    simp [OpOperand.get, hW, hoperand]
  have hten : v.getType.isTensor = true := by simp [Ty.isTensor, hv]
  have hunr : v.getType.isUnrankedTensor = false := by
    cases hty : v.getType <;> simp_all [Ty.isRankedTensor, Ty.isUnrankedTensor]
  have hrunr : r.type.isUnrankedTensor = false := by
    cases hty : r.type <;> simp_all [Ty.isRankedTensor, Ty.isUnrankedTensor]
  rw [classifyOpOperands_only _ ir fuel W k hW hk hothers]
  simp only [classifyOpOperand, hget, hten, hunr, hip, halias, hom, hnw, hback, hrunr,
    AnalysisState.anyOf, hyield]
  cases hd : state.options.createDeallocs <;> cases y <;> cases c <;> simp

/-- C7, as amended: for an operation `W` with exactly one tensor operand
(operand `k`), a ranked tensor that is out-of-place although `W` does not
bufferize to a memory write of it (the test the code makes, on the operand
rather than on the result),
whose one aliasing result `r` is ranked and has exactly one aliasing operand,
`resolveTensorOpOperandConflicts` copies the result: the new allocation is put
right after `W`, after the shape queries on `r` that size it; when the copy
cannot be omitted the allocation has `r` as its `copy` operand; and unless `W`
uses its own result, the operand of `W` is not retargeted. -/
theorem resolve_copies_result_of_non_writing_operand (state : AnalysisState) (ir : IR)
    (fuel : Nat) (l1 l2 : List Operation) (W : Operation) (k : Nat) (v : Value)
    (r : OpResult) (relation : BufferRelation) (isDefinite : Bool) (back : AliasingOpOperand)
    (y c : Bool)
    (hops : ir.ops = l1 ++ W :: l2)
    (hl1 : ∀ o ∈ l1, o.id ≠ W.id) (hl2 : ∀ o ∈ l2, o.id ≠ W.id)
    (hk : k < W.operands.length) (hoperand : W.getOperand k = v)
    (hothers : ∀ i, i ≠ k → (W.getOperand i).getType.isTensor = false)
    (hv : v.getType.isRankedTensor = true)
    (hip : state.methods.isInPlace ir ⟨W.id, k⟩ = false)
    (hnw : AnalysisState.bufferizesToMemoryWrite state.options ir ⟨W.id, k⟩ = false)
    (halias : AnalysisState.getAliasingOpResults state.options ir ⟨W.id, k⟩
      = [{ opResult := r, relation := relation, isDefinite := isDefinite }])
    (hback : AnalysisState.getAliasingOpOperands state.options ir r = [back])
    (hr : r.type.isRankedTensor = true)
    (hyield : state.methods.isTensorYielded ir fuel (.result r) = some y)
    (hom : AnalysisState.canOmitTensorCopy state ir fuel ⟨W.id, k⟩ = some c) :
    ∃ (dims : List Operation) (alloc : Operation) (res : LogicalResult) (ir' : IR),
      resolveTensorOpOperandConflicts state fuel ir W.id = some (res, ir')
      ∧ ir'.ops.map (fun o => o.id) = (l1 ++ W :: (dims ++ alloc :: l2)).map (fun o => o.id)
      ∧ (∀ d ∈ dims, d.kind = .DimOp ∧ d.operands = [.result r])
      ∧ ir.findOp alloc.id = none
      ∧ ir'.getOp alloc.id = alloc
      ∧ alloc.kind = .AllocTensorOp
      ∧ alloc.escapeAttr = some [!state.options.createDeallocs || y]
      ∧ (c = false →
          res = .ok () ∧ dims = [] ∧ alloc.operands = [.result r] ∧ alloc.copy = some 0)
      ∧ (c = true → alloc.copy = none)
      ∧ (v ≠ .result r → ir'.getOp W.id = W) := by
  have hW : ir.getOp W.id = W := getOp_append_cons ir l1 l2 W hops hl1
  have hcl := classify_result_copy state ir fuel W k v r relation isDefinite back y c hW
    hk hoperand hothers hv hip hnw halias hback hr hyield hom
  have hb0 : OpBuilder.InsertsBetween { ir := ir, ip := .after W.id } (l1 ++ [W]) l2 :=
    ⟨by simpa using hops, l1, W, rfl, rfl, hl1⟩
  obtain ⟨dims, alloc, sizes, hb1, hdims, hfr, hne, hal, hcopy, hres⟩ :=
    allocate_between { ir := ir, ip := .after W.id } (.result r)
      (!state.options.createDeallocs || y) state.options (!c) (l1 ++ [W]) l2 hb0 hr
  have hWlt : W.id < ir.freshId := mem_lt_freshId ir W (by simp [hops])
  have hnew : ir.findOp alloc.id = none :=
    findOp_eq_none_of_fresh ir alloc.id (fun o ho => by
      have := mem_lt_freshId ir o ho
      exact Nat.lt_of_lt_of_le this hfr)
  have hc1 : ([r].contains r) = true := by simp
  have hc2 : ((if c = true then [] else [r]).contains r) = !c := by
    cases c <;> simp
  have hc3 : ((if (!state.options.createDeallocs || y) = true then [r] else []).contains r)
      = (!state.options.createDeallocs || y) := by
    cases (!state.options.createDeallocs || y) <;> simp
  have hfacts : (c = false → dims = [] ∧ alloc.operands = [.result r] ∧ alloc.copy = some 0)
      ∧ (c = true → alloc.copy = none) := by
    constructor
    · intro hc
      have h1 := hal.2.2.2.1
      have h2 := hal.2.2.2.2.1
      have hcc := hcopy (by simp [hc])
      rw [hc, hcc.2.1] at h1 h2
      exact ⟨hcc.1, by simpa using h1, by simpa using h2⟩
    · intro hc
      have h2 := hal.2.2.2.2.1
      rw [hc] at h2
      simpa using h2
  simp only [resolveTensorOpOperandConflicts, hW, hcl, insertOpOperandCopies,
    insertOpResultCopies, hc2, hc3]
  generalize allocateTensorForShapedValue { ir := ir, ip := .after W.id } (.result r)
    (!state.options.createDeallocs || y) state.options (!c) = A at hb1 hcopy hres ⊢
  obtain ⟨res, b1⟩ := A
  have hops1 : b1.ir.ops = (l1 ++ W :: dims) ++ alloc :: l2 := by
    simpa using hb1.1
  have hprea : ∀ o ∈ l1 ++ W :: dims, o.id ≠ alloc.id := fun o ho => hne o (by
    simp only [List.mem_append, List.mem_cons, List.mem_singleton] at ho ⊢
    tauto)
  have hfa : b1.ir.findOp alloc.id = some alloc :=
    findOp_append_cons b1.ir (l1 ++ W :: dims) l2 alloc hops1 hprea
  have hfW : b1.ir.findOp W.id = some W :=
    findOp_append_cons b1.ir l1 (dims ++ alloc :: l2) W (by simpa using hops1) hl1
  have hids : b1.ir.ops.map (fun o => o.id)
      = (l1 ++ W :: (dims ++ alloc :: l2)).map (fun o => o.id) := by
    rw [hops1]
    simp
  have hdims' : ∀ d ∈ dims, d.kind = .DimOp ∧ d.operands = [.result r] :=
    fun d hd => ⟨(hdims d hd).1, (hdims d hd).2.1⟩
  cases res with
  | error e =>
    refine ⟨dims, alloc, .error e, b1.ir, rfl, hids, hdims', hnew,
      getOp_of_findOp _ _ _ hfa, hal.2.1, hal.2.2.1, ?_, hfacts.2,
      fun _ => getOp_of_findOp _ _ _ hfW⟩
    intro hc
    have := (hcopy (by simp [hc])).2.2
    cases this
  | ok copy =>
    have hcopyv := hres copy rfl
    subst hcopyv
    refine ⟨dims, alloc, .ok (),
      replaceUses (.result ⟨alloc.id, 0, (Value.result r).getType⟩)
        ((Value.result r).getUses b1.ir) b1.ir,
      rfl, ?_, hdims', hnew, ?_, hal.2.1, hal.2.2.1,
      fun hc => ⟨rfl, hfacts.1 hc⟩, hfacts.2, ?_⟩
    · rw [replaceUses_ids, hids]
    · apply getOp_of_findOp
      rw [replaceUses_findOp (.result ⟨alloc.id, 0, (Value.result r).getType⟩) _ b1.ir
        alloc.id (fun u _ _ => rfl), hfa]
    · intro hself
      apply getOp_of_findOp
      rw [replaceUses_findOp, hfW]
      intro u hu hown
      exfalso
      obtain ⟨op, hop, hopid, hmem⟩ := mem_getUses b1.ir (.result r) u hu
      have hopW : op = W := by
        rw [hops1] at hop
        simp only [List.mem_append, List.mem_cons] at hop
        rcases hop with (hop | rfl | hop) | rfl | hop
        · exact absurd (hopid.trans hown) (hl1 op hop)
        · rfl
        · have h2 : ir.freshId ≤ op.id := (hdims op hop).2.2
          omega
        · have h2 : ir.freshId ≤ op.id := hfr
          omega
        · exact absurd (hopid.trans hown) (hl2 op hop)
      rw [hopW] at hmem
      obtain ⟨j, hj, hjv⟩ := List.getElem_of_mem hmem
      have hgetj : W.getOperand j = .result r := by
        simp [Operation.getOperand, List.getD, List.getElem?_eq_getElem hj, hjv]
      by_cases hjk : j = k
      · subst hjk
        exact hself (hoperand.symm.trans hgetj)
      · have h1 := hothers j hjk
        rw [hgetj] at h1
        have h2 : (Value.result r).getType.isTensor = true := by
          simp [Value.getType, Ty.isTensor, hr]
        rw [h1] at h2
        cases h2

/-- C7, as amended, at the graph `src ; W ; R` where `W` reads but does not
write its operand and an analysis found the operand out-of-place: the new
allocation comes right after `W`, it is a copy of the result of `W`, and `W`
keeps its operand. -/
theorem resolve_copies_result_of_non_writing_operand_witness :
    ∃ (alloc : Operation) (ir' : IR),
      resolveTensorOpOperandConflicts Example.outOfPlaceState 0 (Example.wrIR true false) 1
          = some (.ok (), ir')
      ∧ ir'.ops.map (fun o => o.id) = [0, 1, alloc.id, 2]
      ∧ ir'.getOp alloc.id = alloc
      ∧ alloc.operands = [.result Example.wResult]
      ∧ ir'.getOp 1 = Example.W := by
  obtain ⟨dims, alloc, res, ir', h1, h2, -, -, h5, -, -, h8, -, h10⟩ :=
    resolve_copies_result_of_non_writing_operand Example.outOfPlaceState
      (Example.wrIR true false) 0 [Example.src] [Example.R] Example.W 0
      (.result Example.srcResult) Example.wResult .Equivalent true
      { opOperand := Example.wOperand, relation := .Equivalent, isDefinite := true } true false
      rfl (by decide) (by decide) (by decide) rfl (fun i hi => by
        cases i with
        | zero => exact absurd rfl hi
        | succ n => rfl) rfl rfl (by decide) (by decide) (by decide) rfl
      (by decide) (by decide)
  obtain ⟨hres, hdims, hop, -⟩ := h8 rfl
  subst hres hdims
  exact ⟨alloc, ir', h1, by simpa using h2, h5, hop, h10 (by decide)⟩

/-- C7 as stated fails at the graph `src ; W ; R` under the state without
analysis information: `W` has exactly one tensor operand and one tensor
result, related 1:1, the result is ranked and does not bufferize to a memory
write, and the operand is out-of-place (`W` writes it); yet the allocation is
put before `W`, it is a copy of the operand's value and not of the result, and
the operand of `W` is retargeted to it, while `R` still uses the result. -/
theorem resolve_copies_operand_of_writing_op :
    Example.W.operands = [.result Example.srcResult]
    ∧ Example.W.resultTypes = [Example.tensorTy]
    ∧ AnalysisState.getAliasingOpResults Example.defaultOptions Example.quietIR
        Example.wOperand
        = [{ opResult := Example.wResult, relation := .Equivalent, isDefinite := true }]
    ∧ AnalysisState.getAliasingOpOperands Example.defaultOptions Example.quietIR
        Example.wResult
        = [{ opOperand := Example.wOperand, relation := .Equivalent, isDefinite := true }]
    ∧ Example.wResult.type.isRankedTensor = true
    ∧ AnalysisState.bufferizesToMemoryWriteValue Example.defaultOptions Example.quietIR
        (.result Example.wResult) = false
    ∧ AnalysisState.isInPlace Example.defaultOptions Example.quietIR Example.wOperand = false
    ∧ (resolveTensorOpOperandConflicts (AnalysisState.base Example.defaultOptions) 1
          Example.quietIR 1).map
        (fun r => (r.1.toBool, r.2.ops.map (fun o => o.id))) = some (true, [0, 3, 1, 2])
    ∧ (resolveTensorOpOperandConflicts (AnalysisState.base Example.defaultOptions) 1
          Example.quietIR 1).map
        (fun r => ((r.2.getOp 3).kind, (r.2.getOp 3).operands))
        = some (.AllocTensorOp, [.result Example.srcResult])
    ∧ (resolveTensorOpOperandConflicts (AnalysisState.base Example.defaultOptions) 1
          Example.quietIR 1).map
        (fun r => ((r.2.getOp 1).operands, (r.2.getOp 2).operands))
        = some ([.result ⟨3, 0, Example.tensorTy⟩], [.result Example.wResult]) := by
  decide

/-! ## Work lists: termination -/

theorem worklistLoop_mono {α : Type} (hit : α → Bool) (succ : α → List α) (fuel k : Nat)
    (ws : List α) (b : Bool) (h : worklistLoop hit succ fuel ws = some b) :
    worklistLoop hit succ (fuel + k) ws = some b := by
  induction fuel generalizing ws with
  | zero =>
    cases ws with
    | nil => cases k <;> simpa [worklistLoop] using h
    | cons x xs => simp [worklistLoop] at h
  | succ n ih =>
    cases ws with
    | nil => simpa [worklistLoop] using h
    | cons x xs =>
      rw [show n + 1 + k = (n + k) + 1 by omega]
      simp only [worklistLoop] at h ⊢
      by_cases hx : hit x = true
      · simpa [hx] using h
      · have hx' : hit x = false := by simpa using hx
        simp only [hx', Bool.false_eq_true, if_false] at h ⊢
        exact ih _ h

theorem worklistLoop_append {α : Type} (hit : α → Bool) (succ : α → List α) (f1 f2 : Nat)
    (xs ys : List α) (b r : Bool)
    (h1 : worklistLoop hit succ f1 xs = some b) (h2 : worklistLoop hit succ f2 ys = some r) :
    worklistLoop hit succ (f1 + f2) (xs ++ ys) = some (b || r) := by
  induction f1 generalizing xs b with
  | zero =>
    cases xs with
    | nil =>
      simp only [worklistLoop, Option.some.injEq] at h1
      subst h1
      simpa using h2
    | cons x xs => simp [worklistLoop] at h1
  | succ n ih =>
    cases xs with
    | nil =>
      simp only [worklistLoop, Option.some.injEq] at h1
      subst h1
      rw [Nat.add_comm]
      simpa using worklistLoop_mono hit succ f2 (n + 1) ys r h2
    | cons x xs =>
      rw [show n + 1 + f2 = (n + f2) + 1 by omega]
      simp only [List.cons_append, worklistLoop] at h1 ⊢
      by_cases hx : hit x = true
      · simp only [hx, if_true, Option.some.injEq] at h1 ⊢
        subst h1
        simp
      · have hx' : hit x = false := by simpa using hx
        simp only [hx', Bool.false_eq_true, if_false] at h1 ⊢
        show worklistLoop hit succ (n + f2) (succ x ++ (xs ++ ys)) = _
        rw [← List.append_assoc]
        exact ih _ _ h1

/-- A work-list loop whose successor relation decreases a rank on a set of
elements closed under successors returns, given enough fuel, on every work
list of such elements. -/
theorem worklistLoop_terminates {α : Type} (hit : α → Bool) (succ : α → List α)
    (S : α → Prop) (rank : α → Nat)
    (hclosed : ∀ x, S x → ∀ y ∈ succ x, S y)
    (hrank : ∀ x, S x → ∀ y ∈ succ x, rank y < rank x)
    (ws : List α) (hws : ∀ x ∈ ws, S x) :
    ∃ fuel b, worklistLoop hit succ fuel ws = some b := by
  have single : ∀ n x, S x → rank x ≤ n → ∃ fuel b, worklistLoop hit succ fuel [x] = some b := by
    intro n
    induction n with
    | zero =>
      intro x hx hr
      by_cases hh : hit x = true
      · exact ⟨1, true, by simp [worklistLoop, hh]⟩
      · have hs : succ x = [] := by
          cases hsx : succ x with
          | nil => rfl
          | cons y ys =>
            have := hrank x hx y (by simp [hsx])
            omega
        exact ⟨1, false, by simp [worklistLoop, hh, hs]⟩
    | succ n ih =>
      intro x hx hr
      by_cases hh : hit x = true
      · exact ⟨1, true, by simp [worklistLoop, hh]⟩
      · have hlist : ∀ l : List α, (∀ y ∈ l, S y ∧ rank y ≤ n) →
            ∃ fuel b, worklistLoop hit succ fuel l = some b := by
          intro l
          induction l with
          | nil => exact fun _ => ⟨0, false, rfl⟩
          | cons y ys ihl =>
            intro hl
            obtain ⟨f1, b1, h1⟩ := ih y (hl y (by simp)).1 (hl y (by simp)).2
            obtain ⟨f2, b2, h2⟩ := ihl (fun z hz => hl z (by simp [hz]))
            exact ⟨f1 + f2, b1 || b2, worklistLoop_append hit succ f1 f2 [y] ys b1 b2 h1 h2⟩
        obtain ⟨f, b, hf⟩ := hlist (succ x) (fun y hy =>
          ⟨hclosed x hx y hy, by have := hrank x hx y hy; omega⟩)
        exact ⟨f + 1, b, by simp [worklistLoop, hh, hf]⟩
  induction ws with
  | nil => exact ⟨0, false, rfl⟩
  | cons y ys ih =>
    obtain ⟨f1, b1, h1⟩ := single (rank y) y (hws y (by simp)) (Nat.le_refl _)
    obtain ⟨f2, b2, h2⟩ := ih (fun z hz => hws z (by simp [hz]))
    exact ⟨f1 + f2, b1 || b2, worklistLoop_append hit succ f1 f2 [y] ys b1 b2 h1 h2⟩

theorem pushUses_eq (ir : IR) (ws : List OpOperand) (v : Value) :
    AnalysisState.pushUses ir ws v = (v.getUses ir).reverse ++ ws := by
  unfold AnalysisState.pushUses
  generalize v.getUses ir = l
  induction l generalizing ws with
  | nil => rfl
  | cons x xs ih => simp [List.foldl_cons, ih]

theorem pushAliasUses_eq (ir : IR) (ws : List OpOperand) (aliases : AliasingOpResultList) :
    AnalysisState.pushAliasUses ir ws aliases
      = AnalysisState.pushAliasUses ir [] aliases ++ ws := by
  unfold AnalysisState.pushAliasUses
  induction aliases generalizing ws with
  | nil => rfl
  | cons a as ih =>
    simp only [List.foldl_cons]
    rw [ih (AnalysisState.pushUses ir ws (.result a.opResult)),
      ih (AnalysisState.pushUses ir [] (.result a.opResult)), pushUses_eq, pushUses_eq]
    simp

theorem isValueReadLoop_eq (options : BufferizationOptions) (ir : IR) (fuel : Nat)
    (ws : List OpOperand) :
    AnalysisState.isValueReadLoop options ir fuel ws
      = worklistLoop (AnalysisState.bufferizesToMemoryRead options ir)
          (isValueReadSucc options ir) fuel ws := by
  induction fuel generalizing ws with
  | zero => cases ws <;> rfl
  | succ n ih =>
    cases ws with
    | nil => rfl
    | cons u ws =>
      simp only [AnalysisState.isValueReadLoop, worklistLoop, isValueReadSucc]
      cases hr : AnalysisState.bufferizesToMemoryRead options ir u
      · cases ha : AnalysisState.bufferizesToAliasOnly options ir u
        · simp [ih]
        · simp only [if_true, Bool.false_eq_true, if_false, ih]
          rw [pushAliasUses_eq]
      · simp

theorem usesIn_subset (v : Value) (id i : Nat) (ws : List Value) :
    ∀ u ∈ usesIn v id i ws, u ∈ opOperandsFrom id i ws := by
  induction ws generalizing i with
  | nil => simp [usesIn]
  | cons w ws ih =>
    intro u hu
    unfold usesIn at hu
    unfold opOperandsFrom
    by_cases hw : w = v
    · simp only [hw, if_true, List.mem_cons] at hu ⊢
      rcases hu with rfl | hu
      · exact Or.inl rfl
      · exact Or.inr (ih (i + 1) u hu)
    · simp only [hw, if_false] at hu
      exact List.mem_cons_of_mem _ (ih (i + 1) u hu)

theorem getUses_subset (ir : IR) (v : Value) : ∀ u ∈ v.getUses ir, u ∈ ir.allOpOperands := by
  intro u hu
  unfold Value.getUses at hu
  unfold IR.allOpOperands
  rw [List.mem_reverse] at hu
  rw [List.mem_flatMap] at hu ⊢
  obtain ⟨op, hop, h⟩ := hu
  exact ⟨op, hop, usesIn_subset v op.id 0 op.operands u h⟩

theorem pushAliasUses_subset (ir : IR) (aliases : AliasingOpResultList) :
    ∀ u ∈ AnalysisState.pushAliasUses ir [] aliases, u ∈ ir.allOpOperands := by
  induction aliases with
  | nil => simp [AnalysisState.pushAliasUses]
  | cons a as ih =>
    intro u hu
    unfold AnalysisState.pushAliasUses at hu
    simp only [List.foldl_cons] at hu
    have := pushAliasUses_eq ir (AnalysisState.pushUses ir [] (.result a.opResult)) as
    unfold AnalysisState.pushAliasUses at this
    rw [this, pushUses_eq] at hu
    simp only [List.append_nil, List.mem_append, List.mem_reverse] at hu
    rcases hu with hu | hu
    · exact ih u hu
    · exact getUses_subset ir _ u hu

theorem isValueReadSucc_subset (options : BufferizationOptions) (ir : IR) (u : OpOperand) :
    ∀ u' ∈ isValueReadSucc options ir u, u' ∈ ir.allOpOperands := by
  unfold isValueReadSucc
  split
  · exact pushAliasUses_subset ir _
  · simp

/-- On a graph whose alias expansion is acyclic, `isValueRead` returns when
given enough fuel. -/
theorem isValueRead_returns (options : BufferizationOptions) (ir : IR)
    (rank : OpOperand → Nat) (hacyclic : IsValueReadAcyclic options ir rank) (v : Value) :
    ∃ fuel b, AnalysisState.isValueRead options ir fuel v = some b := by
  unfold AnalysisState.isValueRead
  simp only [isValueReadLoop_eq]
  apply worklistLoop_terminates _ _ (fun u => u ∈ ir.allOpOperands) rank
  · intro x _ y hy
    exact isValueReadSucc_subset options ir x y hy
  · exact hacyclic
  · intro x hx
    rw [pushUses_eq] at hx
    simp only [List.append_nil, List.mem_reverse] at hx
    exact getUses_subset ir v x hx

/-- More fuel does not change an answer of `isValueRead`. -/
theorem isValueRead_mono (options : BufferizationOptions) (ir : IR) (fuel k : Nat) (v : Value)
    (b : Bool) (h : AnalysisState.isValueRead options ir fuel v = some b) :
    AnalysisState.isValueRead options ir (fuel + k) v = some b := by
  unfold AnalysisState.isValueRead at h ⊢
  rw [isValueReadLoop_eq] at h ⊢
  exact worklistLoop_mono _ _ fuel k _ b h

/-- C11: for every value that is not a result of an `AllocTensorOp`, and so
for every block argument, `AnalysisState::isTensorYielded` returns true, for
every graph around the value, all options and every fuel; the state without
analysis information answers through it, and two invocations with different
options and fuel on the same graph give the same answer. -/
theorem isTensorYielded_of_not_allocation (ir : IR) (tensor : Value)
    (h : AnalysisState.definedByAllocTensorOp ir tensor = false) :
    (∀ options fuel, AnalysisState.isTensorYielded options ir fuel tensor = some true)
    ∧ (∀ options fuel,
        (AnalysisState.base options).methods.isTensorYielded ir fuel tensor = some true)
    ∧ (∀ options options' fuel fuel',
        AnalysisState.isTensorYielded options ir fuel tensor
          = AnalysisState.isTensorYielded options' ir fuel' tensor)
    ∧ (∀ (a : BlockArgument) (ir' : IR) options fuel,
        AnalysisState.isTensorYielded options ir' fuel (.arg a) = some true) := by
  have key : ∀ options fuel,
      AnalysisState.isTensorYielded options ir fuel tensor = some true := by
    intro options fuel
    simp [AnalysisState.isTensorYielded, h]
  refine ⟨key, fun options fuel => key options fuel, ?_, ?_⟩
  · intro options options' fuel fuel'
    rw [key, key]
  · intro a ir' options fuel
    simp [AnalysisState.isTensorYielded, AnalysisState.definedByAllocTensorOp]

/-- C11 at the result of `W` in the graph `src ; W ; R`, which has a use but
is not an allocation. -/
theorem isTensorYielded_of_not_allocation_witness :
    AnalysisState.isTensorYielded Example.defaultOptions (Example.wrIR true true) 0
        (.result Example.wResult) = some true
    ∧ AnalysisState.isTensorYielded
        { Example.defaultOptions with createDeallocs := false } (Example.wrIR true true) 3
        (.result Example.wResult) = some true :=
  ⟨(isTensorYielded_of_not_allocation (Example.wrIR true true) (.result Example.wResult)
      (by decide)).1 Example.defaultOptions 0,
   (isTensorYielded_of_not_allocation (Example.wrIR true true) (.result Example.wResult)
      (by decide)).1 { Example.defaultOptions with createDeallocs := false } 3⟩

/-! ## Buffer types fixed by the caller -/

/-- C20: for a tensor value that `fixedTypes` maps to the type `t`,
`getBufferType` returns `t`, for every graph and all options: the interface,
the filter and the default memory space are not consulted. -/
theorem getBufferType_of_fixed (ir : IR) (value : Value) (options : BufferizationOptions)
    (fixedTypes : FixedTypes) (t : Ty) (_htensor : value.getType.isTensor = true)
    (h : fixedTypes.lookup value = some t) :
    getBufferType ir value options fixedTypes = .ok t := by
  simp [getBufferType, h]

/-- C20 at the result of the unregistered operation `src`, with no default
memory space: without the entry in `fixedTypes` the query fails, with it the
query returns the mapped type. -/
theorem getBufferType_of_fixed_witness :
    getBufferType Example.unknownIR (.result Example.srcResult)
        { Example.defaultOptions with defaultMemorySpace := none } []
      = .error .noMemorySpace
    ∧ getBufferType Example.unknownIR (.result Example.srcResult)
        { Example.defaultOptions with defaultMemorySpace := none }
        [(.result Example.srcResult, .memref [4] 0 none (some 7))]
      = .ok (.memref [4] 0 none (some 7)) :=
  ⟨rfl, getBufferType_of_fixed Example.unknownIR (.result Example.srcResult)
    { Example.defaultOptions with defaultMemorySpace := none }
    [(.result Example.srcResult, .memref [4] 0 none (some 7))] _ (by decide) (by decide)⟩

/-! ## The reverse use-def walk: what it returns -/

theorem mem_setVector_insert (s : List Value) (v w : Value) :
    w ∈ SetVector.insert s v ↔ w ∈ s ∨ w = v := by
  unfold SetVector.insert
  by_cases h : v ∈ s
  · simp only [h, if_true]
    constructor
    · exact Or.inl
    · rintro (hw | rfl)
      · exact hw
      · exact h
  · simp [h]

theorem setVector_insert_nodup (s : List Value) (v : Value) (h : s.Nodup) :
    (SetVector.insert s v).Nodup := by
  unfold SetVector.insert
  by_cases hv : v ∈ s
  · simpa [hv] using h
  · simp only [hv, if_false]
    rw [List.nodup_append]
    exact ⟨h, List.nodup_singleton v, by
      intro a ha hb
      simp only [List.mem_singleton] at hb
      exact hv (hb ▸ ha)⟩

/-- With `alwaysIncludeLeaves` unset, the loop over the aliases leaves
`result` as it is. -/
theorem visitAlias_result (state : AnalysisState) (ir : IR) (config : TraversalConfig)
    (value : Value) (h : config.alwaysIncludeLeaves = false) (sets : List Value × List Value)
    (a : AliasingOpOperand) : (visitAlias state ir config value sets a).2 = sets.2 := by
  unfold visitAlias
  simp only [h, Bool.false_eq_true, if_false]
  split <;> split <;> rfl

theorem foldl_visitAlias_result (state : AnalysisState) (ir : IR) (config : TraversalConfig)
    (value : Value) (h : config.alwaysIncludeLeaves = false) (aliases : List AliasingOpOperand)
    (sets : List Value × List Value) :
    (aliases.foldl (visitAlias state ir config value) sets).2 = sets.2 := by
  induction aliases generalizing sets with
  | nil => rfl
  | cons a as ih => rw [List.foldl_cons, ih, visitAlias_result state ir config value h]

/-- With `alwaysIncludeLeaves` unset, one iteration adds to `result` nothing
but a value that satisfies the condition. -/
theorem findValueStep_result (state : AnalysisState) (ir : IR) (condition : Value → Bool)
    (config : TraversalConfig) (h : config.alwaysIncludeLeaves = false) (value : Value)
    (sets : List Value × List Value) :
    ∀ w ∈ (findValueStep state ir condition config value sets).2,
      w ∈ sets.2 ∨ condition w = true := by
  intro w hw
  unfold findValueStep at hw
  by_cases hc : condition value = true
  · simp only [hc, if_true] at hw
    rcases (mem_setVector_insert _ _ _).1 hw with hw | rfl
    · exact Or.inl hw
    · exact Or.inr hc
  · simp only [hc, if_false, h, Bool.false_eq_true] at hw
    cases value with
    | arg a => exact Or.inl hw
    | result r =>
      dsimp only at hw
      split at hw
      · exact Or.inl hw
      · split at hw
        · exact Or.inl hw
        · rw [foldl_visitAlias_result state ir config _ h] at hw
          exact Or.inl hw

/-- With `alwaysIncludeLeaves` unset, every value the loop returns is in the
`result` it started from or satisfies the condition. -/
theorem findValueLoop_result (state : AnalysisState) (ir : IR) (condition : Value → Bool)
    (config : TraversalConfig) (h : config.alwaysIncludeLeaves = false) (fuel : Nat)
    (ws res out : List Value)
    (hout : findValueLoop state ir condition config fuel ws res = some out) :
    ∀ w ∈ out, w ∈ res ∨ condition w = true := by
  induction fuel generalizing ws res with
  | zero =>
    cases ws with
    | nil =>
      simp only [findValueLoop, Option.some.injEq] at hout
      subst hout
      exact fun w hw => Or.inl hw
    | cons v ws => simp [findValueLoop] at hout
  | succ n ih =>
    cases ws with
    | nil =>
      simp only [findValueLoop, Option.some.injEq] at hout
      subst hout
      exact fun w hw => Or.inl hw
    | cons v ws =>
      simp only [findValueLoop] at hout
      intro w hw
      rcases ih _ _ hout w hw with h1 | h1
      · exact findValueStep_result state ir condition config h v (ws, res) w h1
      · exact Or.inr h1

/-- With `alwaysIncludeLeaves` unset, every value that
`findValueInReverseUseDefChain` returns satisfies the condition. -/
theorem findValue_all_condition (state : AnalysisState) (ir : IR) (condition : Value → Bool)
    (config : TraversalConfig) (h : config.alwaysIncludeLeaves = false) (fuel : Nat)
    (start : Value) (out : List Value)
    (hout : AnalysisState.findValueInReverseUseDefChain state ir fuel start condition config
      = some out) :
    ∀ w ∈ out, condition w = true := by
  intro w hw
  rcases findValueLoop_result state ir condition config h fuel _ [] out hout w hw with h1 | h1
  · simp at h1
  · exact h1

/-- C17: with `alwaysIncludeLeaves` unset, every value in the set that
`findValueInReverseUseDefChain` returns satisfies the stop condition, for
every start value, condition and setting of the other flags; for every flag
setting, an iteration that takes a value satisfying the condition from the
working set records it and leaves the working set as it is; so when the start
value satisfies the condition the walk returns, from one unit of fuel on,
exactly the set of the start value. -/
theorem findValue_returns_stop_values (state : AnalysisState) (ir : IR)
    (condition : Value → Bool) (config : TraversalConfig) (start : Value) :
    (config.alwaysIncludeLeaves = false → ∀ fuel out,
      AnalysisState.findValueInReverseUseDefChain state ir fuel start condition config
        = some out → ∀ w ∈ out, condition w = true)
    ∧ (∀ value workingSet result, condition value = true →
        findValueStep state ir condition config value (workingSet, result)
          = (workingSet, SetVector.insert result value))
    ∧ (condition start = true → ∀ fuel,
        AnalysisState.findValueInReverseUseDefChain state ir (fuel + 1) start condition config
          = some [start]) := by
  refine ⟨fun h fuel out hout => findValue_all_condition state ir condition config h fuel
    start out hout, ?_, ?_⟩
  · intro value workingSet result hc
    simp [findValueStep, hc]
  · intro hc fuel
    cases fuel <;>
      simp [AnalysisState.findValueInReverseUseDefChain, SetVector.push, findValueLoop,
        findValueStep, hc, SetVector.insert]

/-- C17 on the diamond: the walk from the result of `join` with the condition
"is the result of `src`" returns values satisfying that condition, and the
walk from the result of `src` returns just that value. -/
theorem findValue_returns_stop_values_witness :
    (∀ w ∈ [Value.result Example.srcResult], Example.isSrc w = true)
    ∧ AnalysisState.findValueInReverseUseDefChain (AnalysisState.base Example.defaultOptions)
        Example.diamondIR 1 (.result Example.srcResult) Example.isSrc Example.noFlags
      = some [.result Example.srcResult] :=
  ⟨(findValue_returns_stop_values (AnalysisState.base Example.defaultOptions)
      Example.diamondIR Example.isSrc Example.noFlags (.result Example.joinResult)).1
      (by decide) 5 [.result Example.srcResult] (by decide),
   (findValue_returns_stop_values (AnalysisState.base Example.defaultOptions)
      Example.diamondIR Example.isSrc Example.noFlags (.result Example.srcResult)).2.2
      (by decide) 0⟩

/-! ## The reverse use-def walk: termination -/

theorem setVector_push_cases (ws : List Value) (v : Value) :
    SetVector.push ws v = ws ∨ SetVector.push ws v = v :: ws := by
  unfold SetVector.push
  by_cases h : v ∈ ws
  · exact Or.inl (by simp [h])
  · exact Or.inr (by simp [h])

theorem setVector_push_push (ws : List Value) (v : Value) :
    SetVector.push (SetVector.push ws v) v = SetVector.push ws v := by
  unfold SetVector.push
  by_cases h : v ∈ ws
  · simp [h]
  · simp [h]

/-- One alias puts at most the value of its operand on the working set. -/
theorem visitAlias_workingSet (state : AnalysisState) (ir : IR) (config : TraversalConfig)
    (value : Value) (sets : List Value × List Value) (a : AliasingOpOperand) :
    (visitAlias state ir config value sets a).1 = sets.1
      ∨ (visitAlias state ir config value sets a).1 = a.opOperand.get ir :: sets.1 := by
  unfold visitAlias
  dsimp only
  split <;> split <;>
    first
      | exact Or.inl rfl
      | exact setVector_push_cases _ _
      | (rw [setVector_push_push]; exact setVector_push_cases _ _)

theorem foldl_visitAlias_workingSet (state : AnalysisState) (ir : IR)
    (config : TraversalConfig) (value : Value) (aliases : List AliasingOpOperand)
    (sets : List Value × List Value) :
    ∃ news, (aliases.foldl (visitAlias state ir config value) sets).1 = news ++ sets.1
      ∧ ∀ w ∈ news, w ∈ aliases.map (fun a => a.opOperand.get ir) := by
  induction aliases generalizing sets with
  | nil => exact ⟨[], rfl, by simp⟩
  | cons a as ih =>
    obtain ⟨news, h1, h2⟩ := ih (visitAlias state ir config value sets a)
    rw [List.foldl_cons, h1]
    rcases visitAlias_workingSet state ir config value sets a with h | h
    · exact ⟨news, by rw [h], fun w hw => by
        have := h2 w hw
        simp only [List.map_cons, List.mem_cons]
        exact Or.inr this⟩
    · refine ⟨news ++ [a.opOperand.get ir], by rw [h]; simp, fun w hw => ?_⟩
      simp only [List.mem_append, List.mem_singleton] at hw
      simp only [List.map_cons, List.mem_cons]
      rcases hw with hw | hw
      · exact Or.inr (h2 w hw)
      · exact Or.inl hw

/-- One iteration puts on the working set only values of aliasing operands of
the value it took. -/
theorem findValueStep_workingSet (state : AnalysisState) (ir : IR) (condition : Value → Bool)
    (config : TraversalConfig) (value : Value) (sets : List Value × List Value) :
    ∃ news, (findValueStep state ir condition config value sets).1 = news ++ sets.1
      ∧ ∀ w ∈ news, w ∈ aliasedValues state.options ir value := by
  unfold findValueStep
  split
  · exact ⟨[], rfl, by simp⟩
  · cases value with
    | arg a => exact ⟨[], rfl, by simp⟩
    | result r =>
      dsimp only
      split
      · exact ⟨[], rfl, by simp⟩
      · split
        · exact ⟨[], rfl, by simp⟩
        · exact foldl_visitAlias_workingSet state ir config _ _ sets

/-- On values whose definition order is acyclic the loop returns, given
enough fuel. -/
theorem findValueLoop_returns (state : AnalysisState) (ir : IR) (condition : Value → Bool)
    (config : TraversalConfig) (rank : Value → Nat) (vals : List Value)
    (hacyclic : IsDefinedBefore state.options ir rank vals) (ws : List Value)
    (hws : ∀ v ∈ ws, v ∈ vals) (res : List Value) :
    ∃ fuel out, findValueLoop state ir condition config fuel ws res = some out := by
  have hwf : WellFounded (Relation.CutExpand (InvImage (fun a b : Nat => a < b) rank)) :=
    (InvImage.wf rank Nat.lt_wfRel.wf).cutExpand
  suffices H : ∀ m : Multiset Value, ∀ ws : List Value, (ws : Multiset Value) = m →
      (∀ v ∈ ws, v ∈ vals) → ∀ res,
      ∃ fuel out, findValueLoop state ir condition config fuel ws res = some out from
    H _ ws rfl hws res
  intro m
  refine @WellFounded.induction _ _ hwf
    (fun m => ∀ ws : List Value, (ws : Multiset Value) = m → (∀ v ∈ ws, v ∈ vals) → ∀ res,
      ∃ fuel out, findValueLoop state ir condition config fuel ws res = some out) m ?_
  intro m ih ws hm hws res
  cases ws with
  | nil => exact ⟨0, res, rfl⟩
  | cons v ws =>
    obtain ⟨news, hnews, hmem⟩ := findValueStep_workingSet state ir condition config v (ws, res)
    have hv := hws v (by simp)
    have hcut : Relation.CutExpand (InvImage (fun a b : Nat => a < b) rank)
        ((news ++ ws : List Value) : Multiset Value) m := by
      subst hm
      refine ⟨(news : Multiset Value), v, ?_, ?_⟩
      · intro a' ha'
        exact (hacyclic v hv a' (hmem a' (by simpa using ha'))).2
      · rw [← Multiset.coe_singleton, Multiset.coe_add, Multiset.coe_add, Multiset.coe_eq_coe]
        exact (List.perm_append_singleton v (news ++ ws)).trans
          (List.Perm.cons v List.perm_append_comm)
    obtain ⟨fuel, out, h⟩ := ih _ hcut (news ++ ws) rfl
      (fun w hw => by
        rcases List.mem_append.1 hw with hw | hw
        · exact (hacyclic v hv w (hmem w hw)).1
        · exact hws w (by simp [hw]))
      (findValueStep state ir condition config v (ws, res)).2
    refine ⟨fuel + 1, out, ?_⟩
    simp only [findValueLoop]
    rw [hnews]
    exact h

/-- More fuel does not change what the loop returns. -/
theorem findValueLoop_mono (state : AnalysisState) (ir : IR) (condition : Value → Bool)
    (config : TraversalConfig) (fuel k : Nat) (ws res out : List Value)
    (h : findValueLoop state ir condition config fuel ws res = some out) :
    findValueLoop state ir condition config (fuel + k) ws res = some out := by
  induction fuel generalizing ws res with
  | zero =>
    cases ws with
    | nil => cases k <;> simpa [findValueLoop] using h
    | cons v ws => simp [findValueLoop] at h
  | succ n ih =>
    cases ws with
    | nil => simpa [findValueLoop] using h
    | cons v ws =>
      rw [show n + 1 + k = (n + k) + 1 by omega]
      simp only [findValueLoop] at h ⊢
      exact ih _ _ h

theorem visitAlias_nodup (state : AnalysisState) (ir : IR) (config : TraversalConfig)
    (value : Value) (sets : List Value × List Value) (a : AliasingOpOperand)
    (h : sets.2.Nodup) : (visitAlias state ir config value sets a).2.Nodup := by
  have hleaf : ∀ s : List Value, s.Nodup →
      (if config.alwaysIncludeLeaves = true then SetVector.insert s value else s).Nodup := by
    intro s hs
    split
    · exact setVector_insert_nodup _ _ hs
    · exact hs
  unfold visitAlias
  dsimp only
  split <;> split <;>
    first
      | exact h
      | exact hleaf _ h
      | exact hleaf _ (hleaf _ h)

theorem foldl_visitAlias_nodup (state : AnalysisState) (ir : IR) (config : TraversalConfig)
    (value : Value) (aliases : List AliasingOpOperand) (sets : List Value × List Value)
    (h : sets.2.Nodup) : (aliases.foldl (visitAlias state ir config value) sets).2.Nodup := by
  induction aliases generalizing sets with
  | nil => exact h
  | cons a as ih =>
    rw [List.foldl_cons]
    exact ih _ (visitAlias_nodup state ir config value sets a h)

theorem findValueStep_nodup (state : AnalysisState) (ir : IR) (condition : Value → Bool)
    (config : TraversalConfig) (value : Value) (sets : List Value × List Value)
    (h : sets.2.Nodup) : (findValueStep state ir condition config value sets).2.Nodup := by
  have hleaf : (if config.alwaysIncludeLeaves = true then SetVector.insert sets.2 value
      else sets.2).Nodup := by
    split
    · exact setVector_insert_nodup _ _ h
    · exact h
  unfold findValueStep
  split
  · exact setVector_insert_nodup _ _ h
  · cases value with
    | arg a => exact hleaf
    | result r =>
      dsimp only
      split
      · exact hleaf
      · split
        · exact hleaf
        · exact foldl_visitAlias_nodup state ir config _ _ sets h

/-- The loop returns a list without duplicates when it starts from one. -/
theorem findValueLoop_nodup (state : AnalysisState) (ir : IR) (condition : Value → Bool)
    (config : TraversalConfig) (fuel : Nat) (ws res out : List Value) (hres : res.Nodup)
    (h : findValueLoop state ir condition config fuel ws res = some out) : out.Nodup := by
  induction fuel generalizing ws res with
  | zero =>
    cases ws with
    | nil =>
      simp only [findValueLoop, Option.some.injEq] at h
      exact h ▸ hres
    | cons v ws => simp [findValueLoop] at h
  | succ n ih =>
    cases ws with
    | nil =>
      simp only [findValueLoop, Option.some.injEq] at h
      exact h ▸ hres
    | cons v ws =>
      simp only [findValueLoop] at h
      exact ih _ _ (findValueStep_nodup state ir condition config v (ws, res) hres) h

/-- On values whose definition order is acyclic the walk returns, for all fuel
from some amount on, one list, which has no duplicates. -/
theorem findValue_returns (state : AnalysisState) (ir : IR) (condition : Value → Bool)
    (config : TraversalConfig) (rank : Value → Nat) (vals : List Value)
    (hacyclic : IsDefinedBefore state.options ir rank vals) (start : Value)
    (hstart : start ∈ vals) :
    ∃ N out, out.Nodup ∧ ∀ fuel, N ≤ fuel →
      AnalysisState.findValueInReverseUseDefChain state ir fuel start condition config
        = some out := by
  obtain ⟨N, out, h⟩ := findValueLoop_returns state ir condition config rank vals hacyclic
    (SetVector.push [] start) (by
      intro v hv
      simp only [SetVector.push, List.not_mem_nil, if_false, List.mem_singleton] at hv
      exact hv ▸ hstart) []
  refine ⟨N, out, findValueLoop_nodup state ir condition config N _ [] out List.nodup_nil h, ?_⟩
  intro fuel hfuel
  have := findValueLoop_mono state ir condition config N (fuel - N) _ _ out h
  rw [show N + (fuel - N) = fuel by omega] at this
  exact this

/-- With `followEquivalentOnly` and `followInPlaceOnly` unset, the loop over
the aliases puts the value of every aliasing operand on the working set. -/
theorem foldl_visitAlias_follow (state : AnalysisState) (ir : IR) (config : TraversalConfig)
    (value : Value) (hE : config.followEquivalentOnly = false)
    (hP : config.followInPlaceOnly = false) (aliases : List AliasingOpOperand)
    (sets : List Value × List Value) :
    aliases.foldl (visitAlias state ir config value) sets
      = ((aliases.map (fun a => a.opOperand.get ir)).foldl SetVector.push sets.1, sets.2) := by
  induction aliases generalizing sets with
  | nil => rfl
  | cons a as ih =>
    rw [List.foldl_cons, ih]
    simp [visitAlias, hE, hP, setVector_push_push]

/-- With `followEquivalentOnly` and `followInPlaceOnly` unset, an iteration on
a result that does not satisfy the condition and whose operation is followed
puts the values of its aliasing operands on the working set. -/
theorem findValueStep_follow (state : AnalysisState) (ir : IR) (condition : Value → Bool)
    (config : TraversalConfig) (r : OpResult) (sets : List Value × List Value)
    (hc : condition (.result r) = false) (hE : config.followEquivalentOnly = false)
    (hP : config.followInPlaceOnly = false)
    (hopen : (config.followUnknownOps
      || (state.options.dynCastBufferizableOp ir (r.getDefiningOp ir)).isSome) = true)
    (hne : aliasedValues state.options ir (.result r) ≠ []) :
    findValueStep state ir condition config (.result r) sets
      = ((aliasedValues state.options ir (.result r)).foldl SetVector.push sets.1, sets.2) := by
  have hopen' : (!config.followUnknownOps
      && (state.options.dynCastBufferizableOp ir (r.getDefiningOp ir)).isNone) = false := by
    cases hf : config.followUnknownOps
    · rw [hf] at hopen
      cases hd : state.options.dynCastBufferizableOp ir (r.getDefiningOp ir) with
      | none => simp [hd] at hopen
      | some x => simp
    · simp
  have hlen : ((AnalysisState.getAliasingOpOperands state.options ir r).length == 0) = false := by
    cases hl : AnalysisState.getAliasingOpOperands state.options ir r with
    | nil => simp [aliasedValues, hl] at hne
    | cons x xs => simp
  unfold findValueStep
  simp only [hc, Bool.false_eq_true, if_false, hopen', hlen]
  rw [foldl_visitAlias_follow state ir config _ hE hP]
  rfl

/-- The walk on a diamond: the start `rd` aliases `rb` and `rc`, which both
alias `a`; `a` satisfies the condition and the others do not.  The walk
returns `a` once. -/
theorem findValue_diamond (state : AnalysisState) (ir : IR) (condition : Value → Bool)
    (config : TraversalConfig) (a : Value) (rb rc rd : OpResult)
    (hE : config.followEquivalentOnly = false) (hP : config.followInPlaceOnly = false)
    (hopen : ∀ r ∈ [rb, rc, rd], (config.followUnknownOps
      || (state.options.dynCastBufferizableOp ir (r.getDefiningOp ir)).isSome) = true)
    (hd : aliasedValues state.options ir (.result rd) = [.result rb, .result rc])
    (hb : aliasedValues state.options ir (.result rb) = [a])
    (hc : aliasedValues state.options ir (.result rc) = [a])
    (hbc : rb ≠ rc) (ha : condition a = true) (hnb : condition (.result rb) = false)
    (hnc : condition (.result rc) = false) (hnd : condition (.result rd) = false)
    (fuel : Nat) (hfuel : 5 ≤ fuel) :
    AnalysisState.findValueInReverseUseDefChain state ir fuel (.result rd) condition config
      = some [a] := by
  obtain ⟨n, rfl⟩ : ∃ n, fuel = n + 5 := ⟨fuel - 5, by omega⟩
  have hab : a ≠ .result rb := fun h => by rw [h, hnb] at ha; exact Bool.noConfusion ha
  have hbc' : rc ≠ rb := fun h => hbc h.symm
  have stepA : ∀ sets, findValueStep state ir condition config a sets
      = (sets.1, SetVector.insert sets.2 a) := by
    intro sets
    simp [findValueStep, ha]
  unfold AnalysisState.findValueInReverseUseDefChain
  simp only [SetVector.push, List.not_mem_nil, if_false, findValueLoop]
  rw [findValueStep_follow state ir condition config rd _ hnd hE hP
    (hopen rd (by simp)) (by simp [hd]), hd]
  simp only [List.foldl_cons, List.foldl_nil, SetVector.push, List.not_mem_nil, if_false,
    List.mem_singleton, Value.result.injEq, hbc', findValueLoop]
  rw [findValueStep_follow state ir condition config rc _ hnc hE hP
    (hopen rc (by simp)) (by simp [hc]), hc]
  simp only [List.foldl_cons, List.foldl_nil, SetVector.push, List.mem_singleton, hab, if_false,
    findValueLoop, stepA, SetVector.insert, List.not_mem_nil, List.nil_append]
  rw [findValueStep_follow state ir condition config rb _ hnb hE hP
    (hopen rb (by simp)) (by simp [hb]), hb]
  cases n <;>
    simp [SetVector.push, findValueLoop, stepA, SetVector.insert]

/-- C18: on values whose definition order is acyclic (the value of each
aliasing operand of a result is defined strictly before the result),
`findValueInReverseUseDefChain` returns for every stop condition and flag
setting, for all fuel from some amount on, and the set it returns holds no
value twice; on a diamond, where the start aliases two values that both alias
one source satisfying the condition, it returns the source once. -/
theorem findValue_terminates_without_duplicates (state : AnalysisState) (ir : IR) :
    (∀ (rank : Value → Nat) (vals : List Value),
      IsDefinedBefore state.options ir rank vals → ∀ start ∈ vals,
      ∀ (condition : Value → Bool) (config : TraversalConfig),
        ∃ N out, out.Nodup ∧ ∀ fuel, N ≤ fuel →
          AnalysisState.findValueInReverseUseDefChain state ir fuel start condition config
            = some out)
    ∧ (∀ (condition : Value → Bool) (config : TraversalConfig) (a : Value)
        (rb rc rd : OpResult),
      config.followEquivalentOnly = false → config.followInPlaceOnly = false →
      (∀ r ∈ [rb, rc, rd], (config.followUnknownOps
        || (state.options.dynCastBufferizableOp ir (r.getDefiningOp ir)).isSome) = true) →
      aliasedValues state.options ir (.result rd) = [.result rb, .result rc] →
      aliasedValues state.options ir (.result rb) = [a] →
      aliasedValues state.options ir (.result rc) = [a] →
      rb ≠ rc → condition a = true → condition (.result rb) = false →
      condition (.result rc) = false → condition (.result rd) = false →
      ∀ fuel, 5 ≤ fuel →
        AnalysisState.findValueInReverseUseDefChain state ir fuel (.result rd) condition config
          = some [a]) :=
  ⟨fun rank vals hacyclic start hstart condition config =>
      findValue_returns state ir condition config rank vals hacyclic start hstart,
   fun condition config a rb rc rd hE hP hopen hd hb hc hbc ha hnb hnc hnd fuel hfuel =>
      findValue_diamond state ir condition config a rb rc rd hE hP hopen hd hb hc hbc ha hnb
        hnc hnd fuel hfuel⟩

/-- C18 on the diamond `src ; W ; W2 ; join`: the walk from the result of
`join` returns, and with the condition "is the result of `src`" it returns
that result once. -/
theorem findValue_terminates_without_duplicates_witness :
    (∃ N out, out.Nodup ∧ ∀ fuel, N ≤ fuel →
      AnalysisState.findValueInReverseUseDefChain (AnalysisState.base Example.defaultOptions)
        Example.diamondIR fuel (.result Example.joinResult) Example.isSrc Example.noFlags
        = some out)
    ∧ (∀ fuel, 5 ≤ fuel →
      AnalysisState.findValueInReverseUseDefChain (AnalysisState.base Example.defaultOptions)
        Example.diamondIR fuel (.result Example.joinResult) Example.isSrc Example.noFlags
        = some [.result Example.srcResult]) :=
  ⟨(findValue_terminates_without_duplicates (AnalysisState.base Example.defaultOptions)
      Example.diamondIR).1 Example.definitionOrder Example.diamondValues (by decide)
      (.result Example.joinResult) (by decide) Example.isSrc Example.noFlags,
   (findValue_terminates_without_duplicates (AnalysisState.base Example.defaultOptions)
      Example.diamondIR).2 Example.isSrc Example.noFlags (.result Example.srcResult)
      Example.wResult Example.w2Result Example.joinResult rfl rfl (by decide) (by decide)
      (by decide) (by decide) (by decide) (by decide) (by decide) (by decide) (by decide)⟩

/-! ## The walk to the definitions -/

/-- C19: `AnalysisState::findDefinitions` is the reverse walk with the stop
condition `bufferizesToMemoryWrite(Value)` and `alwaysIncludeLeaves` unset, the
other flags as the default configuration has them; so every value it returns
bufferizes to a memory write, a value that does not is never returned, and on
values whose definition order is acyclic it returns such a set for all fuel
from some amount on. -/
theorem findDefinitions_eq_walk (state : AnalysisState) (ir : IR)
    (config0 : TraversalConfig) (value : Value) :
    (∀ fuel, AnalysisState.findDefinitions state ir fuel config0 value
      = findDefiningWritesSpec state ir fuel config0 value)
    ∧ (∀ fuel out, AnalysisState.findDefinitions state ir fuel config0 value = some out →
        (∀ w ∈ out, AnalysisState.bufferizesToMemoryWriteValue state.options ir w = true)
        ∧ ∀ w, AnalysisState.bufferizesToMemoryWriteValue state.options ir w = false → w ∉ out)
    ∧ (∀ (rank : Value → Nat) (vals : List Value),
        IsDefinedBefore state.options ir rank vals → value ∈ vals →
        ∃ N out, (∀ w ∈ out, AnalysisState.bufferizesToMemoryWriteValue state.options ir w = true)
          ∧ ∀ fuel, N ≤ fuel →
            AnalysisState.findDefinitions state ir fuel config0 value = some out) := by
  have key : ∀ fuel out, AnalysisState.findDefinitions state ir fuel config0 value = some out →
      ∀ w ∈ out, AnalysisState.bufferizesToMemoryWriteValue state.options ir w = true := by
    intro fuel out hout
    exact findValue_all_condition state ir _ { config0 with alwaysIncludeLeaves := false } rfl
      fuel value out hout
  refine ⟨fun _ => rfl, fun fuel out hout => ⟨key fuel out hout, ?_⟩, ?_⟩
  · intro w hw hmem
    rw [key fuel out hout w hmem] at hw
    exact Bool.noConfusion hw
  · intro rank vals hacyclic hvalue
    obtain ⟨N, out, _, h⟩ := findValue_returns state ir
      (fun v => AnalysisState.bufferizesToMemoryWriteValue state.options ir v)
      { config0 with alwaysIncludeLeaves := false } rank vals hacyclic value hvalue
    exact ⟨N, out, key N out (h N (Nat.le_refl N)), h⟩

/-- C19 on the graph `src ; W ; R` in which the result of `W` does not
bufferize to a memory write: the definitions of the result of `W` are the
result of the unregistered `src`, which bufferizes to a memory write. -/
theorem findDefinitions_eq_walk_witness :
    AnalysisState.findDefinitions (AnalysisState.base Example.defaultOptions) Example.quietIR 2
        Example.noFlags (.result Example.wResult) = some [.result Example.srcResult]
    ∧ (∀ w ∈ [Value.result Example.srcResult],
        AnalysisState.bufferizesToMemoryWriteValue Example.defaultOptions Example.quietIR w
          = true)
    ∧ ∃ N out, (∀ w ∈ out,
        AnalysisState.bufferizesToMemoryWriteValue Example.defaultOptions Example.quietIR w
          = true)
      ∧ ∀ fuel, N ≤ fuel →
        AnalysisState.findDefinitions (AnalysisState.base Example.defaultOptions)
          Example.quietIR fuel Example.noFlags (.result Example.wResult) = some out :=
  ⟨by decide,
   ((findDefinitions_eq_walk (AnalysisState.base Example.defaultOptions) Example.quietIR
      Example.noFlags (.result Example.wResult)).2.1 2 [.result Example.srcResult]
      (by decide)).1,
   (findDefinitions_eq_walk (AnalysisState.base Example.defaultOptions) Example.quietIR
      Example.noFlags (.result Example.wResult)).2.2 Example.definitionOrder
      [.result Example.srcResult, .result Example.wResult] (by decide) (by decide)⟩

/-! ## The walk and its flags -/

/-- C15 (code defect): with `followEquivalentOnly` set and `followInPlaceOnly`
unset, the loop over the aliases puts the value of an aliasing operand whose
relation is `Unknown` on the working set, for every state, graph and operand;
on the graph `src ; W`, where the only alias of the result of `W` has the
relation `Unknown`, the walk from the result of `W` visits and returns the
result of `src`. -/
theorem visitAlias_follows_non_equivalent (state : AnalysisState) (ir : IR) (value : Value)
    (sets : List Value × List Value) (opOperand : OpOperand)
    (isDefinite leaves unknownOps : Bool) :
    (visitAlias state ir
        { alwaysIncludeLeaves := leaves, followInPlaceOnly := false,
          followEquivalentOnly := true, followUnknownOps := unknownOps }
        value sets { opOperand := opOperand, relation := .Unknown, isDefinite := isDefinite }).1
      = SetVector.push sets.1 (opOperand.get ir)
    ∧ (AnalysisState.getAliasingOpOperands Example.defaultOptions Example.mayAliasIR
          Example.wResult).map (fun a => (a.opOperand.get Example.mayAliasIR, a.relation))
        = [(.result Example.srcResult, .Unknown)]
    ∧ AnalysisState.findValueInReverseUseDefChain (AnalysisState.base Example.defaultOptions)
        Example.mayAliasIR 2 (.result Example.wResult) Example.isSrc
        { Example.noFlags with followEquivalentOnly := true }
      = some [.result Example.srcResult] := by
  refine ⟨?_, by decide, by decide⟩
  cases leaves <;> simp [visitAlias]

/-- C16 (code defect): with `followInPlaceOnly` set and `followEquivalentOnly`
unset, the loop over the aliases puts the value of an aliasing operand on the
working set also under a state for which no operand is in place, for every
graph and alias; on the graph `src ; W`, under the state that finds every
operand out-of-place, the walk from the result of `W` visits and returns the
result of `src`. -/
theorem visitAlias_follows_out_of_place (options : BufferizationOptions)
    (methods : AnalysisState.Methods) (ir : IR) (value : Value)
    (sets : List Value × List Value) (a : AliasingOpOperand) (leaves unknownOps : Bool) :
    (visitAlias { options := options, methods := { methods with isInPlace := fun _ _ => false } }
        ir
        { alwaysIncludeLeaves := leaves, followInPlaceOnly := true,
          followEquivalentOnly := false, followUnknownOps := unknownOps }
        value sets a).1
      = SetVector.push sets.1 (a.opOperand.get ir)
    ∧ (AnalysisState.getAliasingOpOperands Example.defaultOptions (Example.wIR false false)
          Example.wResult).map
        (fun a => (a.opOperand.get (Example.wIR false false),
          Example.outOfPlaceState.methods.isInPlace (Example.wIR false false) a.opOperand))
        = [(.result Example.srcResult, false)]
    ∧ AnalysisState.findValueInReverseUseDefChain Example.outOfPlaceState
        (Example.wIR false false) 2 (.result Example.wResult) Example.isSrc
        { Example.noFlags with followInPlaceOnly := true }
      = some [.result Example.srcResult] := by
  refine ⟨?_, by decide, by decide⟩
  cases leaves <;> simp [visitAlias]

/-! ## Yield analysis of allocations -/

/-- A work-list loop that answers true took a hit from the list or reached
one from an element of the list. -/
theorem worklistLoop_true_reaches {α : Type} (hit : α → Bool) (succ : α → List α) (fuel : Nat)
    (ws : List α) (h : worklistLoop hit succ fuel ws = some true) :
    ∃ x ∈ ws, WorklistReaches hit succ x := by
  induction fuel generalizing ws with
  | zero =>
    cases ws with
    | nil => simp [worklistLoop] at h
    | cons x xs => simp [worklistLoop] at h
  | succ n ih =>
    cases ws with
    | nil => simp [worklistLoop] at h
    | cons x xs =>
      simp only [worklistLoop] at h
      by_cases hx : hit x = true
      · exact ⟨x, by simp, .here x hx⟩
      · have hx' : hit x = false := by simpa using hx
        simp only [hx', Bool.false_eq_true, if_false] at h
        obtain ⟨y, hy, hr⟩ := ih _ h
        rcases List.mem_append.1 hy with hy | hy
        · exact ⟨x, by simp, .step x y hx' hy hr⟩
        · exact ⟨y, by simp [hy], hr⟩

/-- A work-list loop that answers false started from elements none of which
reaches a hit. -/
theorem worklistLoop_false_not_reaches {α : Type} (hit : α → Bool) (succ : α → List α)
    (fuel : Nat) (ws : List α) (h : worklistLoop hit succ fuel ws = some false) :
    ∀ x ∈ ws, ¬ WorklistReaches hit succ x := by
  induction fuel generalizing ws with
  | zero =>
    cases ws with
    | nil => simp
    | cons x xs => simp [worklistLoop] at h
  | succ n ih =>
    cases ws with
    | nil => simp
    | cons x xs =>
      simp only [worklistLoop] at h
      by_cases hx : hit x = true
      · simp [hx] at h
      · have hx' : hit x = false := by simpa using hx
        simp only [hx', Bool.false_eq_true, if_false] at h
        have hno := ih _ h
        intro z hz hr
        rcases List.mem_cons.1 hz with rfl | hz
        · cases hr with
          | here _ hh => exact hx hh
          | step _ y _ hy hry => exact hno y (List.mem_append.2 (Or.inl hy)) hry
        · exact hno z (List.mem_append.2 (Or.inr hz)) hr

theorem isTensorYieldedLoop_eq (options : BufferizationOptions) (ir : IR) (fuel : Nat)
    (ws : List OpOperand) :
    AnalysisState.isTensorYieldedLoop options ir fuel ws
      = worklistLoop (isTensorYieldedHit options ir) (isTensorYieldedSucc options ir)
          fuel ws := by
  induction fuel generalizing ws with
  | zero => cases ws <;> rfl
  | succ n ih =>
    cases ws with
    | nil => rfl
    | cons u ws =>
      simp only [AnalysisState.isTensorYieldedLoop, worklistLoop, isTensorYieldedHit,
        isTensorYieldedSucc]
      cases hd : options.dynCastBufferizableOp ir (u.getOwner ir) with
      | none => simp [ih]
      | some x =>
        by_cases hk : (u.getOwner ir).kind = .ToMemrefOp
        · simp [hk]
        · cases hr : (u.getOwner ir).returnLike
          · simp only [Option.isNone_some, Bool.false_eq_true, if_false, hk, Option.isSome_some,
              decide_False, Bool.or_self, Bool.and_false, ih]
            rw [pushAliasUses_eq]
          · simp [hk]

theorem mem_pushAliasUses (ir : IR) (aliases : AliasingOpResultList) (u : OpOperand) :
    u ∈ AnalysisState.pushAliasUses ir [] aliases
      ↔ ∃ a ∈ aliases, u ∈ (Value.result a.opResult).getUses ir := by
  induction aliases with
  | nil => simp [AnalysisState.pushAliasUses]
  | cons a as ih =>
    have h := pushAliasUses_eq ir (AnalysisState.pushUses ir [] (.result a.opResult)) as
    have hcons : AnalysisState.pushAliasUses ir [] (a :: as)
        = AnalysisState.pushAliasUses ir (AnalysisState.pushUses ir [] (.result a.opResult))
            as := rfl
    rw [hcons, h, pushUses_eq]
    simp only [List.append_nil, List.mem_append, List.mem_reverse, ih, List.mem_cons,
      exists_eq_or_imp]
    exact Or.comm

/-- The uses from which the loop of `isTensorYielded` reaches a hit are the
uses that start a chain. -/
theorem reaches_iff_yieldChain (options : BufferizationOptions) (ir : IR) (u : OpOperand) :
    WorklistReaches (isTensorYieldedHit options ir) (isTensorYieldedSucc options ir) u
      ↔ YieldChain options ir u := by
  constructor
  · intro h
    induction h with
    | here x hx =>
      unfold isTensorYieldedHit at hx
      simp only [Bool.and_eq_true, Bool.or_eq_true, decide_eq_true_eq] at hx
      exact .last x hx.1 hx.2
    | step x y hx hy _ ih =>
      unfold isTensorYieldedSucc at hy
      cases hd : options.dynCastBufferizableOp ir (x.getOwner ir) with
      | none => simp [hd] at hy
      | some i =>
        simp only [hd, Option.isNone_some, Bool.false_eq_true, if_false] at hy
        obtain ⟨a, ha, hu⟩ := (mem_pushAliasUses ir _ y).1 hy
        unfold isTensorYieldedHit at hx
        simp only [hd, Option.isSome_some, Bool.true_and, Bool.or_eq_false_iff,
          decide_eq_false_iff_not] at hx
        exact .next x y a (by simp [hd]) hx.1 hx.2 ha hu ih
  · intro h
    induction h with
    | last x hd hk =>
      refine .here x ?_
      unfold isTensorYieldedHit
      simp only [Bool.and_eq_true, Bool.or_eq_true, decide_eq_true_eq]
      exact ⟨hd, hk⟩
    | next x y a hd hk hr ha hu _ ih =>
      refine .step x y ?_ ?_ ih
      · unfold isTensorYieldedHit
        simp [hk, hr]
      · unfold isTensorYieldedSucc
        cases hd' : options.dynCastBufferizableOp ir (x.getOwner ir) with
        | none => simp [hd'] at hd
        | some i =>
          simp only [Option.isNone_some, Bool.false_eq_true, if_false]
          exact (mem_pushAliasUses ir _ y).2 ⟨a, ha, hu⟩

theorem isTensorYieldedSucc_subset (options : BufferizationOptions) (ir : IR) (u : OpOperand) :
    ∀ u' ∈ isTensorYieldedSucc options ir u, u' ∈ ir.allOpOperands := by
  unfold isTensorYieldedSucc
  split
  · simp
  · exact pushAliasUses_subset ir _

/-- C12: for a value produced by an `AllocTensorOp`, `isTensorYielded` answers
true only if a chain of uses starts at a use of the value (each next use a use
of an aliasing result of the one before, every owner allowed and implementing
the interface, no owner but the last a `ToMemrefOp` or return-like, the last
owner a `ToMemrefOp` or return-like), and answers false only if there is no
such chain; on a graph whose alias expansion is acyclic it returns for all
fuel from some amount on, with the answer true exactly when there is such a
chain; it answers false for a value without uses; and a use owned by an
operation that is not allowed or does not implement the interface is dropped
from the work list without expansion. -/
theorem isTensorYielded_iff_chain (options : BufferizationOptions) (ir : IR) (tensor : Value)
    (halloc : AnalysisState.definedByAllocTensorOp ir tensor = true) :
    (∀ fuel, AnalysisState.isTensorYielded options ir fuel tensor = some true →
      ∃ u ∈ tensor.getUses ir, YieldChain options ir u)
    ∧ (∀ fuel, AnalysisState.isTensorYielded options ir fuel tensor = some false →
      ¬ ∃ u ∈ tensor.getUses ir, YieldChain options ir u)
    ∧ (∀ rank : OpOperand → Nat, IsTensorYieldedAcyclic options ir rank →
      ∃ N b, (b = true ↔ ∃ u ∈ tensor.getUses ir, YieldChain options ir u)
        ∧ ∀ fuel, N ≤ fuel → AnalysisState.isTensorYielded options ir fuel tensor = some b)
    ∧ (tensor.getUses ir = [] →
      ∀ fuel, AnalysisState.isTensorYielded options ir fuel tensor = some false)
    ∧ (∀ fuel u worklist, options.dynCastBufferizableOp ir (u.getOwner ir) = none →
      AnalysisState.isTensorYieldedLoop options ir (fuel + 1) (u :: worklist)
        = AnalysisState.isTensorYieldedLoop options ir fuel worklist) := by
  have hdef : ∀ fuel, AnalysisState.isTensorYielded options ir fuel tensor
      = worklistLoop (isTensorYieldedHit options ir) (isTensorYieldedSucc options ir) fuel
          (tensor.getUses ir).reverse := by
    intro fuel
    unfold AnalysisState.isTensorYielded
    simp only [halloc, Bool.not_true, Bool.false_eq_true, if_false]
    rw [isTensorYieldedLoop_eq, pushUses_eq, List.append_nil]
  have htrue : ∀ fuel, AnalysisState.isTensorYielded options ir fuel tensor = some true →
      ∃ u ∈ tensor.getUses ir, YieldChain options ir u := by
    intro fuel h
    rw [hdef] at h
    obtain ⟨u, hu, hr⟩ := worklistLoop_true_reaches _ _ fuel _ h
    exact ⟨u, List.mem_reverse.1 hu, (reaches_iff_yieldChain options ir u).1 hr⟩
  have hfalse : ∀ fuel, AnalysisState.isTensorYielded options ir fuel tensor = some false →
      ¬ ∃ u ∈ tensor.getUses ir, YieldChain options ir u := by
    intro fuel h
    rw [hdef] at h
    rintro ⟨u, hu, hc⟩
    exact worklistLoop_false_not_reaches _ _ fuel _ h u (List.mem_reverse.2 hu)
      ((reaches_iff_yieldChain options ir u).2 hc)
  refine ⟨htrue, hfalse, ?_, ?_, ?_⟩
  · intro rank hacyclic
    obtain ⟨N, b, hN⟩ := worklistLoop_terminates (isTensorYieldedHit options ir)
      (isTensorYieldedSucc options ir) (fun u => u ∈ ir.allOpOperands) rank
      (fun x _ y hy => isTensorYieldedSucc_subset options ir x y hy) hacyclic
      (tensor.getUses ir).reverse
      (fun x hx => getUses_subset ir tensor x (List.mem_reverse.1 hx))
    rw [← hdef] at hN
    refine ⟨N, b, ?_, ?_⟩
    · cases b
      · constructor
        · intro h
          exact Bool.noConfusion h
        · intro h
          exact absurd h (hfalse N hN)
      · exact ⟨fun _ => htrue N hN, fun _ => rfl⟩
    · intro fuel hfuel
      rw [hdef] at hN ⊢
      have := worklistLoop_mono _ _ N (fuel - N) _ b hN
      rw [show N + (fuel - N) = fuel by omega] at this
      exact this
  · intro huses fuel
    rw [hdef, huses]
    cases fuel <;> rfl
  · intro fuel u worklist hd
    simp [AnalysisState.isTensorYieldedLoop, hd]

/-- C12 on the graph `alloc ; W ; ret`, where the allocation is passed through
`W` to a return-like operation, and on `alloc ; W ; R`, where it is only read:
the first allocation is yielded along a chain, the second is not. -/
theorem isTensorYielded_iff_chain_witness :
    (AnalysisState.isTensorYielded Example.defaultOptions Example.yieldIR 2
        (.result Example.srcResult) = some true
      ∧ ∃ u ∈ (Value.result Example.srcResult).getUses Example.yieldIR,
          YieldChain Example.defaultOptions Example.yieldIR u)
    ∧ (AnalysisState.isTensorYielded Example.defaultOptions Example.allocIR 2
        (.result Example.srcResult) = some false
      ∧ ¬ ∃ u ∈ (Value.result Example.srcResult).getUses Example.allocIR,
          YieldChain Example.defaultOptions Example.allocIR u)
    ∧ ∃ N b, (b = true ↔ ∃ u ∈ (Value.result Example.srcResult).getUses Example.yieldIR,
          YieldChain Example.defaultOptions Example.yieldIR u)
        ∧ ∀ fuel, N ≤ fuel →
          AnalysisState.isTensorYielded Example.defaultOptions Example.yieldIR fuel
            (.result Example.srcResult) = some b :=
  ⟨⟨by decide, (isTensorYielded_iff_chain Example.defaultOptions Example.yieldIR
      (.result Example.srcResult) (by decide)).1 2 (by decide)⟩,
   ⟨by decide, (isTensorYielded_iff_chain Example.defaultOptions Example.allocIR
      (.result Example.srcResult) (by decide)).2.1 2 (by decide)⟩,
   (isTensorYielded_iff_chain Example.defaultOptions Example.yieldIR
      (.result Example.srcResult) (by decide)).2.2.1 (fun u => 2 - u.owner)
      (by unfold IsTensorYieldedAcyclic; decide)⟩

/-! ## The classification loop: unranked operands -/

theorem isTensor_of_isUnrankedTensor (t : Ty) (h : t.isUnrankedTensor = true) :
    t.isTensor = true := by
  simp [Ty.isTensor, h]

/-- The loop body fails on a tensor operand that is not in place and is
unranked, whatever the fuel. -/
theorem classifyOpOperand_unranked (state : AnalysisState) (ir : IR) (fuel : Nat)
    (o : OpOperand) (s : ConflictSets) (hu : (o.get ir).getType.isUnrankedTensor = true)
    (hout : state.methods.isInPlace ir o = false) :
    classifyOpOperand state ir fuel o s = some (.error .unrankedCopy) := by
  simp [classifyOpOperand, isTensor_of_isUnrankedTensor _ hu, hu, hout]

/-- The loop body fails only with "copying of unranked tensors", and only on
an unranked tensor operand that is not in place. -/
theorem classifyOpOperand_error (state : AnalysisState) (ir : IR) (fuel : Nat)
    (o : OpOperand) (s : ConflictSets) (e : Diag)
    (h : classifyOpOperand state ir fuel o s = some (.error e)) :
    e = .unrankedCopy ∧ (o.get ir).getType.isTensor = true
      ∧ (o.get ir).getType.isUnrankedTensor = true ∧ state.methods.isInPlace ir o = false := by
  unfold classifyOpOperand at h
  dsimp only at h
  split at h
  · cases h
  · rename_i ht
    split at h
    · cases h
    · rename_i hi
      split at h
      · rename_i hu
        simp only [Option.some.injEq, Except.error.injEq] at h
        exact ⟨h.symm, by simpa using ht, hu, by simpa using hi⟩
      · split at h
        · cases h
        · split at h
          · cases h
          · split at h <;> cases h

/-- The classification loop on a list that holds an unranked tensor operand
that is not in place: it fails, unless a query ran out of fuel before. -/
theorem classifyOpOperands_unranked (state : AnalysisState) (ir : IR) (fuel : Nat)
    (l : List OpOperand) (s : ConflictSets) (o : OpOperand) (ho : o ∈ l)
    (hu : (o.get ir).getType.isUnrankedTensor = true)
    (hout : state.methods.isInPlace ir o = false) :
    (classifyOpOperands state ir fuel l s = none
      ∨ classifyOpOperands state ir fuel l s = some (.error .unrankedCopy))
    ∧ ((∀ o' ∈ l, ∀ s', classifyOpOperand state ir fuel o' s' ≠ none) →
      classifyOpOperands state ir fuel l s = some (.error .unrankedCopy)) := by
  induction l generalizing s with
  | nil => simp at ho
  | cons x xs ih =>
    unfold classifyOpOperands
    cases hx : classifyOpOperand state ir fuel x s with
    | none => exact ⟨Or.inl rfl, fun hret => absurd hx (hret x (by simp) s)⟩
    | some r =>
      cases r with
      | error e =>
        have := (classifyOpOperand_error state ir fuel x s e hx).1
        subst this
        exact ⟨Or.inr rfl, fun _ => rfl⟩
      | ok s1 =>
        rcases List.mem_cons.1 ho with rfl | hmem
        · rw [classifyOpOperand_unranked state ir fuel o s hu hout] at hx
          cases hx
        · have := ih s1 hmem
          exact ⟨this.1, fun hret => this.2 (fun o' ho' => hret o' (by simp [ho']))⟩

theorem lt_freshId_of_findOp (ir : IR) (id : Nat) (x : Operation)
    (h : ir.findOp id = some x) : id < ir.freshId := by
  have hid := findOp_id ir id x h
  have hmem : x ∈ ir.ops := List.mem_of_find?_eq_some h
  have := mem_lt_freshId ir x hmem
  omega

/-- Creating an operation leaves the record of every operation of the graph
as it is. -/
theorem findOp_create_old (b : OpBuilder) (op : Operation) (id : Nat) (x : Operation)
    (h : b.ir.findOp id = some x) : (b.create op).2.ir.findOp id = some x := by
  have := lt_freshId_of_findOp b.ir id x h
  rw [findOp_create, if_neg (by omega), h]

theorem findOp_modifyOp_of_ne (ir : IR) (id id' : Nat) (f : Operation → Operation)
    (hf : ∀ o, (f o).id = o.id) (hne : id ≠ id') :
    (ir.modifyOp id f).findOp id' = ir.findOp id' := by
  rw [findOp_modifyOp ir id id' f hf]
  cases hx : ir.findOp id' with
  | none => rfl
  | some x =>
    have := findOp_id ir id' x hx
    have hne' : x.id ≠ id := by
      rw [this]
      exact fun h => hne h.symm
    simp [hne']

theorem findOp_populate_old (tensor : Value) (i : Nat) (shape : List Int) (b : OpBuilder)
    (acc : List Value) (id : Nat) (x : Operation) (h : b.ir.findOp id = some x) :
    (populateDynamicDimSizes tensor i shape b acc).2.ir.findOp id = some x := by
  induction shape generalizing i b acc with
  | nil => simpa [populateDynamicDimSizes] using h
  | cons d ds ih =>
    unfold populateDynamicDimSizes
    by_cases hd : isDynamic d = true
    · simp only [hd, if_true]
      exact ih _ _ _ (findOp_create_old b _ id x h)
    · simp only [hd]
      exact ih _ _ _ h

theorem findOp_computeDynamicSizes_old (b : OpBuilder) (shapedValue tensor : Value)
    (copy : Bool) (id : Nat) (x : Operation) (h : b.ir.findOp id = some x) :
    (computeDynamicSizes b shapedValue tensor copy).2.ir.findOp id = some x := by
  unfold computeDynamicSizes
  split
  · dsimp only
    split
    · exact h
    · exact findOp_populate_old _ _ _ _ _ id x h
  · exact h

theorem findOp_shapedValueAsTensor_old (b : OpBuilder) (shapedValue tensor : Value)
    (b1 : OpBuilder) (hs : shapedValueAsTensor b shapedValue = .ok (tensor, b1)) (id : Nat)
    (x : Operation) (h : b.ir.findOp id = some x) : b1.ir.findOp id = some x := by
  unfold shapedValueAsTensor at hs
  split at hs
  · cases hs
    exact h
  · split at hs
    · cases hs
      exact findOp_create_old b _ id x h
    · split at hs <;> cases hs

theorem create_fields (b : OpBuilder) (op : Operation) :
    (b.create op).1.kind = op.kind ∧ (b.create op).1.operands = op.operands
      ∧ (b.create op).1.copy = op.copy ∧ (b.create op).1.resultTypes = op.resultTypes := by
  unfold OpBuilder.create
  cases b.ip <;> exact ⟨rfl, rfl, rfl, rfl⟩

/-- An operation created and then given an escape attribute. -/
theorem create_then_escape (b : OpBuilder) (op : Operation) (escape : Bool) :
    ((b.create op).2.ir.modifyOp (b.create op).1.id
        (fun o => { o with escapeAttr := some [escape] })).findOp b.ir.freshId
      = some { (b.create op).1 with escapeAttr := some [escape] }
    ∧ ∀ id x, b.ir.findOp id = some x →
        ((b.create op).2.ir.modifyOp (b.create op).1.id
          (fun o => { o with escapeAttr := some [escape] })).findOp id = some x := by
  have hid := create_fst_id b op
  constructor
  · rw [findOp_modifyOp _ _ b.ir.freshId
      (fun o => { o with escapeAttr := some [escape] }) (fun o => rfl), findOp_create]
    simp [hid]
  · intro id x hx
    have hlt := lt_freshId_of_findOp b.ir id x hx
    rw [findOp_modifyOp_of_ne]
    · exact findOp_create_old b _ id x hx
    · intro o
      rfl
    · rw [hid]
      omega

/-- The new allocation as `createAllocTensorOp` leaves it. -/
theorem createAllocTensorOp_full (b : OpBuilder) (tensor : Value) (dynamicSizes : List Value)
    (escape copy : Bool) :
    (createAllocTensorOp b tensor dynamicSizes escape copy).1.id = b.ir.freshId
    ∧ (createAllocTensorOp b tensor dynamicSizes escape copy).1.resultTypes = [tensor.getType]
    ∧ (∃ op, (createAllocTensorOp b tensor dynamicSizes escape copy).2.ir.findOp b.ir.freshId
          = some op
        ∧ IsAllocTensorFor op b.ir.freshId tensor dynamicSizes escape copy)
    ∧ ∀ id x, b.ir.findOp id = some x →
        (createAllocTensorOp b tensor dynamicSizes escape copy).2.ir.findOp id = some x := by
  have hid := create_fst_id b
    { id := 0, kind := .AllocTensorOp,
      operands := dynamicSizes ++ (if copy then [tensor] else []),
      copy := if copy then some dynamicSizes.length else none,
      resultTypes := [tensor.getType] }
  have hrec := create_fields b
    { id := 0, kind := .AllocTensorOp,
      operands := dynamicSizes ++ (if copy then [tensor] else []),
      copy := if copy then some dynamicSizes.length else none,
      resultTypes := [tensor.getType] }
  have hce := create_then_escape b
    { id := 0, kind := .AllocTensorOp,
      operands := dynamicSizes ++ (if copy then [tensor] else []),
      copy := if copy then some dynamicSizes.length else none,
      resultTypes := [tensor.getType] } escape
  unfold createAllocTensorOp
  simp only
  exact ⟨hid, hrec.2.2.2, ⟨_, hce.1, hid, hrec.1, rfl, hrec.2.1, hrec.2.2.1, hrec.2.2.2⟩, hce.2⟩

/-- The allocation and the other operations as `addMemorySpaceAttr` leaves
them. -/
theorem addMemorySpaceAttr_full (b : OpBuilder) (allocTensorOp : Operation) (tensor : Value)
    (options : BufferizationOptions) (copy : Bool) (escape : Bool) (sizes : List Value)
    (op0 : Operation) (h0 : b.ir.findOp allocTensorOp.id = some op0)
    (hal : IsAllocTensorFor op0 allocTensorOp.id tensor sizes escape copy) :
    (∃ op, (addMemorySpaceAttr b allocTensorOp tensor options copy).2.ir.findOp allocTensorOp.id
          = some op
        ∧ IsAllocTensorFor op allocTensorOp.id tensor sizes escape copy)
    ∧ (∀ id x, id ≠ allocTensorOp.id → b.ir.findOp id = some x →
        (addMemorySpaceAttr b allocTensorOp tensor options copy).2.ir.findOp id = some x)
    ∧ ∀ r, (addMemorySpaceAttr b allocTensorOp tensor options copy).1 = .ok r →
        r = .result (allocTensorOp.getResult 0) := by
  unfold addMemorySpaceAttr
  split
  · exact ⟨⟨op0, h0, hal⟩, fun id x _ hx => hx, fun r hr => by cases hr; rfl⟩
  · split
    · exact ⟨⟨op0, h0, hal⟩, fun id x _ hx => hx, fun r hr => by cases hr⟩
    · refine ⟨?_, ?_, fun r hr => by cases hr; rfl⟩
      · simp only
        rw [findOp_modifyOp, h0]
        · refine ⟨_, rfl, ?_⟩
          have hid : op0.id = allocTensorOp.id := hal.1
          dsimp only
          rw [if_pos hid]
          exact ⟨hal.1, hal.2.1, hal.2.2.1, hal.2.2.2.1, hal.2.2.2.2.1, hal.2.2.2.2.2⟩
        · intro o
          rfl
      · intro id x hne hx
        simp only
        rw [findOp_modifyOp_of_ne]
        · exact hx
        · intro o
          rfl
        · exact fun h => hne h.symm

/-- A successful `allocateTensorForShapedValue`: the value returned is result
0 of a new `AllocTensorOp`, which has the `copy` operand exactly when `copy`
is set; the records of the operations that existed are as before. -/
theorem allocate_ok_full (b : OpBuilder) (v : Value) (e : Bool) (options : BufferizationOptions)
    (copy : Bool) (r : Value)
    (h : (allocateTensorForShapedValue b v e options copy).1 = .ok r) :
    ∃ (alloc : Operation) (tensor : Value) (sizes : List Value),
      r = .result ⟨alloc.id, 0, tensor.getType⟩
      ∧ b.ir.findOp alloc.id = none
      ∧ (allocateTensorForShapedValue b v e options copy).2.ir.findOp alloc.id = some alloc
      ∧ IsAllocTensorFor alloc alloc.id tensor sizes e copy
      ∧ (v.getType.isRankedTensor = true → tensor = v)
      ∧ ∀ id x, b.ir.findOp id = some x →
          (allocateTensorForShapedValue b v e options copy).2.ir.findOp id = some x := by
  unfold allocateTensorForShapedValue at h ⊢
  split at h
  · cases h
  · rename_i tensor b1 heq
    dsimp only at h ⊢
    obtain ⟨hid, hty, ⟨op0, hf0, hal0⟩, hold0⟩ :=
      createAllocTensorOp_full (computeDynamicSizes b1 v tensor copy).2 tensor
        (computeDynamicSizes b1 v tensor copy).1 e copy
    rw [← hid] at hf0 hal0
    obtain ⟨⟨op, hf, hal⟩, hold, hres⟩ := addMemorySpaceAttr_full _ _ tensor options copy e _
      op0 hf0 hal0
    have hfresh : ∀ o ∈ b.ir.ops,
        o.id < (createAllocTensorOp (computeDynamicSizes b1 v tensor copy).2 tensor
          (computeDynamicSizes b1 v tensor copy).1 e copy).1.id := by
      intro o ho
      rw [hid]
      have h1 := mem_lt_freshId b.ir o ho
      have h2 := shapedValueAsTensor_fresh b v tensor b1 heq
      have h3 := freshId_le_computeDynamicSizes b1 v tensor copy
      omega
    have hopid : op.id = (createAllocTensorOp (computeDynamicSizes b1 v tensor copy).2 tensor
        (computeDynamicSizes b1 v tensor copy).1 e copy).1.id := hal.1
    refine ⟨op, tensor, (computeDynamicSizes b1 v tensor copy).1, ?_, ?_, ?_, ?_, ?_, ?_⟩
    · rw [hres r h, hopid]
      simp [Operation.getResult, hty]
    · rw [hopid]
      exact findOp_eq_none_of_fresh _ _ hfresh
    · rw [hopid]
      exact hf
    · rw [hopid]
      exact hal
    · intro hv
      unfold shapedValueAsTensor at heq
      simp only [hv, if_true, Except.ok.injEq, Prod.mk.injEq] at heq
      exact heq.1.symm
    · intro id x hx
      apply hold
      · have hmem : x ∈ b.ir.ops := List.mem_of_find?_eq_some hx
        have := hfresh x hmem
        have hxid := findOp_id b.ir id x hx
        omega
      · apply hold0
        apply findOp_computeDynamicSizes_old
        exact findOp_shapedValueAsTensor_old b v tensor b1 heq id x hx

/-- `allocateTensorForShapedValue`, also when it fails, leaves the record of
every operation of the graph as it is. -/
theorem allocate_findOp_old (b : OpBuilder) (v : Value) (e : Bool)
    (options : BufferizationOptions) (copy : Bool) (id : Nat) (x : Operation)
    (hx : b.ir.findOp id = some x) :
    (allocateTensorForShapedValue b v e options copy).2.ir.findOp id = some x := by
  unfold allocateTensorForShapedValue
  split
  · exact hx
  · rename_i tensor b1 heq
    dsimp only
    obtain ⟨hid, -, ⟨op0, hf0, hal0⟩, hold0⟩ :=
      createAllocTensorOp_full (computeDynamicSizes b1 v tensor copy).2 tensor
        (computeDynamicSizes b1 v tensor copy).1 e copy
    rw [← hid] at hf0 hal0
    obtain ⟨-, hold, -⟩ := addMemorySpaceAttr_full _ _ tensor options copy e _ op0 hf0 hal0
    have hx2 := findOp_computeDynamicSizes_old b1 v tensor copy id x
      (findOp_shapedValueAsTensor_old b v tensor b1 heq id x hx)
    apply hold
    · rw [hid]
      have := lt_freshId_of_findOp _ id x hx2
      omega
    · exact hold0 id x hx2

/-! ## Copy elision in the conflict resolver -/

/-- An operand that is written and not read can have its copy omitted,
whatever the state and the fuel. -/
theorem canOmitTensorCopy_of_overwrite (state : AnalysisState) (ir : IR) (fuel : Nat)
    (o : OpOperand) (hw : AnalysisState.bufferizesToMemoryWrite state.options ir o = true)
    (hr : AnalysisState.bufferizesToMemoryRead state.options ir o = false) :
    AnalysisState.canOmitTensorCopy state ir fuel o = some true := by
  unfold AnalysisState.canOmitTensorCopy
  split
  · rfl
  · simp [hw, hr]

/-- What the loop body does to the sets of operands. -/
theorem classifyOpOperand_sets (state : AnalysisState) (ir : IR) (fuel : Nat)
    (o : OpOperand) (s s' : ConflictSets)
    (h : classifyOpOperand state ir fuel o s = some (.ok s')) :
    (∀ x ∈ s'.copiedOpOperands, x ∈ s.copiedOpOperands
      ∨ (x = o ∧ AnalysisState.canOmitTensorCopy state ir fuel o = some false))
    ∧ (s'.outOfPlaceOpOperands = s.outOfPlaceOpOperands
      ∨ s'.outOfPlaceOpOperands = s.outOfPlaceOpOperands ++ [o])
    ∧ ((o.get ir).getType.isTensor = true → state.methods.isInPlace ir o = false →
        AnalysisState.bufferizesToMemoryWrite state.options ir o = true →
        s'.outOfPlaceOpOperands = s.outOfPlaceOpOperands ++ [o]) := by
  unfold classifyOpOperand at h
  dsimp only at h
  split at h
  · rename_i ht
    cases h
    exact ⟨fun x hx => Or.inl hx, Or.inl rfl, fun h1 _ _ => by simp [h1] at ht⟩
  · split at h
    · rename_i hi
      cases h
      exact ⟨fun x hx => Or.inl hx, Or.inl rfl, fun _ h2 _ => by simp [h2] at hi⟩
    · split at h
      · cases h
      · split at h
        · cases h
        · split at h
          · cases h
          · rename_i canOmit hcan
            split at h
            · rename_i opResult hres
              cases h
              refine ⟨fun x hx => Or.inl hx, Or.inl rfl, fun _ _ h3 => ?_⟩
              split at hres
              · simp [h3] at hres
              · cases hres
            · cases h
              refine ⟨?_, Or.inr rfl, fun _ _ _ => rfl⟩
              intro x hx
              dsimp only at hx
              cases canOmit
              · simp only [Bool.not_false, if_true, List.mem_append, List.mem_singleton] at hx
                rcases hx with hx | hx
                · exact Or.inl hx
                · exact Or.inr ⟨hx, hcan⟩
              · exact Or.inl (by simpa using hx)

/-- What the classification loop does to the sets of operands. -/
theorem classifyOpOperands_sets (state : AnalysisState) (ir : IR) (fuel : Nat)
    (l : List OpOperand) (s s' : ConflictSets)
    (h : classifyOpOperands state ir fuel l s = some (.ok s')) :
    (∀ x ∈ s'.copiedOpOperands, x ∈ s.copiedOpOperands
      ∨ (x ∈ l ∧ AnalysisState.canOmitTensorCopy state ir fuel x = some false))
    ∧ (∃ added, s'.outOfPlaceOpOperands = s.outOfPlaceOpOperands ++ added
        ∧ added.Sublist l)
    ∧ (∀ o ∈ l, (o.get ir).getType.isTensor = true → state.methods.isInPlace ir o = false →
        AnalysisState.bufferizesToMemoryWrite state.options ir o = true →
        o ∈ s'.outOfPlaceOpOperands) := by
  induction l generalizing s with
  | nil =>
    cases h
    exact ⟨fun x hx => Or.inl hx, ⟨[], by simp, List.Sublist.refl _⟩, by simp⟩
  | cons o os ih =>
    unfold classifyOpOperands at h
    split at h
    · cases h
    · cases h
    · rename_i s1 h1
      obtain ⟨hc1, ho1, hw1⟩ := classifyOpOperand_sets state ir fuel o s s1 h1
      obtain ⟨hc, ⟨added, hadd, hsub⟩, hw⟩ := ih s1 h
      refine ⟨?_, ?_, ?_⟩
      · intro x hx
        rcases hc x hx with hx | ⟨hx, hcan⟩
        · rcases hc1 x hx with hx | ⟨rfl, hcan⟩
          · exact Or.inl hx
          · exact Or.inr ⟨by simp, hcan⟩
        · exact Or.inr ⟨by simp [hx], hcan⟩
      · rcases ho1 with ho1 | ho1
        · exact ⟨added, by rw [hadd, ho1], hsub.cons o⟩
        · exact ⟨o :: added, by rw [hadd, ho1]; simp, hsub.cons₂ o⟩
      · intro x hx ht hi hwr
        rcases List.mem_cons.1 hx with rfl | hx
        · rw [hadd, hw1 ht hi hwr]
          simp
        · exact hw x hx ht hi hwr

theorem getOperand_set (W : Operation) (k i : Nat) (c : Value) :
    Operation.getOperand { W with operands := W.operands.set k c } i
      = if i = k ∧ k < W.operands.length then c else W.getOperand i := by
  unfold Operation.getOperand
  simp only [List.getD_eq_getElem?_getD, List.getElem?_set]
  by_cases hik : k = i
  · subst hik
    by_cases hlt : k < W.operands.length
    · simp [hlt]
    · have : W.operands[k]? = none := by simp; omega
      simp [hlt, this]
  · have : ¬ (i = k ∧ k < W.operands.length) := fun h => hik h.1.symm
    simp [hik, this]

theorem findOp_setOperand_owner (ir : IR) (o : OpOperand) (copy : Value) (W : Operation)
    (h : ir.findOp o.owner = some W) :
    (ir.setOperand o copy).findOp o.owner
      = some { W with operands := W.operands.set o.idx copy } := by
  unfold IR.setOperand
  rw [findOp_modifyOp, h]
  · simp [findOp_id ir o.owner W h]
  · intro x
    rfl

/-- The loop "Insert copies of OpOperands", when it succeeds on operands of
the operation `opId`: every operand of the list is set to result 0 of its own
new `AllocTensorOp`, which has the `copy` operand exactly when the operand is
in `copiedOpOperands`; the other operands and the records of the other
operations are as before. -/
theorem insertOpOperandCopies_ok (options : BufferizationOptions) (s : ConflictSets)
    (opId : Nat) (l : List OpOperand) :
    ∀ (b b' : OpBuilder) (W : Operation), b.ir.findOp opId = some W →
      (∀ o ∈ l, o.owner = opId) → l.Nodup →
      insertOpOperandCopies options s l b = (.ok (), b') →
      ∃ W', b'.ir.findOp opId = some W'
        ∧ W'.operands.length = W.operands.length
        ∧ (∀ id x, id ≠ opId → b.ir.findOp id = some x → b'.ir.findOp id = some x)
        ∧ (∀ i, (∀ o ∈ l, o.idx ≠ i) → W'.getOperand i = W.getOperand i)
        ∧ ∀ o ∈ l, o.idx < W.operands.length →
            ∃ alloc tensor sizes,
              W'.getOperand o.idx = .result ⟨alloc.id, 0, tensor.getType⟩
              ∧ b.ir.findOp alloc.id = none
              ∧ b'.ir.findOp alloc.id = some alloc
              ∧ IsAllocTensorFor alloc alloc.id tensor sizes
                  (s.escapingOpOperandCopies.contains o) (s.copiedOpOperands.contains o)
              ∧ ((W.getOperand o.idx).getType.isRankedTensor = true →
                  tensor = W.getOperand o.idx) := by
  induction l with
  | nil =>
    intro b b' W hW _ _ h
    simp only [insertOpOperandCopies, Prod.mk.injEq, true_and] at h
    subst h
    exact ⟨W, hW, rfl, fun id x _ hx => hx, fun i _ => rfl, by simp⟩
  | cons o rest ih =>
    intro b b' W hW hown hnodup h
    have ho : o.owner = opId := hown o (by simp)
    have hget : o.get b.ir = W.getOperand o.idx := by
      simp [OpOperand.get, ho, getOp_of_findOp _ _ _ hW]
    unfold insertOpOperandCopies at h
    rw [hget] at h
    have hfull := allocate_ok_full b (W.getOperand o.idx) (s.escapingOpOperandCopies.contains o)
      options (s.copiedOpOperands.contains o)
    generalize allocateTensorForShapedValue b (W.getOperand o.idx)
      (s.escapingOpOperandCopies.contains o) options (s.copiedOpOperands.contains o) = A
      at h hfull
    obtain ⟨res, b1⟩ := A
    cases res with
    | error e =>
      simp only at h
      cases h
    | ok copy =>
      simp only at h
      obtain ⟨alloc, tensor, sizes, hcopy, hnew, hfound, hal, hten, hold⟩ := hfull copy rfl
      simp only at hfound hold
      have hane : alloc.id ≠ opId := by
        intro h'
        rw [h', hW] at hnew
        cases hnew
      have hW1 : b1.ir.findOp opId = some W := hold opId W hW
      have hW2 : (b1.ir.setOperand o copy).findOp opId
          = some { W with operands := W.operands.set o.idx copy } := by
        have := findOp_setOperand_owner b1.ir o copy W (by rw [ho]; exact hW1)
        rwa [ho] at this
      have hother2 : ∀ id x, id ≠ opId → b1.ir.findOp id = some x →
          (b1.ir.setOperand o copy).findOp id = some x := by
        intro id x hne hx
        rw [findOp_setOperand_of_ne _ _ _ _ (by rw [ho]; exact fun h => hne h.symm)]
        exact hx
      have hnd := List.nodup_cons.1 hnodup
      obtain ⟨W', hW', hlen, hkeep, hsame, hall⟩ :=
        ih { b1 with ir := b1.ir.setOperand o copy } b' _ hW2
          (fun x hx => hown x (by simp [hx])) hnd.2 h
      have hidx : ∀ x ∈ rest, x.idx ≠ o.idx := by
        intro x hx hxi
        apply hnd.1
        have hxo : x.owner = o.owner := by rw [hown x (by simp [hx]), ho]
        have : x = o := by
          cases x
          cases o
          simp_all
        exact this ▸ hx
      refine ⟨W', hW', by rw [hlen]; simp, ?_, ?_, ?_⟩
      · intro id x hne hx
        exact hkeep id x hne (hother2 id x hne (hold id x hx))
      · intro i hi
        rw [hsame i (fun x hx => hi x (by simp [hx])), getOperand_set,
          if_neg (fun h => hi o (by simp) h.1.symm)]
      · intro x hx hlt
        rcases List.mem_cons.1 hx with rfl | hx
        · refine ⟨alloc, tensor, sizes, ?_, hnew, ?_, hal, hten⟩
          · rw [hsame x.idx (fun y hy => hidx y hy), getOperand_set, if_pos ⟨rfl, hlt⟩, hcopy]
          · exact hkeep alloc.id alloc hane (hother2 alloc.id alloc hane hfound)
        · obtain ⟨alloc', tensor', sizes', h1, h2, h3, h4, h5⟩ :=
            hall x hx (by simpa using hlt)
          have hxi : ¬ (x.idx = o.idx ∧ o.idx < W.operands.length) :=
            fun h => hidx x hx h.1
          rw [getOperand_set, if_neg hxi] at h5
          refine ⟨alloc', tensor', sizes', h1, ?_, h3, h4, h5⟩
          cases hb : b.ir.findOp alloc'.id with
          | none => rfl
          | some y =>
            by_cases hy : alloc'.id = opId
            · rw [hy, hW2] at h2
              cases h2
            · rw [hother2 alloc'.id y hy (hold alloc'.id y hb)] at h2
              cases h2

/-- Setting uses to a copy changes the operands of operations only. -/
theorem replaceUses_kept (copy : Value) (uses : List OpOperand) (ir : IR) (id : Nat)
    (x : Operation) (h : ir.findOp id = some x) :
    ∃ x', (replaceUses copy uses ir).findOp id = some x' ∧ x'.kind = x.kind
      ∧ x'.copy = x.copy := by
  induction uses generalizing ir x with
  | nil => exact ⟨x, h, rfl, rfl⟩
  | cons use uses ih =>
    unfold replaceUses
    split
    · exact ih ir x h
    · split
      · exact ih ir x h
      · have hstep : ∃ x1, (ir.setOperand use copy).findOp id = some x1 ∧ x1.kind = x.kind
            ∧ x1.copy = x.copy := by
          unfold IR.setOperand
          rw [findOp_modifyOp, h]
          · by_cases hx : x.id = use.owner
            · refine ⟨{ x with operands := x.operands.set use.idx copy }, ?_, rfl, rfl⟩
              rw [Option.map_some', if_pos hx]
            · exact ⟨x, by rw [Option.map_some', if_neg hx], rfl, rfl⟩
          · intro o
            rfl
        obtain ⟨x1, h1, hk1, hc1⟩ := hstep
        obtain ⟨x', h2, hk2, hc2⟩ := ih _ x1 h1
        exact ⟨x', h2, hk2.trans hk1, hc2.trans hc1⟩

/-- The loop "Insert copies of OpResults" leaves the kind and the `copy`
operand index of every operation of the graph as they are. -/
theorem insertOpResultCopies_kept (options : BufferizationOptions) (s : ConflictSets)
    (l : List OpResult) (b : OpBuilder) (id : Nat) (x : Operation)
    (h : b.ir.findOp id = some x) :
    ∃ x', (insertOpResultCopies options s l b).2.ir.findOp id = some x' ∧ x'.kind = x.kind
      ∧ x'.copy = x.copy := by
  induction l generalizing b x with
  | nil => exact ⟨x, h, rfl, rfl⟩
  | cons r rest ih =>
    unfold insertOpResultCopies
    have hold := allocate_findOp_old b (.result r) (s.escapingOpResultCopies.contains r) options
      (s.copiedOpResults.contains r) id x h
    generalize allocateTensorForShapedValue b (.result r) (s.escapingOpResultCopies.contains r)
      options (s.copiedOpResults.contains r) = A at hold
    obtain ⟨res, b1⟩ := A
    cases res with
    | error e => exact ⟨x, hold, rfl, rfl⟩
    | ok copy =>
      simp only at hold ⊢
      obtain ⟨x1, h1, hk1, hc1⟩ := replaceUses_kept copy ((Value.result r).getUses b1.ir)
        b1.ir id x hold
      obtain ⟨x', h2, hk2, hc2⟩ :=
        ih { b1 with ir := (replaceUses copy ((Value.result r).getUses b1.ir) b1.ir) } x1 h1
      exact ⟨x', h2, hk2.trans hk1, hc2.trans hc1⟩

theorem opOperandsFrom_owner (id : Nat) (i : Nat) (vs : List Value) :
    ∀ o ∈ opOperandsFrom id i vs, o.owner = id ∧ o.idx < i + vs.length := by
  induction vs generalizing i with
  | nil => simp [opOperandsFrom]
  | cons v vs ih =>
    intro o ho
    simp only [opOperandsFrom, List.mem_cons] at ho
    rcases ho with rfl | ho
    · exact ⟨rfl, by simp⟩
    · have := ih (i + 1) o ho
      exact ⟨this.1, by simp only [List.length_cons]; omega⟩

/-- An operation that has an operand slot is an operation of the graph. -/
theorem findOp_of_mem_getOpOperands (ir : IR) (opId : Nat) (o : OpOperand)
    (ho : o ∈ (ir.getOp opId).getOpOperands) :
    ir.findOp opId = some (ir.getOp opId) ∧ o.owner = opId
      ∧ o.idx < (ir.getOp opId).operands.length := by
  have hown := opOperandsFrom_owner (ir.getOp opId).id 0 (ir.getOp opId).operands o ho
  rw [getOp_id] at hown
  refine ⟨?_, hown.1, by simpa using hown.2⟩
  cases hf : ir.findOp opId with
  | none =>
    simp [IR.getOp, hf, Operation.getOpOperands, opOperandsFrom] at ho
  | some W => rw [getOp_of_findOp ir opId W hf]

/-- C13: for an operand that is a tensor, is not in place, is written and is
not read, `canOmitTensorCopy` is true; when the classification loop of
`resolveTensorOpOperandConflicts` succeeds, the operand is among the operands
to copy and not in `copiedOpOperands`, so that `allocateTensorForShapedValue`
is called for it with `copy = false`; when the loop "Insert copies of
OpOperands" succeeds, the operand is result 0 of a new `AllocTensorOp` that
has no `copy` operand; and in the graph that a successful
`resolveTensorOpOperandConflicts` returns that operation is still an
`AllocTensorOp` without `copy` operand. -/
theorem resolve_omits_copy_of_overwritten_operand (state : AnalysisState) (ir : IR)
    (opId fuel : Nat) (o : OpOperand) (ho : o ∈ (ir.getOp opId).getOpOperands)
    (htensor : (o.get ir).getType.isTensor = true)
    (hout : state.methods.isInPlace ir o = false)
    (hwrite : AnalysisState.bufferizesToMemoryWrite state.options ir o = true)
    (hread : AnalysisState.bufferizesToMemoryRead state.options ir o = false) :
    AnalysisState.canOmitTensorCopy state ir fuel o = some true
    ∧ ∀ s, classifyOpOperands state ir fuel (ir.getOp opId).getOpOperands {} = some (.ok s) →
        o ∈ s.outOfPlaceOpOperands ∧ s.copiedOpOperands.contains o = false
        ∧ ∀ b', insertOpOperandCopies state.options s s.outOfPlaceOpOperands
              { ir := ir, ip := .before opId } = (.ok (), b') →
            ∃ alloc,
              (b'.ir.getOp opId).getOperand o.idx = .result (alloc.getResult 0)
              ∧ ir.findOp alloc.id = none
              ∧ b'.ir.findOp alloc.id = some alloc
              ∧ alloc.kind = .AllocTensorOp ∧ alloc.copy = none
              ∧ alloc.resultTypes = [(o.get ir).getType]
              ∧ alloc.escapeAttr = some [s.escapingOpOperandCopies.contains o]
              ∧ ∀ ir', resolveTensorOpOperandConflicts state fuel ir opId = some (.ok (), ir') →
                  ∃ alloc', ir'.findOp alloc.id = some alloc'
                    ∧ alloc'.kind = .AllocTensorOp ∧ alloc'.copy = none := by
  have hcan := canOmitTensorCopy_of_overwrite state ir fuel o hwrite hread
  refine ⟨hcan, ?_⟩
  intro s hs
  obtain ⟨hW, hown, hidx⟩ := findOp_of_mem_getOpOperands ir opId o ho
  obtain ⟨hcopied, ⟨added, hadd, hsub⟩, hmem⟩ :=
    classifyOpOperands_sets state ir fuel _ {} s hs
  have hin : o ∈ s.outOfPlaceOpOperands := hmem o ho htensor hout hwrite
  have hnot : s.copiedOpOperands.contains o = false := by
    cases hc : s.copiedOpOperands.contains o with
    | false => rfl
    | true =>
      have hx : o ∈ s.copiedOpOperands := by simpa using hc
      rcases hcopied o hx with h | ⟨_, h⟩
      · simp at h
      · rw [hcan] at h
        cases h
  refine ⟨hin, hnot, ?_⟩
  intro b' hb'
  have hadd' : s.outOfPlaceOpOperands = added := by simpa using hadd
  have hsub' : s.outOfPlaceOpOperands.Sublist (ir.getOp opId).getOpOperands := hadd' ▸ hsub
  have hnodup : s.outOfPlaceOpOperands.Nodup :=
    hsub'.nodup (opOperandsFrom_nodup _ _ _)
  have hall : ∀ x ∈ s.outOfPlaceOpOperands, x.owner = opId := by
    intro x hx
    exact (findOp_of_mem_getOpOperands ir opId x (hsub'.subset hx)).2.1
  have hranked : (o.get ir).getType.isRankedTensor = true := by
    cases hu : (o.get ir).getType.isUnrankedTensor with
    | true =>
      rcases (classifyOpOperands_unranked state ir fuel _ {} o ho hu hout).1 with h | h
      · rw [hs] at h
        cases h
      · rw [hs] at h
        cases h
    | false => simpa [Ty.isTensor, hu] using htensor
  have hget : o.get ir = (ir.getOp opId).getOperand o.idx := by
    simp [OpOperand.get, hown]
  obtain ⟨W', hW', -, -, -, hallocs⟩ :=
    insertOpOperandCopies_ok state.options s opId s.outOfPlaceOpOperands
      { ir := ir, ip := .before opId } b' (ir.getOp opId) hW hall hnodup hb'
  obtain ⟨alloc, tensor, sizes, h1, h2, h3, h4, h5⟩ := hallocs o hin hidx
  have hten : tensor = o.get ir := by
    rw [hget]
    exact h5 (hget ▸ hranked)
  rw [hnot] at h4
  obtain ⟨-, hk, he, -, hc, hr⟩ := h4
  refine ⟨alloc, ?_, h2, h3, hk, by simpa using hc, by rw [hr, hten], he, ?_⟩
  · rw [getOp_of_findOp _ _ _ hW', h1]
    simp [Operation.getResult, hr]
  · intro ir' hres
    unfold resolveTensorOpOperandConflicts at hres
    simp only [hs, hb'] at hres
    obtain ⟨x', hx1, hx2, hx3⟩ := insertOpResultCopies_kept state.options s
      s.outOfPlaceOpResults { ir := b'.ir, ip := .after opId } alloc.id alloc h3
    generalize insertOpResultCopies state.options s s.outOfPlaceOpResults
      { ir := b'.ir, ip := .after opId } = R at hres hx1
    obtain ⟨res, b2⟩ := R
    cases res with
    | error e =>
      simp only [Option.some.injEq, Prod.mk.injEq] at hres
      cases hres.1
    | ok u =>
      simp only [Option.some.injEq, Prod.mk.injEq, true_and] at hres
      subst hres
      exact ⟨x', hx1, hx2.trans hk, hx3.trans (by simpa using hc)⟩

/-- C13 on the graph `src ; W ; R` where `W` writes its operand and does not
read it: the copy can be omitted, and the resolver puts before `W` an
`AllocTensorOp` without operands, to which the operand of `W` is set. -/
theorem resolve_omits_copy_of_overwritten_operand_witness :
    AnalysisState.canOmitTensorCopy (AnalysisState.base Example.defaultOptions)
        (Example.wrIR false true) 0 Example.wOperand = some true
    ∧ (∃ (alloc : Operation) (b' : OpBuilder), insertOpOperandCopies Example.defaultOptions
          { outOfPlaceOpOperands := [Example.wOperand]
            escapingOpOperandCopies := [Example.wOperand] }
          [Example.wOperand] { ir := Example.wrIR false true, ip := .before 1 } = (.ok (), b')
        ∧ (b'.ir.getOp 1).getOperand 0 = .result (alloc.getResult 0)
        ∧ alloc.kind = .AllocTensorOp ∧ alloc.copy = none)
    ∧ (resolveTensorOpOperandConflicts (AnalysisState.base Example.defaultOptions) 0
          (Example.wrIR false true) 1).map
        (fun r => (r.1.toBool, r.2.ops.map (fun x => x.id))) = some (true, [0, 3, 1, 2])
    ∧ (resolveTensorOpOperandConflicts (AnalysisState.base Example.defaultOptions) 0
          (Example.wrIR false true) 1).map
        (fun r => ((r.2.getOp 3).kind, (r.2.getOp 3).copy, (r.2.getOp 3).operands))
        = some (.AllocTensorOp, none, [])
    ∧ (resolveTensorOpOperandConflicts (AnalysisState.base Example.defaultOptions) 0
          (Example.wrIR false true) 1).map (fun r => (r.2.getOp 1).operands)
        = some [.result ⟨3, 0, Example.tensorTy⟩] := by
  have h := resolve_omits_copy_of_overwritten_operand
    (AnalysisState.base Example.defaultOptions) (Example.wrIR false true) 1 0 Example.wOperand
    (by decide) (by decide) (by decide) (by decide) (by decide)
  refine ⟨h.1, ?_, by decide, by decide, by decide⟩
  obtain ⟨-, -, h3⟩ := h.2
    { outOfPlaceOpOperands := [Example.wOperand]
      escapingOpOperandCopies := [Example.wOperand] } rfl
  obtain ⟨alloc, h4, -, -, h5, h6, -⟩ := h3 _ rfl
  exact ⟨alloc, _, rfl, h4, h5, h6⟩

/-! ## Buffer types of values of opaque operations -/

/-- C21: for a tensor value that is not in `fixedTypes` and whose owner is
not an allowed operation implementing the interface, `getBufferType` fails,
with "could not infer memory space", exactly when `defaultMemorySpace` is
unset; when it is set the result is `getMemRefType` of the value without
layout in that memory space, which under the default unknown-type converter
is the type with fully dynamic layout in that memory space. -/
theorem getBufferType_of_unknown_owner (ir : IR) (value : Value) (options : BufferizationOptions)
    (fixedTypes : FixedTypes) (_htensor : value.getType.isTensor = true)
    (hfixed : fixedTypes.lookup value = none)
    (hunknown : options.dynCastBufferizableOp ir (getOwnerOfValue ir value) = none) :
    ((∃ e, getBufferType ir value options fixedTypes = .error e)
      ↔ options.defaultMemorySpace = none)
    ∧ (options.defaultMemorySpace = none →
        getBufferType ir value options fixedTypes = .error .noMemorySpace)
    ∧ (∀ memorySpace, options.defaultMemorySpace = some memorySpace →
        getBufferType ir value options fixedTypes
          = .ok (getMemRefType value options none memorySpace))
    ∧ (options.unknownTypeConverterFn = defaultUnknownTypeConverter →
        ∀ memorySpace, getMemRefType value options none memorySpace
          = getMemRefTypeWithFullyDynamicLayout value.getType memorySpace) := by
  have hdef : getBufferType ir value options fixedTypes
      = match options.defaultMemorySpace with
        | none => .error .noMemorySpace
        | some memorySpace => .ok (getMemRefType value options none memorySpace) := by
    simp [getBufferType, hfixed, hunknown]
  refine ⟨?_, ?_, ?_, ?_⟩
  · rw [hdef]
    cases options.defaultMemorySpace with
    | none => simp
    | some m => simp
  · intro h
    rw [hdef, h]
  · intro m h
    rw [hdef, h]
  · intro hconv m
    unfold getMemRefType
    cases hty : value.getType with
    | rankedTensor shape elem => simp [hconv, defaultUnknownTypeConverter, hty]
    | unrankedTensor elem => rfl
    | memref sh el l ms => simp [hty, Ty.isTensor, Ty.isRankedTensor, Ty.isUnrankedTensor] at _htensor
    | unrankedMemref el ms => simp [hty, Ty.isTensor, Ty.isRankedTensor, Ty.isUnrankedTensor] at _htensor
    | other n => simp [hty, Ty.isTensor, Ty.isRankedTensor, Ty.isUnrankedTensor] at _htensor

/-- C21 at the result of the unregistered operation `src`: without a default
memory space the query fails, and with the memory space 3 it returns the
type with fully dynamic layout in that memory space. -/
theorem getBufferType_of_unknown_owner_witness :
    getBufferType Example.unknownIR (.result Example.srcResult) Example.noSpaceOptions []
      = .error .noMemorySpace
    ∧ getBufferType Example.unknownIR (.result Example.srcResult)
        { Example.defaultOptions with defaultMemorySpace := some (some 3) } []
      = .ok (.memref [4] 0 (some (.strided kDynamic [kDynamic])) (some 3)) :=
  ⟨(getBufferType_of_unknown_owner Example.unknownIR (.result Example.srcResult)
      Example.noSpaceOptions [] (by decide) (by decide) rfl).2.1 rfl,
   ((getBufferType_of_unknown_owner Example.unknownIR (.result Example.srcResult)
      { Example.defaultOptions with defaultMemorySpace := some (some 3) } [] (by decide)
      (by decide) rfl).2.2.1 (some 3) rfl).trans rfl⟩

/-! ## Tensor types and buffer types -/

/-- C22: `getMemRefType`, `getMemRefTypeWithFullyDynamicLayout` and
`getMemRefTypeWithStaticIdentityLayout` map an unranked tensor type to the
unranked buffer type of the same element type in the given memory space; they
map a ranked tensor type (`getMemRefType`: when a layout is given) to the
ranked buffer type of the same shape and element type, with the given layout,
the strided layout of dynamic offset and rank-many dynamic strides, and no
layout; so the condition asserted by `ensureToMemrefOpIsValid` holds for these
types.  Without a layout `getMemRefType` returns for a ranked tensor what the
unknown-type converter of the options returns. -/
theorem getMemRefType_preserves_shape (value : Value) (options : BufferizationOptions)
    (layout : Layout) (memorySpace : MemorySpace) :
    (∀ elem, value.getType = .unrankedTensor elem →
      getMemRefType value options none memorySpace = .unrankedMemref elem memorySpace
      ∧ getMemRefTypeWithFullyDynamicLayout value.getType memorySpace
          = .unrankedMemref elem memorySpace
      ∧ getMemRefTypeWithStaticIdentityLayout value.getType memorySpace
          = .unrankedMemref elem memorySpace)
    ∧ (∀ shape elem, value.getType = .rankedTensor shape elem →
      getMemRefType value options (some layout) memorySpace
          = .memref shape elem (some layout) memorySpace
      ∧ getMemRefTypeWithFullyDynamicLayout value.getType memorySpace
          = .memref shape elem
              (some (.strided kDynamic (List.replicate shape.length kDynamic))) memorySpace
      ∧ (List.replicate shape.length kDynamic).length = (value.getType).getRank
      ∧ getMemRefTypeWithStaticIdentityLayout value.getType memorySpace
          = .memref shape elem none memorySpace
      ∧ getMemRefType value options none memorySpace
          = options.unknownTypeConverterFn value memorySpace)
    ∧ (value.getType.isTensor = true →
      ensureToMemrefOpIsValid value
          (getMemRefTypeWithFullyDynamicLayout value.getType memorySpace) = true
      ∧ ensureToMemrefOpIsValid value
          (getMemRefTypeWithStaticIdentityLayout value.getType memorySpace) = true
      ∧ ensureToMemrefOpIsValid value
          (getMemRefType value options (some layout) memorySpace) = true
      ∧ (options.unknownTypeConverterFn = defaultUnknownTypeConverter →
          ensureToMemrefOpIsValid value (getMemRefType value options none memorySpace)
            = true)) := by
  refine ⟨?_, ?_, ?_⟩
  · intro elem h
    simp [getMemRefType, getMemRefTypeWithFullyDynamicLayout,
      getMemRefTypeWithStaticIdentityLayout, h]
  · intro shape elem h
    simp [getMemRefType, getMemRefTypeWithFullyDynamicLayout,
      getMemRefTypeWithStaticIdentityLayout, h, Ty.getRank, Ty.getShape]
  · intro ht
    cases hty : value.getType with
    | rankedTensor shape elem =>
      refine ⟨?_, ?_, ?_, ?_⟩ <;>
        simp [ensureToMemrefOpIsValid, getMemRefType, getMemRefTypeWithFullyDynamicLayout,
          getMemRefTypeWithStaticIdentityLayout, hty, Ty.getRank, Ty.getShape,
          Ty.isRankedTensor, Ty.isMemRef, defaultUnknownTypeConverter]
      intro hconv
      simp [hconv, defaultUnknownTypeConverter, getMemRefTypeWithFullyDynamicLayout, hty,
        Ty.isMemRef, Ty.getShape]
    | unrankedTensor elem =>
      simp [ensureToMemrefOpIsValid, hty, Ty.isRankedTensor]
    | memref sh el l ms => simp [hty, Ty.isTensor, Ty.isRankedTensor, Ty.isUnrankedTensor] at ht
    | unrankedMemref el ms =>
      simp [hty, Ty.isTensor, Ty.isRankedTensor, Ty.isUnrankedTensor] at ht
    | other n => simp [hty, Ty.isTensor, Ty.isRankedTensor, Ty.isUnrankedTensor] at ht

/-- C22 at the result of `src`, a `tensor<4xf32>`, and at an unranked tensor. -/
theorem getMemRefType_preserves_shape_witness :
    getMemRefTypeWithFullyDynamicLayout Example.tensorTy (some 1)
        = .memref [4] 0 (some (.strided kDynamic [kDynamic])) (some 1)
    ∧ getMemRefTypeWithStaticIdentityLayout Example.tensorTy (some 1)
        = .memref [4] 0 none (some 1)
    ∧ ensureToMemrefOpIsValid (.result Example.srcResult)
        (getMemRefType (.result Example.srcResult) Example.defaultOptions
          (some (.custom 2)) (some 1)) = true
    ∧ getMemRefType (.result ⟨0, 0, .unrankedTensor 5⟩) Example.defaultOptions none (some 1)
        = .unrankedMemref 5 (some 1) :=
  ⟨((getMemRefType_preserves_shape (.result Example.srcResult) Example.defaultOptions
      (.custom 2) (some 1)).2.1 [4] 0 rfl).2.1,
   ((getMemRefType_preserves_shape (.result Example.srcResult) Example.defaultOptions
      (.custom 2) (some 1)).2.1 [4] 0 rfl).2.2.2.1,
   ((getMemRefType_preserves_shape (.result Example.srcResult) Example.defaultOptions
      (.custom 2) (some 1)).2.2 (by decide)).2.2.1,
   ((getMemRefType_preserves_shape (.result ⟨0, 0, .unrankedTensor 5⟩) Example.defaultOptions
      (.custom 2) (some 1)).1 5 rfl).1⟩

/-! ## Values that bufferize to a memory write -/

/-- C23: `AnalysisState::bufferizesToMemoryWrite(Value)` is true for a block
argument and for a result of an operation that does not implement the
interface or is not allowed; for a result of an allowed operation that
implements the interface it is the answer of `resultBufferizesToMemoryWrite`
of that operation. -/
theorem bufferizesToMemoryWriteValue_cases (options : BufferizationOptions) (ir : IR) :
    (∀ a : BlockArgument,
      AnalysisState.bufferizesToMemoryWriteValue options ir (.arg a) = true)
    ∧ (∀ r : OpResult,
        (ir.interfaces (r.getDefiningOp ir).kind = none
          ∨ options.isOpAllowed (r.getDefiningOp ir) = false) →
        AnalysisState.bufferizesToMemoryWriteValue options ir (.result r) = true)
    ∧ (∀ (r : OpResult) (bufferizableOp : BufferizableOpInterface),
        ir.interfaces (r.getDefiningOp ir).kind = some bufferizableOp →
        options.isOpAllowed (r.getDefiningOp ir) = true →
        AnalysisState.bufferizesToMemoryWriteValue options ir (.result r)
          = bufferizableOp.resultBufferizesToMemoryWrite (r.getDefiningOp ir) r.idx) := by
  refine ⟨fun a => rfl, ?_, ?_⟩
  · intro r h
    have hd : options.dynCastBufferizableOp ir (r.getDefiningOp ir) = none :=
      (dynCast_eq_none_iff options ir _).2 h
    simp [AnalysisState.bufferizesToMemoryWriteValue, Value.asOpResult,
      BufferizationOptions.dynCastBufferizableOpValue, getOwnerOfValue, hd]
  · intro r i hi ha
    have hd : options.dynCastBufferizableOp ir (r.getDefiningOp ir) = some i :=
      (dynCast_eq_some_iff options ir _ i).2 ⟨hi, ha⟩
    simp [AnalysisState.bufferizesToMemoryWriteValue, Value.asOpResult,
      BufferizationOptions.dynCastBufferizableOpValue, getOwnerOfValue, hd]

/-- C23 on the graph `src ; W ; R` where `W` has an interface whose result
does not bufferize to a memory write: the result of the unregistered `src` is
a memory write, the result of `W` is not. -/
theorem bufferizesToMemoryWriteValue_cases_witness :
    AnalysisState.bufferizesToMemoryWriteValue Example.defaultOptions Example.quietIR
        (.result Example.srcResult) = true
    ∧ AnalysisState.bufferizesToMemoryWriteValue Example.defaultOptions Example.quietIR
        (.result Example.wResult) = false :=
  ⟨(bufferizesToMemoryWriteValue_cases Example.defaultOptions Example.quietIR).2.1
      Example.srcResult (Or.inl rfl),
   ((bufferizesToMemoryWriteValue_cases Example.defaultOptions Example.quietIR).2.2
      Example.wResult Example.quietResult rfl (by decide)).trans (by decide)⟩

/-! ## The default aliasing operands -/

theorem collectAliasingOpOperand_eq (opResult : OpResult) (opOperand : OpOperand)
    (result : List AliasingOpOperand) (aliases : AliasingOpResultList) :
    detail.collectAliasingOpOperand opResult opOperand result aliases
      = result ++ (aliases.filter (fun it => it.opResult = opResult)).map
          (fun it => { opOperand := opOperand, relation := it.relation,
                       isDefinite := it.isDefinite }) := by
  unfold detail.collectAliasingOpOperand
  induction aliases generalizing result with
  | nil => simp
  | cons it rest ih =>
    simp only [List.foldl_cons]
    rw [ih]
    by_cases h : it.opResult = opResult
    · simp [h, List.filter_cons]
    · simp [h, List.filter_cons]

/-- The entries that `defaultGetAliasingOpOperands` adds for one operand. -/
theorem defaultGetAliasingOpOperands_eq (options : BufferizationOptions) (ir : IR)
    (opResult : OpResult) :
    detail.defaultGetAliasingOpOperands options ir opResult
      = (opResult.getDefiningOp ir).getOpOperands.flatMap (fun opOperand =>
          if (opOperand.get ir).getType.isTensor then
            ((AnalysisState.getAliasingOpResults options ir opOperand).filter
                (fun it => it.opResult = opResult)).map
              (fun it => { opOperand := opOperand, relation := it.relation,
                           isDefinite := it.isDefinite })
          else []) := by
  unfold detail.defaultGetAliasingOpOperands
  dsimp only
  generalize (opResult.getDefiningOp ir).getOpOperands = l
  suffices H : ∀ acc : List AliasingOpOperand,
      l.foldl (fun result opOperand =>
          if (!(opOperand.get ir).getType.isTensor) = true then result
          else detail.collectAliasingOpOperand opResult opOperand result
            (AnalysisState.getAliasingOpResults options ir opOperand)) acc
        = acc ++ l.flatMap (fun opOperand =>
          if (opOperand.get ir).getType.isTensor then
            ((AnalysisState.getAliasingOpResults options ir opOperand).filter
                (fun it => it.opResult = opResult)).map
              (fun it => { opOperand := opOperand, relation := it.relation,
                           isDefinite := it.isDefinite })
          else []) by
    simpa using H []
  induction l with
  | nil => simp
  | cons o os ih =>
    intro acc
    simp only [List.foldl_cons, List.flatMap_cons]
    rw [ih]
    cases ht : (o.get ir).getType.isTensor
    · simp
    · simp [collectAliasingOpOperand_eq]

/-- C30: `detail::defaultGetAliasingOpOperands` of a result `r` holds the entry
of an operand with a relation and a definiteness exactly when the operand is a
tensor operand of the operation defining `r` and `getAliasingOpResults` of the
operand holds the entry of `r` with that relation and definiteness; the
entries come in the order of the operands, for each operand in the order of
its aliasing results. -/
theorem defaultGetAliasingOpOperands_iff (options : BufferizationOptions) (ir : IR)
    (r : OpResult) :
    (∀ (operand : OpOperand) (relation : BufferRelation) (isDefinite : Bool),
      { opOperand := operand, relation := relation, isDefinite := isDefinite }
          ∈ detail.defaultGetAliasingOpOperands options ir r
        ↔ (operand ∈ (r.getDefiningOp ir).getOpOperands
            ∧ (operand.get ir).getType.isTensor = true
            ∧ { opResult := r, relation := relation, isDefinite := isDefinite }
                ∈ AnalysisState.getAliasingOpResults options ir operand))
    ∧ detail.defaultGetAliasingOpOperands options ir r
        = (r.getDefiningOp ir).getOpOperands.flatMap (fun operand =>
            if (operand.get ir).getType.isTensor then
              ((AnalysisState.getAliasingOpResults options ir operand).filter
                  (fun it => it.opResult = r)).map
                (fun it => { opOperand := operand, relation := it.relation,
                             isDefinite := it.isDefinite })
            else []) := by
  refine ⟨?_, defaultGetAliasingOpOperands_eq options ir r⟩
  intro operand relation isDefinite
  rw [defaultGetAliasingOpOperands_eq, List.mem_flatMap]
  constructor
  · rintro ⟨o, ho, hmem⟩
    cases ht : (o.get ir).getType.isTensor with
    | false => simp [ht] at hmem
    | true =>
      simp only [ht, if_true, List.mem_map, List.mem_filter, decide_eq_true_eq] at hmem
      obtain ⟨it, ⟨hit, hr⟩, heq⟩ := hmem
      simp only [AliasingOpOperand.mk.injEq] at heq
      obtain ⟨h1, h2, h3⟩ := heq
      subst h1 h2 h3 hr
      exact ⟨ho, ht, hit⟩
  · rintro ⟨ho, ht, hmem⟩
    refine ⟨operand, ho, ?_⟩
    simp only [ht, if_true, List.mem_map, List.mem_filter, decide_eq_true_eq]
    exact ⟨_, ⟨hmem, rfl⟩, rfl⟩

/-- C30 on the graph in which the result of `join` aliases its first operand
with the relation `Unknown` and its second with `Equivalent`: the default
aliasing operands of the result are the two operands, in that order. -/
theorem defaultGetAliasingOpOperands_iff_witness :
    detail.defaultGetAliasingOpOperands Example.defaultOptions Example.mixedIR
        Example.joinResult
      = [{ opOperand := ⟨3, 0⟩, relation := .Unknown, isDefinite := false },
         { opOperand := ⟨3, 1⟩, relation := .Equivalent, isDefinite := true }]
    ∧ { opOperand := ⟨3, 1⟩, relation := .Equivalent, isDefinite := true }
        ∈ detail.defaultGetAliasingOpOperands Example.defaultOptions Example.mixedIR
            Example.joinResult :=
  ⟨((defaultGetAliasingOpOperands_iff Example.defaultOptions Example.mixedIR
      Example.joinResult).2).trans (by decide),
   ((defaultGetAliasingOpOperands_iff Example.defaultOptions Example.mixedIR
      Example.joinResult).1 ⟨3, 1⟩ .Equivalent true).2 (by decide)⟩

/-! ## The default buffer type -/

/-- C29 (code defect): `detail::defaultGetBufferType` looks at the first
aliasing operand only.  On the graph in which the result of `join` aliases
operand 0 with the relation `Unknown` and operand 1 with `Equivalent`, the
buffer type of the value of operand 1 is fixed, yet without a default memory
space the query on the result fails, and with one it returns the type with
fully dynamic layout in the default memory space. -/
theorem defaultGetBufferType_first_alias_only :
    (AnalysisState.getAliasingOpOperands Example.defaultOptions Example.mixedIR
        Example.joinResult).map (fun a => (a.opOperand.get Example.mixedIR, a.relation))
      = [(.result Example.wResult, .Unknown), (.result Example.w2Result, .Equivalent)]
    ∧ getBufferType Example.mixedIR (.result Example.w2Result) Example.noSpaceOptions
        [(.result Example.w2Result, .memref [4] 0 none (some 7))]
      = .ok (.memref [4] 0 none (some 7))
    ∧ detail.defaultGetBufferType Example.mixedIR (.result Example.joinResult)
        Example.noSpaceOptions [(.result Example.w2Result, .memref [4] 0 none (some 7))]
        (none, none)
      = .error .noMemorySpace
    ∧ detail.defaultGetBufferType Example.mixedIR (.result Example.joinResult)
        Example.defaultOptions [(.result Example.w2Result, .memref [4] 0 none (some 7))]
        (none, none)
      = .ok (.memref [4] 0 (some (.strided kDynamic [kDynamic])) none) :=
  ⟨by decide, rfl, rfl, rfl⟩

/-! ## The builder: a call of `allocateTensorForShapedValue` in general -/

theorem shapedValueAsTensor_between (b : OpBuilder) (v tensor : Value) (b1 : OpBuilder)
    (hs : shapedValueAsTensor b v = .ok (tensor, b1)) (pre post : List Operation)
    (h : b.InsertsBetween pre post) :
    ∃ adapter, b1.InsertsBetween (pre ++ adapter) post
      ∧ (∀ x ∈ adapter, x.kind = .ToTensorOp ∧ x.operands = [v] ∧ b.ir.freshId ≤ x.id)
      ∧ (v.getType.isRankedTensor = true → adapter = [] ∧ tensor = v) := by
  unfold shapedValueAsTensor at hs
  split at hs
  · cases hs
    exact ⟨[], by simpa using h, by simp, fun _ => ⟨rfl, rfl⟩⟩
  · rename_i hr
    split at hs
    · cases hs
      refine ⟨[(b.create _).1], create_between b _ pre post h, ?_, fun h' => absurd h' hr⟩
      intro x hx
      simp only [List.mem_singleton] at hx
      subst hx
      exact ⟨create_fst_kind b _, create_fst_operands b _, by rw [create_fst_id]⟩
    · split at hs <;> cases hs

/-- Where `allocateTensorForShapedValue` puts what it creates, for every
shaped value and also when it fails: the new operations go between the
operations before the insertion point and those after it, in the order tensor
adapter, shape queries, allocation. -/
theorem allocate_between_any (b : OpBuilder) (v : Value) (escape : Bool)
    (options : BufferizationOptions) (copy : Bool) (pre post : List Operation)
    (h : b.InsertsBetween pre post) :
    ∃ news, (allocateTensorForShapedValue b v escape options copy).2.InsertsBetween
          (pre ++ news) post
      ∧ (∀ x ∈ news, b.ir.freshId ≤ x.id)
      ∧ ((v.getType.isRankedTensor = true ∨ v.getType.isMemRef = true) →
          ∃ front alloc tensor sizes, news = front ++ [alloc]
            ∧ IsAllocTensorFor alloc alloc.id tensor sizes escape copy
            ∧ (∀ x ∈ front, x.kind = .ToTensorOp ∨ x.kind = .DimOp)
            ∧ (∀ x ∈ pre ++ front ++ post, x.id ≠ alloc.id)
            ∧ (v.getType.isRankedTensor = true → tensor = v)
            ∧ ∀ r, (allocateTensorForShapedValue b v escape options copy).1 = .ok r →
                r = .result ⟨alloc.id, 0, tensor.getType⟩)
      ∧ (v.getType.isRankedTensor = false → v.getType.isMemRef = false → news = []) := by
  unfold allocateTensorForShapedValue
  cases hs : shapedValueAsTensor b v with
  | error e =>
    refine ⟨[], by simpa using h, by simp, ?_, fun _ _ => rfl⟩
    intro hv
    unfold shapedValueAsTensor at hs
    rcases hv with hv | hv
    · simp [hv] at hs
    · by_cases hr : v.getType.isRankedTensor = true
      · simp [hr] at hs
      · simp [hr, hv] at hs
  | ok p =>
    obtain ⟨tensor, b1⟩ := p
    dsimp only
    obtain ⟨adapter, ha1, ha2, ha3⟩ := shapedValueAsTensor_between b v tensor b1 hs pre post h
    have hf1 := shapedValueAsTensor_fresh b v tensor b1 hs
    obtain ⟨dims, hd1, hd2, -⟩ := computeDynamicSizes_between b1 v tensor copy
      (pre ++ adapter) post ha1
    have hf2 := freshId_le_computeDynamicSizes b1 v tensor copy
    obtain ⟨alloc, hc1, hc2, hc3, hc4⟩ := createAllocTensorOp_between
      (computeDynamicSizes b1 v tensor copy).2 tensor (computeDynamicSizes b1 v tensor copy).1
      escape copy (pre ++ adapter ++ dims) post hd1
    have hne : ∀ o ∈ (pre ++ adapter ++ dims) ++ post, o.id ≠ alloc.id := by
      intro o ho
      have := mem_lt_freshId (computeDynamicSizes b1 v tensor copy).2.ir o (hd1.1 ▸ ho)
      rw [hc2.1]
      omega
    obtain ⟨alloc', hm1, hm2, -, hm4⟩ := addMemorySpaceAttr_between _
      (createAllocTensorOp (computeDynamicSizes b1 v tensor copy).2 tensor
        (computeDynamicSizes b1 v tensor copy).1 escape copy).1 alloc tensor options copy escape
      (computeDynamicSizes b1 v tensor copy).1 _ (pre ++ adapter ++ dims) post hc1 hne
      (hc3.trans hc2.1.symm) hc2
    have hid' : alloc'.id = alloc.id := hm2.1.trans hc2.1.symm
    refine ⟨adapter ++ dims ++ [alloc'], by simpa [List.append_assoc] using hm1, ?_, ?_, ?_⟩
    · intro x hx
      simp only [List.mem_append, List.mem_singleton] at hx
      rcases hx with (hx | hx) | rfl
      · exact (ha2 x hx).2.2
      · have := (hd2 x hx).2.2
        omega
      · rw [hm2.1]
        omega
    · intro _
      refine ⟨adapter ++ dims, alloc', tensor, (computeDynamicSizes b1 v tensor copy).1, rfl,
        ?_, ?_, ?_, (fun hv => (ha3 hv).2), ?_⟩
      · rw [hm2.1]
        exact hm2
      · intro x hx
        rcases List.mem_append.1 hx with hx | hx
        · exact Or.inl (ha2 x hx).1
        · exact Or.inr (hd2 x hx).1
      · intro x hx
        rw [hid']
        apply hne
        simp only [List.mem_append] at hx ⊢
        tauto
      · intro r hr
        rw [hm4 r hr, hid']
        simp [Operation.getResult, hc3, hc4, hc2.1]
    · intro hr hm
      unfold shapedValueAsTensor at hs
      simp [hr, hm] at hs
      split at hs <;> cases hs

/-! ## A failed call of `allocateTensorForShapedValue` -/

theorem createAllocTensorOp_memorySpace (b : OpBuilder) (tensor : Value)
    (dynamicSizes : List Value) (escape copy : Bool) (op : Operation)
    (h : (createAllocTensorOp b tensor dynamicSizes escape copy).2.ir.findOp b.ir.freshId
      = some op) : op.memorySpaceAttr = none := by
  have hce := (create_then_escape b
    { id := 0, kind := .AllocTensorOp,
      operands := dynamicSizes ++ (if copy then [tensor] else []),
      copy := if copy then some dynamicSizes.length else none,
      resultTypes := [tensor.getType] } escape).1
  unfold createAllocTensorOp at h
  simp only at h
  rw [hce] at h
  cases h
  unfold OpBuilder.create
  cases b.ip <;> rfl

/-- A failed `allocateTensorForShapedValue` has either failed on its input,
before it created anything, or failed to infer the buffer type of the tensor
after it created the allocation. -/
theorem allocate_error (b : OpBuilder) (v : Value) (escape : Bool)
    (options : BufferizationOptions) (copy : Bool) (e : Diag)
    (h : (allocateTensorForShapedValue b v escape options copy).1 = .error e) :
    (shapedValueAsTensor b v = .error e
      ∧ allocateTensorForShapedValue b v escape options copy = (.error e, b))
    ∨ (copy = false ∧ ∃ alloc tensor sizes,
        b.ir.findOp alloc.id = none
        ∧ (allocateTensorForShapedValue b v escape options copy).2.ir.findOp alloc.id
            = some alloc
        ∧ IsAllocTensorFor alloc alloc.id tensor sizes escape false
        ∧ alloc.memorySpaceAttr = none
        ∧ getBufferType (allocateTensorForShapedValue b v escape options copy).2.ir tensor
            options [] = .error e) := by
  unfold allocateTensorForShapedValue at h ⊢
  cases hs : shapedValueAsTensor b v with
  | error e' =>
    rw [hs] at h
    simp only [Except.error.injEq] at h
    subst h
    exact Or.inl ⟨rfl, rfl⟩
  | ok p =>
    obtain ⟨tensor, b1⟩ := p
    rw [hs] at h
    dsimp only at h ⊢
    right
    obtain ⟨hid, -, ⟨op0, hf0, hal0⟩, -⟩ :=
      createAllocTensorOp_full (computeDynamicSizes b1 v tensor copy).2 tensor
        (computeDynamicSizes b1 v tensor copy).1 escape copy
    have hms := createAllocTensorOp_memorySpace (computeDynamicSizes b1 v tensor copy).2 tensor
      (computeDynamicSizes b1 v tensor copy).1 escape copy op0 hf0
    have hfresh : b.ir.findOp op0.id = none := by
      apply findOp_eq_none_of_fresh
      intro o ho
      rw [hal0.1]
      have h1 := mem_lt_freshId b.ir o ho
      have h2 := shapedValueAsTensor_fresh b v tensor b1 hs
      have h3 := freshId_le_computeDynamicSizes b1 v tensor copy
      omega
    unfold addMemorySpaceAttr at h ⊢
    cases copy with
    | true => simp at h
    | false =>
      simp only [Bool.false_eq_true, if_false] at h ⊢
      split at h
      · rename_i e' he
        simp only [Except.error.injEq] at h
        subst h
        simp only [he]
        refine ⟨trivial, op0, tensor, (computeDynamicSizes b1 v tensor false).1, hfresh, ?_, ?_,
          hms, he⟩
        · rw [hal0.1]
          exact hf0
        · rw [hal0.1]
          exact hal0
      · cases h

/-- C25, as amended: a failed `allocateTensorForShapedValue` on a shaped value
that is neither a ranked tensor nor a memref has changed nothing; a failed
call on a ranked tensor or a memref has `copy = false`, failed to infer the
buffer type of the tensor, and has left in the graph the new `AllocTensorOp`,
with its escape attribute and without `copy` operand and memory space; in
both cases the operations that existed have their records and their order,
and what was created lies at the insertion point. -/
theorem allocate_failure_leaves_allocation (b : OpBuilder) (v : Value) (escape : Bool)
    (options : BufferizationOptions) (copy : Bool) (e : Diag)
    (h : (allocateTensorForShapedValue b v escape options copy).1 = .error e) :
    (v.getType.isRankedTensor = false → v.getType.isMemRef = false →
      allocateTensorForShapedValue b v escape options copy = (.error e, b))
    ∧ ((v.getType.isRankedTensor = true ∨ v.getType.isMemRef = true) →
      copy = false ∧ ∃ alloc tensor sizes,
        b.ir.findOp alloc.id = none
        ∧ (allocateTensorForShapedValue b v escape options copy).2.ir.findOp alloc.id
            = some alloc
        ∧ IsAllocTensorFor alloc alloc.id tensor sizes escape false
        ∧ alloc.memorySpaceAttr = none
        ∧ getBufferType (allocateTensorForShapedValue b v escape options copy).2.ir tensor
            options [] = .error e)
    ∧ (∀ id x, b.ir.findOp id = some x →
        (allocateTensorForShapedValue b v escape options copy).2.ir.findOp id = some x)
    ∧ (∀ pre post, b.InsertsBetween pre post →
        ∃ news, (allocateTensorForShapedValue b v escape options copy).2.InsertsBetween
            (pre ++ news) post
          ∧ ∀ x ∈ news, b.ir.freshId ≤ x.id) := by
  refine ⟨?_, ?_, fun id x hx => allocate_findOp_old b v escape options copy id x hx, ?_⟩
  · intro hr hm
    rcases allocate_error b v escape options copy e h with ⟨-, h2⟩ | ⟨-, alloc, -, -, -, -, -⟩
    · exact h2
    · have hs : ∃ e', shapedValueAsTensor b v = .error e' := by
        unfold shapedValueAsTensor
        simp only [hr, hm, Bool.false_eq_true, if_false]
        split <;> exact ⟨_, rfl⟩
      obtain ⟨e', hs⟩ := hs
      unfold allocateTensorForShapedValue at h ⊢
      rw [hs] at h ⊢
      simp only [Except.error.injEq] at h
      rw [h]
  · intro hv
    rcases allocate_error b v escape options copy e h with ⟨h1, -⟩ | h2
    · unfold shapedValueAsTensor at h1
      rcases hv with hv | hv
      · simp [hv] at h1
      · by_cases hr : v.getType.isRankedTensor = true
        · simp [hr] at h1
        · simp [hr, hv] at h1
    · exact h2
  · intro pre post hb
    obtain ⟨news, h1, h2, -⟩ := allocate_between_any b v escape options copy pre post hb
    exact ⟨news, h1, h2⟩

/-- C25, as amended, at the result of the unregistered `src` on `src ; W ; R`
without default memory space: the call with `copy = false` fails, and the
graph holds the new allocation, before `W`. -/
theorem allocate_failure_leaves_allocation_witness :
    ∃ alloc tensor sizes,
      (allocateTensorForShapedValue { ir := Example.unknownIR, ip := .before 1 }
          (.result Example.srcResult) false Example.noSpaceOptions false).2.ir.findOp alloc.id
        = some alloc
      ∧ IsAllocTensorFor alloc alloc.id tensor sizes false false
      ∧ alloc.memorySpaceAttr = none :=
  have h := (allocate_failure_leaves_allocation { ir := Example.unknownIR, ip := .before 1 }
    (.result Example.srcResult) false Example.noSpaceOptions false .noMemorySpace rfl).2.1
    (Or.inl rfl)
  have ⟨alloc, tensor, sizes, _, h2, h3, h4, _⟩ := h.2
  ⟨alloc, tensor, sizes, h2, h3, h4⟩

/-- C25 as stated fails at the result of the unregistered `src` on the graph
`src ; W ; R` without default memory space: `allocateTensorForShapedValue`
with `copy = false` fails with "could not infer memory space", and the graph
after the call has one operation more than before, the new `AllocTensorOp`
before `W`. -/
theorem allocate_failure_changes_graph :
    (allocateTensorForShapedValue { ir := Example.unknownIR, ip := .before 1 }
        (.result Example.srcResult) false Example.noSpaceOptions false).1
      = .error .noMemorySpace
    ∧ Example.unknownIR.ops.map (fun o => o.id) = [0, 1, 2]
    ∧ (allocateTensorForShapedValue { ir := Example.unknownIR, ip := .before 1 }
        (.result Example.srcResult) false Example.noSpaceOptions false).2.ir.ops.map
        (fun o => (o.id, o.kind))
      = [(0, .other 0), (3, .AllocTensorOp), (1, .other 1), (2, .other 2)] :=
  ⟨rfl, by decide, by decide⟩

/-! ## The conflict resolver: the first failure -/

theorem insertOpOperandCopies_append (options : BufferizationOptions) (s : ConflictSets)
    (l1 l2 : List OpOperand) (b : OpBuilder) :
    insertOpOperandCopies options s (l1 ++ l2) b
      = match insertOpOperandCopies options s l1 b with
        | (.error e, b') => (.error e, b')
        | (.ok _, b') => insertOpOperandCopies options s l2 b' := by
  induction l1 generalizing b with
  | nil => rfl
  | cons o os ih =>
    simp only [List.cons_append, insertOpOperandCopies]
    generalize allocateTensorForShapedValue b (o.get b.ir)
      (s.escapingOpOperandCopies.contains o) options (s.copiedOpOperands.contains o) = A
    obtain ⟨res, b1⟩ := A
    cases res with
    | error e => rfl
    | ok copy => exact ih _

theorem insertOpResultCopies_append (options : BufferizationOptions) (s : ConflictSets)
    (l1 l2 : List OpResult) (b : OpBuilder) :
    insertOpResultCopies options s (l1 ++ l2) b
      = match insertOpResultCopies options s l1 b with
        | (.error e, b') => (.error e, b')
        | (.ok _, b') => insertOpResultCopies options s l2 b' := by
  induction l1 generalizing b with
  | nil => rfl
  | cons r rs ih =>
    simp only [List.cons_append, insertOpResultCopies]
    generalize allocateTensorForShapedValue b (.result r)
      (s.escapingOpResultCopies.contains r) options (s.copiedOpResults.contains r) = A
    obtain ⟨res, b1⟩ := A
    cases res with
    | error e => rfl
    | ok copy => exact ih _

/-- The operands the classification marks are operand slots of the operation,
each once. -/
theorem classifyOpOperands_marked (state : AnalysisState) (ir : IR) (fuel : Nat) (opId : Nat)
    (s : ConflictSets)
    (hs : classifyOpOperands state ir fuel (ir.getOp opId).getOpOperands {} = some (.ok s)) :
    s.outOfPlaceOpOperands.Sublist (ir.getOp opId).getOpOperands
      ∧ s.outOfPlaceOpOperands.Nodup
      ∧ (∀ x ∈ s.outOfPlaceOpOperands, x.owner = opId
          ∧ x.idx < (ir.getOp opId).operands.length
          ∧ ir.findOp opId = some (ir.getOp opId)) := by
  obtain ⟨-, ⟨added, hadd, hsub⟩, -⟩ := classifyOpOperands_sets state ir fuel _ {} s hs
  have hadd' : s.outOfPlaceOpOperands = added := by simpa using hadd
  have hsub' : s.outOfPlaceOpOperands.Sublist (ir.getOp opId).getOpOperands := hadd' ▸ hsub
  refine ⟨hsub', hsub'.nodup (opOperandsFrom_nodup _ _ _), ?_⟩
  intro x hx
  obtain ⟨h1, h2, h3⟩ := findOp_of_mem_getOpOperands ir opId x (hsub'.subset hx)
  exact ⟨h2, h3, h1⟩

/-- C24: in `resolveTensorOpOperandConflicts`, when the allocation for an
operand marked for copy insertion fails after the operands before it were
handled, the function returns that failure with the graph the failed call
left, whatever operands and results were still to be handled: the operands
handled before refer to their new allocations, every other operand slot,
those still to be handled included, holds the value it held, and no record of
an operation that existed was changed by the failed call.  When the allocation
for a result fails after the operands and the results before it were handled,
the function returns that failure with the graph the failed call left, in
which every operation that existed has the record the earlier steps gave
it. -/
theorem resolve_stops_at_first_failure (state : AnalysisState) (fuel : Nat) (ir : IR)
    (opId : Nat) (s : ConflictSets)
    (hs : classifyOpOperands state ir fuel (ir.getOp opId).getOpOperands {} = some (.ok s)) :
    (∀ (l1 rest : List OpOperand) (o : OpOperand) (b1 b2 : OpBuilder) (e : Diag),
      s.outOfPlaceOpOperands = l1 ++ o :: rest →
      insertOpOperandCopies state.options s l1 { ir := ir, ip := .before opId } = (.ok (), b1) →
      allocateTensorForShapedValue b1 (o.get b1.ir) (s.escapingOpOperandCopies.contains o)
        state.options (s.copiedOpOperands.contains o) = (.error e, b2) →
      resolveTensorOpOperandConflicts state fuel ir opId = some (.error e, b2.ir)
      ∧ (∀ x ∈ l1, ∃ alloc, (b2.ir.getOp opId).getOperand x.idx = .result (alloc.getResult 0)
          ∧ ir.findOp alloc.id = none ∧ b2.ir.findOp alloc.id = some alloc
          ∧ alloc.kind = .AllocTensorOp)
      ∧ (∀ i, (∀ x ∈ l1, x.idx ≠ i) →
          (b2.ir.getOp opId).getOperand i = (ir.getOp opId).getOperand i)
      ∧ (∀ x ∈ o :: rest,
          (b2.ir.getOp opId).getOperand x.idx = (ir.getOp opId).getOperand x.idx)
      ∧ (∀ id x, b1.ir.findOp id = some x → b2.ir.findOp id = some x))
    ∧ (∀ (m1 rest : List OpResult) (r : OpResult) (b1 b2 b3 : OpBuilder) (e : Diag),
      insertOpOperandCopies state.options s s.outOfPlaceOpOperands
        { ir := ir, ip := .before opId } = (.ok (), b1) →
      s.outOfPlaceOpResults = m1 ++ r :: rest →
      insertOpResultCopies state.options s m1 { ir := b1.ir, ip := .after opId } = (.ok (), b2) →
      allocateTensorForShapedValue b2 (.result r) (s.escapingOpResultCopies.contains r)
        state.options (s.copiedOpResults.contains r) = (.error e, b3) →
      resolveTensorOpOperandConflicts state fuel ir opId = some (.error e, b3.ir)
      ∧ (∀ id x, b2.ir.findOp id = some x → b3.ir.findOp id = some x)) := by
  obtain ⟨hsub, hnodup, hmark⟩ := classifyOpOperands_marked state ir fuel opId s hs
  constructor
  · intro l1 rest o b1 b2 e hsplit h1 h2
    have hloop : insertOpOperandCopies state.options s s.outOfPlaceOpOperands
        { ir := ir, ip := .before opId } = (.error e, b2) := by
      rw [hsplit, insertOpOperandCopies_append, h1]
      simp only [insertOpOperandCopies, h2]
    have hold : ∀ id x, b1.ir.findOp id = some x → b2.ir.findOp id = some x := by
      intro id x hx
      have := allocate_findOp_old b1 (o.get b1.ir) (s.escapingOpOperandCopies.contains o)
        state.options (s.copiedOpOperands.contains o) id x hx
      rwa [h2] at this
    have ho := hmark o (by rw [hsplit]; simp)
    have hnd1 : (l1 ++ o :: rest).Nodup := hsplit ▸ hnodup
    obtain ⟨W', hW', -, -, hsame, hall⟩ := insertOpOperandCopies_ok state.options s opId l1
      { ir := ir, ip := .before opId } b1 (ir.getOp opId) ho.2.2
      (fun x hx => (hmark x (by rw [hsplit]; simp [hx])).1)
      (List.Nodup.sublist (List.sublist_append_left l1 (o :: rest)) hnd1) h1
    have hW2 : b2.ir.getOp opId = W' := getOp_of_findOp _ _ _ (hold opId W' hW')
    refine ⟨by simp [resolveTensorOpOperandConflicts, hs, hloop], ?_, ?_, ?_, hold⟩
    · intro x hx
      obtain ⟨alloc, tensor, sizes, ha1, ha2, ha3, ha4, -⟩ :=
        hall x hx (hmark x (by rw [hsplit]; simp [hx])).2.1
      refine ⟨alloc, ?_, ha2, hold _ _ ha3, ha4.2.1⟩
      rw [hW2, ha1]
      simp [Operation.getResult, ha4.2.2.2.2.2]
    · intro i hi
      rw [hW2]
      exact hsame i hi
    · intro x hx
      rw [hW2]
      apply hsame
      intro y hy hxy
      have hxo : x.owner = y.owner := by
        rw [(hmark x (by rw [hsplit]; simp [List.mem_cons.1 hx])).1,
          (hmark y (by rw [hsplit]; simp [hy])).1]
      have hxy' : y = x := by
        cases x
        cases y
        simp_all
      subst hxy'
      exact (List.nodup_append.1 hnd1).2.2 hy hx
  · intro m1 rest r b1 b2 b3 e h1 hsplit h2 h3
    have hloop : insertOpResultCopies state.options s s.outOfPlaceOpResults
        { ir := b1.ir, ip := .after opId } = (.error e, b3) := by
      rw [hsplit, insertOpResultCopies_append, h2]
      simp only [insertOpResultCopies, h3]
    refine ⟨by simp [resolveTensorOpOperandConflicts, hs, h1, hloop], ?_⟩
    intro id x hx
    have := allocate_findOp_old b2 (.result r) (s.escapingOpResultCopies.contains r)
      state.options (s.copiedOpResults.contains r) id x hx
    rwa [h3] at this

/-- C24 on the graph `src ; W ; P` without default memory space, where `P`
writes both operands and reads the first: the copy of operand 0 is inserted
and operand 0 retargeted, the allocation for operand 1 fails, and the resolver
returns the failure with operand 0 still retargeted and operand 1 as it
was. -/
theorem resolve_stops_at_first_failure_witness :
    (∃ b2 : OpBuilder, resolveTensorOpOperandConflicts (AnalysisState.base Example.noSpaceOptions) 0
          Example.pairIR 3 = some (.error .noMemorySpace, b2.ir)
        ∧ (b2.ir.getOp 3).getOperand 1 = .result Example.srcResult)
    ∧ (resolveTensorOpOperandConflicts (AnalysisState.base Example.noSpaceOptions) 0
          Example.pairIR 3).map (fun r => ((r.2.getOp 3).operands, r.2.ops.map (fun o => o.id)))
        = some ([.result ⟨4, 0, Example.tensorTy⟩, .result Example.srcResult],
            [0, 1, 4, 5, 3]) := by
  have h := (resolve_stops_at_first_failure (AnalysisState.base Example.noSpaceOptions) 0
    Example.pairIR 3
    { outOfPlaceOpOperands := [⟨3, 0⟩, ⟨3, 1⟩], copiedOpOperands := [⟨3, 0⟩] } rfl).1
    [⟨3, 0⟩] [] ⟨3, 1⟩ _ _ .noMemorySpace rfl rfl rfl
  exact ⟨⟨_, h.1, h.2.2.2.1 ⟨3, 1⟩ (by simp)⟩, by decide⟩

/-! ## The classification loop: what it marks and with which flags -/

/-- What the loop body does, in terms of `escapeOf`, `canOmitTensorCopy` and
`resultToCopy` of the operand. -/
theorem classifyOpOperand_cases (state : AnalysisState) (ir : IR) (fuel : Nat)
    (o : OpOperand) (s s' : ConflictSets)
    (h : classifyOpOperand state ir fuel o s = some (.ok s')) :
    (isOutOfPlace state ir o = false ∧ s' = s)
    ∨ (isOutOfPlace state ir o = true ∧ ∃ escape canOmit,
        escapeOf state ir fuel o = some escape
        ∧ AnalysisState.canOmitTensorCopy state ir fuel o = some canOmit
        ∧ ((∃ r, resultToCopy state ir o = some r
            ∧ s' = { s with
                outOfPlaceOpResults := s.outOfPlaceOpResults ++ [r],
                copiedOpResults :=
                  (if !canOmit then s.copiedOpResults ++ [r] else s.copiedOpResults),
                escapingOpResultCopies :=
                  (if escape then s.escapingOpResultCopies ++ [r]
                   else s.escapingOpResultCopies) })
          ∨ (resultToCopy state ir o = none
            ∧ s' = { s with
                outOfPlaceOpOperands := s.outOfPlaceOpOperands ++ [o],
                copiedOpOperands :=
                  (if !canOmit then s.copiedOpOperands ++ [o] else s.copiedOpOperands),
                escapingOpOperandCopies :=
                  (if escape then s.escapingOpOperandCopies ++ [o]
                   else s.escapingOpOperandCopies) }))) := by
  unfold classifyOpOperand at h
  dsimp only at h
  split at h
  · rename_i ht
    cases h
    left
    refine ⟨?_, rfl⟩
    unfold isOutOfPlace
    simp only [Bool.not_eq_true', Bool.not_eq_true] at ht
    simp [ht]
  · rename_i ht
    split at h
    · rename_i hi
      cases h
      left
      refine ⟨?_, rfl⟩
      unfold isOutOfPlace
      simp [hi]
    · rename_i hi
      split at h
      · cases h
      · split at h
        · cases h
        · rename_i escape hesc
          split at h
          · cases h
          · rename_i canOmit hcan
            right
            refine ⟨?_, escape, canOmit, hesc, hcan, ?_⟩
            · unfold isOutOfPlace
              simp only [Bool.not_eq_true', Bool.not_eq_true, Bool.not_eq_false] at ht hi
              simp [ht, hi]
            · split at h
              · rename_i r hr
                cases h
                exact Or.inl ⟨r, hr, rfl⟩
              · rename_i hr
                cases h
                exact Or.inr ⟨hr, rfl⟩

/-- The sets the classification loop leaves, from the sets it started with:
each marked operand, or its result, is appended, in the order of the
operands. -/
theorem classifyOpOperands_lists (state : AnalysisState) (ir : IR) (fuel : Nat)
    (l : List OpOperand) (s0 s : ConflictSets)
    (h : classifyOpOperands state ir fuel l s0 = some (.ok s)) :
    (∀ o ∈ l, isOutOfPlace state ir o = true →
      ∃ escape canOmit, escapeOf state ir fuel o = some escape
        ∧ AnalysisState.canOmitTensorCopy state ir fuel o = some canOmit)
    ∧ s.outOfPlaceOpOperands = s0.outOfPlaceOpOperands
        ++ l.filter (fun o => isOutOfPlace state ir o && (resultToCopy state ir o).isNone)
    ∧ s.copiedOpOperands = s0.copiedOpOperands
        ++ l.filter (fun o => isOutOfPlace state ir o && (resultToCopy state ir o).isNone
            && decide (AnalysisState.canOmitTensorCopy state ir fuel o = some false))
    ∧ s.escapingOpOperandCopies = s0.escapingOpOperandCopies
        ++ l.filter (fun o => isOutOfPlace state ir o && (resultToCopy state ir o).isNone
            && decide (escapeOf state ir fuel o = some true))
    ∧ s.outOfPlaceOpResults = s0.outOfPlaceOpResults
        ++ l.filterMap (fun o =>
            if isOutOfPlace state ir o then resultToCopy state ir o else none)
    ∧ s.copiedOpResults = s0.copiedOpResults
        ++ l.filterMap (fun o =>
            if isOutOfPlace state ir o
                && decide (AnalysisState.canOmitTensorCopy state ir fuel o = some false)
            then resultToCopy state ir o else none)
    ∧ s.escapingOpResultCopies = s0.escapingOpResultCopies
        ++ l.filterMap (fun o =>
            if isOutOfPlace state ir o && decide (escapeOf state ir fuel o = some true)
            then resultToCopy state ir o else none) := by
  induction l generalizing s0 with
  | nil =>
    cases h
    simp
  | cons o os ih =>
    unfold classifyOpOperands at h
    split at h
    · cases h
    · cases h
    · rename_i s1 h1
      obtain ⟨ih0, ih1, ih2, ih3, ih4, ih5, ih6⟩ := ih s1 h
      rcases classifyOpOperand_cases state ir fuel o s0 s1 h1 with
        ⟨hm, rfl⟩ | ⟨hm, escape, canOmit, hesc, hcan, hcase⟩
      · refine ⟨?_, ?_, ?_, ?_, ?_, ?_, ?_⟩
        · intro x hx hxm
          rcases List.mem_cons.1 hx with rfl | hx
          · rw [hm] at hxm
            cases hxm
          · exact ih0 x hx hxm
        · rw [ih1]
          simp [List.filter_cons, hm]
        · rw [ih2]
          simp [List.filter_cons, hm]
        · rw [ih3]
          simp [List.filter_cons, hm]
        · rw [ih4]
          simp [List.filterMap_cons, hm]
        · rw [ih5]
          simp [List.filterMap_cons, hm]
        · rw [ih6]
          simp [List.filterMap_cons, hm]
      · have h0 : ∀ x ∈ o :: os, isOutOfPlace state ir x = true →
            ∃ escape canOmit, escapeOf state ir fuel x = some escape
              ∧ AnalysisState.canOmitTensorCopy state ir fuel x = some canOmit := by
          intro x hx hxm
          rcases List.mem_cons.1 hx with rfl | hx
          · exact ⟨escape, canOmit, hesc, hcan⟩
          · exact ih0 x hx hxm
        rcases hcase with ⟨r, hr, rfl⟩ | ⟨hr, rfl⟩
        · refine ⟨h0, ?_, ?_, ?_, ?_, ?_, ?_⟩
          · rw [ih1]
            simp [List.filter_cons, hm, hr]
          · rw [ih2]
            simp [List.filter_cons, hm, hr]
          · rw [ih3]
            simp [List.filter_cons, hm, hr]
          · rw [ih4]
            simp [List.filterMap_cons, hm, hr]
          · rw [ih5]
            cases canOmit <;> simp [List.filterMap_cons, hm, hr, hcan]
          · rw [ih6]
            cases escape <;> simp [List.filterMap_cons, hm, hr, hesc]
        · refine ⟨h0, ?_, ?_, ?_, ?_, ?_, ?_⟩
          · rw [ih1]
            simp [List.filter_cons, hm, hr]
          · rw [ih2]
            cases canOmit <;> simp [List.filter_cons, hm, hr, hcan]
          · rw [ih3]
            cases escape <;> simp [List.filter_cons, hm, hr, hesc]
          · rw [ih4]
            simp [List.filterMap_cons, hm, hr]
          · rw [ih5]
            simp [List.filterMap_cons, hm, hr]
          · rw [ih6]
            simp [List.filterMap_cons, hm, hr]

theorem contains_eq_true_iff {α : Type} [DecidableEq α] (l : List α) (a : α) :
    l.contains a = true ↔ a ∈ l := by
  simp

theorem anyOf_eq_some_true {α : Type} (f : α → Option Bool) (l : List α)
    (h : AnalysisState.anyOf f l = some true) : ∃ a ∈ l, f a = some true := by
  induction l with
  | nil => simp [AnalysisState.anyOf] at h
  | cons a rest ih =>
    unfold AnalysisState.anyOf at h
    split at h
    · cases h
    · rename_i ha
      exact ⟨a, by simp, ha⟩
    · obtain ⟨x, hx, hfx⟩ := ih h
      exact ⟨x, by simp [hx], hfx⟩

/-- The local `escape` is true exactly when `createDeallocs` is unset or
`isTensorYielded` is true for an aliasing result. -/
theorem escapeOf_eq_true_iff (state : AnalysisState) (ir : IR) (fuel : Nat) (o : OpOperand)
    (escape : Bool) (h : escapeOf state ir fuel o = some escape) :
    escape = true ↔ (state.options.createDeallocs = false
      ∨ ∃ a ∈ AnalysisState.getAliasingOpResults state.options ir o,
          state.methods.isTensorYielded ir fuel (.result a.opResult) = some true) := by
  unfold escapeOf at h
  cases hd : state.options.createDeallocs with
  | false =>
    simp only [hd, Bool.not_false, if_true, Option.some.injEq] at h
    simp [h.symm]
  | true =>
    simp only [hd, Bool.not_true, Bool.false_eq_true, if_false] at h
    cases escape with
    | true =>
      simp only [true_iff]
      exact Or.inr (anyOf_eq_some_true _ _ h)
    | false =>
      have hall := (anyOf_eq_some_false_iff _ _).1 h
      constructor
      · intro h'
        cases h'
      · rintro (h' | ⟨a, ha, hy⟩)
        · cases h'
        · rw [hall a ha] at hy
          cases hy

/-- C26: for an operand `o` that the classification loop of
`resolveTensorOpOperandConflicts` does not skip, the loop has computed
`escape`, true exactly when `createDeallocs` is unset or `isTensorYielded` is
true for an aliasing result of `o`, and `canOmitTensorCopy(o)`.  When the
operand is copied, it is marked with these: the call of
`allocateTensorForShapedValue` for it has the arguments `escape` and
`copy = !canOmitTensorCopy(o)`, and when the loop "Insert copies of
OpOperands" succeeds the operand is result 0 of a new `AllocTensorOp` with the
escape attribute `[escape]` that has a `copy` operand exactly when the copy
cannot be omitted.  When the result `r` is copied, and no other operand of the
operation has `r` as the result to copy, the call for `r` has the same
arguments, computed from `o`.  Every successful call with these arguments
creates an `AllocTensorOp` with the escape attribute `[escape]` that has a
`copy` operand exactly when the copy cannot be omitted. -/
theorem resolve_flags_from_operand (state : AnalysisState) (ir : IR) (fuel opId : Nat)
    (s : ConflictSets) (o : OpOperand)
    (hs : classifyOpOperands state ir fuel (ir.getOp opId).getOpOperands {} = some (.ok s))
    (ho : o ∈ (ir.getOp opId).getOpOperands) (hm : isOutOfPlace state ir o = true) :
    ∃ escape canOmit,
      escapeOf state ir fuel o = some escape
      ∧ AnalysisState.canOmitTensorCopy state ir fuel o = some canOmit
      ∧ (escape = true ↔ (state.options.createDeallocs = false
          ∨ ∃ a ∈ AnalysisState.getAliasingOpResults state.options ir o,
              state.methods.isTensorYielded ir fuel (.result a.opResult) = some true))
      ∧ (resultToCopy state ir o = none →
          o ∈ s.outOfPlaceOpOperands
          ∧ s.escapingOpOperandCopies.contains o = escape
          ∧ s.copiedOpOperands.contains o = !canOmit
          ∧ (∀ rest b, insertOpOperandCopies state.options s (o :: rest) b
              = match allocateTensorForShapedValue b (o.get b.ir) escape state.options
                  (!canOmit) with
                | (.error e, b1) => (.error e, b1)
                | (.ok copy, b1) =>
                  insertOpOperandCopies state.options s rest
                    { b1 with ir := b1.ir.setOperand o copy })
          ∧ (∀ b', insertOpOperandCopies state.options s s.outOfPlaceOpOperands
                { ir := ir, ip := .before opId } = (.ok (), b') →
              ∃ alloc, (b'.ir.getOp opId).getOperand o.idx = .result (alloc.getResult 0)
                ∧ ir.findOp alloc.id = none ∧ b'.ir.findOp alloc.id = some alloc
                ∧ alloc.kind = .AllocTensorOp ∧ alloc.escapeAttr = some [escape]
                ∧ alloc.copy.isSome = !canOmit))
      ∧ (∀ r, resultToCopy state ir o = some r →
          r ∈ s.outOfPlaceOpResults ∧ o ∉ s.outOfPlaceOpOperands
          ∧ ((∀ o' ∈ (ir.getOp opId).getOpOperands, isOutOfPlace state ir o' = true →
                resultToCopy state ir o' = some r → o' = o) →
              s.escapingOpResultCopies.contains r = escape
              ∧ s.copiedOpResults.contains r = !canOmit
              ∧ ∀ rest b, insertOpResultCopies state.options s (r :: rest) b
                  = match allocateTensorForShapedValue b (.result r) escape state.options
                      (!canOmit) with
                    | (.error e, b1) => (.error e, b1)
                    | (.ok copy, b1) =>
                      insertOpResultCopies state.options s rest
                        { b1 with ir :=
                            (replaceUses copy ((Value.result r).getUses b1.ir) b1.ir) }))
      ∧ (∀ b v r', (allocateTensorForShapedValue b v escape state.options (!canOmit)).1
            = .ok r' →
          ∃ alloc, r' = .result (alloc.getResult 0) ∧ b.ir.findOp alloc.id = none
            ∧ (allocateTensorForShapedValue b v escape state.options (!canOmit)).2.ir.findOp
                alloc.id = some alloc
            ∧ alloc.kind = .AllocTensorOp ∧ alloc.escapeAttr = some [escape]
            ∧ alloc.copy.isSome = !canOmit) := by
  obtain ⟨hq, h1, h2, h3, h4, h5, h6⟩ := classifyOpOperands_lists state ir fuel _ {} s hs
  obtain ⟨escape, canOmit, hesc, hcan⟩ := hq o ho hm
  simp only [List.nil_append] at h1 h2 h3 h4 h5 h6
  have hallocfacts : ∀ (alloc : Operation) (tensor : Value) (sizes : List Value) (e c : Bool),
      IsAllocTensorFor alloc alloc.id tensor sizes e c →
      alloc.kind = .AllocTensorOp ∧ alloc.escapeAttr = some [e] ∧ alloc.copy.isSome = c
        ∧ alloc.getResult 0 = ⟨alloc.id, 0, tensor.getType⟩ := by
    intro alloc tensor sizes e c hal
    refine ⟨hal.2.1, hal.2.2.1, ?_, by simp [Operation.getResult, hal.2.2.2.2.2]⟩
    rw [hal.2.2.2.2.1]
    cases c <;> rfl
  refine ⟨escape, canOmit, hesc, hcan, escapeOf_eq_true_iff state ir fuel o escape hesc,
    ?_, ?_, ?_⟩
  · intro hr
    have hin : o ∈ s.outOfPlaceOpOperands := by
      rw [h1, List.mem_filter]
      exact ⟨ho, by simp [hm, hr]⟩
    have he : s.escapingOpOperandCopies.contains o = escape := by
      cases escape with
      | true =>
        rw [contains_eq_true_iff, h3, List.mem_filter]
        exact ⟨ho, by simp [hm, hr, hesc]⟩
      | false =>
        cases hc : s.escapingOpOperandCopies.contains o with
        | false => rfl
        | true =>
          rw [contains_eq_true_iff, h3, List.mem_filter] at hc
          simp [hesc] at hc
    have hc : s.copiedOpOperands.contains o = !canOmit := by
      cases canOmit with
      | false =>
        rw [Bool.not_false, contains_eq_true_iff, h2, List.mem_filter]
        exact ⟨ho, by simp [hm, hr, hcan]⟩
      | true =>
        cases hc : s.copiedOpOperands.contains o with
        | false => rfl
        | true =>
          rw [contains_eq_true_iff, h2, List.mem_filter] at hc
          simp [hcan] at hc
    refine ⟨hin, he, hc, ?_, ?_⟩
    · intro rest b
      simp only [insertOpOperandCopies, he, hc]
    · intro b' hb'
      obtain ⟨-, hnodup, hmark⟩ := classifyOpOperands_marked state ir fuel opId s hs
      obtain ⟨W', hW', -, -, -, hall⟩ := insertOpOperandCopies_ok state.options s opId
        s.outOfPlaceOpOperands { ir := ir, ip := .before opId } b' (ir.getOp opId)
        (hmark o hin).2.2 (fun x hx => (hmark x hx).1) hnodup hb'
      obtain ⟨alloc, tensor, sizes, ha1, ha2, ha3, ha4, -⟩ := hall o hin (hmark o hin).2.1
      rw [he, hc] at ha4
      obtain ⟨hk, hea, hco, hgr⟩ := hallocfacts alloc tensor sizes _ _ ha4
      exact ⟨alloc, by rw [getOp_of_findOp _ _ _ hW', ha1, hgr], ha2, ha3, hk, hea, hco⟩
  · intro r hr
    have hin : r ∈ s.outOfPlaceOpResults := by
      rw [h4, List.mem_filterMap]
      exact ⟨o, ho, by simp [hm, hr]⟩
    have hnot : o ∉ s.outOfPlaceOpOperands := by
      rw [h1, List.mem_filter]
      simp [hr]
    refine ⟨hin, hnot, ?_⟩
    intro huniq
    have he : s.escapingOpResultCopies.contains r = escape := by
      cases escape with
      | true =>
        rw [contains_eq_true_iff, h6, List.mem_filterMap]
        exact ⟨o, ho, by simp [hm, hr, hesc]⟩
      | false =>
        cases hc : s.escapingOpResultCopies.contains r with
        | false => rfl
        | true =>
          rw [contains_eq_true_iff, h6, List.mem_filterMap] at hc
          obtain ⟨o', ho', hc⟩ := hc
          split at hc
          · rename_i hcond
            simp only [Bool.and_eq_true, decide_eq_true_eq] at hcond
            have := huniq o' ho' hcond.1 hc
            subst this
            rw [hesc] at hcond
            cases hcond.2
          · cases hc
    have hc : s.copiedOpResults.contains r = !canOmit := by
      cases canOmit with
      | false =>
        rw [Bool.not_false, contains_eq_true_iff, h5, List.mem_filterMap]
        exact ⟨o, ho, by simp [hm, hr, hcan]⟩
      | true =>
        cases hc : s.copiedOpResults.contains r with
        | false => rfl
        | true =>
          rw [contains_eq_true_iff, h5, List.mem_filterMap] at hc
          obtain ⟨o', ho', hc⟩ := hc
          split at hc
          · rename_i hcond
            simp only [Bool.and_eq_true, decide_eq_true_eq] at hcond
            have := huniq o' ho' hcond.1 hc
            subst this
            rw [hcan] at hcond
            cases hcond.2
          · cases hc
    refine ⟨he, hc, ?_⟩
    intro rest b
    simp only [insertOpResultCopies, he, hc]
  · intro b v r' hr'
    obtain ⟨alloc, tensor, sizes, h1', h2', h3', h4', -, -⟩ :=
      allocate_ok_full b v escape state.options (!canOmit) r' hr'
    obtain ⟨hk, hea, hco, hgr⟩ := hallocfacts alloc tensor sizes _ _ h4'
    exact ⟨alloc, by rw [h1', hgr], h2', h3', hk, hea, hco⟩

/-- C26 on the graph `src ; W ; R`: when `W` reads and writes its operand,
the operand is copied, escaping and with its contents; when `W` neither reads
nor writes it and the analysis found it out-of-place, the result of `W` is
copied, with the flags computed from the operand. -/
theorem resolve_flags_from_operand_witness :
    (∃ escape canOmit,
      escapeOf (AnalysisState.base Example.defaultOptions) (Example.wrIR true true) 0
          Example.wOperand = some escape
      ∧ AnalysisState.canOmitTensorCopy (AnalysisState.base Example.defaultOptions)
          (Example.wrIR true true) 0 Example.wOperand = some canOmit
      ∧ escape = true ∧ canOmit = false
      ∧ ∀ rest b, insertOpOperandCopies Example.defaultOptions
            { outOfPlaceOpOperands := [Example.wOperand], copiedOpOperands := [Example.wOperand],
              escapingOpOperandCopies := [Example.wOperand] } (Example.wOperand :: rest) b
          = match allocateTensorForShapedValue b (Example.wOperand.get b.ir) escape
              Example.defaultOptions (!canOmit) with
            | (.error e, b1) => (.error e, b1)
            | (.ok copy, b1) =>
              insertOpOperandCopies Example.defaultOptions
                { outOfPlaceOpOperands := [Example.wOperand],
                  copiedOpOperands := [Example.wOperand],
                  escapingOpOperandCopies := [Example.wOperand] } rest
                { b1 with ir := b1.ir.setOperand Example.wOperand copy })
    ∧ (∃ escape canOmit,
      escapeOf Example.outOfPlaceState (Example.wrIR false false) 2 Example.wOperand
          = some escape
      ∧ AnalysisState.canOmitTensorCopy Example.outOfPlaceState (Example.wrIR false false) 2
          Example.wOperand = some canOmit
      ∧ resultToCopy Example.outOfPlaceState (Example.wrIR false false) Example.wOperand
          = some Example.wResult
      ∧ [Example.wResult].contains Example.wResult = escape
      ∧ [Example.wResult].contains Example.wResult = !canOmit) := by
  constructor
  · obtain ⟨escape, canOmit, h1, h2, -, h4, -, -⟩ := resolve_flags_from_operand
      (AnalysisState.base Example.defaultOptions) (Example.wrIR true true) 0 1
      { outOfPlaceOpOperands := [Example.wOperand], copiedOpOperands := [Example.wOperand],
        escapingOpOperandCopies := [Example.wOperand] } Example.wOperand rfl (by decide) rfl
    obtain ⟨-, h5, h6, h7, -⟩ := h4 rfl
    refine ⟨escape, canOmit, h1, h2, ?_, ?_, h7⟩
    · rw [← h5]
      rfl
    · have : (!canOmit) = true := by
        rw [← h6]
        rfl
      simpa using this
  · obtain ⟨escape, canOmit, h1, h2, -, -, h5, -⟩ := resolve_flags_from_operand
      Example.outOfPlaceState (Example.wrIR false false) 2 1
      { outOfPlaceOpResults := [Example.wResult], copiedOpResults := [Example.wResult],
        escapingOpResultCopies := [Example.wResult] } Example.wOperand rfl (by decide) rfl
    obtain ⟨-, -, h6⟩ := h5 Example.wResult rfl
    obtain ⟨h7, h8, -⟩ := h6 (by
      intro o' ho' _ _
      have : o' ∈ [Example.wOperand] := ho'
      simpa using this)
    exact ⟨escape, canOmit, h1, h2, rfl, h7, h8⟩

/-! ## The ids of the operations of the graph -/

theorem findOp_eq_none_iff (ir : IR) (id : Nat) : ir.findOp id = none ↔ id ∉ ir.ids := by
  unfold IR.findOp IR.ids
  rw [List.find?_eq_none]
  simp only [List.mem_map, not_exists, not_and, beq_iff_eq]

theorem findOp_of_mem_nodup (ir : IR) (h : ir.ids.Nodup) (op : Operation) (hop : op ∈ ir.ops) :
    ir.findOp op.id = some op := by
  unfold IR.findOp
  unfold IR.ids at h
  revert h hop
  generalize ir.ops = l
  intro h hop
  induction l with
  | nil => simp at hop
  | cons x xs ih =>
    rw [find?_cons_id]
    simp only [List.map_cons, List.nodup_cons, List.mem_map, not_exists, not_and] at h
    rcases List.mem_cons.1 hop with rfl | hmem
    · simp
    · have hne : x.id ≠ op.id := fun heq => h.1 op hmem heq.symm
      rw [if_neg hne]
      exact ih h.2 hmem

theorem insertBefore_perm (a : Nat) (new : Operation) (l : List Operation) :
    (insertBefore a new l).Perm (new :: l) := by
  induction l with
  | nil => exact List.Perm.refl _
  | cons x xs ih =>
    unfold insertBefore
    split
    · exact List.Perm.refl _
    · exact (List.Perm.cons x ih).trans (List.Perm.swap new x xs)

theorem insertAfter_perm (a : Nat) (new : Operation) (l : List Operation) :
    (insertAfter a new l).Perm (new :: l) := by
  induction l with
  | nil => exact List.Perm.refl _
  | cons x xs ih =>
    unfold insertAfter
    split
    · exact List.Perm.swap new x xs
    · exact (List.Perm.cons x ih).trans (List.Perm.swap new x xs)

/-- Creating an operation keeps the ids of the graph distinct. -/
theorem create_ids_nodup (b : OpBuilder) (op : Operation) (h : b.ir.ids.Nodup) :
    (b.create op).2.ir.ids.Nodup := by
  have hfresh : b.ir.freshId ∉ b.ir.ids := by
    intro hmem
    unfold IR.ids at hmem
    obtain ⟨x, hx, hid⟩ := List.mem_map.1 hmem
    have := mem_lt_freshId b.ir x hx
    omega
  have hperm : ∀ blk : Option Nat, ∀ l : List Operation, l.Perm
      (({ op with id := b.ir.freshId, block := blk } : Operation) :: b.ir.ops) →
      (l.map (fun o => o.id)).Nodup := by
    intro blk l hl
    have := (hl.map (fun o : Operation => o.id)).nodup_iff.2
    apply this
    simp only [List.map_cons, List.nodup_cons]
    exact ⟨hfresh, h⟩
  unfold OpBuilder.create
  cases b.ip with
  | before a => exact hperm _ _ (insertBefore_perm a _ _)
  | after a => exact hperm _ _ (insertAfter_perm a _ _)

theorem modifyOp_ids_eq (ir : IR) (id : Nat) (f : Operation → Operation)
    (hf : ∀ o, (f o).id = o.id) : (ir.modifyOp id f).ids = ir.ids :=
  modifyOp_ids ir id f hf

theorem setOperand_ids (ir : IR) (u : OpOperand) (v : Value) : (ir.setOperand u v).ids = ir.ids :=
  modifyOp_ids ir _ _ (fun _ => rfl)

theorem replaceUses_ids_eq (copy : Value) (uses : List OpOperand) (ir : IR) :
    (replaceUses copy uses ir).ids = ir.ids :=
  replaceUses_ids copy uses ir

theorem populate_ids_nodup (tensor : Value) (i : Nat) (shape : List Int) (b : OpBuilder)
    (acc : List Value) (h : b.ir.ids.Nodup) :
    (populateDynamicDimSizes tensor i shape b acc).2.ir.ids.Nodup := by
  induction shape generalizing i b acc with
  | nil => simpa [populateDynamicDimSizes] using h
  | cons d ds ih =>
    unfold populateDynamicDimSizes
    by_cases hd : isDynamic d = true
    · simp only [hd, if_true]
      exact ih _ _ _ (create_ids_nodup b _ h)
    · simp only [hd]
      exact ih _ _ _ h

/-- `allocateTensorForShapedValue` keeps the ids of the graph distinct. -/
theorem allocate_ids_nodup (b : OpBuilder) (v : Value) (e : Bool)
    (options : BufferizationOptions) (copy : Bool) (h : b.ir.ids.Nodup) :
    (allocateTensorForShapedValue b v e options copy).2.ir.ids.Nodup := by
  unfold allocateTensorForShapedValue
  split
  · exact h
  · rename_i tensor b1 heq
    dsimp only
    have h1 : b1.ir.ids.Nodup := by
      unfold shapedValueAsTensor at heq
      split at heq
      · cases heq
        exact h
      · split at heq
        · cases heq
          exact create_ids_nodup b _ h
        · split at heq <;> cases heq
    have h2 : (computeDynamicSizes b1 v tensor copy).2.ir.ids.Nodup := by
      unfold computeDynamicSizes
      split
      · dsimp only
        split
        · exact h1
        · exact populate_ids_nodup _ _ _ _ _ h1
      · exact h1
    have h3 : (createAllocTensorOp (computeDynamicSizes b1 v tensor copy).2 tensor
        (computeDynamicSizes b1 v tensor copy).1 e copy).2.ir.ids.Nodup := by
      unfold createAllocTensorOp
      simp only
      rw [modifyOp_ids_eq]
      · exact create_ids_nodup _ _ h2
      · intro o
        rfl
    unfold addMemorySpaceAttr
    split
    · exact h3
    · split
      · exact h3
      · simp only
        rw [modifyOp_ids_eq]
        · exact h3
        · intro o
          rfl

theorem insertOpOperandCopies_ids_nodup (options : BufferizationOptions) (s : ConflictSets)
    (l : List OpOperand) (b : OpBuilder) (h : b.ir.ids.Nodup) :
    (insertOpOperandCopies options s l b).2.ir.ids.Nodup := by
  induction l generalizing b with
  | nil => exact h
  | cons o rest ih =>
    unfold insertOpOperandCopies
    have hA := allocate_ids_nodup b (o.get b.ir) (s.escapingOpOperandCopies.contains o) options
      (s.copiedOpOperands.contains o) h
    generalize allocateTensorForShapedValue b (o.get b.ir)
      (s.escapingOpOperandCopies.contains o) options (s.copiedOpOperands.contains o) = A at hA
    obtain ⟨res, b1⟩ := A
    cases res with
    | error e => exact hA
    | ok copy =>
      apply ih
      show (b1.ir.setOperand o copy).ids.Nodup
      rw [setOperand_ids]
      exact hA

theorem insertOpResultCopies_ids_nodup (options : BufferizationOptions) (s : ConflictSets)
    (l : List OpResult) (b : OpBuilder) (h : b.ir.ids.Nodup) :
    (insertOpResultCopies options s l b).2.ir.ids.Nodup := by
  induction l generalizing b with
  | nil => exact h
  | cons r rest ih =>
    unfold insertOpResultCopies
    have hA := allocate_ids_nodup b (.result r) (s.escapingOpResultCopies.contains r) options
      (s.copiedOpResults.contains r) h
    generalize allocateTensorForShapedValue b (.result r)
      (s.escapingOpResultCopies.contains r) options (s.copiedOpResults.contains r) = A at hA
    obtain ⟨res, b1⟩ := A
    cases res with
    | error e => exact hA
    | ok copy =>
      apply ih
      show (replaceUses copy ((Value.result r).getUses b1.ir) b1.ir).ids.Nodup
      rw [replaceUses_ids_eq]
      exact hA

/-! ## Insertion points on ids -/

theorem insertsBetween_ids (b : OpBuilder) (pre post : List Operation)
    (h : b.InsertsBetween pre post) :
    b.InsertsBetweenIds (pre.map (fun o => o.id)) (post.map (fun o => o.id)) := by
  obtain ⟨hops, hip⟩ := h
  refine ⟨by simp [IR.ids, hops], ?_⟩
  cases hb : b.ip with
  | before a =>
    rw [hb] at hip
    obtain ⟨hpre, x, l2, hpost, hx⟩ := hip
    refine ⟨?_, l2.map (fun o => o.id), by simp [hpost, hx]⟩
    intro hmem
    obtain ⟨y, hy, hya⟩ := List.mem_map.1 hmem
    exact hpre y hy hya
  | after a =>
    rw [hb] at hip
    obtain ⟨l1, x, hpre, hx, hl1⟩ := hip
    refine ⟨l1.map (fun o => o.id), by simp [hpre, hx], ?_⟩
    intro hmem
    obtain ⟨y, hy, hya⟩ := List.mem_map.1 hmem
    exact hl1 y hy hya

theorem insertsBetweenIds_split (b : OpBuilder) (preI postI : List Nat)
    (h : b.InsertsBetweenIds preI postI) :
    ∃ pre post, b.InsertsBetween pre post ∧ pre.map (fun o => o.id) = preI
      ∧ post.map (fun o => o.id) = postI := by
  obtain ⟨hids, hip⟩ := h
  unfold IR.ids at hids
  obtain ⟨pre, post, hops, hpre, hpost⟩ := List.map_eq_append_iff.1 hids
  refine ⟨pre, post, ⟨hops, ?_⟩, hpre, hpost⟩
  cases hb : b.ip with
  | before a =>
    rw [hb] at hip
    obtain ⟨hnot, l2, hl2⟩ := hip
    simp only
    refine ⟨?_, ?_⟩
    · intro o ho hoa
      apply hnot
      rw [← hpre]
      exact List.mem_map.2 ⟨o, ho, hoa⟩
    · rw [hl2] at hpost
      cases post with
      | nil => simp at hpost
      | cons x xs =>
        simp only [List.map_cons, List.cons.injEq] at hpost
        exact ⟨x, xs, rfl, hpost.1⟩
  | after a =>
    rw [hb] at hip
    obtain ⟨l1, hl1, hnot⟩ := hip
    simp only
    rw [hl1] at hpre
    obtain ⟨p1, p2, hp, hp1, hp2⟩ := List.map_eq_append_iff.1 hpre
    cases p2 with
    | nil => simp at hp2
    | cons x xs =>
      cases xs with
      | nil =>
        simp only [List.map_cons, List.map_nil, List.cons.injEq, and_true] at hp2
        refine ⟨p1, x, hp, hp2, ?_⟩
        intro o ho hoa
        apply hnot
        rw [← hp1]
        exact List.mem_map.2 ⟨o, ho, hoa⟩
      | cons y ys => simp at hp2

/-- Where `allocateTensorForShapedValue` puts what it creates, on ids. -/
theorem allocate_between_ids (b : OpBuilder) (v : Value) (e : Bool)
    (options : BufferizationOptions) (copy : Bool) (preI postI : List Nat)
    (h : b.InsertsBetweenIds preI postI) :
    ∃ newIds, (allocateTensorForShapedValue b v e options copy).2.InsertsBetweenIds
        (preI ++ newIds) postI := by
  obtain ⟨pre, post, hb, hpre, hpost⟩ := insertsBetweenIds_split b preI postI h
  obtain ⟨news, h1, -, -, -⟩ := allocate_between_any b v e options copy pre post hb
  refine ⟨news.map (fun o => o.id), ?_⟩
  have := insertsBetween_ids _ _ _ h1
  rwa [List.map_append, hpre, hpost] at this

theorem insertsBetweenIds_of_ids (b : OpBuilder) (ir' : IR) (preI postI : List Nat)
    (hids : ir'.ids = b.ir.ids) (h : b.InsertsBetweenIds preI postI) :
    OpBuilder.InsertsBetweenIds { b with ir := ir' } preI postI := by
  obtain ⟨h1, h2⟩ := h
  exact ⟨hids.trans h1, h2⟩

theorem insertOpOperandCopies_between_ids (options : BufferizationOptions) (s : ConflictSets)
    (l : List OpOperand) (b : OpBuilder) (preI postI : List Nat)
    (h : b.InsertsBetweenIds preI postI) :
    ∃ newIds, (insertOpOperandCopies options s l b).2.InsertsBetweenIds
        (preI ++ newIds) postI := by
  induction l generalizing b preI with
  | nil => exact ⟨[], by simpa [insertOpOperandCopies] using h⟩
  | cons o rest ih =>
    unfold insertOpOperandCopies
    obtain ⟨n1, hA⟩ := allocate_between_ids b (o.get b.ir)
      (s.escapingOpOperandCopies.contains o) options (s.copiedOpOperands.contains o) preI postI h
    generalize allocateTensorForShapedValue b (o.get b.ir)
      (s.escapingOpOperandCopies.contains o) options (s.copiedOpOperands.contains o) = A at hA
    obtain ⟨res, b1⟩ := A
    cases res with
    | error e => exact ⟨n1, hA⟩
    | ok copy =>
      obtain ⟨n2, h2⟩ := ih { b1 with ir := b1.ir.setOperand o copy } (preI ++ n1)
        (insertsBetweenIds_of_ids b1 _ _ _ (setOperand_ids _ _ _) hA)
      exact ⟨n1 ++ n2, by simpa [List.append_assoc] using h2⟩

theorem insertOpResultCopies_between_ids (options : BufferizationOptions) (s : ConflictSets)
    (l : List OpResult) (b : OpBuilder) (preI postI : List Nat)
    (h : b.InsertsBetweenIds preI postI) :
    ∃ newIds, (insertOpResultCopies options s l b).2.InsertsBetweenIds
        (preI ++ newIds) postI := by
  induction l generalizing b preI with
  | nil => exact ⟨[], by simpa [insertOpResultCopies] using h⟩
  | cons r rest ih =>
    unfold insertOpResultCopies
    obtain ⟨n1, hA⟩ := allocate_between_ids b (.result r)
      (s.escapingOpResultCopies.contains r) options (s.copiedOpResults.contains r) preI postI h
    generalize allocateTensorForShapedValue b (.result r)
      (s.escapingOpResultCopies.contains r) options (s.copiedOpResults.contains r) = A at hA
    obtain ⟨res, b1⟩ := A
    cases res with
    | error e => exact ⟨n1, hA⟩
    | ok copy =>
      obtain ⟨n2, h2⟩ := ih
        { b1 with ir := (replaceUses copy ((Value.result r).getUses b1.ir) b1.ir) } (preI ++ n1)
        (insertsBetweenIds_of_ids b1 _ _ _ (replaceUses_ids_eq _ _ _) hA)
      exact ⟨n1 ++ n2, by simpa [List.append_assoc] using h2⟩

/-! ## Uses and their redirection -/

theorem mem_usesIn_iff (v : Value) (id : Nat) (i : Nat) (ws : List Value) (u : OpOperand) :
    u ∈ usesIn v id i ws ↔ u.owner = id ∧ i ≤ u.idx ∧ ws[u.idx - i]? = some v := by
  induction ws generalizing i with
  | nil => simp [usesIn]
  | cons w ws ih =>
    unfold usesIn
    have key : (u ∈ usesIn v id (i + 1) ws)
        ↔ u.owner = id ∧ i < u.idx ∧ (w :: ws)[u.idx - i]? = some v := by
      rw [ih (i + 1)]
      constructor
      · rintro ⟨h1, h2, h3⟩
        refine ⟨h1, h2, ?_⟩
        rw [show u.idx - i = (u.idx - (i + 1)) + 1 by omega]
        simpa using h3
      · rintro ⟨h1, h2, h3⟩
        refine ⟨h1, h2, ?_⟩
        rw [show u.idx - i = (u.idx - (i + 1)) + 1 by omega] at h3
        simpa using h3
    by_cases hw : w = v
    · simp only [hw, if_true, List.mem_cons, key]
      constructor
      · rintro (rfl | ⟨h1, h2, h3⟩)
        · simp
        · exact ⟨h1, Nat.le_of_lt h2, by rw [← hw]; exact hw ▸ h3⟩
      · rintro ⟨h1, h2, h3⟩
        by_cases hi : u.idx = i
        · left
          cases u
          simp_all
        · right
          exact ⟨h1, by omega, h3⟩
    · simp only [hw, if_false, key]
      constructor
      · rintro ⟨h1, h2, h3⟩
        exact ⟨h1, Nat.le_of_lt h2, h3⟩
      · rintro ⟨h1, h2, h3⟩
        by_cases hi : u.idx = i
        · rw [hi] at h3
          simp at h3
          exact absurd h3 hw
        · exact ⟨h1, by omega, h3⟩

/-- In a graph with distinct ids, the uses of a value are the operand slots
that hold it. -/
theorem mem_getUses_iff (ir : IR) (hn : ir.ids.Nodup) (v : Value) (u : OpOperand) :
    u ∈ v.getUses ir ↔ ∃ op, ir.findOp u.owner = some op ∧ op.operands[u.idx]? = some v := by
  unfold Value.getUses
  rw [List.mem_reverse, List.mem_flatMap]
  constructor
  · rintro ⟨op, hop, hu⟩
    obtain ⟨h1, -, h3⟩ := (mem_usesIn_iff v op.id 0 op.operands u).1 hu
    refine ⟨op, ?_, by simpa using h3⟩
    rw [h1]
    exact findOp_of_mem_nodup ir hn op hop
  · rintro ⟨op, hf, hv⟩
    refine ⟨op, List.mem_of_find?_eq_some hf, ?_⟩
    rw [mem_usesIn_iff]
    exact ⟨(findOp_id ir _ op hf).symm, Nat.zero_le _, by simpa using hv⟩

theorem opOperand_mk_eq_iff (u : OpOperand) (owner i : Nat) (h : u.owner = owner) :
    (({ owner := owner, idx := i } : OpOperand) = u) ↔ u.idx = i := by
  cases u
  simp only at h
  subst h
  simp [eq_comm]

/-- What `replaceUses` does to the record of the operation `owner`: the slots
among the uses are set to the copy, unless the operation is the one defining
the copy or a `tensor.dim`; nothing else changes. -/
theorem replaceUses_slot (copy : Value) (uses : List OpOperand) (ir : IR) (owner : Nat)
    (x : Operation) (hx : ir.findOp owner = some x) :
    ∃ x', (replaceUses copy uses ir).findOp owner = some x'
      ∧ x' = { x with operands := x'.operands }
      ∧ x'.operands.length = x.operands.length
      ∧ ∀ i, x'.operands[i]?
          = if (⟨owner, i⟩ ∈ uses ∧ replaceUsesSkips copy x = false ∧ i < x.operands.length)
            then some copy else x.operands[i]? := by
  induction uses generalizing ir x with
  | nil => exact ⟨x, hx, rfl, rfl, by simp⟩
  | cons u us ih =>
    have hxid : x.id = owner := findOp_id ir owner x hx
    by_cases hown : u.owner = owner
    · have hgo : u.getOwner ir = x := by
        rw [OpOperand.getOwner, hown]
        exact getOp_of_findOp ir owner x hx
      by_cases hskip : replaceUsesSkips copy x = true
      · have hrep : replaceUses copy (u :: us) ir = replaceUses copy us ir := by
          unfold replaceUsesSkips at hskip
          simp only [Bool.or_eq_true, decide_eq_true_eq] at hskip
          rw [replaceUses]
          rw [hgo]
          rcases hskip with h | h
          · rw [if_pos h]
          · by_cases h' : some x.id = Option.map (fun r => r.op) copy.asOpResult
            · rw [if_pos h']
            · rw [if_neg h', if_pos h]
        rw [hrep]
        obtain ⟨x', h1, h2, h3, h4⟩ := ih ir x hx
        refine ⟨x', h1, h2, h3, ?_⟩
        intro i
        rw [h4 i]
        simp [hskip]
      · have hskip' : replaceUsesSkips copy x = false := by simpa using hskip
        have hrep : replaceUses copy (u :: us) ir
            = replaceUses copy us (ir.setOperand u copy) := by
          unfold replaceUsesSkips at hskip'
          simp only [Bool.or_eq_false_iff, decide_eq_false_iff_not] at hskip'
          rw [replaceUses]
          rw [hgo, if_neg hskip'.1, if_neg hskip'.2]
        rw [hrep]
        have hx1 : (ir.setOperand u copy).findOp owner
            = some { x with operands := x.operands.set u.idx copy } := by
          have := findOp_setOperand_owner ir u copy x (by rw [hown]; exact hx)
          rwa [hown] at this
        obtain ⟨x', h1, h2, h3, h4⟩ := ih _ _ hx1
        refine ⟨x', h1, ?_, by rw [h3]; simp, ?_⟩
        · rw [h2]
        · intro i
          rw [h4 i]
          have hsk : replaceUsesSkips copy { x with operands := x.operands.set u.idx copy }
              = false := hskip'
          simp only [hsk, List.length_set, List.getElem?_set, true_and, List.mem_cons]
          have hmem : (({ owner := owner, idx := i } : OpOperand) = u) ↔ u.idx = i :=
            opOperand_mk_eq_iff u owner i hown
          simp only [hskip', hmem, true_and]
          by_cases hin : ({ owner := owner, idx := i } : OpOperand) ∈ us
          · by_cases hlt : i < x.operands.length
            · simp only [hin, hlt, and_self, or_true, if_true]
            · have hnone : x.operands[i]? = none := by simp; omega
              simp only [hin, hlt, and_false, if_false, hnone]
              split
              · rename_i h
                rw [h, if_neg hlt]
              · rfl
          · by_cases hui : u.idx = i
            · by_cases hlt : i < x.operands.length
              · simp only [hin, hui, hlt, false_and, or_false, and_self, if_true, if_false]
              · have hnone : x.operands[i]? = none := by simp; omega
                simp only [hin, hui, hlt, false_and, and_false, if_true, if_false, hnone]
            · simp only [hin, hui, false_and, or_false, if_false]
    · have hmem : ∀ i, (({ owner := owner, idx := i } : OpOperand) ∈ u :: us)
          ↔ ({ owner := owner, idx := i } : OpOperand) ∈ us := by
        intro i
        simp only [List.mem_cons]
        constructor
        · rintro (h | h)
          · exact absurd (by rw [← h]) hown
          · exact h
        · exact Or.inr
      have hcases : replaceUses copy (u :: us) ir = replaceUses copy us ir
          ∨ replaceUses copy (u :: us) ir = replaceUses copy us (ir.setOperand u copy) := by
        rw [replaceUses]
        split
        · exact Or.inl rfl
        · split
          · exact Or.inl rfl
          · exact Or.inr rfl
      rcases hcases with hrep | hrep
      · rw [hrep]
        obtain ⟨x', h1, h2, h3, h4⟩ := ih ir x hx
        exact ⟨x', h1, h2, h3, fun i => by rw [h4 i]; simp only [hmem i]⟩
      · rw [hrep]
        have hx1 : (ir.setOperand u copy).findOp owner = some x := by
          rw [findOp_setOperand_of_ne _ _ _ _ hown]
          exact hx
        obtain ⟨x', h1, h2, h3, h4⟩ := ih _ x hx1
        exact ⟨x', h1, h2, h3, fun i => by rw [h4 i]; simp only [hmem i]⟩

/-! ## One result copy: the allocation and the uses -/

theorem replaceUsesSkips_of_alloc (copy : Value) (id : Nat) (ty : Ty)
    (hc : copy = .result ⟨id, 0, ty⟩) (x : Operation) :
    replaceUsesSkips copy x = true ↔ (x.id = id ∨ x.kind = .DimOp) := by
  subst hc
  simp [replaceUsesSkips, Value.asOpResult]

theorem getOperand_eq_of_getElem? (x : Operation) (i : Nat) (v : Value)
    (h : x.operands[i]? = some v) : x.getOperand i = v := by
  unfold Operation.getOperand
  rw [List.getD_eq_getElem?_getD, h]
  rfl

/-- One round of the loop "Insert copies of OpResults" for the result `r` of
an operation of the graph: the copy is result 0 of a new `AllocTensorOp`;
every use of `r` is set to the copy, but for the uses of the new allocation
and of `tensor.dim` operations, which stay; no other use of `r` remains. -/
theorem allocate_then_replaceUses (b : OpBuilder) (r : OpResult) (e c : Bool)
    (options : BufferizationOptions) (copy : Value) (b1 : OpBuilder)
    (hn : b.ir.ids.Nodup) (hr : r.op ∈ b.ir.ids)
    (ha : allocateTensorForShapedValue b (.result r) e options c = (.ok copy, b1)) :
    ∃ (alloc : Operation) (tensor : Value) (sizes : List Value),
      copy = .result ⟨alloc.id, 0, tensor.getType⟩
      ∧ IsAllocTensorFor alloc alloc.id tensor sizes e c
      ∧ (r.type.isRankedTensor = true → tensor = .result r)
      ∧ alloc.id ∉ b.ir.ids
      ∧ (replaceUses copy ((Value.result r).getUses b1.ir) b1.ir).findOp alloc.id = some alloc
      ∧ (∀ u ∈ (Value.result r).getUses b.ir, u ∈ (Value.result r).getUses b1.ir)
      ∧ (∀ u ∈ (Value.result r).getUses b1.ir,
          u.get (replaceUses copy ((Value.result r).getUses b1.ir) b1.ir)
            = if u.owner = alloc.id ∨ (b1.ir.getOp u.owner).kind = .DimOp then .result r
              else copy)
      ∧ (∀ u ∈ (Value.result r).getUses
            (replaceUses copy ((Value.result r).getUses b1.ir) b1.ir),
          u.owner = alloc.id
            ∨ ((replaceUses copy ((Value.result r).getUses b1.ir) b1.ir).getOp u.owner).kind
                = .DimOp) := by
  obtain ⟨alloc, tensor, sizes, hcopy, hnone, hsome, hal, hranked, hold⟩ :=
    allocate_ok_full b (.result r) e options c copy (by rw [ha])
  rw [ha] at hsome hold
  dsimp only at hsome hold
  have hn1 : b1.ir.ids.Nodup := by
    have := allocate_ids_nodup b (.result r) e options c hn
    rwa [ha] at this
  have hfresh : alloc.id ∉ b.ir.ids := (findOp_eq_none_iff b.ir alloc.id).1 hnone
  have hids2 : (replaceUses copy ((Value.result r).getUses b1.ir) b1.ir).ids = b1.ir.ids :=
    replaceUses_ids_eq _ _ _
  have hn2 : (replaceUses copy ((Value.result r).getUses b1.ir) b1.ir).ids.Nodup := by
    rw [hids2]
    exact hn1
  have hskip := replaceUsesSkips_of_alloc copy alloc.id tensor.getType hcopy
  have hne : copy ≠ .result r := by
    intro h
    rw [hcopy] at h
    injection h with h
    apply hfresh
    have : r.op = alloc.id := by rw [← h]
    rw [← this]
    exact hr
  refine ⟨alloc, tensor, sizes, hcopy, hal, hranked, hfresh, ?_, ?_, ?_, ?_⟩
  · obtain ⟨x', hf', hrec, hlen, hsl⟩ :=
      replaceUses_slot copy ((Value.result r).getUses b1.ir) b1.ir alloc.id alloc hsome
    have hsk : replaceUsesSkips copy alloc = true := (hskip alloc).2 (Or.inl rfl)
    have hops : x'.operands = alloc.operands := by
      apply List.ext_getElem?
      intro i
      rw [hsl i]
      simp [hsk]
    rw [hf', hrec, hops]
  · intro u hu
    obtain ⟨x, hfx, hslot⟩ := (mem_getUses_iff b.ir hn _ u).1 hu
    exact (mem_getUses_iff b1.ir hn1 _ u).2 ⟨x, hold _ _ hfx, hslot⟩
  · intro u hu
    obtain ⟨x, hfx, hslot⟩ := (mem_getUses_iff b1.ir hn1 _ u).1 hu
    obtain ⟨x', hf', hrec, hlen, hsl⟩ :=
      replaceUses_slot copy ((Value.result r).getUses b1.ir) b1.ir u.owner x hfx
    have hxid := findOp_id _ _ _ hfx
    have hlt : u.idx < x.operands.length := by
      by_contra hge
      have : x.operands[u.idx]? = none := by simp; omega
      rw [this] at hslot
      cases hslot
    have hsl := hsl u.idx
    have hu' : ({ owner := u.owner, idx := u.idx } : OpOperand) ∈ (Value.result r).getUses b1.ir :=
      hu
    rw [OpOperand.get, getOp_of_findOp _ _ _ hf', getOp_of_findOp _ _ _ hfx]
    by_cases hex : u.owner = alloc.id ∨ x.kind = .DimOp
    · rw [if_pos hex]
      have hsk : replaceUsesSkips copy x = true := (hskip x).2 (by rwa [hxid])
      apply getOperand_eq_of_getElem?
      rw [hsl, hslot]
      simp [hsk]
    · rw [if_neg hex]
      have hsk : replaceUsesSkips copy x = false := by
        cases hb : replaceUsesSkips copy x with
        | false => rfl
        | true => exact absurd (by rw [← hxid]; exact (hskip x).1 hb) hex
      apply getOperand_eq_of_getElem?
      rw [hsl, if_pos ⟨hu', hsk, hlt⟩]
  · intro u hu
    obtain ⟨x', hf', hslot'⟩ := (mem_getUses_iff _ hn2 _ u).1 hu
    cases hfx : b1.ir.findOp u.owner with
    | none =>
      have h1 := (findOp_eq_none_iff _ _).1 hfx
      rw [← hids2] at h1
      rw [(findOp_eq_none_iff _ _).2 h1] at hf'
      cases hf'
    | some x =>
      obtain ⟨x'', hf'', hrec, hlen, hsl⟩ :=
        replaceUses_slot copy ((Value.result r).getUses b1.ir) b1.ir u.owner x hfx
      rw [hf'] at hf''
      cases hf''
      have hxid := findOp_id _ _ _ hfx
      have hsl := hsl u.idx
      rw [hslot'] at hsl
      rw [getOp_of_findOp _ _ _ hf']
      have hkind : x'.kind = x.kind := by rw [hrec]
      by_cases hcond : (({ owner := u.owner, idx := u.idx } : OpOperand)
          ∈ (Value.result r).getUses b1.ir ∧ replaceUsesSkips copy x = false
          ∧ u.idx < x.operands.length)
      · rw [if_pos hcond] at hsl
        injection hsl with hsl
        exact absurd hsl.symm hne
      · rw [if_neg hcond] at hsl
        have hlt : u.idx < x.operands.length := by
          by_contra hge
          have : x.operands[u.idx]? = none := by simp; omega
          rw [this] at hsl
          cases hsl
        have hu1 : ({ owner := u.owner, idx := u.idx } : OpOperand)
            ∈ (Value.result r).getUses b1.ir :=
          (mem_getUses_iff b1.ir hn1 _ _).2 ⟨x, hfx, hsl.symm⟩
        have hsk : replaceUsesSkips copy x = true := by
          cases hb : replaceUsesSkips copy x with
          | true => rfl
          | false => exact absurd ⟨hu1, hb, hlt⟩ hcond
        rcases (hskip x).1 hsk with h | h
        · exact Or.inl (by rw [← hxid]; exact h)
        · exact Or.inr (by rw [hkind]; exact h)
/-! ## The conflict resolver: result copies -/

theorem nodup_append_cons_not_mem (pre post : List Nat) (a : Nat)
    (h : (pre ++ a :: post).Nodup) : a ∉ pre := by
  intro ha
  rw [List.nodup_append] at h
  exact h.2.2 ha (List.mem_cons_self a post)

/-- C27: in `resolveTensorOpOperandConflicts`, the round of the loop "Insert
copies of OpResults" for a marked result `r` (`l1` the marked results before
it, `l2` those after it) creates its allocation after the operation `opId`,
behind what the earlier rounds created there and before the operations that
followed `opId`; every use of `r` found once the allocation is created, among
them every use there was before, is set to the copy, but for the uses owned by
the new allocation and by `tensor.dim` operations, which still hold `r`; after
that no use of `r` is left but uses of these two kinds.  The call goes on with
the remaining results `l2` from that graph. -/
theorem resolve_result_copy_redirects_uses (state : AnalysisState) (fuel : Nat) (ir : IR)
    (opId : Nat) (s : ConflictSets) (l1 l2 : List OpResult) (r : OpResult)
    (b0 bmid b1 : OpBuilder) (copy : Value) (pre post : List Nat)
    (hn : ir.ids.Nodup) (hids : ir.ids = pre ++ opId :: post) (hr : r.op ∈ ir.ids)
    (hs : classifyOpOperands state ir fuel (ir.getOp opId).getOpOperands {} = some (.ok s))
    (hl : s.outOfPlaceOpResults = l1 ++ r :: l2)
    (h0 : insertOpOperandCopies state.options s s.outOfPlaceOpOperands
        { ir := ir, ip := .before opId } = (.ok (), b0))
    (h1 : insertOpResultCopies state.options s l1 { ir := b0.ir, ip := .after opId }
        = (.ok (), bmid))
    (ha : allocateTensorForShapedValue bmid (.result r) (s.escapingOpResultCopies.contains r)
        state.options (s.copiedOpResults.contains r) = (.ok copy, b1)) :
    resolveTensorOpOperandConflicts state fuel ir opId
        = some ((insertOpResultCopies state.options s l2
              { b1 with ir := (replaceUses copy ((Value.result r).getUses b1.ir) b1.ir) }).1,
            (insertOpResultCopies state.options s l2
              { b1 with ir := (replaceUses copy ((Value.result r).getUses b1.ir) b1.ir) }).2.ir)
    ∧ ∃ (alloc : Operation) (tensor : Value) (sizes : List Value) (new1 new2 new3 : List Nat),
        copy = .result ⟨alloc.id, 0, tensor.getType⟩
        ∧ IsAllocTensorFor alloc alloc.id tensor sizes (s.escapingOpResultCopies.contains r)
            (s.copiedOpResults.contains r)
        ∧ (r.type.isRankedTensor = true → tensor = .result r)
        ∧ alloc.id ∉ ir.ids
        ∧ (replaceUses copy ((Value.result r).getUses b1.ir) b1.ir).findOp alloc.id = some alloc
        ∧ bmid.ir.ids = pre ++ new1 ++ opId :: (new2 ++ post)
        ∧ (replaceUses copy ((Value.result r).getUses b1.ir) b1.ir).ids
            = pre ++ new1 ++ opId :: (new2 ++ new3 ++ post)
        ∧ alloc.id ∈ new3
        ∧ (∀ u ∈ (Value.result r).getUses bmid.ir, u ∈ (Value.result r).getUses b1.ir)
        ∧ (∀ u ∈ (Value.result r).getUses b1.ir,
            u.get (replaceUses copy ((Value.result r).getUses b1.ir) b1.ir)
              = if u.owner = alloc.id ∨ (b1.ir.getOp u.owner).kind = .DimOp then .result r
                else copy)
        ∧ (∀ u ∈ (Value.result r).getUses
              (replaceUses copy ((Value.result r).getUses b1.ir) b1.ir),
            u.owner = alloc.id
              ∨ ((replaceUses copy ((Value.result r).getUses b1.ir) b1.ir).getOp u.owner).kind
                  = .DimOp) := by
  constructor
  · unfold resolveTensorOpOperandConflicts
    simp only [hs, h0]
    rw [hl, insertOpResultCopies_append, h1]
    simp only [insertOpResultCopies, ha]
    generalize insertOpResultCopies state.options s l2
      { b1 with ir := (replaceUses copy ((Value.result r).getUses b1.ir) b1.ir) } = A
    obtain ⟨res, b2⟩ := A
    cases res <;> rfl
  · -- the insertion points
    have hB0 : OpBuilder.InsertsBetweenIds { ir := ir, ip := .before opId } pre (opId :: post) :=
      ⟨hids, nodup_append_cons_not_mem pre post opId (hids ▸ hn), post, rfl⟩
    obtain ⟨new1, hb0⟩ := insertOpOperandCopies_between_ids state.options s
      s.outOfPlaceOpOperands _ pre (opId :: post) hB0
    rw [h0] at hb0
    have hn0 : b0.ir.ids.Nodup := by
      have := insertOpOperandCopies_ids_nodup state.options s s.outOfPlaceOpOperands
        { ir := ir, ip := .before opId } hn
      rwa [h0] at this
    have hids0 : b0.ir.ids = (pre ++ new1) ++ opId :: post := hb0.1
    have hBa : OpBuilder.InsertsBetweenIds { ir := b0.ir, ip := .after opId }
        ((pre ++ new1) ++ [opId]) post :=
      ⟨by rw [hids0]; simp, pre ++ new1, rfl,
        nodup_append_cons_not_mem (pre ++ new1) post opId (hids0 ▸ hn0)⟩
    obtain ⟨new2, hbm⟩ := insertOpResultCopies_between_ids state.options s l1 _ _ post hBa
    rw [h1] at hbm
    have hnm : bmid.ir.ids.Nodup := by
      have := insertOpResultCopies_ids_nodup state.options s l1
        { ir := b0.ir, ip := .after opId } hn0
      rwa [h1] at this
    have hidsm : bmid.ir.ids = pre ++ new1 ++ opId :: (new2 ++ post) := by
      rw [hbm.1]
      simp
    obtain ⟨new3, hb1⟩ := allocate_between_ids bmid (.result r)
      (s.escapingOpResultCopies.contains r) state.options (s.copiedOpResults.contains r) _ post hbm
    rw [ha] at hb1
    have hids1 : b1.ir.ids = pre ++ new1 ++ opId :: (new2 ++ new3 ++ post) := by
      rw [hb1.1]
      simp
    have hsub : ∀ id ∈ ir.ids, id ∈ bmid.ir.ids := by
      intro id hid
      rw [hids] at hid
      rw [hidsm]
      simp only [List.mem_append, List.mem_cons] at hid ⊢
      tauto
    obtain ⟨alloc, tensor, sizes, hcopy, hal, hranked, hfresh, hrec, huses0, huses1, huses2⟩ :=
      allocate_then_replaceUses bmid r _ _ state.options copy b1 hnm (hsub _ hr) ha
    refine ⟨alloc, tensor, sizes, new1, new2, new3, hcopy, hal, hranked,
      fun h => hfresh (hsub _ h), hrec, hidsm, ?_, ?_, huses0, huses1, huses2⟩
    · rw [replaceUses_ids_eq, hids1]
    · have hin : alloc.id ∈ b1.ir.ids := by
        rw [← replaceUses_ids_eq copy ((Value.result r).getUses b1.ir) b1.ir]
        by_contra hno
        rw [(findOp_eq_none_iff _ _).2 hno] at hrec
        cases hrec
      rw [hids1] at hin
      rw [hidsm] at hfresh
      simp only [List.mem_append, List.mem_cons] at hin hfresh
      tauto

theorem resolve_result_copy_redirects_uses_witness :
    ∃ (b1 : OpBuilder) (alloc : Operation),
      allocateTensorForShapedValue { ir := Example.wrIR false false, ip := .after 1 }
          (.result Example.wResult) true Example.defaultOptions true
        = (.ok (.result ⟨3, 0, Example.tensorTy⟩), b1)
      ∧ resolveTensorOpOperandConflicts Example.outOfPlaceState 2 (Example.wrIR false false) 1
        = some (.ok (), replaceUses (.result ⟨3, 0, Example.tensorTy⟩)
            ((Value.result Example.wResult).getUses b1.ir) b1.ir)
      ∧ alloc.id = 3 ∧ alloc.kind = .AllocTensorOp
      ∧ (replaceUses (.result ⟨3, 0, Example.tensorTy⟩)
            ((Value.result Example.wResult).getUses b1.ir) b1.ir).findOp 3 = some alloc
      ∧ (replaceUses (.result ⟨3, 0, Example.tensorTy⟩)
            ((Value.result Example.wResult).getUses b1.ir) b1.ir).ids = [0, 1, 3, 2]
      ∧ (⟨2, 0⟩ : OpOperand) ∈ (Value.result Example.wResult).getUses (Example.wrIR false false)
      ∧ (⟨2, 0⟩ : OpOperand).get (replaceUses (.result ⟨3, 0, Example.tensorTy⟩)
            ((Value.result Example.wResult).getUses b1.ir) b1.ir)
          = .result ⟨3, 0, Example.tensorTy⟩
      ∧ ∀ u ∈ (Value.result Example.wResult).getUses
            (replaceUses (.result ⟨3, 0, Example.tensorTy⟩)
              ((Value.result Example.wResult).getUses b1.ir) b1.ir),
          u.owner = 3
            ∨ ((replaceUses (.result ⟨3, 0, Example.tensorTy⟩)
                ((Value.result Example.wResult).getUses b1.ir) b1.ir).getOp u.owner).kind
              = .DimOp := by
  obtain ⟨hres, alloc, tensor, sizes, new1, new2, new3, hcopy, hal, -, -, hrec, -, -, -, -,
      -, huses⟩ :=
    resolve_result_copy_redirects_uses Example.outOfPlaceState 2 (Example.wrIR false false) 1
      { outOfPlaceOpResults := [Example.wResult], copiedOpResults := [Example.wResult],
        escapingOpResultCopies := [Example.wResult] } [] [] Example.wResult
      { ir := Example.wrIR false false, ip := .before 1 }
      { ir := Example.wrIR false false, ip := .after 1 }
      (allocateTensorForShapedValue { ir := Example.wrIR false false, ip := .after 1 }
        (.result Example.wResult) true Example.defaultOptions true).2
      (.result ⟨3, 0, Example.tensorTy⟩) [0] [2] (by decide) rfl (by decide) rfl rfl rfl rfl rfl
  have hid : alloc.id = 3 := by
    injection hcopy with h
    injection h with h
    exact h.symm
  rw [hid] at hrec huses
  exact ⟨_, alloc, rfl, hres, hid, hal.2.1, hrec, rfl, by decide, rfl, huses⟩

/-! ## The conflict resolver: operand copies -/

/-- The loop "Insert copies of OpResults" changes operands only, and only
operands that hold one of the results of its list. -/
theorem insertOpResultCopies_record (options : BufferizationOptions) (s : ConflictSets)
    (l : List OpResult) (b : OpBuilder) (hn : b.ir.ids.Nodup) (id : Nat) (x : Operation)
    (hx : b.ir.findOp id = some x) :
    ∃ ops, (insertOpResultCopies options s l b).2.ir.findOp id = some { x with operands := ops }
      ∧ ops.length = x.operands.length
      ∧ ∀ (i : Nat) (v : Value), x.operands[i]? = some v → (∀ r ∈ l, v ≠ Value.result r) →
          ops[i]? = some v := by
  induction l generalizing b x with
  | nil => exact ⟨x.operands, hx, rfl, fun i v h _ => h⟩
  | cons r rest ih =>
    unfold insertOpResultCopies
    have hold := allocate_findOp_old b (.result r) (s.escapingOpResultCopies.contains r) options
      (s.copiedOpResults.contains r) id x hx
    have hn1 := allocate_ids_nodup b (.result r) (s.escapingOpResultCopies.contains r) options
      (s.copiedOpResults.contains r) hn
    generalize allocateTensorForShapedValue b (.result r) (s.escapingOpResultCopies.contains r)
      options (s.copiedOpResults.contains r) = A at hold hn1
    obtain ⟨res, b1⟩ := A
    cases res with
    | error e => exact ⟨x.operands, hold, rfl, fun i v h _ => h⟩
    | ok copy =>
      simp only at hold hn1 ⊢
      obtain ⟨x1, hf1, hrec1, hlen1, hsl1⟩ :=
        replaceUses_slot copy ((Value.result r).getUses b1.ir) b1.ir id x hold
      have hn2 : (replaceUses copy ((Value.result r).getUses b1.ir) b1.ir).ids.Nodup := by
        rw [replaceUses_ids_eq]
        exact hn1
      obtain ⟨ops, hf', hlen', hsl'⟩ :=
        ih { b1 with ir := (replaceUses copy ((Value.result r).getUses b1.ir) b1.ir) } hn2 x1 hf1
      refine ⟨ops, ?_, hlen'.trans hlen1, ?_⟩
      · rw [hf', hrec1]
      · intro i v hv hnr
        apply hsl' i v
        · rw [hsl1 i, if_neg, hv]
          rintro ⟨hmem, -, -⟩
          obtain ⟨y, hy, hslot⟩ := (mem_getUses_iff b1.ir hn1 _ _).1 hmem
          rw [show b1.ir.findOp id = some x from hold] at hy
          cases hy
          rw [show x.operands[i]? = some v from hv] at hslot
          injection hslot with hslot
          exact hnr r (by simp) hslot
        · intro r' hr'
          exact hnr r' (by simp [hr'])

/-- The operands the classification loop does not skip are ranked tensors
when the loop succeeds. -/
theorem classifyOpOperands_ranked (state : AnalysisState) (ir : IR) (fuel : Nat)
    (l : List OpOperand) (s0 s : ConflictSets)
    (h : classifyOpOperands state ir fuel l s0 = some (.ok s)) (o : OpOperand) (ho : o ∈ l)
    (hout : isOutOfPlace state ir o = true) : (o.get ir).getType.isRankedTensor = true := by
  unfold isOutOfPlace at hout
  simp only [Bool.and_eq_true, Bool.not_eq_true'] at hout
  cases hr : (o.get ir).getType.isRankedTensor with
  | true => rfl
  | false =>
    have hu : (o.get ir).getType.isUnrankedTensor = true := by
      have := hout.1
      unfold Ty.isTensor at this
      simpa [hr] using this
    rcases (classifyOpOperands_unranked state ir fuel l s0 o ho hu hout.2).1 with h' | h'
    · rw [h'] at h
      cases h
    · rw [h'] at h
      cases h

/-- The loop "Insert copies of OpOperands" gives different operands
different allocations. -/
theorem insertOpOperandCopies_distinct (options : BufferizationOptions) (s : ConflictSets)
    (opId : Nat) (l : List OpOperand) :
    ∀ (b b' : OpBuilder) (W W' : Operation), b.ir.findOp opId = some W →
      (∀ o ∈ l, o.owner = opId) → l.Nodup →
      insertOpOperandCopies options s l b = (.ok (), b') →
      b'.ir.findOp opId = some W' →
      ∀ o1 ∈ l, ∀ o2 ∈ l, o1 ≠ o2 → o1.idx < W.operands.length → o2.idx < W.operands.length →
        ∀ r1 r2, W'.getOperand o1.idx = .result r1 → W'.getOperand o2.idx = .result r2 →
          r1.op ≠ r2.op := by
  induction l with
  | nil =>
    intro b b' W W' _ _ _ _ _ o1 ho1
    simp at ho1
  | cons o rest ih =>
    intro b b' W W' hW hown hnodup h hW'
    have ho : o.owner = opId := hown o (by simp)
    have hget : o.get b.ir = W.getOperand o.idx := by
      simp [OpOperand.get, ho, getOp_of_findOp _ _ _ hW]
    unfold insertOpOperandCopies at h
    rw [hget] at h
    have hfull := allocate_ok_full b (W.getOperand o.idx) (s.escapingOpOperandCopies.contains o)
      options (s.copiedOpOperands.contains o)
    generalize allocateTensorForShapedValue b (W.getOperand o.idx)
      (s.escapingOpOperandCopies.contains o) options (s.copiedOpOperands.contains o) = A
      at h hfull
    obtain ⟨res, b1⟩ := A
    cases res with
    | error e =>
      simp only at h
      cases h
    | ok copy =>
      simp only at h
      obtain ⟨alloc, tensor, sizes, hcopy, hnew, hfound, hal, hten, hold⟩ := hfull copy rfl
      simp only at hfound hold
      have hane : alloc.id ≠ opId := by
        intro h'
        rw [h', hW] at hnew
        cases hnew
      have hW1 : b1.ir.findOp opId = some W := hold opId W hW
      have hW2 : (b1.ir.setOperand o copy).findOp opId
          = some { W with operands := W.operands.set o.idx copy } := by
        have := findOp_setOperand_owner b1.ir o copy W (by rw [ho]; exact hW1)
        rwa [ho] at this
      have hfound2 : (b1.ir.setOperand o copy).findOp alloc.id = some alloc := by
        rw [findOp_setOperand_of_ne _ _ _ _ (by rw [ho]; exact fun h => hane h.symm)]
        exact hfound
      have hnd := List.nodup_cons.1 hnodup
      have hidx : ∀ x ∈ rest, x.idx ≠ o.idx := by
        intro x hx hxi
        apply hnd.1
        have hxo : x.owner = o.owner := by rw [hown x (by simp [hx]), ho]
        have : x = o := by
          cases x
          cases o
          simp_all
        exact this ▸ hx
      obtain ⟨W'', hW'', -, -, hsame, hall⟩ :=
        insertOpOperandCopies_ok options s opId rest
          { b1 with ir := b1.ir.setOperand o copy } b' _ hW2
          (fun x hx => hown x (by simp [hx])) hnd.2 h
      rw [hW'] at hW''
      cases hW''
      have hhead : o.idx < W.operands.length → W'.getOperand o.idx = copy := by
        intro hlt
        rw [hsame o.idx (fun y hy => hidx y hy), getOperand_set, if_pos ⟨rfl, hlt⟩]
      have hcross : ∀ x ∈ rest, x.idx < W.operands.length → o.idx < W.operands.length →
          ∀ r1 r2, W'.getOperand o.idx = .result r1 → W'.getOperand x.idx = .result r2 →
            r1.op ≠ r2.op := by
        intro x hx hltx hlto r1 r2 h1 h2
        obtain ⟨alloc', tensor', sizes', h3, h4, -⟩ := hall x hx (by simpa using hltx)
        rw [hhead hlto, hcopy] at h1
        rw [h3] at h2
        injection h1 with h1
        injection h2 with h2
        rw [← h1, ← h2]
        intro heq
        dsimp only at heq
        rw [← heq, hfound2] at h4
        cases h4
      intro o1 ho1 o2 ho2 hne hlt1 hlt2 r1 r2 h1 h2
      rcases List.mem_cons.1 ho1 with hm1 | hm1
      · rcases List.mem_cons.1 ho2 with hm2 | hm2
        · exact absurd (hm1.trans hm2.symm) hne
        · rw [hm1] at hlt1 h1
          exact hcross o2 hm2 hlt2 hlt1 r1 r2 h1 h2
      · rcases List.mem_cons.1 ho2 with hm2 | hm2
        · rw [hm2] at hlt2 h2
          exact fun h => hcross o1 hm1 hlt1 hlt2 r2 r1 h2 h1 h.symm
        · exact ih { b1 with ir := b1.ir.setOperand o copy } b' _ W' hW2
            (fun x hx => hown x (by simp [hx])) hnd.2 h hW' o1 hm1 o2 hm2 hne
            (by simpa using hlt1) (by simpa using hlt2) r1 r2 h1 h2

theorem getElem?_of_getOperand (x : Operation) (i : Nat) (h : i < x.operands.length) :
    x.operands[i]? = some (x.getOperand i) := by
  unfold Operation.getOperand
  rw [List.getD_eq_getElem?_getD, List.getElem?_eq_getElem h]
  rfl

theorem getOperand_of_length_le (x : Operation) (i : Nat) (h : x.operands.length ≤ i) :
    x.getOperand i = default := by
  unfold Operation.getOperand
  rw [List.getD_eq_getElem?_getD, List.getElem?_eq_none h]
  rfl

theorem mem_of_getElem?_eq_some {α : Type} (l : List α) (i : Nat) (v : α)
    (h : l[i]? = some v) : v ∈ l := by
  induction l generalizing i with
  | nil => simp at h
  | cons a as ih =>
    cases i with
    | zero =>
      simp only [List.getElem?_cons_zero, Option.some.injEq] at h
      simp [h]
    | succ n =>
      simp only [List.getElem?_cons_succ] at h
      exact List.mem_cons_of_mem _ (ih n h)

theorem mem_ids_of_findOp (ir : IR) (id : Nat) (x : Operation) (h : ir.findOp id = some x) :
    id ∈ ir.ids := by
  by_contra hno
  rw [(findOp_eq_none_iff _ _).2 hno] at h
  cases h

/-- C28, as amended: after a successful `resolveTensorOpOperandConflicts` on
the operation `opId`, which uses none of the results marked for a copy: the
operation has as many operands as before; the operands marked for an operand
copy are the tensor operands that are not in place and whose result is not
copied instead; every operand that is not marked holds the value it held
before; every marked operand holds result 0 of an `AllocTensorOp` that is new,
that stands before the operation, that no other marked operand refers to, and
that has the `copy` operand, holding the value the operand had before, exactly
when the operand is in `copiedOpOperands`. -/
theorem resolve_operand_copies_frame (state : AnalysisState) (fuel : Nat) (ir ir' : IR)
    (opId : Nat) (s : ConflictSets) (pre post : List Nat)
    (hn : ir.ids.Nodup) (hids : ir.ids = pre ++ opId :: post)
    (hs : classifyOpOperands state ir fuel (ir.getOp opId).getOpOperands {} = some (.ok s))
    (hself : ∀ r ∈ s.outOfPlaceOpResults,
      r.op ∈ ir.ids ∧ Value.result r ∉ (ir.getOp opId).operands)
    (h : resolveTensorOpOperandConflicts state fuel ir opId = some (.ok (), ir')) :
    (ir'.getOp opId).operands.length = (ir.getOp opId).operands.length
    ∧ (∀ o, o ∈ s.outOfPlaceOpOperands ↔
        (o ∈ (ir.getOp opId).getOpOperands ∧ isOutOfPlace state ir o = true
          ∧ resultToCopy state ir o = none))
    ∧ (∀ i, (⟨opId, i⟩ : OpOperand) ∉ s.outOfPlaceOpOperands →
        (ir'.getOp opId).getOperand i = (ir.getOp opId).getOperand i)
    ∧ ∃ new1 new2, ir'.ids = pre ++ new1 ++ opId :: (new2 ++ post)
      ∧ ∀ o ∈ s.outOfPlaceOpOperands, ∃ (alloc : Operation) (k : Nat),
          o.get ir' = .result ⟨alloc.id, 0, (o.get ir).getType⟩
          ∧ alloc.id ∈ new1 ∧ alloc.id ∉ ir.ids
          ∧ ir'.findOp alloc.id = some alloc
          ∧ alloc.kind = .AllocTensorOp
          ∧ alloc.resultTypes = [(o.get ir).getType]
          ∧ alloc.escapeAttr = some [s.escapingOpOperandCopies.contains o]
          ∧ alloc.copy = (if s.copiedOpOperands.contains o then some k else none)
          ∧ (s.copiedOpOperands.contains o = true → alloc.getOperand k = o.get ir)
          ∧ ∀ o2 ∈ s.outOfPlaceOpOperands, o2 ≠ o →
              ∀ r2, o2.get ir' = .result r2 → r2.op ≠ alloc.id := by
  have hopmem : opId ∈ ir.ids := by
    rw [hids]
    simp
  obtain ⟨W, hW⟩ : ∃ W, ir.findOp opId = some W := by
    cases hf : ir.findOp opId with
    | none => exact absurd hopmem ((findOp_eq_none_iff _ _).1 hf)
    | some W => exact ⟨W, rfl⟩
  have hgW : ir.getOp opId = W := getOp_of_findOp _ _ _ hW
  obtain ⟨hsub, hnd, hmk⟩ := classifyOpOperands_marked state ir fuel opId s hs
  obtain ⟨-, hlist, -⟩ := classifyOpOperands_lists state ir fuel _ {} s hs
  have hiff : ∀ o, o ∈ s.outOfPlaceOpOperands ↔
      (o ∈ (ir.getOp opId).getOpOperands ∧ isOutOfPlace state ir o = true
        ∧ resultToCopy state ir o = none) := by
    intro o
    rw [hlist]
    simp [List.mem_filter, and_assoc]
  have hget : ∀ o ∈ s.outOfPlaceOpOperands, o.get ir = W.getOperand o.idx := by
    intro o ho
    rw [OpOperand.get, (hmk o ho).1, hgW]
  have hranked : ∀ o ∈ s.outOfPlaceOpOperands,
      (W.getOperand o.idx).getType.isRankedTensor = true := by
    intro o ho
    rw [← hget o ho]
    exact classifyOpOperands_ranked state ir fuel _ {} s hs o ((hiff o).1 ho).1 ((hiff o).1 ho).2.1
  rw [hgW] at hself hmk
  -- the two loops
  unfold resolveTensorOpOperandConflicts at h
  simp only [hs] at h
  have hn0 := insertOpOperandCopies_ids_nodup state.options s s.outOfPlaceOpOperands
    { ir := ir, ip := .before opId } hn
  have hB0 : OpBuilder.InsertsBetweenIds { ir := ir, ip := .before opId } pre (opId :: post) :=
    ⟨hids, nodup_append_cons_not_mem pre post opId (hids ▸ hn), post, rfl⟩
  obtain ⟨new1, hb0⟩ := insertOpOperandCopies_between_ids state.options s
    s.outOfPlaceOpOperands _ pre (opId :: post) hB0
  have hok := insertOpOperandCopies_ok state.options s opId s.outOfPlaceOpOperands
    { ir := ir, ip := .before opId }
  have hdis := insertOpOperandCopies_distinct state.options s opId s.outOfPlaceOpOperands
    { ir := ir, ip := .before opId }
  generalize insertOpOperandCopies state.options s s.outOfPlaceOpOperands
    { ir := ir, ip := .before opId } = A0 at h hn0 hb0 hok hdis
  obtain ⟨res0, b0⟩ := A0
  cases res0 with
  | error e =>
    simp only [Option.some.injEq, Prod.mk.injEq] at h
    exact absurd h.1 (fun h' => by cases h')
  | ok u0 =>
    simp only at h hn0 hb0
    obtain ⟨W0, hW0, hlen0, -, hsame0, hmarked0⟩ :=
      hok b0 W hW (fun o ho => (hmk o ho).1) hnd rfl
    have hdis := hdis b0 W W0 hW (fun o ho => (hmk o ho).1) hnd rfl hW0
    have hids0 : b0.ir.ids = (pre ++ new1) ++ opId :: post := hb0.1
    have hBa : OpBuilder.InsertsBetweenIds { ir := b0.ir, ip := .after opId }
        ((pre ++ new1) ++ [opId]) post :=
      ⟨by rw [hids0]; simp, pre ++ new1, rfl,
        nodup_append_cons_not_mem (pre ++ new1) post opId (hids0 ▸ hn0)⟩
    obtain ⟨new2, hb2⟩ := insertOpResultCopies_between_ids state.options s
      s.outOfPlaceOpResults _ _ post hBa
    have hrec := insertOpResultCopies_record state.options s s.outOfPlaceOpResults
      { ir := b0.ir, ip := .after opId } hn0
    generalize insertOpResultCopies state.options s s.outOfPlaceOpResults
      { ir := b0.ir, ip := .after opId } = A2 at h hb2 hrec
    obtain ⟨res2, b2⟩ := A2
    cases res2 with
    | error e =>
      simp only [Option.some.injEq, Prod.mk.injEq] at h
      exact absurd h.1 (fun h' => by cases h')
    | ok u2 =>
      simp only [Option.some.injEq, Prod.mk.injEq, true_and] at h
      subst h
      simp only at hb2 hrec
      have hids2 : b2.ir.ids = pre ++ new1 ++ opId :: (new2 ++ post) := by
        rw [hb2.1]
        simp
      obtain ⟨ops, hW', hlen', hslot'⟩ := hrec opId W0 hW0
      have hgW' := getOp_of_findOp _ _ _ hW'
      -- values of the operation that no result copy touches
      have hkeep : ∀ i v, W0.operands[i]? = some v →
          (∀ r ∈ s.outOfPlaceOpResults, v ≠ Value.result r) →
          (b2.ir.getOp opId).getOperand i = v := by
        intro i v hv hnr
        rw [hgW']
        exact getOperand_eq_of_getElem? _ i v (hslot' i v hv hnr)
      have hnotres : ∀ i, i < W.operands.length →
          ∀ r ∈ s.outOfPlaceOpResults, W.getOperand i ≠ Value.result r := by
        intro i hi r hr heq
        apply (hself r hr).2
        rw [← heq]
        exact mem_of_getElem?_eq_some _ _ _ (getElem?_of_getOperand W i hi)
      -- the marked operands after both loops
      have hfinal : ∀ o ∈ s.outOfPlaceOpOperands,
          ∃ alloc0 tensor sizes,
            o.get b2.ir = .result ⟨alloc0.id, 0, tensor.getType⟩
            ∧ W0.getOperand o.idx = .result ⟨alloc0.id, 0, tensor.getType⟩
            ∧ ir.findOp alloc0.id = none
            ∧ b0.ir.findOp alloc0.id = some alloc0
            ∧ IsAllocTensorFor alloc0 alloc0.id tensor sizes
                (s.escapingOpOperandCopies.contains o) (s.copiedOpOperands.contains o)
            ∧ tensor = W.getOperand o.idx := by
        intro o ho
        obtain ⟨alloc0, tensor, sizes, h1, h2, h3, h4, h5⟩ := hmarked0 o ho (hmk o ho).2.1
        refine ⟨alloc0, tensor, sizes, ?_, h1, h2, h3, h4, h5 (hranked o ho)⟩
        rw [OpOperand.get, (hmk o ho).1]
        apply hkeep o.idx
        · rw [← h1]
          exact getElem?_of_getOperand W0 o.idx (by rw [hlen0]; exact (hmk o ho).2.1)
        · intro r hr heq
          injection heq with heq
          have : alloc0.id = r.op := by rw [← heq]
          have hin := (hself r hr).1
          rw [← this] at hin
          exact (findOp_eq_none_iff _ _).1 h2 hin
      refine ⟨?_, hiff, ?_, new1, new2, hids2, ?_⟩
      · rw [hgW', hgW]
        exact hlen'.trans hlen0
      · intro i hnm
        rw [hgW]
        by_cases hi : i < W.operands.length
        · apply hkeep i
          · have h0 : W0.getOperand i = W.getOperand i := by
              apply hsame0
              intro o ho hoi
              apply hnm
              have : o = ⟨opId, i⟩ := by
                cases o
                simp only at hoi
                have := (hmk _ ho).1
                simp only at this
                simp [hoi, this]
              exact this ▸ ho
            rw [← h0]
            exact getElem?_of_getOperand W0 i (by rw [hlen0]; exact hi)
          · exact hnotres i hi
        · rw [hgW', getOperand_of_length_le W i (by omega)]
          exact getOperand_of_length_le _ i (by
            show ops.length ≤ i
            rw [hlen', hlen0]
            omega)
      · intro o ho
        obtain ⟨alloc0, tensor, sizes, h1, h1', h2, h3, h4, h5⟩ := hfinal o ho
        obtain ⟨aops, hA', hlenA, hslotA⟩ := hrec alloc0.id alloc0 h3
        obtain ⟨ha1, ha2, ha3, ha4, ha5, ha6⟩ := h4
        have hnew : alloc0.id ∉ ir.ids := (findOp_eq_none_iff _ _).1 h2
        refine ⟨{ alloc0 with operands := aops }, sizes.length, ?_, ?_, hnew, hA', ha2, ?_, ha3,
          ha5, ?_, ?_⟩
        · rw [h1, hget o ho, h5]
        · have hin := mem_ids_of_findOp _ _ _ h3
          rw [hids0] at hin
          rw [hids] at hnew
          simp only [List.mem_append, List.mem_cons] at hin hnew
          tauto
        · show alloc0.resultTypes = _
          rw [ha6, hget o ho, h5]
        · intro hc
          have hslot : alloc0.operands[sizes.length]? = some tensor := by
            rw [ha4, hc]
            simp
          rw [hget o ho, ← h5]
          apply getOperand_eq_of_getElem?
          apply hslotA _ _ hslot
          rw [h5]
          exact hnotres o.idx (hmk o ho).2.1
        · intro o2 ho2 hne r2 hr2
          obtain ⟨alloc2, tensor2, sizes2, g1, g1', -⟩ := hfinal o2 ho2
          rw [g1] at hr2
          have := hdis o2 ho2 o ho hne (hmk o2 ho2).2.1 (hmk o ho).2.1 _ _ g1' h1'
          injection hr2 with hr2
          rw [← hr2]
          exact this

/-- C28, as amended, on the graph `src ; W ; T` with every operand out of
place: operand 0 of `T` is handled by copying the result of `T`, which `T`
does not use, and keeps its value; operand 1 is handled by an operand copy and
holds the result of a new `AllocTensorOp` before `T`, seeded with the result of
`W`. -/
theorem resolve_operand_copies_frame_witness :
    ∃ ir' : IR,
      resolveTensorOpOperandConflicts Example.outOfPlaceState 0 Example.twoCopiesIR 2
          = some (.ok (), ir')
      ∧ ir'.ids = [0, 1, 3, 2, 4]
      ∧ Example.w2Result.op ∈ Example.twoCopiesIR.ids
      ∧ Value.result Example.w2Result ∉ (Example.twoCopiesIR.getOp 2).operands
      ∧ (ir'.getOp 2).operands.length = (Example.twoCopiesIR.getOp 2).operands.length
      ∧ (ir'.getOp 2).getOperand 0 = (Example.twoCopiesIR.getOp 2).getOperand 0
      ∧ ∀ o ∈ [(⟨2, 1⟩ : OpOperand)], ∃ (alloc : Operation) (k : Nat),
          o.get ir' = .result ⟨alloc.id, 0, (o.get Example.twoCopiesIR).getType⟩
          ∧ alloc.id ∉ Example.twoCopiesIR.ids
          ∧ ir'.findOp alloc.id = some alloc
          ∧ alloc.kind = .AllocTensorOp
          ∧ alloc.copy = (if [(⟨2, 1⟩ : OpOperand)].contains o then some k else none)
          ∧ ([(⟨2, 1⟩ : OpOperand)].contains o = true
              → alloc.getOperand k = o.get Example.twoCopiesIR) := by
  obtain ⟨h1, -, h3, new1, new2, -, hall⟩ :=
    resolve_operand_copies_frame Example.outOfPlaceState 0 Example.twoCopiesIR
      { Example.twoCopiesIR with ops := [Example.src, Example.W,
          { id := 3, kind := .AllocTensorOp, operands := [.result Example.wResult],
            resultTypes := [Example.tensorTy], escapeAttr := some [false], copy := some 0 },
          { Example.T with operands := [.result Example.srcResult,
              .result ⟨3, 0, Example.tensorTy⟩] },
          { id := 4, kind := .AllocTensorOp, operands := [.result Example.w2Result],
            resultTypes := [Example.tensorTy], escapeAttr := some [true], copy := some 0 }] }
      2
      { outOfPlaceOpOperands := [⟨2, 1⟩], copiedOpOperands := [⟨2, 1⟩],
        outOfPlaceOpResults := [Example.w2Result], copiedOpResults := [Example.w2Result],
        escapingOpResultCopies := [Example.w2Result] }
      [0, 1] [] (by decide) rfl rfl
      (fun r hr => by
        rw [List.mem_singleton.1 hr]
        exact ⟨by decide, by decide⟩)
      rfl
  refine ⟨_, rfl, rfl, by decide, by decide, h1, h3 0 (by decide), ?_⟩
  intro o ho
  obtain ⟨alloc, k, a1, -, a3, a4, a5, -, -, a8, a9, -⟩ := hall o ho
  exact ⟨alloc, k, a1, a3, a4, a5, a8, a9⟩

/-- C28 as stated fails on the graph `src ; Q`, in which `Q` uses its own
result as operand 1: operand 0 of `Q` is out of place and is handled by
copying the result of `Q`; operand 1 is in place and is not marked, yet after
the successful call it holds the result of the new `AllocTensorOp`, not the
result of `Q` it held before. -/
theorem resolve_redirects_own_use_of_copied_result :
    classifyOpOperands Example.firstOutOfPlaceState Example.selfUseIR 0
        (Example.selfUseIR.getOp 1).getOpOperands {}
      = some (.ok { outOfPlaceOpResults := [Example.wResult],
                    copiedOpResults := [Example.wResult],
                    escapingOpResultCopies := [Example.wResult] })
    ∧ Example.firstOutOfPlaceState.methods.isInPlace Example.selfUseIR ⟨1, 1⟩ = true
    ∧ (Example.selfUseIR.getOp 1).operands
      = [.result Example.srcResult, .result Example.wResult]
    ∧ (resolveTensorOpOperandConflicts Example.firstOutOfPlaceState 0 Example.selfUseIR 1).map
        (fun p => (p.1, p.2.ops.map (fun o => (o.id, o.kind))))
      = some (.ok (), [(0, .other 0), (1, .other 9), (2, .AllocTensorOp)])
    ∧ (resolveTensorOpOperandConflicts Example.firstOutOfPlaceState 0 Example.selfUseIR 1).map
        (fun p => (p.2.getOp 1).operands)
      = some [.result Example.srcResult, .result ⟨2, 0, Example.tensorTy⟩] :=
  ⟨rfl, rfl, rfl, rfl, rfl⟩

/-! ## Values that are read -/

/-- The uses from which the loop of `isValueRead` reaches a hit are the uses
that start a chain. -/
theorem reaches_iff_readChain (options : BufferizationOptions) (ir : IR) (u : OpOperand) :
    WorklistReaches (AnalysisState.bufferizesToMemoryRead options ir)
        (isValueReadSucc options ir) u
      ↔ ReadChain options ir u := by
  constructor
  · intro h
    induction h with
    | here x hx => exact .last x hx
    | step x y _ hy _ ih =>
      unfold isValueReadSucc at hy
      cases ha : AnalysisState.bufferizesToAliasOnly options ir x with
      | false => simp [ha] at hy
      | true =>
        simp only [ha, if_true] at hy
        obtain ⟨a, hmem, hu⟩ := (mem_pushAliasUses ir _ y).1 hy
        exact .next x y a ha hmem hu ih
  · intro h
    induction h with
    | last x hx => exact .here x hx
    | next x y a ha hmem hu _ ih =>
      cases hr : AnalysisState.bufferizesToMemoryRead options ir x with
      | true => exact .here x hr
      | false =>
        refine .step x y hr ?_ ih
        unfold isValueReadSucc
        simp only [ha, if_true]
        exact (mem_pushAliasUses ir _ y).2 ⟨a, hmem, hu⟩

/-- Whether a hit is reached depends on the members of the successor lists
only, not on their order. -/
theorem worklistReaches_congr {α : Type} (hit : α → Bool) (succ succ' : α → List α)
    (h : ∀ x y, y ∈ succ' x ↔ y ∈ succ x) (x : α) :
    WorklistReaches hit succ' x ↔ WorklistReaches hit succ x := by
  constructor
  · intro hr
    induction hr with
    | here x hx => exact .here x hx
    | step x y hx hy _ ih => exact .step x y hx ((h x y).1 hy) ih
  · intro hr
    induction hr with
    | here x hx => exact .here x hx
    | step x y hx hy _ ih => exact .step x y hx ((h x y).2 hy) ih

/-- C31: `isValueRead` answers true only if a chain of uses starts at a use of
the value (every use but the last alias-only, each next use a use of an
aliasing result of the one before, the last use bufferizing to a memory read),
and answers false only if there is no such chain; on a graph whose alias
expansion is acyclic it returns for all fuel from some amount on, with the
answer true exactly when there is such a chain; it answers false for a value
without uses; and when a use of the value is owned by an operation that is not
allowed or does not implement the interface it never answers false, and
answers true on a graph whose alias expansion is acyclic.  The order of the
use lists does not enter: the work-list loop that takes the same uses in any
other order, when it returns, answers true exactly when there is such a
chain. -/
theorem isValueRead_iff_chain (options : BufferizationOptions) (ir : IR) (value : Value) :
    (∀ fuel, AnalysisState.isValueRead options ir fuel value = some true →
      ∃ u ∈ value.getUses ir, ReadChain options ir u)
    ∧ (∀ fuel, AnalysisState.isValueRead options ir fuel value = some false →
      ¬ ∃ u ∈ value.getUses ir, ReadChain options ir u)
    ∧ (∀ rank : OpOperand → Nat, IsValueReadAcyclic options ir rank →
      ∃ N b, (b = true ↔ ∃ u ∈ value.getUses ir, ReadChain options ir u)
        ∧ ∀ fuel, N ≤ fuel → AnalysisState.isValueRead options ir fuel value = some b)
    ∧ (value.getUses ir = [] →
      ∀ fuel, AnalysisState.isValueRead options ir fuel value = some false)
    ∧ (∀ u ∈ value.getUses ir, options.dynCastBufferizableOp ir (u.getOwner ir) = none →
      (∀ fuel, AnalysisState.isValueRead options ir fuel value ≠ some false)
      ∧ ∀ rank : OpOperand → Nat, IsValueReadAcyclic options ir rank →
          ∃ N, ∀ fuel, N ≤ fuel →
            AnalysisState.isValueRead options ir fuel value = some true)
    ∧ (∀ (succ' : OpOperand → List OpOperand) (ws : List OpOperand),
      (∀ u u', u' ∈ succ' u ↔ u' ∈ isValueReadSucc options ir u) →
      (∀ u, u ∈ ws ↔ u ∈ value.getUses ir) →
      ∀ fuel b,
        worklistLoop (AnalysisState.bufferizesToMemoryRead options ir) succ' fuel ws = some b →
        (b = true ↔ ∃ u ∈ value.getUses ir, ReadChain options ir u)) := by
  have hdef : ∀ fuel, AnalysisState.isValueRead options ir fuel value
      = worklistLoop (AnalysisState.bufferizesToMemoryRead options ir)
          (isValueReadSucc options ir) fuel (value.getUses ir).reverse := by
    intro fuel
    unfold AnalysisState.isValueRead
    rw [isValueReadLoop_eq, pushUses_eq, List.append_nil]
  have hany : ∀ (succ' : OpOperand → List OpOperand) (ws : List OpOperand),
      (∀ u u', u' ∈ succ' u ↔ u' ∈ isValueReadSucc options ir u) →
      (∀ u, u ∈ ws ↔ u ∈ value.getUses ir) →
      ∀ fuel b,
        worklistLoop (AnalysisState.bufferizesToMemoryRead options ir) succ' fuel ws = some b →
        (b = true ↔ ∃ u ∈ value.getUses ir, ReadChain options ir u) := by
    intro succ' ws hsucc hws fuel b h
    have hchain : ∀ u, WorklistReaches (AnalysisState.bufferizesToMemoryRead options ir) succ' u
        ↔ ReadChain options ir u := fun u =>
      (worklistReaches_congr _ (isValueReadSucc options ir) succ' hsucc u).trans
        (reaches_iff_readChain options ir u)
    cases b with
    | true =>
      obtain ⟨u, hu, hr⟩ := worklistLoop_true_reaches _ _ fuel _ h
      exact ⟨fun _ => ⟨u, (hws u).1 hu, (hchain u).1 hr⟩, fun _ => rfl⟩
    | false =>
      constructor
      · intro hb
        exact Bool.noConfusion hb
      · rintro ⟨u, hu, hc⟩
        exact absurd ((hchain u).2 hc)
          (worklistLoop_false_not_reaches _ _ fuel _ h u ((hws u).2 hu))
  have hself : ∀ fuel b, AnalysisState.isValueRead options ir fuel value = some b →
      (b = true ↔ ∃ u ∈ value.getUses ir, ReadChain options ir u) := by
    intro fuel b h
    rw [hdef] at h
    exact hany (isValueReadSucc options ir) (value.getUses ir).reverse (fun _ _ => Iff.rfl)
      (fun _ => List.mem_reverse) fuel b h
  have htrue : ∀ fuel, AnalysisState.isValueRead options ir fuel value = some true →
      ∃ u ∈ value.getUses ir, ReadChain options ir u :=
    fun fuel h => (hself fuel true h).1 rfl
  have hfalse : ∀ fuel, AnalysisState.isValueRead options ir fuel value = some false →
      ¬ ∃ u ∈ value.getUses ir, ReadChain options ir u := by
    intro fuel h hc
    exact Bool.noConfusion ((hself fuel false h).2 hc)
  have hret : ∀ rank : OpOperand → Nat, IsValueReadAcyclic options ir rank →
      ∃ N b, (b = true ↔ ∃ u ∈ value.getUses ir, ReadChain options ir u)
        ∧ ∀ fuel, N ≤ fuel → AnalysisState.isValueRead options ir fuel value = some b := by
    intro rank hacyclic
    obtain ⟨N, b, hN⟩ := isValueRead_returns options ir rank hacyclic value
    refine ⟨N, b, hself N b hN, ?_⟩
    intro fuel hfuel
    have := isValueRead_mono options ir N (fuel - N) value b hN
    rw [show N + (fuel - N) = fuel by omega] at this
    exact this
  refine ⟨htrue, hfalse, hret, ?_, ?_, hany⟩
  · intro huses fuel
    rw [hdef, huses]
    cases fuel <;> rfl
  · intro u hu hd
    have hread : AnalysisState.bufferizesToMemoryRead options ir u = true := by
      simp [AnalysisState.bufferizesToMemoryRead, hd]
    have hchain : ∃ u ∈ value.getUses ir, ReadChain options ir u := ⟨u, hu, .last u hread⟩
    refine ⟨fun fuel h => hfalse fuel h hchain, ?_⟩
    intro rank hacyclic
    obtain ⟨N, b, hb, hN⟩ := hret rank hacyclic
    have : b = true := hb.2 hchain
    subst this
    exact ⟨N, hN⟩

/-- C31 on the graph `alloc ; W ; R`, where `W` only passes the allocation on
and `R` reads the result of `W`; on the graph `src ; W ; R` without
interfaces, where the unregistered `W` uses the result of `src`; and on the
graph `src ; srcReader ; spin`, where the use by the reader, the oldest use of
the result of `src`, is taken first and the cyclic expansion of `spin` is not
reached. -/
theorem isValueRead_iff_chain_witness :
    (AnalysisState.isValueRead Example.defaultOptions Example.allocIR 2
        (.result Example.srcResult) = some true
      ∧ ∃ u ∈ (Value.result Example.srcResult).getUses Example.allocIR,
          ReadChain Example.defaultOptions Example.allocIR u)
    ∧ (∃ N b, (b = true ↔ ∃ u ∈ (Value.result Example.srcResult).getUses Example.allocIR,
          ReadChain Example.defaultOptions Example.allocIR u)
        ∧ ∀ fuel, N ≤ fuel →
          AnalysisState.isValueRead Example.defaultOptions Example.allocIR fuel
            (.result Example.srcResult) = some b)
    ∧ ((⟨1, 0⟩ : OpOperand) ∈ (Value.result Example.srcResult).getUses Example.unknownIR
      ∧ ∃ N, ∀ fuel, N ≤ fuel →
          AnalysisState.isValueRead Example.defaultOptions Example.unknownIR fuel
            (.result Example.srcResult) = some true)
    ∧ ((Value.result Example.srcResult).getUses Example.readThenSpinIR = [⟨2, 0⟩, ⟨1, 0⟩]
      ∧ AnalysisState.isValueRead Example.defaultOptions Example.readThenSpinIR 1
          (.result Example.srcResult) = some true
      ∧ ∃ u ∈ (Value.result Example.srcResult).getUses Example.readThenSpinIR,
          ReadChain Example.defaultOptions Example.readThenSpinIR u) :=
  ⟨⟨by decide, (isValueRead_iff_chain Example.defaultOptions Example.allocIR
      (.result Example.srcResult)).1 2 (by decide)⟩,
   (isValueRead_iff_chain Example.defaultOptions Example.allocIR
      (.result Example.srcResult)).2.2.1 (fun u => 2 - u.owner)
      (by unfold IsValueReadAcyclic; decide),
   ⟨by decide, ((isValueRead_iff_chain Example.defaultOptions Example.unknownIR
      (.result Example.srcResult)).2.2.2.2.1 ⟨1, 0⟩ (by decide) rfl).2 (fun u => 2 - u.owner)
      (by unfold IsValueReadAcyclic; decide)⟩,
   ⟨by decide, by decide, (isValueRead_iff_chain Example.defaultOptions Example.readThenSpinIR
      (.result Example.srcResult)).1 1 (by decide)⟩⟩

/-- C32 (code defect): the work list of `isValueRead` is a plain vector,
without a set of visited uses.  On the graph `src ; sel ; R` the use of the
result of `sel` by `R` is pushed once for each of the two operands of `sel`
and is taken from the work list twice, so that the loop needs four rounds on a
graph of three operand slots; on the graph of one operation that uses its own
result, and only passes it on, the loop never ends. -/
theorem isValueRead_revisits_uses :
    Example.selectIR.allOpOperands = [⟨1, 0⟩, ⟨1, 1⟩, ⟨2, 0⟩]
    ∧ AnalysisState.pushUses Example.selectIR [] (.result Example.srcResult)
        = [⟨1, 0⟩, ⟨1, 1⟩]
    ∧ (∀ fuel, AnalysisState.isValueReadLoop Example.defaultOptions Example.selectIR (fuel + 1)
          [⟨1, 0⟩, ⟨1, 1⟩]
        = AnalysisState.isValueReadLoop Example.defaultOptions Example.selectIR fuel
          [⟨2, 0⟩, ⟨1, 1⟩])
    ∧ (∀ fuel, AnalysisState.isValueReadLoop Example.defaultOptions Example.selectIR (fuel + 1)
          [⟨2, 0⟩, ⟨1, 1⟩]
        = AnalysisState.isValueReadLoop Example.defaultOptions Example.selectIR fuel [⟨1, 1⟩])
    ∧ (∀ fuel, AnalysisState.isValueReadLoop Example.defaultOptions Example.selectIR (fuel + 1)
          [⟨1, 1⟩]
        = AnalysisState.isValueReadLoop Example.defaultOptions Example.selectIR fuel [⟨2, 0⟩])
    ∧ AnalysisState.isValueRead Example.defaultOptions Example.selectIR 3
        (.result Example.srcResult) = none
    ∧ AnalysisState.isValueRead Example.defaultOptions Example.selectIR 4
        (.result Example.srcResult) = some false
    ∧ (∀ fuel, AnalysisState.isValueRead Example.defaultOptions Example.cycleIR fuel
        (.result Example.srcResult) = none) := by
  refine ⟨by decide, by decide, fun _ => rfl, fun _ => rfl, fun _ => rfl, by decide, by decide,
    ?_⟩
  intro fuel
  have hloop : ∀ fuel, AnalysisState.isValueReadLoop Example.defaultOptions Example.cycleIR
      fuel [⟨0, 0⟩] = none := by
    intro fuel
    induction fuel with
    | zero => rfl
    | succ n ih => exact ih
  exact hloop fuel

/-! ## The conflict resolver without analysis information -/

/-- Without analysis information an operand that is not in place bufferizes
to a memory write, so that it is the operand that is copied. -/
theorem base_isOutOfPlace (options : BufferizationOptions) (ir : IR) (o : OpOperand)
    (h : isOutOfPlace (AnalysisState.base options) ir o = true) :
    (o.get ir).getType.isTensor = true
      ∧ (o.getOwner ir).kind ≠ .ToMemrefOp
      ∧ AnalysisState.bufferizesToMemoryWrite options ir o = true
      ∧ resultToCopy (AnalysisState.base options) ir o = none := by
  unfold isOutOfPlace at h
  simp only [Bool.and_eq_true, Bool.not_eq_true'] at h
  obtain ⟨ht, hip⟩ := h
  have hip' : AnalysisState.isInPlace options ir o = false := hip
  unfold AnalysisState.isInPlace at hip'
  by_cases hk : (o.getOwner ir).kind = .ToMemrefOp
  · simp [hk] at hip'
  · simp only [hk, if_false, Bool.not_eq_false'] at hip'
    refine ⟨ht, hk, hip', ?_⟩
    unfold resultToCopy
    have hw : AnalysisState.bufferizesToMemoryWrite (AnalysisState.base options).options ir o
        = true := hip'
    split
    · simp [hw]
    · rfl

/-- The operands marked for an operand copy after both tests of the copy
loop: the slot of each is result 0 of a new `AllocTensorOp` for the value the
operand had, with the flags the sets hold for the operand. -/
theorem insertOpOperandCopies_marked (state : AnalysisState) (ir : IR) (fuel : Nat)
    (opId : Nat) (s : ConflictSets) (b' : OpBuilder)
    (hs : classifyOpOperands state ir fuel (ir.getOp opId).getOpOperands {} = some (.ok s))
    (hb : insertOpOperandCopies state.options s s.outOfPlaceOpOperands
        { ir := ir, ip := .before opId } = (.ok (), b'))
    (o : OpOperand) (ho : o ∈ s.outOfPlaceOpOperands) :
    ∃ (alloc : Operation) (sizes : List Value),
      (b'.ir.getOp opId).getOperand o.idx = .result (alloc.getResult 0)
      ∧ ir.findOp alloc.id = none
      ∧ b'.ir.findOp alloc.id = some alloc
      ∧ IsAllocTensorFor alloc alloc.id (o.get ir) sizes
          (s.escapingOpOperandCopies.contains o) (s.copiedOpOperands.contains o) := by
  obtain ⟨hsub, hnd, hmk⟩ := classifyOpOperands_marked state ir fuel opId s hs
  obtain ⟨-, hlist, -⟩ := classifyOpOperands_lists state ir fuel _ {} s hs
  obtain ⟨hown, hlt, hW⟩ := hmk o ho
  have hmem : o ∈ (ir.getOp opId).getOpOperands := hsub.subset ho
  have hout : isOutOfPlace state ir o = true := by
    rw [hlist] at ho
    simp only [List.nil_append, List.mem_filter, Bool.and_eq_true] at ho
    exact ho.2.1
  have hranked := classifyOpOperands_ranked state ir fuel _ {} s hs o hmem hout
  obtain ⟨W', hW', -, -, -, hall⟩ := insertOpOperandCopies_ok state.options s opId
    s.outOfPlaceOpOperands { ir := ir, ip := .before opId } b' _ hW
    (fun x hx => (hmk x hx).1) hnd hb
  obtain ⟨alloc, tensor, sizes, h1, h2, h3, h4, h5⟩ := hall o ho hlt
  have hget : o.get ir = (ir.getOp opId).getOperand o.idx := by
    rw [OpOperand.get, hown]
  have ht : tensor = o.get ir := by
    rw [hget]
    exact h5 (by rw [← hget]; exact hranked)
  subst ht
  refine ⟨alloc, sizes, ?_, h2, h3, h4⟩
  rw [getOp_of_findOp _ _ _ hW', h1]
  simp [Operation.getResult, h4.2.2.2.2.2]

/-- C33: without analysis information the loop of
`resolveTensorOpOperandConflicts` that classifies the operands never marks a
result: a tensor operand that is not in place bufferizes to a memory write, so
the test for copying its result fails; the sets of results are empty, the
operands marked for an operand copy are all the operands that are not in
place, and the function is the loop "Insert copies of OpOperands", which
inserts before the operation. -/
theorem base_state_copies_operands_only (options : BufferizationOptions) (ir : IR)
    (fuel opId : Nat) (s : ConflictSets)
    (hs : classifyOpOperands (AnalysisState.base options) ir fuel
        (ir.getOp opId).getOpOperands {} = some (.ok s)) :
    (∀ o, isOutOfPlace (AnalysisState.base options) ir o = true →
      AnalysisState.bufferizesToMemoryWrite options ir o = true
      ∧ resultToCopy (AnalysisState.base options) ir o = none)
    ∧ s.outOfPlaceOpResults = [] ∧ s.copiedOpResults = [] ∧ s.escapingOpResultCopies = []
    ∧ s.outOfPlaceOpOperands
        = (ir.getOp opId).getOpOperands.filter
            (fun o => isOutOfPlace (AnalysisState.base options) ir o)
    ∧ resolveTensorOpOperandConflicts (AnalysisState.base options) fuel ir opId
        = some ((insertOpOperandCopies options s s.outOfPlaceOpOperands
              { ir := ir, ip := .before opId }).1,
            (insertOpOperandCopies options s s.outOfPlaceOpOperands
              { ir := ir, ip := .before opId }).2.ir) := by
  obtain ⟨-, h1, -, -, h4, h5, h6⟩ :=
    classifyOpOperands_lists (AnalysisState.base options) ir fuel _ {} s hs
  have hnone : ∀ o, isOutOfPlace (AnalysisState.base options) ir o = true →
      resultToCopy (AnalysisState.base options) ir o = none :=
    fun o h => (base_isOutOfPlace options ir o h).2.2.2
  have hres : s.outOfPlaceOpResults = [] := by
    rw [h4]
    simp only [List.nil_append, List.filterMap_eq_nil_iff]
    intro o _
    split
    · rename_i h
      exact hnone o h
    · rfl
  refine ⟨fun o h => ⟨(base_isOutOfPlace options ir o h).2.2.1, hnone o h⟩, hres, ?_, ?_, ?_, ?_⟩
  · rw [h5]
    simp only [List.nil_append, List.filterMap_eq_nil_iff]
    intro o _
    split
    · rename_i h
      simp only [Bool.and_eq_true] at h
      exact hnone o h.1
    · rfl
  · rw [h6]
    simp only [List.nil_append, List.filterMap_eq_nil_iff]
    intro o _
    split
    · rename_i h
      simp only [Bool.and_eq_true] at h
      exact hnone o h.1
    · rfl
  · rw [h1]
    simp only [List.nil_append]
    apply List.filter_congr
    intro o _
    cases h : isOutOfPlace (AnalysisState.base options) ir o with
    | false => rfl
    | true => simp [hnone o h]
  · unfold resolveTensorOpOperandConflicts
    have hopt : (AnalysisState.base options).options = options := rfl
    simp only [hs, hres, hopt]
    generalize insertOpOperandCopies options s s.outOfPlaceOpOperands
      { ir := ir, ip := .before opId } = A
    obtain ⟨res, b⟩ := A
    cases res <;> rfl

/-- C33 on the graph `src ; W ; R` in which `W` reads and writes its operand:
the operand of `W` is the only marked item, and the call is the loop that
copies operands. -/
theorem base_state_copies_operands_only_witness :
    classifyOpOperands (AnalysisState.base Example.defaultOptions) (Example.wrIR true true) 0
        ((Example.wrIR true true).getOp 1).getOpOperands {}
      = some (.ok { outOfPlaceOpOperands := [Example.wOperand],
                    copiedOpOperands := [Example.wOperand],
                    escapingOpOperandCopies := [Example.wOperand] })
    ∧ resolveTensorOpOperandConflicts (AnalysisState.base Example.defaultOptions) 0
        (Example.wrIR true true) 1
      = some ((insertOpOperandCopies Example.defaultOptions
              { outOfPlaceOpOperands := [Example.wOperand],
                copiedOpOperands := [Example.wOperand],
                escapingOpOperandCopies := [Example.wOperand] } [Example.wOperand]
              { ir := Example.wrIR true true, ip := .before 1 }).1,
            (insertOpOperandCopies Example.defaultOptions
              { outOfPlaceOpOperands := [Example.wOperand],
                copiedOpOperands := [Example.wOperand],
                escapingOpOperandCopies := [Example.wOperand] } [Example.wOperand]
              { ir := Example.wrIR true true, ip := .before 1 }).2.ir) :=
  ⟨rfl, (base_state_copies_operands_only Example.defaultOptions (Example.wrIR true true) 0 1
    { outOfPlaceOpOperands := [Example.wOperand], copiedOpOperands := [Example.wOperand],
      escapingOpOperandCopies := [Example.wOperand] } rfl).2.2.2.2.2⟩

/-! ## Copy elision and reads -/

/-- C34: when `hasUndefinedContents` is the answer without analysis
information, `canOmitTensorCopy` is true only for an operand that does not
bufferize to a memory read: for an operand that reads, an operand of an
operation that is not allowed or does not implement the interface among them,
it is false for every fuel; such an operand, when it is marked for an operand
copy by `resolveTensorOpOperandConflicts`, is in `copiedOpOperands`, and the
`AllocTensorOp` the copy loop creates for it has the `copy` operand, which
holds the value the operand had. -/
theorem canOmitTensorCopy_implies_not_read (state : AnalysisState) (ir : IR)
    (hund : state.methods.hasUndefinedContents = AnalysisState.hasUndefinedContents) :
    (∀ fuel o, AnalysisState.canOmitTensorCopy state ir fuel o = some true →
      AnalysisState.bufferizesToMemoryRead state.options ir o = false)
    ∧ (∀ fuel o, AnalysisState.bufferizesToMemoryRead state.options ir o = true →
      AnalysisState.canOmitTensorCopy state ir fuel o = some false)
    ∧ (∀ fuel o, state.options.dynCastBufferizableOp ir (o.getOwner ir) = none →
      AnalysisState.canOmitTensorCopy state ir fuel o = some false)
    ∧ (∀ fuel opId s o,
      classifyOpOperands state ir fuel (ir.getOp opId).getOpOperands {} = some (.ok s) →
      o ∈ s.outOfPlaceOpOperands →
      AnalysisState.bufferizesToMemoryRead state.options ir o = true →
      s.copiedOpOperands.contains o = true
      ∧ ∀ b', insertOpOperandCopies state.options s s.outOfPlaceOpOperands
            { ir := ir, ip := .before opId } = (.ok (), b') →
          ∃ (alloc : Operation) (k : Nat),
            (b'.ir.getOp opId).getOperand o.idx = .result (alloc.getResult 0)
            ∧ ir.findOp alloc.id = none
            ∧ b'.ir.findOp alloc.id = some alloc
            ∧ alloc.kind = .AllocTensorOp
            ∧ alloc.copy = some k
            ∧ alloc.getOperand k = o.get ir) := by
  have hread : ∀ fuel o, AnalysisState.bufferizesToMemoryRead state.options ir o = true →
      AnalysisState.canOmitTensorCopy state ir fuel o = some false := by
    intro fuel o hr
    unfold AnalysisState.canOmitTensorCopy
    rw [hund]
    simp [AnalysisState.hasUndefinedContents, hr]
  refine ⟨?_, hread, ?_, ?_⟩
  · intro fuel o h
    cases hr : AnalysisState.bufferizesToMemoryRead state.options ir o with
    | false => rfl
    | true =>
      rw [hread fuel o hr] at h
      cases h
  · intro fuel o hd
    apply hread
    simp [AnalysisState.bufferizesToMemoryRead, hd]
  · intro fuel opId s o hs ho hr
    obtain ⟨-, h1, h2, -⟩ := classifyOpOperands_lists state ir fuel _ {} s hs
    have hc : s.copiedOpOperands.contains o = true := by
      rw [contains_eq_true_iff, h2]
      rw [h1] at ho
      simp only [List.nil_append, List.mem_filter, Bool.and_eq_true, decide_eq_true_eq]
        at ho ⊢
      exact ⟨ho.1, ho.2, hread fuel o hr⟩
    refine ⟨hc, ?_⟩
    intro b' hb
    obtain ⟨alloc, sizes, a1, a2, a3, a4⟩ :=
      insertOpOperandCopies_marked state ir fuel opId s b' hs hb o ho
    rw [hc] at a4
    obtain ⟨-, k1, -, k3, k4, -⟩ := a4
    refine ⟨alloc, sizes.length, a1, a2, a3, k1, by simpa using k4, ?_⟩
    simp only [if_true] at k3
    simp [Operation.getOperand, k3]

/-- C34 on the graph `src ; W ; R`: without interfaces the operand of `W`
reads; with the interface that reads and writes, the operand of `W` is copied
with its contents. -/
theorem canOmitTensorCopy_implies_not_read_witness :
    AnalysisState.canOmitTensorCopy (AnalysisState.base Example.defaultOptions)
        Example.unknownIR 0 Example.wOperand = some false
    ∧ ([Example.wOperand].contains Example.wOperand = true
      ∧ ∀ b', insertOpOperandCopies Example.defaultOptions
            { outOfPlaceOpOperands := [Example.wOperand],
              copiedOpOperands := [Example.wOperand],
              escapingOpOperandCopies := [Example.wOperand] } [Example.wOperand]
            { ir := Example.wrIR true true, ip := .before 1 } = (.ok (), b') →
          ∃ (alloc : Operation) (k : Nat),
            (b'.ir.getOp 1).getOperand 0 = .result (alloc.getResult 0)
            ∧ (Example.wrIR true true).findOp alloc.id = none
            ∧ b'.ir.findOp alloc.id = some alloc
            ∧ alloc.kind = .AllocTensorOp
            ∧ alloc.copy = some k
            ∧ alloc.getOperand k = Example.wOperand.get (Example.wrIR true true)) :=
  ⟨(canOmitTensorCopy_implies_not_read (AnalysisState.base Example.defaultOptions)
      Example.unknownIR rfl).2.2.1 0 Example.wOperand rfl,
   (canOmitTensorCopy_implies_not_read (AnalysisState.base Example.defaultOptions)
      (Example.wrIR true true) rfl).2.2.2 0 1
      { outOfPlaceOpOperands := [Example.wOperand], copiedOpOperands := [Example.wOperand],
        escapingOpOperandCopies := [Example.wOperand] } Example.wOperand rfl (by decide) rfl⟩

/-! ## The escape flag without analysis information -/

theorem base_escapeOf (options : BufferizationOptions) (ir : IR) (fuel opId : Nat)
    (o : OpOperand) (hkind : (ir.getOp opId).kind ≠ .AllocTensorOp)
    (halias : ∀ a ∈ AnalysisState.getAliasingOpResults options ir o, a.opResult.op = opId) :
    escapeOf (AnalysisState.base options) ir fuel o
      = some (decide (options.createDeallocs = false
          ∨ AnalysisState.getAliasingOpResults options ir o ≠ [])) := by
  unfold escapeOf
  have hopt : (AnalysisState.base options).options = options := rfl
  have hm : (AnalysisState.base options).methods.isTensorYielded
      = AnalysisState.isTensorYielded options := rfl
  rw [hopt, hm]
  cases hc : options.createDeallocs with
  | false => simp
  | true =>
    simp only [Bool.not_true, Bool.false_eq_true, if_false, false_or]
    cases hl : AnalysisState.getAliasingOpResults options ir o with
    | nil => simp [AnalysisState.anyOf]
    | cons a rest =>
      rw [anyOf_cons_true]
      · simp
      · apply isTensorYielded_of_not_alloc
        rw [halias a (by rw [hl]; simp)]
        exact hkind

/-- C35: without analysis information, for an operation that is not an
`AllocTensorOp` and an operand of it that is not in place and whose aliasing
results are results of the operation: the local `escape` of
`resolveTensorOpOperandConflicts` is true exactly when `createDeallocs` is
unset or the operand has an aliasing result; the operand is marked for an
operand copy and is in `escapingOpOperandCopies` exactly then; the
`AllocTensorOp` the copy loop creates for it has the escape attribute `[true]`
exactly then, and `[false]` exactly when `createDeallocs` is set and the
operand has no aliasing result. -/
theorem base_escape_iff_aliasing_result (options : BufferizationOptions) (ir : IR)
    (fuel opId : Nat) (s : ConflictSets) (o : OpOperand)
    (hs : classifyOpOperands (AnalysisState.base options) ir fuel
        (ir.getOp opId).getOpOperands {} = some (.ok s))
    (ho : o ∈ (ir.getOp opId).getOpOperands)
    (hout : isOutOfPlace (AnalysisState.base options) ir o = true)
    (hkind : (ir.getOp opId).kind ≠ .AllocTensorOp)
    (halias : ∀ a ∈ AnalysisState.getAliasingOpResults options ir o, a.opResult.op = opId) :
    escapeOf (AnalysisState.base options) ir fuel o
        = some (decide (options.createDeallocs = false
            ∨ AnalysisState.getAliasingOpResults options ir o ≠ []))
    ∧ o ∈ s.outOfPlaceOpOperands
    ∧ (s.escapingOpOperandCopies.contains o = true
        ↔ (options.createDeallocs = false
            ∨ AnalysisState.getAliasingOpResults options ir o ≠ []))
    ∧ (s.escapingOpOperandCopies.contains o = false
        ↔ (options.createDeallocs = true
            ∧ AnalysisState.getAliasingOpResults options ir o = []))
    ∧ ∀ b', insertOpOperandCopies options s s.outOfPlaceOpOperands
          { ir := ir, ip := .before opId } = (.ok (), b') →
        ∃ alloc : Operation,
          (b'.ir.getOp opId).getOperand o.idx = .result (alloc.getResult 0)
          ∧ ir.findOp alloc.id = none
          ∧ b'.ir.findOp alloc.id = some alloc
          ∧ alloc.kind = .AllocTensorOp
          ∧ (alloc.escapeAttr = some [true]
              ↔ (options.createDeallocs = false
                  ∨ AnalysisState.getAliasingOpResults options ir o ≠ []))
          ∧ (alloc.escapeAttr = some [false]
              ↔ (options.createDeallocs = true
                  ∧ AnalysisState.getAliasingOpResults options ir o = [])) := by
  have hesc := base_escapeOf options ir fuel opId o hkind halias
  obtain ⟨-, h1, -, h3, -⟩ :=
    classifyOpOperands_lists (AnalysisState.base options) ir fuel _ {} s hs
  have hnone := (base_isOutOfPlace options ir o hout).2.2.2
  have hmem : o ∈ s.outOfPlaceOpOperands := by
    rw [h1]
    simp only [List.nil_append, List.mem_filter, Bool.and_eq_true]
    exact ⟨ho, hout, by simp [hnone]⟩
  have htrue : s.escapingOpOperandCopies.contains o = true
      ↔ (options.createDeallocs = false
          ∨ AnalysisState.getAliasingOpResults options ir o ≠ []) := by
    rw [contains_eq_true_iff, h3]
    simp only [List.nil_append, List.mem_filter, Bool.and_eq_true, decide_eq_true_eq, hesc,
      Option.some.injEq]
    constructor
    · exact fun h => h.2.2
    · exact fun h => ⟨ho, ⟨hout, by simp [hnone]⟩, h⟩
  have hfalse : s.escapingOpOperandCopies.contains o = false
      ↔ (options.createDeallocs = true
          ∧ AnalysisState.getAliasingOpResults options ir o = []) := by
    rw [← Bool.not_eq_true, htrue]
    cases options.createDeallocs <;> simp
  refine ⟨hesc, hmem, htrue, hfalse, ?_⟩
  intro b' hb
  obtain ⟨alloc, sizes, a1, a2, a3, a4⟩ :=
    insertOpOperandCopies_marked (AnalysisState.base options) ir fuel opId s b' hs hb o hmem
  obtain ⟨-, k1, k2, -⟩ := a4
  refine ⟨alloc, a1, a2, a3, k1, ?_, ?_⟩
  · rw [k2, ← htrue]
    simp
  · rw [k2, ← hfalse]
    simp

/-- C35 on the graph `src ; W ; R` in which `W` reads and writes its operand,
which aliases the result of `W`: with `createDeallocs` set the copy
escapes. -/
theorem base_escape_iff_aliasing_result_witness :
    escapeOf (AnalysisState.base Example.defaultOptions) (Example.wrIR true true) 0
        Example.wOperand = some true
    ∧ Example.defaultOptions.createDeallocs = true
    ∧ AnalysisState.getAliasingOpResults Example.defaultOptions (Example.wrIR true true)
        Example.wOperand ≠ []
    ∧ ([Example.wOperand].contains Example.wOperand = true
        ↔ (Example.defaultOptions.createDeallocs = false
            ∨ AnalysisState.getAliasingOpResults Example.defaultOptions (Example.wrIR true true)
                Example.wOperand ≠ [])) := by
  obtain ⟨h1, -, h3, -⟩ := base_escape_iff_aliasing_result Example.defaultOptions
    (Example.wrIR true true) 0 1
    { outOfPlaceOpOperands := [Example.wOperand], copiedOpOperands := [Example.wOperand],
      escapingOpOperandCopies := [Example.wOperand] } Example.wOperand rfl (by decide) rfl
    (by decide) (by decide)
  refine ⟨?_, rfl, by decide, h3⟩
  rw [h1]
  decide

/-! ## The conservative defaults are inverse to each other -/

theorem opResultsFrom_op (id : Nat) (i : Nat) (ts : List Ty) :
    ∀ r ∈ opResultsFrom id i ts, r.op = id := by
  induction ts generalizing i with
  | nil => simp [opResultsFrom]
  | cons t ts ih =>
    intro r hr
    simp only [opResultsFrom, List.mem_cons] at hr
    rcases hr with rfl | hr
    · rfl
    · exact ih (i + 1) r hr

/-- C36: for an operation of the graph, an operand `o` and a result `r` of it:
`unknownGetAliasingOpOperands(r)` holds an entry for `o` exactly when `o` is a
tensor, `unknownGetAliasingOpResults(o)` holds an entry for `r` exactly when
`r` is a tensor, and every entry has the relation `Unknown` and is not
definite; so for a tensor operand and a tensor result the one list holds the
entry of `o` exactly when the other holds the entry of `r`, with the same
relation and definiteness, and both do hold it.  These are the lists that
`getAliasingOpOperands` and `getAliasingOpResults` return for an operation
that is not allowed or does not implement the interface. -/
theorem unknown_aliases_mutually_inverse (ir : IR) (op : Operation)
    (hop : ir.findOp op.id = some op) (o : OpOperand) (r : OpResult)
    (ho : o ∈ op.getOpOperands) (hr : r ∈ op.getOpResults) :
    (∀ relation isDefinite,
      { opOperand := o, relation := relation, isDefinite := isDefinite }
          ∈ detail.unknownGetAliasingOpOperands ir r
        ↔ ((o.get ir).getType.isTensor = true ∧ relation = .Unknown ∧ isDefinite = false))
    ∧ (∀ relation isDefinite,
      { opResult := r, relation := relation, isDefinite := isDefinite }
          ∈ detail.unknownGetAliasingOpResults ir o
        ↔ (r.type.isTensor = true ∧ relation = .Unknown ∧ isDefinite = false))
    ∧ ((o.get ir).getType.isTensor = true → r.type.isTensor = true →
      (∀ relation isDefinite,
        { opOperand := o, relation := relation, isDefinite := isDefinite }
            ∈ detail.unknownGetAliasingOpOperands ir r
          ↔ { opResult := r, relation := relation, isDefinite := isDefinite }
            ∈ detail.unknownGetAliasingOpResults ir o)
      ∧ { opOperand := o, relation := .Unknown, isDefinite := false }
          ∈ detail.unknownGetAliasingOpOperands ir r
      ∧ { opResult := r, relation := .Unknown, isDefinite := false }
          ∈ detail.unknownGetAliasingOpResults ir o)
    ∧ (∀ options : BufferizationOptions, options.dynCastBufferizableOp ir op = none →
      AnalysisState.getAliasingOpOperands options ir r
          = detail.unknownGetAliasingOpOperands ir r
      ∧ AnalysisState.getAliasingOpResults options ir o
          = detail.unknownGetAliasingOpResults ir o) := by
  have hown : o.getOwner ir = op := by
    rw [OpOperand.getOwner, (opOperandsFrom_owner op.id 0 op.operands o ho).1]
    exact getOp_of_findOp ir _ op hop
  have hdef : r.getDefiningOp ir = op := by
    rw [OpResult.getDefiningOp, opResultsFrom_op op.id 0 op.resultTypes r hr]
    exact getOp_of_findOp ir _ op hop
  have h1 : ∀ relation isDefinite,
      ({ opOperand := o, relation := relation, isDefinite := isDefinite } : AliasingOpOperand)
          ∈ detail.unknownGetAliasingOpOperands ir r
        ↔ ((o.get ir).getType.isTensor = true ∧ relation = .Unknown ∧ isDefinite = false) := by
    intro relation isDefinite
    rw [unknownGetAliasingOpOperands_eq, hdef]
    simp only [List.mem_map, List.mem_filter, AliasingOpOperand.mk.injEq]
    constructor
    · rintro ⟨x, ⟨-, hx⟩, rfl, rfl, rfl⟩
      exact ⟨hx, rfl, rfl⟩
    · rintro ⟨ht, rfl, rfl⟩
      exact ⟨o, ⟨ho, ht⟩, rfl, rfl, rfl⟩
  have h2 : ∀ relation isDefinite,
      ({ opResult := r, relation := relation, isDefinite := isDefinite } : AliasingOpResult)
          ∈ detail.unknownGetAliasingOpResults ir o
        ↔ (r.type.isTensor = true ∧ relation = .Unknown ∧ isDefinite = false) := by
    intro relation isDefinite
    rw [unknownGetAliasingOpResults_eq, hown]
    simp only [List.mem_map, List.mem_filter, AliasingOpResult.mk.injEq]
    constructor
    · rintro ⟨x, ⟨-, hx⟩, rfl, rfl, rfl⟩
      exact ⟨hx, rfl, rfl⟩
    · rintro ⟨ht, rfl, rfl⟩
      exact ⟨r, ⟨hr, ht⟩, rfl, rfl, rfl⟩
  refine ⟨h1, h2, ?_, ?_⟩
  · intro hto htr
    refine ⟨?_, (h1 _ _).2 ⟨hto, rfl, rfl⟩, (h2 _ _).2 ⟨htr, rfl, rfl⟩⟩
    intro relation isDefinite
    rw [h1, h2]
    simp [hto, htr]
  · intro options hd
    constructor
    · simp only [AnalysisState.getAliasingOpOperands, hdef, hd]
    · simp only [AnalysisState.getAliasingOpResults, hown, hd]

/-- C36 on the unregistered operation `W` of the graph `src ; W ; R`. -/
theorem unknown_aliases_mutually_inverse_witness :
    Example.wOperand ∈ Example.W.getOpOperands ∧ Example.wResult ∈ Example.W.getOpResults
    ∧ { opOperand := Example.wOperand, relation := .Unknown, isDefinite := false }
        ∈ detail.unknownGetAliasingOpOperands Example.unknownIR Example.wResult
    ∧ { opResult := Example.wResult, relation := .Unknown, isDefinite := false }
        ∈ detail.unknownGetAliasingOpResults Example.unknownIR Example.wOperand :=
  ⟨by decide, by decide,
    ((unknown_aliases_mutually_inverse Example.unknownIR Example.W rfl Example.wOperand
      Example.wResult (by decide) (by decide)).2.2.1 rfl rfl).2⟩

/-! ## The two escape queries -/

/-- C37: for result 0 of an operation with the escape attribute,
`allocationDoesNotEscape` and `shouldDeallocateOpResult` are both the negation
of entry 0 of the attribute, for all options and all fuel; without the
attribute `allocationDoesNotEscape` is false, and `shouldDeallocateOpResult`
is false when `createDeallocs` is unset and the negation of `isTensorYielded`
of the result when it is set. -/
theorem escape_queries_agree (ir : IR) (r : OpResult) (hidx : r.idx = 0) :
    (∀ attr, (r.getDefiningOp ir).escapeAttr = some attr →
      allocationDoesNotEscape ir r = !(attr.getD 0 false)
      ∧ ∀ (options : BufferizationOptions) (fuel : Nat),
          shouldDeallocateOpResult ir fuel r options = some (allocationDoesNotEscape ir r))
    ∧ ((r.getDefiningOp ir).escapeAttr = none →
      allocationDoesNotEscape ir r = false
      ∧ ∀ (options : BufferizationOptions) (fuel : Nat),
          shouldDeallocateOpResult ir fuel r options
              = (if options.createDeallocs then
                  (AnalysisState.isTensorYielded options ir fuel (.result r)).map (fun y => !y)
                else some false)
          ∧ (options.createDeallocs = false →
              shouldDeallocateOpResult ir fuel r options = some false)
          ∧ (∀ y, AnalysisState.isTensorYielded options ir fuel (.result r) = some y →
              shouldDeallocateOpResult ir fuel r options
                = some (options.createDeallocs && !y))) := by
  constructor
  · intro attr h
    have h1 : allocationDoesNotEscape ir r = !(attr.getD 0 false) := by
      simp only [allocationDoesNotEscape, h, hidx]
    refine ⟨h1, ?_⟩
    intro options fuel
    simp only [shouldDeallocateOpResult, h, h1]
  · intro h
    refine ⟨by simp only [allocationDoesNotEscape, h], ?_⟩
    intro options fuel
    have hm : (AnalysisState.base options).methods.isTensorYielded
        = AnalysisState.isTensorYielded options := rfl
    have hs : shouldDeallocateOpResult ir fuel r options
        = (if options.createDeallocs then
            (AnalysisState.isTensorYielded options ir fuel (.result r)).map (fun y => !y)
          else some false) := by
      simp only [shouldDeallocateOpResult, h, hm]
    refine ⟨hs, ?_, ?_⟩
    · intro hc
      rw [hs, hc]
      rfl
    · intro y hy
      rw [hs, hy]
      cases options.createDeallocs <;> rfl

/-- C37 on result 0 of `twoAllocs`, whose escape attribute is `[false, true]`,
and on the allocation of the graph `alloc ; W ; R`, which has no escape
attribute and is not yielded. -/
theorem escape_queries_agree_witness :
    (allocationDoesNotEscape Example.twoAllocsIR ⟨0, 0, Example.tensorTy⟩ = true
      ∧ ∀ (options : BufferizationOptions) (fuel : Nat),
          shouldDeallocateOpResult Example.twoAllocsIR fuel ⟨0, 0, Example.tensorTy⟩ options
            = some (allocationDoesNotEscape Example.twoAllocsIR ⟨0, 0, Example.tensorTy⟩))
    ∧ (allocationDoesNotEscape Example.allocIR Example.srcResult = false
      ∧ shouldDeallocateOpResult Example.allocIR 2 Example.srcResult Example.defaultOptions
        = some true) :=
  ⟨(escape_queries_agree Example.twoAllocsIR ⟨0, 0, Example.tensorTy⟩ rfl).1 [false, true] rfl,
   ((escape_queries_agree Example.allocIR Example.srcResult rfl).2 rfl).1,
   (((escape_queries_agree Example.allocIR Example.srcResult rfl).2 rfl).2
      Example.defaultOptions 2).2.2 false (by decide)⟩

/-! ## Definitions of values that are written -/

/-- C38: for a block argument and for a result of an operation that is not
allowed or does not implement the interface, `bufferizesToMemoryWrite` is
true, the first round of the reverse walk of `findDefinitions` puts the value
into the result and nothing on the working set, and `findDefinitions` returns
the value alone, for every fuel but zero. -/
theorem findDefinitions_of_write_leaf (state : AnalysisState) (ir : IR)
    (config0 : TraversalConfig) (value : Value)
    (h : value.isBlockArgument = true
      ∨ state.options.dynCastBufferizableOpValue ir value = none) :
    AnalysisState.bufferizesToMemoryWriteValue state.options ir value = true
    ∧ findValueStep state ir
        (fun v => AnalysisState.bufferizesToMemoryWriteValue state.options ir v)
        { config0 with alwaysIncludeLeaves := false } value ([], []) = ([], [value])
    ∧ ∀ fuel, AnalysisState.findDefinitions state ir (fuel + 1) config0 value
        = some [value] := by
  have hw : AnalysisState.bufferizesToMemoryWriteValue state.options ir value = true := by
    unfold AnalysisState.bufferizesToMemoryWriteValue
    cases value with
    | arg a => rfl
    | result r =>
      rcases h with h | h
      · cases h
      · simp only [Value.asOpResult, h]
  have hstep : findValueStep state ir
      (fun v => AnalysisState.bufferizesToMemoryWriteValue state.options ir v)
      { config0 with alwaysIncludeLeaves := false } value ([], []) = ([], [value]) := by
    unfold findValueStep
    simp only [hw, if_true]
    rfl
  refine ⟨hw, hstep, ?_⟩
  intro fuel
  unfold AnalysisState.findDefinitions AnalysisState.findValueInReverseUseDefChain
  have hpush : SetVector.push [] value = [value] := rfl
  simp only [hpush, findValueLoop, hstep]

/-- C38 on the result of the unregistered `W` of the graph `src ; W ; R` and
on a block argument of the graph in which `W` reads and writes. -/
theorem findDefinitions_of_write_leaf_witness :
    AnalysisState.findDefinitions (AnalysisState.base Example.defaultOptions)
        Example.unknownIR 1 Example.noFlags (.result Example.wResult)
      = some [.result Example.wResult]
    ∧ AnalysisState.findDefinitions (AnalysisState.base Example.defaultOptions)
        (Example.wrIR true true) 1 Example.noFlags (.arg ⟨0, 0, Example.tensorTy⟩)
      = some [.arg ⟨0, 0, Example.tensorTy⟩] :=
  ⟨(findDefinitions_of_write_leaf (AnalysisState.base Example.defaultOptions)
      Example.unknownIR Example.noFlags (.result Example.wResult) (Or.inr rfl)).2.2 0,
   (findDefinitions_of_write_leaf (AnalysisState.base Example.defaultOptions)
      (Example.wrIR true true) Example.noFlags (.arg ⟨0, 0, Example.tensorTy⟩)
      (Or.inl rfl)).2.2 0⟩

/-! ## The innermost enclosing repetitive region -/

theorem isRepetitiveRegion_eq (ir : IR) (options : BufferizationOptions) (region : Region) :
    isRepetitiveRegion ir region options = isRepetitiveUnderPolicy ir options region := by
  cases hd : options.dynCastBufferizableOp ir (region.getParentOp ir) with
  | none =>
    have hl : isRepetitiveRegion ir region options = false := by
      simp [isRepetitiveRegion, hd]
    rw [hl]
    unfold isRepetitiveUnderPolicy
    rcases (dynCast_eq_none_iff options ir _).1 hd with h | h
    · rw [h]
    · rw [h]
      cases ir.interfaces (region.getParentOp ir).kind <;> rfl
  | some b =>
    obtain ⟨h1, h2⟩ := (dynCast_eq_some_iff options ir _ b).1 hd
    have hl : isRepetitiveRegion ir region options
        = b.isRepetitiveRegion (region.getParentOp ir) region.number := by
      simp [isRepetitiveRegion, hd]
    rw [hl]
    unfold isRepetitiveUnderPolicy
    rw [h1, h2]
    rfl

theorem getEnclosingRepetitiveRegionLoop_none (ir : IR) (options : BufferizationOptions)
    (fuel : Nat) : getEnclosingRepetitiveRegionLoop ir options fuel none = some none := by
  cases fuel <;> rfl

/-- What the loop over the parent regions returns is the first repetitive
region of the chain; when it returns null it has seen the whole chain. -/
theorem getEnclosingRepetitiveRegionLoop_spec (ir : IR) (options : BufferizationOptions)
    (fuel : Nat) (start res : Option Region)
    (h : getEnclosingRepetitiveRegionLoop ir options fuel start = some res) :
    res = (parentRegionChain ir fuel start).find? (isRepetitiveUnderPolicy ir options)
      ∧ (res = none → parentRegionChainEnds ir fuel start = true) := by
  induction fuel generalizing start with
  | zero =>
    cases start with
    | none =>
      simp only [getEnclosingRepetitiveRegionLoop, Option.some.injEq] at h
      subst h
      exact ⟨rfl, fun _ => rfl⟩
    | some region => simp [getEnclosingRepetitiveRegionLoop] at h
  | succ n ih =>
    cases start with
    | none =>
      simp only [getEnclosingRepetitiveRegionLoop, Option.some.injEq] at h
      subst h
      exact ⟨rfl, fun _ => rfl⟩
    | some region =>
      simp only [getEnclosingRepetitiveRegionLoop, isRepetitiveRegion_eq] at h
      simp only [parentRegionChain, parentRegionChainEnds, List.find?_cons]
      cases hr : isRepetitiveUnderPolicy ir options region with
      | true =>
        simp only [hr, if_true, Option.some.injEq] at h
        subst h
        exact ⟨rfl, fun h' => by cases h'⟩
      | false =>
        simp only [hr, Bool.false_eq_true, if_false] at h
        exact ih _ h

/-- The loop over the parent regions returns when the chain ends, and when a
region of the chain is repetitive. -/
theorem getEnclosingRepetitiveRegionLoop_returns (ir : IR) (options : BufferizationOptions)
    (n : Nat) (start : Option Region)
    (h : parentRegionChainEnds ir n start = true
      ∨ ((parentRegionChain ir n start).find? (isRepetitiveUnderPolicy ir options)).isSome
          = true)
    (fuel : Nat) (hfuel : n ≤ fuel) :
    getEnclosingRepetitiveRegionLoop ir options fuel start
      = some ((parentRegionChain ir n start).find? (isRepetitiveUnderPolicy ir options)) := by
  induction n generalizing start fuel with
  | zero =>
    cases start with
    | none =>
      rw [getEnclosingRepetitiveRegionLoop_none]
      rfl
    | some region => simp [parentRegionChainEnds, parentRegionChain] at h
  | succ n ih =>
    cases start with
    | none =>
      rw [getEnclosingRepetitiveRegionLoop_none]
      rfl
    | some region =>
      obtain ⟨k, rfl⟩ : ∃ k, fuel = k + 1 := ⟨fuel - 1, by omega⟩
      simp only [getEnclosingRepetitiveRegionLoop, isRepetitiveRegion_eq, parentRegionChain,
        List.find?_cons]
      simp only [parentRegionChainEnds, parentRegionChain, List.find?_cons] at h
      cases hr : isRepetitiveUnderPolicy ir options region with
      | true => simp
      | false =>
        simp only [hr] at h
        simp only [Bool.false_eq_true, if_false]
        exact ih _ h k (by omega)

theorem getEnclosingRepetitiveRegionDoWhile_eq (ir : IR) (options : BufferizationOptions)
    (fuel : Nat) (region : Region) :
    getEnclosingRepetitiveRegionDoWhile ir options fuel region
      = getEnclosingRepetitiveRegionLoop ir options fuel (some region) := by
  induction fuel generalizing region with
  | zero => rfl
  | succ n ih =>
    simp only [getEnclosingRepetitiveRegionDoWhile, getEnclosingRepetitiveRegionLoop]
    cases isRepetitiveRegion ir region options with
    | true => rfl
    | false =>
      simp only [Bool.false_eq_true, if_false]
      have hp : region.getParentRegion ir = (region.getParentOp ir).getParentRegion ir := rfl
      rw [hp]
      cases (region.getParentOp ir).getParentRegion ir with
      | none => exact (getEnclosingRepetitiveRegionLoop_none ir options n).symm
      | some parent => exact ih parent

/-- C39: `getEnclosingRepetitiveRegion` returns the innermost enclosing
repetitive region.  The test of the loop is "the parent operation implements
the interface, is allowed and reports the region as repetitive".  The overload
for a value walks the parent-region chain from the region of the value, the
overload for a block that is attached to a region walks it from the region of
the block, so both return the same for a value and a block of one region.  An
answer is the first repetitive region of the chain; a null answer means that
the whole chain was seen; when the chain has at most `n` regions, or has a
repetitive region among its first `n`, the answer is returned for every fuel
from `n` on, and for a chain of at most `n` regions it is null exactly when no
region of the chain is repetitive.  A region whose parent operation is not
allowed or does not implement the interface is never returned. -/
theorem getEnclosingRepetitiveRegion_innermost (ir : IR) (options : BufferizationOptions) :
    (∀ region, isRepetitiveRegion ir region options
        = isRepetitiveUnderPolicy ir options region)
    ∧ (∀ fuel value, getEnclosingRepetitiveRegionOfValue ir fuel value options
        = getEnclosingRepetitiveRegionLoop ir options fuel (value.getParentRegion ir))
    ∧ (∀ fuel block region, block.getParent ir = some region →
        getEnclosingRepetitiveRegionOfBlock ir fuel block options
          = getEnclosingRepetitiveRegionLoop ir options fuel (block.getParent ir))
    ∧ (∀ fuel value block region, value.getParentRegion ir = some region →
        block.getParent ir = some region →
        getEnclosingRepetitiveRegionOfValue ir fuel value options
          = getEnclosingRepetitiveRegionOfBlock ir fuel block options)
    ∧ (∀ fuel start res, getEnclosingRepetitiveRegionLoop ir options fuel start = some res →
        res = (parentRegionChain ir fuel start).find? (isRepetitiveUnderPolicy ir options)
        ∧ (res = none → parentRegionChainEnds ir fuel start = true
            ∧ ∀ region ∈ parentRegionChain ir fuel start,
                isRepetitiveUnderPolicy ir options region = false))
    ∧ (∀ n start, (parentRegionChainEnds ir n start = true
          ∨ ((parentRegionChain ir n start).find? (isRepetitiveUnderPolicy ir options)).isSome
              = true) →
        ∀ fuel, n ≤ fuel →
          getEnclosingRepetitiveRegionLoop ir options fuel start
            = some ((parentRegionChain ir n start).find?
                (isRepetitiveUnderPolicy ir options)))
    ∧ (∀ n start, parentRegionChainEnds ir n start = true → ∀ fuel, n ≤ fuel →
        (getEnclosingRepetitiveRegionLoop ir options fuel start = some none
          ↔ ∀ region ∈ parentRegionChain ir n start,
              isRepetitiveUnderPolicy ir options region = false))
    ∧ (∀ fuel start region,
        options.dynCastBufferizableOp ir (region.getParentOp ir) = none →
        getEnclosingRepetitiveRegionLoop ir options fuel start ≠ some (some region)) := by
  have hblock : ∀ fuel block region, block.getParent ir = some region →
      getEnclosingRepetitiveRegionOfBlock ir fuel block options
        = getEnclosingRepetitiveRegionLoop ir options fuel (block.getParent ir) := by
    intro fuel block region hb
    unfold getEnclosingRepetitiveRegionOfBlock
    rw [hb]
    exact getEnclosingRepetitiveRegionDoWhile_eq ir options fuel region
  refine ⟨isRepetitiveRegion_eq ir options, fun _ _ => rfl, hblock, ?_, ?_, ?_, ?_, ?_⟩
  · intro fuel value block region hv hb
    rw [hblock fuel block region hb, hb, ← hv]
    rfl
  · intro fuel start res h
    obtain ⟨h1, h2⟩ := getEnclosingRepetitiveRegionLoop_spec ir options fuel start res h
    refine ⟨h1, fun hn => ⟨h2 hn, ?_⟩⟩
    intro region hmem
    rw [hn] at h1
    have := List.find?_eq_none.1 h1.symm region hmem
    simpa using this
  · intro n start h fuel hfuel
    exact getEnclosingRepetitiveRegionLoop_returns ir options n start h fuel hfuel
  · intro n start h fuel hfuel
    rw [getEnclosingRepetitiveRegionLoop_returns ir options n start (Or.inl h) fuel hfuel]
    simp only [Option.some.injEq, List.find?_eq_none]
    constructor
    · intro hall region hmem
      simpa using hall region hmem
    · intro hall region hmem
      simp [hall region hmem]
  · intro fuel start region hd h
    obtain ⟨h1, -⟩ := getEnclosingRepetitiveRegionLoop_spec ir options fuel start _ h
    have hrep := List.find?_some h1.symm
    rw [← isRepetitiveRegion_eq] at hrep
    simp [isRepetitiveRegion, hd] at hrep

/-- C39 on the nest `outer { inner { body } }`: the result of `body` and the
block of `inner` lie in the region of the loop `inner`, which is returned; the
result of `inner` lies in the region of the unregistered `outer`, and the
answer is null. -/
theorem getEnclosingRepetitiveRegion_innermost_witness :
    getEnclosingRepetitiveRegionOfValue Example.nestIR 1 (.result ⟨2, 0, Example.tensorTy⟩)
        Example.defaultOptions = some (some Example.innerRegion)
    ∧ getEnclosingRepetitiveRegionOfBlock Example.nestIR 1 Example.innerBlock
        Example.defaultOptions = some (some Example.innerRegion)
    ∧ (∀ fuel, 1 ≤ fuel →
        getEnclosingRepetitiveRegionLoop Example.nestIR Example.defaultOptions fuel
          (Value.getParentRegion Example.nestIR (.result ⟨1, 0, Example.tensorTy⟩)) = some none)
    ∧ (∀ fuel, 2 ≤ fuel →
        getEnclosingRepetitiveRegionLoop Example.nestIR Example.defaultOptions fuel
          (some Example.innerRegion) = some (some Example.innerRegion)) :=
  ⟨by decide,
   ((getEnclosingRepetitiveRegion_innermost Example.nestIR Example.defaultOptions).2.2.2.1 1
      (.result ⟨2, 0, Example.tensorTy⟩) Example.innerBlock Example.innerRegion rfl rfl).symm.trans
      (by decide),
   (getEnclosingRepetitiveRegion_innermost Example.nestIR Example.defaultOptions).2.2.2.2.2.1 1
      _ (Or.inl (by decide)),
   (getEnclosingRepetitiveRegion_innermost Example.nestIR Example.defaultOptions).2.2.2.2.2.1 2
      _ (Or.inl (by decide))⟩

/-- What `getNextEnclosingRepetitiveRegion` returns is what the loop over the
parent regions returns from the parent region on. -/
theorem getNextEnclosingRepetitiveRegion_spec (ir : IR) (options : BufferizationOptions)
    (fuel : Nat) (region : Region) (res : Option Region)
    (h : getNextEnclosingRepetitiveRegion ir options fuel region = some res) :
    getEnclosingRepetitiveRegionLoop ir options fuel (region.getParentRegion ir) = some res := by
  induction fuel generalizing region with
  | zero => simp [getNextEnclosingRepetitiveRegion] at h
  | succ n ih =>
    unfold getNextEnclosingRepetitiveRegion at h
    cases hp : region.getParentRegion ir with
    | none =>
      simp only [hp] at h
      rw [getEnclosingRepetitiveRegionLoop_none]
      exact h
    | some parent =>
      simp only [hp] at h
      simp only [getEnclosingRepetitiveRegionLoop]
      cases hr : isRepetitiveRegion ir parent options with
      | true =>
        simp only [hr, if_true] at h ⊢
        exact h
      | false =>
        simp only [hr, Bool.false_eq_true, if_false] at h ⊢
        exact ih parent h

/-- The overload of `getEnclosingRepetitiveRegion` for an operation: null for
an operation outside every block, else the answer for its block. -/
theorem getEnclosingRepetitiveRegionOfOp_eq (ir : IR) (options : BufferizationOptions)
    (fuel : Nat) (op : Operation) :
    (op.getBlock ir = none → getEnclosingRepetitiveRegionOfOp ir fuel op options = some none)
    ∧ (∀ block, op.getBlock ir = some block →
        getEnclosingRepetitiveRegionOfOp ir fuel op options
          = getEnclosingRepetitiveRegionOfBlock ir fuel block options) := by
  unfold getEnclosingRepetitiveRegionOfOp
  constructor
  · intro h
    rw [h]
  · intro block h
    rw [h]

end Bufferization
